import Mathlib

/-!
# A* on a weighted grid (sequential and hash-distributed): heap, partitioner, search

Shallow embedding of `heap.c` and `a_star.c`, with the types of `heap.h` and
`tools.h` they work on.

Conventions of the embedding

* C `int` values are `Int`/`Nat`; the one place where an `int` can leave its
  range on data the functions accept (`nmax * 2` in `heap_add`, `p.x + p.y`
  in `hda`) carries the 32-bit bound explicitly.
* C `double` values are finite binary64 numbers `m * 2^e`; every arithmetic
  operation rounds to 53 significant bits, ties to even.  Infinities, NaN and
  subnormals are outside the model.
* A function whose C execution has undefined behaviour (a read outside an
  allocation, a read of a slot never written) or does not return yields `none`.
-/

set_option autoImplicit false
set_option maxRecDepth 1000000

namespace AStar

/-! ## binary64 arithmetic -/

/-- Number of binary digits of `n`, driven by `fuel`. -/
def bitlen_aux : Nat → Nat → Nat
  | 0, _ => 0
  | fuel + 1, n => if n = 0 then 0 else 1 + bitlen_aux fuel (n / 2)

/-- Number of binary digits of `n` (`0` for `n = 0`). -/
def bitlen (n : Nat) : Nat := bitlen_aux n n

/-- Integer square root, one result bit per step from bit `k - 1` down. -/
def isqrt_aux : Nat → Nat → Nat → Nat
  | 0, _, r => r
  | k + 1, n, r => if (r + 2 ^ k) * (r + 2 ^ k) ≤ n then isqrt_aux k n (r + 2 ^ k) else isqrt_aux k n r

/-- Largest `s` with `s * s ≤ n`. -/
def isqrt (n : Nat) : Nat := isqrt_aux ((bitlen n + 1) / 2) n 0

/-- A finite `double`: the number `m * 2^e`. -/
structure double where
  m : Int
  e : Int
  deriving DecidableEq, Repr

/-- Round the exact number `m * 2^e` to 53 significant bits, ties to even. -/
def rnd (m e : Int) : double :=
  let a := m.natAbs
  let k := bitlen a
  if k ≤ 53 then ⟨m, e⟩
  else
    let s := k - 53
    let q := a / 2 ^ s
    let r := a % 2 ^ s
    let half := 2 ^ (s - 1)
    let q1 := if r < half then q else if half < r then q + 1 else if q % 2 = 0 then q else q + 1
    ⟨(if m < 0 then -1 else 1) * (q1 : Int), e + (s : Int)⟩

/-- The integer `m * 2^(e - e0)` for `e0 ≤ e`. -/
def shl (m e e0 : Int) : Int := m * 2 ^ (e - e0).toNat

/-- Sum of two doubles (`a + b` in C). -/
def dadd (a b : double) : double :=
  let e0 := min a.e b.e
  rnd (shl a.m a.e e0 + shl b.m b.e e0) e0

/-- Product of two doubles (`a * b` in C). -/
def dmul (a b : double) : double := rnd (a.m * b.m) (a.e + b.e)

/-- Comparison `a < b` of two doubles. -/
def dlt (a b : double) : Bool :=
  let e0 := min a.e b.e
  decide (shl a.m a.e e0 < shl b.m b.e e0)

/-- Conversion of an `int` to `double`. -/
def of_int (n : Int) : double := rnd n 0

/-- The double nearest to the decimal constant `p / q` (`q > 0`): the quotient
is taken with 64 or more significant bits and a sticky bit, then rounded. -/
def of_ratio (p : Int) (q : Nat) : double :=
  let t := 64 + bitlen q
  let n := p.natAbs * 2 ^ t
  let s := 2 * (n / q) + (if n % q = 0 then 0 else 1)
  rnd ((if p < 0 then -1 else 1) * (s : Int)) (-(t : Int) - 1)

/-- Correctly rounded square root (`sqrt` of `math.h`) of a double `m * 2^e`
with `m ≥ 0`; the mantissa is widened to at least 110 bits with an even
exponent, its integer root and a sticky bit are rounded.  A negative argument
(NaN in C) does not occur at the call site and is mapped to zero here. -/
def dsqrt (a : double) : double :=
  if a.m ≤ 0 then ⟨0, 0⟩
  else
    let t : Nat := 110 + (if (a.e - 110) % 2 = 0 then 0 else 1)
    let n := a.m.natAbs * 2 ^ t
    let s := isqrt n
    let s1 := 2 * s + (if s * s = n then 0 else 1)
    rnd (s1 : Int) ((a.e - (t : Int)) / 2 - 1)

/-- The exact rational value of a double. -/
def double.val (a : double) : ℚ := (a.m : ℚ) * (2 : ℚ) ^ a.e

/-! ## tools.h / heap.h: positions, entries -/

/-- The `position` struct of tools.h: a cell of the grid. -/
structure position where
  x : Int
  y : Int
  deriving DecidableEq, Repr

/-- The `struct node` of heap.h: `pos`, `cost`, `score` and the pointer
`parent` to the father.  `root` is a node whose `parent` is NULL (the start),
`child` a node whose `parent` points to a node. -/
inductive node where
  | root (pos : position) (cost : double) (score : double)
  | child (pos : position) (cost : double) (score : double) (parent : node)
  deriving DecidableEq, Repr

/-- Field `pos` of a node. -/
def node.pos : node → position
  | .root p _ _ => p
  | .child p _ _ _ => p

/-- Field `cost` of a node. -/
def node.cost : node → double
  | .root _ c _ => c
  | .child _ c _ _ => c

/-- Field `score` of a node. -/
def node.score : node → double
  | .root _ _ s => s
  | .child _ _ s _ => s

/-- Field `parent` of a node (`none` is NULL). -/
def node.parent : node → Option node
  | .root _ _ _ => none
  | .child _ _ _ q => some q

/-- The `mpi_node` struct of heap.h. -/
structure mpi_node where
  pos : position
  cost : double
  score : double
  parent_rank : Int
  parent_win_i : Int
  deriving DecidableEq, Repr

/-- Objects the comparison function can be applied to: `fcmp_nodescore` casts
its `void *` arguments to `struct node *` and reads `->score`; `struct node` and
`mpi_node` keep `score` at the same place. -/
class scored (α : Type) where
  score : α → double

instance : scored node := ⟨node.score⟩

instance : scored mpi_node := ⟨mpi_node.score⟩

/-- The comparator `fcmp_nodescore` of a_star.c:
`(a < b) ? -1 : (a > b)` on the scores. -/
def fcmp_nodescore {α : Type} [scored α] (u v : α) : Int :=
  let a := scored.score u
  let b := scored.score v
  if dlt a b then -1 else if dlt b a then 1 else 0

/-! ## heap.c -/

/-- `INT_MAX` of a 32-bit `int`. -/
def INT_MAX : Nat := 2147483647

/-- The `struct heap` of heap.h.  `array` is `none` for a NULL pointer; an
allocated array is the list of its slots, a slot being `none` until it is
written. -/
structure heap (α : Type) where
  array : Option (List (Option α))
  n : Nat
  nmax : Nat
  f : α → α → Int

/-- The read `array[i]` of an object pointer that is then dereferenced or
returned: `none` outside the allocation or on a slot never written. -/
def rd {α : Type} (a : List (Option α)) (i : Nat) : Option α := (a[i]?).join

/-- The write `array[i] = x`: `none` outside the allocation. -/
def wr {α : Type} (a : List (Option α)) (i : Nat) (x : α) : Option (List (Option α)) :=
  if i < a.length then some (a.set i (some x)) else none

/-- The storage `realloc(array, k * sizeof(void *))` returns on success: the
old slots, cut or extended with unwritten ones to `k` slots. -/
def realloc {α : Type} (array : Option (List (Option α))) (k : Nat) : List (Option α) :=
  let old := (array.getD []).take k
  old ++ List.replicate (k - old.length) none

/-- `heap_create(k, f)`.  `malloc_ok` tells whether the `malloc` of the array
succeeds (the `malloc` of the struct itself is taken to succeed). -/
def heap_create {α : Type} (k : Nat) (f : α → α → Int) (malloc_ok : Bool) : heap α :=
  { array := if malloc_ok then some (List.replicate (k + 1) none) else none
    n := 0
    nmax := k
    f := f }

/-- `heap_empty(h)`. -/
def heap_empty {α : Type} (h : heap α) : Bool :=
  if h.n = 0 ∨ h.array.isNone then true else false

/-- The sift-up loop of `heap_add`, started at `son`.  `fuel` bounds the
number of iterations; `son` at least halves in each, so `fuel = son` is never
used up. -/
def sift_up {α : Type} (f : α → α → Int) : Nat → List (Option α) → Nat → Option (List (Option α))
  | 0, a, _ => some a
  | fuel + 1, a, son =>
    let father := son / 2
    if 0 < father then
      match rd a father, rd a son with
      | some x, some y =>
        if 0 < f x y then sift_up f fuel ((a.set father (some y)).set son (some x)) father
        else some a
      | _, _ => none
    else some a

/-- `heap_add(h, obj)`.  `realloc_ok` tells whether a `realloc` would succeed.
Result: the returned `bool` and the heap afterwards.  When `nmax * 2` exceeds
`INT_MAX` the `int` wraps to a negative number, the byte count converts to a
size no allocator grants, and `realloc` fails. -/
def heap_add {α : Type} (h : heap α) (obj : α) (realloc_ok : Bool) : Option (Bool × heap α) :=
  let grown : Option (heap α) :=
    if h.n = h.nmax then
      let k := h.nmax * 2
      if realloc_ok ∧ k ≤ INT_MAX then some { h with array := some (realloc h.array (k + 1)), nmax := k }
      else none
    else some h
  match grown with
  | none => some (true, h)
  | some h1 =>
    match h1.array with
    | none => none
    | some a =>
      let n := h1.n + 1
      match wr a n obj with
      | none => none
      | some a1 =>
        match sift_up h1.f n a1 n with
        | none => none
        | some a2 => some (false, { h1 with array := some a2, n := n })

/-- `heap_top(h)`: `some none` is the NULL return, `some (some x)` the
pointer found in `array[1]`; `none` when that slot was never written. -/
def heap_top {α : Type} (h : heap α) : Option (Option α) :=
  match h.array with
  | none => some none
  | some a =>
    match rd a 1 with
    | none => none
    | some x => some (some x)

/-- The sift-down loop of `heap_pop` on `array[1..n]`, at `father`.  One unit
of `fuel` is spent per evaluation of the loop condition; `father` at least
doubles per iteration when `f x x ≤ 0`, so `fuel = n + 1` suffices. -/
def sift_down {α : Type} (f : α → α → Int) (n : Nat) : Nat → List (Option α) → Nat → Option (List (Option α))
  | 0, _, _ => none
  | fuel + 1, a, father =>
    let left_son := if n < father * 2 then father else father * 2
    let right_son := if n < father * 2 + 1 then father else father * 2 + 1
    match rd a left_son, rd a right_son with
    | some l, some r =>
      let son := if 0 < f l r then right_son else left_son
      match rd a father, rd a son with
      | some x, some y =>
        if 0 < f x y then sift_down f n fuel ((a.set father (some y)).set son (some x)) son
        else some a
      | _, _ => none
    | _, _ => none

/-- `heap_pop(h)`.  Result: the returned pointer (`none` is NULL) and the heap
afterwards. -/
def heap_pop {α : Type} (h : heap α) : Option (Option α × heap α) :=
  match h.array with
  | none => some (none, h)
  | some a =>
    if h.n = 0 then some (none, h)
    else
      match rd a h.n, rd a 1 with
      | some swap, some top =>
        let a1 := (a.set h.n (some top)).set 1 (some swap)
        match rd a1 h.n with
        | none => none
        | some deleted =>
          let n := h.n - 1
          match sift_down h.f n (n + 1) a1 1 with
          | none => none
          | some a2 => some (some deleted, { h with array := some a2, n := n })
      | _, _ => none

/-- The slots `a[1..n]` of a storage array, in index order. -/
def ents {α : Type} (a : List (Option α)) (n : Nat) : List (Option α) :=
  (List.range' 1 n).map (rd a)

/-- The entries stored in `array[1..n]` of a heap, in index order. -/
def entries {α : Type} (h : heap α) : List (Option α) := ents (h.array.getD []) h.n

/-! ## a_star.c: the partitioner -/

/-- Reduction of an integer to the range of a 32-bit `int` (two's complement). -/
def int_wrap (z : Int) : Int := (z + 2147483648) % 4294967296 - 2147483648

/-- `hda(p, world_size)`: `(p.x + p.y) % world_size`, with the `int` sum and
the remainder of C (truncated towards zero: `Int.tmod`). -/
def hda (p : position) (world_size : Int) : Int :=
  Int.tmod (int_wrap (p.x + p.y)) world_size

/-! ## tools.h: the grid -/

/-- Cell value `V_FREE` of the enum of tools.h. -/
def V_FREE : Int := 0
/-- Cell value `V_WALL`. -/
def V_WALL : Int := 1
/-- Cell value `V_MUD`. -/
def V_MUD : Int := 4
/-- Cell value `V_GRASS`. -/
def V_GRASS : Int := 5
/-- Cell value `V_TUNNEL`. -/
def V_TUNNEL : Int := 6
/-- Mark `M_NULL`: unmarked cell. -/
def M_NULL : Int := 7
/-- Mark `M_USED`: closed cell. -/
def M_USED : Int := 8
/-- Mark `M_FRONT`: cell in the frontier. -/
def M_FRONT : Int := 9
/-- Mark `M_PATH`: cell of the path. -/
def M_PATH : Int := 10

/-- The `grid` struct of tools.h.  `value` and `mark` are the arrays
`value[i][j]`, `mark[i][j]`: a list of `X` rows of `Y` cells.  The `mark` array
is shared with the caller, so a search returns it. -/
structure grid where
  X : Nat
  Y : Nat
  value : List (List Int)
  mark : List (List Int)
  start : position
  end_ : position

/-- The read `m[p.x][p.y]`: `none` outside the allocation. -/
def get2 (m : List (List Int)) (p : position) : Option Int :=
  if 0 ≤ p.x ∧ 0 ≤ p.y then
    match m[p.x.toNat]? with
    | none => none
    | some row => row[p.y.toNat]?
  else none

/-- The write `m[p.x][p.y] = v`: `none` outside the allocation. -/
def set2 (m : List (List Int)) (p : position) (v : Int) : Option (List (List Int)) :=
  if 0 ≤ p.x ∧ 0 ≤ p.y then
    match m[p.x.toNat]? with
    | none => none
    | some row =>
      if p.y.toNat < row.length then some (m.set p.x.toNat (row.set p.y.toNat v)) else none
  else none

/-- The write `G.mark[p.x][p.y] = v`. -/
def set_mark (G : grid) (p : position) (v : Int) : Option grid :=
  match set2 G.mark p v with
  | none => none
  | some m => some { G with mark := m }

/-! ## a_star.c: heuristics, weights, node creation -/

/-- `MAX_NEIGHBORS`. -/
def MAX_NEIGHBORS : Nat := 8

/-- `INIT_HEAP_CAPACITY`. -/
def INIT_HEAP_CAPACITY : Nat := 4

/-- The type `heuristic` of a_star.c: `double (*)(position, position, grid *)`. -/
abbrev heuristic := position → position → grid → double

/-- `hvo(s, t, G)`: the "bird's eye view" distance `sqrt(x * x + y * y)`. -/
def hvo (s t : position) (_G : grid) : double :=
  let x := of_int (t.x - s.x)
  let y := of_int (t.y - s.y)
  dsqrt (dadd (dmul x x) (dmul y y))

/-- `halpha(s, t, G)`: `alpha * hvo(s, t, G)`; the static variable `alpha`
is a parameter. -/
def halpha (alpha : double) (s t : position) (G : grid) : double :=
  dmul alpha (hvo s t G)

/-- The table `weight[]`: `none` outside its seven entries. -/
def weight (v : Int) : Option double :=
  if v = 0 then some (of_int 1)
  else if v = 1 then some (of_ratio (-999) 10)
  else if v = 2 then some (of_int 3)
  else if v = 3 then some (of_int 9)
  else if v = 4 then some (of_ratio 23 10)
  else if v = 5 then some (of_ratio 15 10)
  else if v = 6 then some (of_ratio 1 10)
  else none

/-- `createNode(G, p, parent, h)`; `none` when `G.value[p.x][p.y]` or the
`weight` entry is read outside its array. -/
def createNode (G : grid) (p : position) (parent : node) (h : heuristic) : Option node :=
  let diagonal_len := if p.x ≠ parent.pos.x ∧ p.y ≠ parent.pos.y then of_ratio 1 100 else of_int 0
  match get2 G.value p with
  | none => none
  | some v =>
    match weight v with
    | none => none
    | some w =>
      let cost := dadd parent.cost w
      some (node.child p cost (dadd (dadd cost (h p G.end_ G)) diagonal_len) parent)

/-- `CreateMpiNode(G, p, parent, parent_rank, parent_win_i, h)`. -/
def CreateMpiNode (G : grid) (p : position) (parent : mpi_node) (parent_rank parent_win_i : Int)
    (h : heuristic) : Option mpi_node :=
  let diagonal_len := if p.x ≠ parent.pos.x ∧ p.y ≠ parent.pos.y then of_ratio 1 10 else of_int 0
  match get2 G.value p with
  | none => none
  | some v =>
    match weight v with
    | none => none
    | some w =>
      let cost := dadd parent.cost w
      some { pos := p, cost := cost, score := dadd (dadd cost (h p G.end_ G)) diagonal_len,
             parent_rank := parent_rank, parent_win_i := parent_win_i }

/-! ## a_star.c: the sequential search -/

/-- How a piece of C code ends: control reaches the next statement in state
`s`, the enclosing function returns `r`, or the behaviour is undefined. -/
inductive flow (σ ρ : Type) where
  | next (s : σ)
  | ret (r : ρ)
  | ub

/-- How a run of a function ends: it returns `r`, its behaviour is undefined,
or it is still in its main loop after `fuel` iterations. -/
inductive run (ρ : Type) where
  | ret (r : ρ)
  | ub
  | out_of_fuel
  deriving DecidableEq, Repr

/-- The offsets `(x, y)` of the two nested `for` loops over a neighbourhood,
`y` outermost, both from -1 to 1. -/
def neighbours : List (Int × Int) :=
  [(-1, -1), (0, -1), (1, -1), (-1, 0), (0, 0), (1, 0), (-1, 1), (0, 1), (1, 1)]

/-- The body of the neighbour loops of `A_star_sequential` for the offsets
still to visit.  `mem k` tells whether a `realloc` to `k` slots succeeds. -/
def expand (mem : Nat → Bool) (h : heuristic) (u : node) :
    List (Int × Int) → grid → heap node → flow (grid × heap node) (double × List (List Int))
  | [], G, Q => .next (G, Q)
  | (x, y) :: rest, G, Q =>
    let p : position := ⟨u.pos.x + x, u.pos.y + y⟩
    match get2 G.mark p with
    | none => .ub
    | some mk =>
      if mk = M_NULL then
        match get2 G.value p with
        | none => .ub
        | some v =>
          if v ≠ V_WALL then
            match createNode G p u h with
            | none => .ub
            | some n =>
              match heap_add Q n (mem (Q.nmax * 2 + 1)) with
              | none => .ub
              | some (true, _) => .ret (of_int (-1), G.mark)
              | some (false, Q1) =>
                match set_mark G n.pos M_FRONT with
                | none => .ub
                | some G1 => expand mem h u rest G1 Q1
          else expand mem h u rest G Q
      else expand mem h u rest G Q

/-- The loop `while (path != s)` that draws the path: marks `path` and moves
to its parent until `s` is reached; following a NULL parent is undefined. -/
def mark_path (s : node) : node → List (List Int) → Option (List (List Int))
  | .root p c sc, m =>
    if node.root p c sc = s then some m else none
  | .child p c sc q, m =>
    if node.child p c sc q = s then some m
    else
      match set2 m p M_PATH with
      | none => none
      | some m1 => mark_path s q m1

/-- One evaluation of the loop condition `!heap_empty(Q)` of
`A_star_sequential` followed, when it holds, by one run of the loop body: pop,
and either skip a closed cell, finish at the end cell, or close and expand.
`.next` is the state in which the condition is evaluated next. -/
def seq_iteration (mem : Nat → Bool) (h : heuristic) (s : node) (G : grid) (Q : heap node) :
    flow (grid × heap node) (double × List (List Int)) :=
  if heap_empty Q then .ret (of_int (-1), G.mark)
  else
    match heap_pop Q with
    | none => .ub
    | some (none, _) => .ub
    | some (some u, Q1) =>
      match get2 G.mark u.pos with
      | none => .ub
      | some mk =>
        if mk = M_USED then .next (G, Q1)
        else if u.pos.x = G.end_.x ∧ u.pos.y = G.end_.y then
          match mark_path s u G.mark with
          | none => .ub
          | some m => .ret (u.cost, m)
        else
          match set_mark G u.pos M_USED with
          | none => .ub
          | some G1 => expand mem h u neighbours G1 Q1

/-- The main loop `while (!heap_empty(Q))` of `A_star_sequential`, one unit of
`fuel` per iteration.  Returns the `double` and the `mark` array. -/
def A_star_loop (mem : Nat → Bool) (h : heuristic) (s : node) :
    Nat → grid → heap node → run (double × List (List Int))
  | 0, _, _ => .out_of_fuel
  | fuel + 1, G, Q =>
    match seq_iteration mem h s G Q with
    | .next (G1, Q1) => A_star_loop mem h s fuel G1 Q1
    | .ret r => .ret r
    | .ub => .ub

/-- The part of `A_star_sequential` before its main loop: the heap, the test
of the end cell and the start entry.  `.next` is the state in which the main
loop is entered, with the start entry `s`. -/
def seq_init (mem : Nat → Bool) (G : grid) (h : heuristic) :
    flow (node × grid × heap node) (double × List (List Int)) :=
  let Q : heap node := heap_create INIT_HEAP_CAPACITY fcmp_nodescore (mem (INIT_HEAP_CAPACITY + 1))
  match get2 G.value G.end_ with
  | none => .ub
  | some v =>
    if v = V_WALL then .ret (of_int (-1), G.mark)
    else
      let s := node.root G.start (of_int 0) (dadd (of_int 0) (h G.start G.end_ G))
      match heap_add Q s (mem (Q.nmax * 2 + 1)) with
      | none => .ub
      | some (true, _) => .ret (of_int (-1), G.mark)
      | some (false, Q1) =>
        match set_mark G s.pos M_FRONT with
        | none => .ub
        | some G1 => .next (s, G1, Q1)

/-- `A_star_sequential(G, h)`: the returned `double` and the `mark` array
afterwards.  `mem k` tells whether an allocation of `k` slots succeeds. -/
def A_star_sequential (mem : Nat → Bool) (G : grid) (h : heuristic) (fuel : Nat) :
    run (double × List (List Int)) :=
  match seq_init mem G h with
  | .next (s, G1, Q1) => A_star_loop mem h s fuel G1 Q1
  | .ret r => .ret r
  | .ub => .ub

/-! ## a_star.c: the distributed search, one worker

A worker talks to the others through MPI only.  Each probe or blocking receive
asks the environment, at the worker's current `clock`, what the transport
reports, and advances the clock; each send is appended to the worker's log. -/

/-- A message handed to the transport, with its destination rank. -/
inductive message where
  | node (dst : Int) (batch : List mpi_node)
  | destination_reached (dst : Int)
  | path_construction_query (dst : Int) (win_i : Int)
  | path_construction_reply (dst : Int) (n : mpi_node)
  | path_done (dst : Int)
  deriving DecidableEq, Repr

/-- What the transport reports at one instant: whether a message of tag
`destination_reached`, `path_done` is pending from the end owner, the `win_i`
of a pending path query, a pending `node` batch (from any source), and the
record a blocking receive of a path reply delivers. -/
structure inbox where
  destination_reached : Bool
  path_done : Bool
  path_query : Option Int
  node : Option (List mpi_node)
  path_reply : mpi_node

/-- The behaviour of the transport as seen by one worker. -/
abbrev environment := Nat → inbox

/-- The local variables of `A_star_mpi`: the grid (with this worker's marks),
the heap `Q`, `window_buffer` (a slot is `none` until written), `cur_win_i`,
and the bookkeeping of the transport (clock, log of sends). -/
structure worker where
  G : grid
  Q : heap mpi_node
  window_buffer : List (Option mpi_node)
  cur_win_i : Nat
  clock : Nat
  sent : List message

/-- How a piece of `A_star_mpi` ends: control reaches the next statement, the
function returns, `MPI_Abort` is called, the behaviour is undefined, or a loop
is still running after `fuel` iterations. -/
inductive mpi_flow (σ ρ : Type) where
  | next (s : σ)
  | ret (r : ρ)
  | abort
  | ub
  | out_of_fuel

/-- How a run of `A_star_mpi` ends. -/
inductive mpi_run (ρ : Type) where
  | ret (r : ρ)
  | abort
  | ub
  | out_of_fuel

/-- One probe or receive has been answered: the clock advances. -/
def tick (w : worker) : worker := { w with clock := w.clock + 1 }

/-- `mpiNodeToPtr(n)`: a freshly allocated copy of the record (the `malloc`
is taken to succeed); the heap stores the copy. -/
def mpiNodeToPtr (n : mpi_node) : mpi_node :=
  { pos := n.pos, cost := n.cost, score := n.score, parent_rank := n.parent_rank,
    parent_win_i := n.parent_win_i }

/-- The loop over a received batch: `heap_add` of each record and
`G.mark[pos] = M_FRONT`. -/
def add_batch (mem : Nat → Bool) : List mpi_node → worker → mpi_flow worker (double × worker)
  | [], w => .next w
  | n :: rest, w =>
    match heap_add w.Q (mpiNodeToPtr n) (mem (w.Q.nmax * 2 + 1)) with
    | none => .ub
    | some (true, _) => .abort
    | some (false, Q1) =>
      match set_mark w.G n.pos M_FRONT with
      | none => .ub
      | some G1 => add_batch mem rest { w with Q := Q1, G := G1 }

/-- The loop `while (flag_node)`: receive every pending `node` batch. -/
def recv_nodes (mem : Nat → Bool) (env : environment) : Nat → worker → mpi_flow worker (double × worker)
  | 0, _ => .out_of_fuel
  | fuel + 1, w =>
    match (env w.clock).node with
    | none => .next (tick w)
    | some batch =>
      match add_batch mem batch (tick (tick w)) with
      | .next w1 => recv_nodes mem env fuel w1
      | r => r

/-- The loop that serves path queries after `destination_reached` was
received; returns 1 when `path_done` arrives. -/
def helper (env : environment) (ending_process_rank : Int) :
    Nat → worker → mpi_flow worker (double × worker)
  | 0, _ => .out_of_fuel
  | fuel + 1, w =>
    if (env w.clock).path_done then .ret (of_int 1, tick (tick w))
    else
      let w1 := tick w
      match (env w1.clock).path_query with
      | none => helper env ending_process_rank fuel (tick w1)
      | some win_i =>
        if 0 ≤ win_i then
          match (w1.window_buffer[win_i.toNat]?).join with
          | none => .ub
          | some n =>
            helper env ending_process_rank fuel
              { tick (tick w1) with
                sent := w1.sent ++ [message.path_construction_reply ending_process_rank n] }
        else .ub

/-- The `do ... while (heap_empty(Q))` loop that drains the inbox. -/
def drain (mem : Nat → Bool) (env : environment) (ending_process_rank : Int) :
    Nat → worker → mpi_flow worker (double × worker)
  | 0, _ => .out_of_fuel
  | fuel + 1, w =>
    if (env w.clock).destination_reached then helper env ending_process_rank fuel (tick (tick w))
    else
      match recv_nodes mem env fuel (tick w) with
      | .next w1 => if heap_empty w1.Q then drain mem env ending_process_rank fuel w1 else .next w1
      | r => r

/-- The sends of a broadcast: one message for every `dst` other than `rank`. -/
def broadcast (world_size rank : Int) (msg : Int → message) : List message :=
  ((List.range world_size.toNat).filter (fun dst => (dst : Int) ≠ rank)).map
    (fun dst => msg (dst : Int))

/-- The loop that walks the parents of the goal entry and draws the path. -/
def reconstruct (env : environment) (rank : Int) :
    Nat → mpi_node → worker → mpi_flow worker (double × worker)
  | 0, _, _ => .out_of_fuel
  | fuel + 1, path, w =>
    if path.pos.x ≠ w.G.start.x ∧ path.pos.y ≠ w.G.start.y then
      match set_mark w.G path.pos M_PATH with
      | none => .ub
      | some G1 =>
        if path.parent_rank ≠ rank then
          reconstruct env rank fuel (env w.clock).path_reply
            { tick w with
              G := G1
              sent := w.sent ++ [message.path_construction_query path.parent_rank path.parent_win_i] }
        else if 0 ≤ path.parent_win_i then
          match (w.window_buffer[path.parent_win_i.toNat]?).join with
          | none => .ub
          | some parent => reconstruct env rank fuel parent { w with G := G1 }
        else .ub
    else .next w

/-- The write `node_storage[dst][nb_nodes_per_process[dst]++] = n`; `none`
outside the `world_size` rows of `MAX_NEIGHBORS` records. -/
def store_node (node_storage : List (List mpi_node)) (dst : Int) (n : mpi_node) :
    Option (List (List mpi_node)) :=
  if 0 ≤ dst then
    match node_storage[dst.toNat]? with
    | none => none
    | some batch =>
      if batch.length < MAX_NEIGHBORS then some (node_storage.set dst.toNat (batch ++ [n])) else none
  else none

/-- The body of the neighbour loops of `A_star_mpi` for the offsets still to
visit. -/
def expand_mpi (mem : Nat → Bool) (h : heuristic) (rank world_size : Int) (u : mpi_node) :
    List (Int × Int) → worker → List (List mpi_node) →
      mpi_flow (worker × List (List mpi_node)) (double × worker)
  | [], w, node_storage => .next (w, node_storage)
  | (x, y) :: rest, w, node_storage =>
    let p : position := ⟨u.pos.x + x, u.pos.y + y⟩
    match get2 w.G.mark p with
    | none => .ub
    | some mk =>
      if mk = M_NULL then
        match get2 w.G.value p with
        | none => .ub
        | some v =>
          if v ≠ V_WALL then
            let dst_process := hda p world_size
            match CreateMpiNode w.G p u rank w.cur_win_i h with
            | none => .ub
            | some n =>
              if dst_process ≠ rank then
                match store_node node_storage dst_process n with
                | none => .ub
                | some node_storage1 =>
                  match set_mark w.G n.pos M_FRONT with
                  | none => .ub
                  | some G1 =>
                    expand_mpi mem h rank world_size u rest { w with G := G1 } node_storage1
              else
                match heap_add w.Q (mpiNodeToPtr n) (mem (w.Q.nmax * 2 + 1)) with
                | none => .ub
                | some (true, _) => .abort
                | some (false, Q1) =>
                  match set_mark w.G n.pos M_FRONT with
                  | none => .ub
                  | some G1 =>
                    expand_mpi mem h rank world_size u rest { w with Q := Q1, G := G1 } node_storage
          else expand_mpi mem h rank world_size u rest w node_storage
      else expand_mpi mem h rank world_size u rest w node_storage

/-- The sends of the flush loop: one `node` message per destination with a
non-empty batch, in rank order; `none` when more than `MAX_NEIGHBORS` requests
would be written to `req`. -/
def flush (node_storage : List (List mpi_node)) : Option (List message) :=
  let msgs := (node_storage.enum.filter (fun b => 0 < b.2.length)).map
    (fun b => message.node (b.1 : Int) b.2)
  if msgs.length ≤ MAX_NEIGHBORS then some msgs else none

/-- One iteration of the main loop `while (true)` of `A_star_mpi`: drain the
inbox, pop, and either skip a closed cell, finish at the end cell, or close and
expand.  `.next` is the state in which the next iteration starts; `fuel` bounds
the inner loops. -/
def mpi_iteration (mem : Nat → Bool) (env : environment) (h : heuristic) (rank world_size : Int)
    (fuel : Nat) (w : worker) : mpi_flow worker (double × worker) :=
  let ending_process_rank := hda w.G.end_ world_size
  match drain mem env ending_process_rank fuel w with
  | .ret r => .ret r
  | .abort => .abort
  | .ub => .ub
  | .out_of_fuel => .out_of_fuel
  | .next w1 =>
    match heap_pop w1.Q with
    | none => .ub
    | some (none, _) => .ub
    | some (some u, Q1) =>
      let w2 := { w1 with Q := Q1 }
      match get2 w2.G.mark u.pos with
      | none => .ub
      | some mk =>
        if mk = M_USED then .next w2
        else if rank = ending_process_rank ∧ u.pos.x = w2.G.end_.x ∧ u.pos.y = w2.G.end_.y then
          let w3 := { w2 with
            sent := w2.sent ++ broadcast world_size rank message.destination_reached }
          match reconstruct env rank fuel u w3 with
          | .next w4 =>
            .ret (u.cost, { w4 with sent := w4.sent ++ broadcast world_size rank message.path_done })
          | .ret r => .ret r
          | .abort => .abort
          | .ub => .ub
          | .out_of_fuel => .out_of_fuel
        else
          match set_mark w2.G u.pos M_USED with
          | none => .ub
          | some G1 =>
            if w2.cur_win_i < w2.window_buffer.length then
              let w3 := { w2 with
                G := G1
                window_buffer := w2.window_buffer.set w2.cur_win_i (some u) }
              match expand_mpi mem h rank world_size u neighbours w3
                  (List.replicate world_size.toNat []) with
              | .next (w4, node_storage) =>
                match flush node_storage with
                | none => .ub
                | some msgs =>
                  .next { w4 with sent := w4.sent ++ msgs, cur_win_i := w4.cur_win_i + 1 }
              | .ret r => .ret r
              | .abort => .abort
              | .ub => .ub
              | .out_of_fuel => .out_of_fuel
            else .ub

/-- The main loop `while (true)` of `A_star_mpi`. -/
def mpi_loop (mem : Nat → Bool) (env : environment) (h : heuristic) (rank world_size : Int) :
    Nat → worker → mpi_run (double × worker)
  | 0, _ => .out_of_fuel
  | fuel + 1, w =>
    match mpi_iteration mem env h rank world_size fuel w with
    | .next w1 => mpi_loop mem env h rank world_size fuel w1
    | .ret r => .ret r
    | .abort => .abort
    | .ub => .ub
    | .out_of_fuel => .out_of_fuel

/-- The part of `A_star_mpi` before its main loop: the local variables, the
test of the end cell and the seeding by the owner of the start.  `.next` is the
state in which the main loop is entered. -/
def mpi_init (mem : Nat → Bool) (rank world_size : Int) (G : grid) (h : heuristic) :
    mpi_flow worker (double × worker) :=
  let w0 : worker :=
    { G := G
      Q := heap_create INIT_HEAP_CAPACITY fcmp_nodescore (mem (INIT_HEAP_CAPACITY + 1))
      window_buffer := List.replicate (G.X * G.Y) none
      cur_win_i := 0
      clock := 0
      sent := [] }
  match get2 G.value G.end_ with
  | none => .ub
  | some v =>
    if v = V_WALL then .ret (of_int (-1), w0)
    else
      let starting_process_rank := hda G.start world_size
      if rank = starting_process_rank then
        let s : mpi_node :=
          { pos := G.start, cost := of_int 0, score := dadd (of_int 0) (h G.start G.end_ G),
            parent_rank := -1, parent_win_i := -1 }
        match heap_add w0.Q s (mem (w0.Q.nmax * 2 + 1)) with
        | none => .ub
        | some (true, _) => .abort
        | some (false, Q1) =>
          match set_mark G s.pos M_FRONT with
          | none => .ub
          | some G1 => .next { w0 with Q := Q1, G := G1 }
      else .next w0

/-- `A_star_mpi(G, h)` on the worker `rank` of `world_size`: the returned
`double` and the worker's local state (its `mark` array in `G`). -/
def A_star_mpi (mem : Nat → Bool) (env : environment) (rank world_size : Int) (G : grid)
    (h : heuristic) (fuel : Nat) : mpi_run (double × worker) :=
  match mpi_init mem rank world_size G h with
  | .next w => mpi_loop mem env h rank world_size fuel w
  | .ret r => .ret r
  | .abort => .abort
  | .ub => .ub
  | .out_of_fuel => .out_of_fuel

/-- A `grid` under construction: as `grid`, but a cell of `value` is `none`
until it is written (the rows come from `malloc`), and `X`, `Y` are the `int`
fields as stored. -/
structure fresh_grid where
  X : Int
  Y : Int
  value : List (List (Option Int))
  mark : List (List Int)
  start : position
  end_ : position

/-- `onBorder(G, i, j)`. -/
def onBorder (G : fresh_grid) (i j : Int) : Bool :=
  decide (i = 0) || decide (j = 0) || decide (i = G.X - 1) || decide (j = G.Y - 1)

/-- `allocGrid(x, y)`, every `malloc` succeeding: the sizes are raised to 3,
the rows of `value` are allocated and not written, every mark is `M_NULL`. -/
def allocGrid (x y : Int) : fresh_grid :=
  let x := if x < 3 then 3 else x
  let y := if y < 3 then 3 else y
  { X := x
    Y := y
    value := List.replicate x.toNat (List.replicate y.toNat none)
    mark := List.replicate x.toNat (List.replicate y.toNat M_NULL)
    start := ⟨-1, -1⟩
    end_ := ⟨-1, -1⟩ }

/-- The assignment `G.value[i][j] = v`; `none` outside the allocation. -/
def write_value (value : List (List (Option Int))) (i j : Nat) (v : Int) :
    Option (List (List (Option Int))) :=
  match value[i]? with
  | none => none
  | some row => if j < row.length then some (value.set i (row.set j (some v))) else none

/-- The body of the two loops of `initGridPoints` for the cells still to
visit, in the order of the loops.  `rand k` is the value of the `k`-th
evaluation of `RAND01`, which takes place for cells off the border only. -/
def fill_cells (G : fresh_grid) (type : Int) (density : double) (rand : Nat → double) :
    List (Nat × Nat) → List (List (Option Int)) → Nat → Option (List (List (Option Int)))
  | [], value, _ => some value
  | (i, j) :: rest, value, k =>
    if onBorder G i j then
      match write_value value i j V_WALL with
      | none => none
      | some value1 => fill_cells G type density rand rest value1 k
    else
      match write_value value i j (if dlt density (rand k) then V_FREE else type) with
      | none => none
      | some value1 => fill_cells G type density rand rest value1 (k + 1)

/-- `initGridPoints(x, y, type, density)`: the loops run over `i < x`, `j < y`
for the arguments `x`, `y` as passed, `allocGrid` having raised its own copies
only. -/
def initGridPoints (x y type : Int) (density : double) (rand : Nat → double) :
    Option fresh_grid :=
  let G := allocGrid x y
  let type := if type < 0 then M_NULL else type
  let todo := (List.range x.toNat).flatMap (fun i => (List.range y.toNat).map (fun j => (i, j)))
  match fill_cells G type density rand todo G.value 0 with
  | none => none
  | some value =>
    some { G with value := value, start := ⟨G.X - 2, G.Y - 2⟩, end_ := ⟨1, 1⟩ }
/-! ## Specification vocabulary for the heap -/

/-- Slots `1..n` of `a` have all been written. -/
def filled {α : Type} (a : List (Option α)) (n : Nat) : Prop :=
  ∀ i, 1 ≤ i → i ≤ n → ∃ x, rd a i = some x

/-- The object in slot `i` has a key at most that of the object in slot `j`. -/
def le_at {α K : Type} [LinearOrder K] (key : α → K) (a : List (Option α)) (i j : Nat) : Prop :=
  ∀ x y, rd a i = some x → rd a j = some y → key x ≤ key y

/-- Heap order on `a[1..n]`: `key a[i/2] ≤ key a[i]` for `2 ≤ i ≤ n`. -/
def ordered {α K : Type} [LinearOrder K] (key : α → K) (a : List (Option α)) (n : Nat) : Prop :=
  ∀ i, 2 ≤ i → i ≤ n → le_at key a (i / 2) i

/-- The score of an entry as a rational number. -/
def score_val {α : Type} [scored α] (x : α) : ℚ := (scored.score x).val

/-- A heap in a state the functions of heap.c maintain: the array is allocated
with `nmax + 1` slots, `n ≤ nmax`, `nmax ≥ 1` and slots `1..n` hold entries. -/
def heap_wf {α : Type} (h : heap α) : Prop :=
  ∃ a, h.array = some a ∧ a.length = h.nmax + 1 ∧ h.n ≤ h.nmax ∧ 1 ≤ h.nmax ∧ filled a h.n

/-- Heap order of a heap under the score comparator:
`score(array[i/2]) ≤ score(array[i])` for `2 ≤ i ≤ n`. -/
def heap_ordered {α : Type} [scored α] (h : heap α) : Prop :=
  ordered score_val (h.array.getD []) h.n

/-- Add the entries of a list, in order, with `heap_add`, every `realloc`
succeeding; stop at the first call that returns `true`.  Result: the last
return value of `heap_add` (`false` for the empty list) and the heap. -/
def heap_add_all {α : Type} (h : heap α) : List α → Option (Bool × heap α)
  | [] => some (false, h)
  | x :: xs =>
    match heap_add h x true with
    | none => none
    | some (true, h1) => some (true, h1)
    | some (false, h1) => heap_add_all h1 xs

/-- Call `heap_pop` until `heap_empty` is true and collect the returned
pointers in order; `none` when `fuel` calls do not empty the heap. -/
def heap_pop_all {α : Type} : Nat → heap α → Option (List (Option α))
  | 0, _ => none
  | fuel + 1, h =>
    if heap_empty h then some []
    else
      match heap_pop h with
      | none => none
      | some (x, h1) => (heap_pop_all fuel h1).map (fun l => x :: l)

/-- An `mpi_node` at cell (0,0) with cost 0 and the integer score `s`. -/
def entry_of_score (s : Int) : mpi_node := ⟨⟨0, 0⟩, of_int 0, of_int s, -1, -1⟩

/-- A heap of capacity 4 holding the entries of score 1 and 2. -/
def heap_two : heap mpi_node :=
  { array := some [none, some (entry_of_score 1), some (entry_of_score 2), none, none]
    n := 2
    nmax := 4
    f := fcmp_nodescore }

/-! ## Specification vocabulary for the grid and the search -/

/-- A two-dimensional array of `X` rows of `Y` cells. -/
def shape (m : List (List Int)) (X Y : Nat) : Prop :=
  m.length = X ∧ ∀ row ∈ m, row.length = Y

/-- The number of cells of a `mark` array that are `M_NULL`. -/
def nulls (m : List (List Int)) : Nat := (m.map (fun row => row.count M_NULL)).sum

/-- The cell `p` lies in the grid: `0 ≤ p.x < X`, `0 ≤ p.y < Y`. -/
def in_grid (G : grid) (p : position) : Prop :=
  0 ≤ p.x ∧ p.x < G.X ∧ 0 ≤ p.y ∧ p.y < G.Y

/-- The cell `p` is off the border: `1 ≤ p.x ≤ X - 2`, `1 ≤ p.y ≤ Y - 2`. -/
def interior (G : grid) (p : position) : Prop :=
  1 ≤ p.x ∧ p.x + 2 ≤ G.X ∧ 1 ≤ p.y ∧ p.y + 2 ≤ G.Y

instance (G : grid) (p : position) : Decidable (in_grid G p) := by
  unfold in_grid; infer_instance

instance (G : grid) (p : position) : Decidable (interior G p) := by
  unfold interior; infer_instance

/-- The arrays of the grid have the dimensions `X`, `Y` and every cell value
is one of the seven values of the enum (an index of `weight`). -/
def grid_wf (G : grid) : Prop :=
  shape G.value G.X G.Y ∧ shape G.mark G.X G.Y ∧
    ∀ p v, get2 G.value p = some v → 0 ≤ v ∧ v ≤ 6

/-- The border ring is WALL (`onBorder` of tools.c). -/
def wall_border (G : grid) : Prop :=
  ∀ p, in_grid G p → (p.x = 0 ∨ p.y = 0 ∨ p.x = (G.X : Int) - 1 ∨ p.y = (G.Y : Int) - 1) →
    get2 G.value p = some V_WALL

/-- Every mark is `M_NULL`, as `allocGrid` leaves them. -/
def fresh_marks (G : grid) : Prop :=
  ∀ p v, get2 G.mark p = some v → v = M_NULL

/-- `q` is one of the 8 neighbours of `p`. -/
def adjacent (p q : position) : Prop :=
  p ≠ q ∧ -1 ≤ q.x - p.x ∧ q.x - p.x ≤ 1 ∧ -1 ≤ q.y - p.y ∧ q.y - p.y ≤ 1

instance (p q : position) : Decidable (adjacent p q) := by
  unfold adjacent; infer_instance

/-- `q` is a cell of the grid that is not WALL. -/
def open_cell (G : grid) (q : position) : Prop :=
  ∃ v, get2 G.value q = some v ∧ v ≠ V_WALL

/-- `path_to G q c`: there is an 8-connected chain of cells from `G.start` to
`q`, every cell entered being non-WALL, and `c` is the sum, in the order of the
chain, of `weight[value]` of the cells entered. -/
inductive path_to (G : grid) : position → double → Prop where
  | start : path_to G G.start (of_int 0)
  | step {p q : position} {c w : double} {v : Int} :
      path_to G p c → adjacent p q → get2 G.value q = some v → v ≠ V_WALL → weight v = some w →
      path_to G q (dadd c w)

/-- `reach G q`: an 8-connected chain of non-WALL cells leads from `G.start`
to `q`. -/
def reach (G : grid) (q : position) : Prop := ∃ c, path_to G q c

/-- The parent chain of `n` ends in the start entry `s`, and every entry on
it below `s` was created by `createNode` from its parent: its cell is off the
border, an 8-neighbour of the parent's cell and not WALL, and its cost is the
parent's cost plus the weight of its cell. -/
def chain_ok (G0 : grid) (s : node) : node → Prop
  | .root p c sc => node.root p c sc = s
  | .child p c _ q =>
    interior G0 p ∧ adjacent q.pos p ∧
      (∃ v w, get2 G0.value p = some v ∧ v ≠ V_WALL ∧ weight v = some w ∧ c = dadd q.cost w) ∧
      chain_ok G0 s q

/-- An entry the sequential search creates: its cell is off the border, its
cost is the cost of a path from the start to its cell, and its parent chain
leads to the start entry `s`. -/
def good (G0 : grid) (s : node) (n : node) : Prop :=
  interior G0 n.pos ∧ path_to G0 n.pos n.cost ∧ chain_ok G0 s n

/-- What holds of the grid `G` and the heap `Q` at every point of the main
loop of `A_star_sequential` started on `G0` with the start entry `s`. -/
structure seq_inv (G0 : grid) (s : node) (G : grid) (Q : heap node) : Prop where
  value_eq : G.value = G0.value
  start_eq : G.start = G0.start
  end_eq : G.end_ = G0.end_
  mark_shape : shape G.mark G0.X G0.Y
  heap : heap_wf Q
  cmp : Q.f = fcmp_nodescore
  entries_ok : ∀ n, some n ∈ entries Q → good G0 s n

/-- What holds in addition when the search started from unmarked cells: marks
are `M_NULL`, `M_FRONT` or `M_USED`; a cell marked `M_FRONT` has an entry in the
heap; a cell marked `M_USED` is not the end and has no open neighbour left
`M_NULL`; the start is marked. -/
structure front_inv (G0 : grid) (G : grid) (Q : heap node) : Prop where
  marks : ∀ q mk, get2 G.mark q = some mk → mk = M_NULL ∨ mk = M_FRONT ∨ mk = M_USED
  front : ∀ q, get2 G.mark q = some M_FRONT → ∃ n, some n ∈ entries Q ∧ n.pos = q
  used : ∀ q, get2 G.mark q = some M_USED →
    q ≠ G0.end_ ∧ ∀ q1, adjacent q q1 → open_cell G0 q1 → get2 G.mark q1 ≠ some M_NULL
  start : get2 G.mark G0.start ≠ some M_NULL

/-- A 5 x 5 grid in which the start (3,3) and the end (1,1) are the only
cells that are not WALL: the end is enclosed by walls. -/
def grid_walled : grid :=
  { X := 5
    Y := 5
    value := [[1, 1, 1, 1, 1], [1, 0, 1, 1, 1], [1, 1, 1, 1, 1], [1, 1, 1, 0, 1], [1, 1, 1, 1, 1]]
    mark := List.replicate 5 (List.replicate 5 M_NULL)
    start := ⟨3, 3⟩
    end_ := ⟨1, 1⟩ }

/-- The 5 x 5 grid with WALL border in which the start (3,3) is WALL too, the
other interior cells being FREE; the end is (1,1). -/
def grid_wall_start : grid :=
  { X := 5
    Y := 5
    value := [[1, 1, 1, 1, 1], [1, 0, 0, 0, 1], [1, 0, 0, 0, 1], [1, 0, 0, 1, 1], [1, 1, 1, 1, 1]]
    mark := List.replicate 5 (List.replicate 5 M_NULL)
    start := ⟨3, 3⟩
    end_ := ⟨1, 1⟩ }

/-- The cell `value[i][j]` of a grid under construction: `none` outside the
allocation, `some none` while it is not written. -/
def cell (value : List (List (Option Int))) (i j : Nat) : Option (Option Int) :=
  (value[i]?).bind (fun row => row[j]?)

/-- The entries 1.0, 3.0, 9.0, 2.3, 1.5 and 0.1 of `weight[]`, those of FREE
(0), SAND (2), WATER (3), MUD (4), GRASS (5) and TUNNEL (6), in tenths; `none`
for WALL and outside the table. -/
def tenths (v : Int) : Option Nat :=
  if v = 0 then some 10
  else if v = 2 then some 30
  else if v = 3 then some 90
  else if v = 4 then some 23
  else if v = 5 then some 15
  else if v = 6 then some 1
  else none

/-- `walk G q d c`: there is an 8-connected chain of cells from `G.start` to
`q`, every cell entered being non-WALL; the weights of the cells entered sum to
`d` tenths, and `c` is the binary64 sum of these weights, added in the order of
the chain as `createNode` adds them. -/
inductive walk (G : grid) : position → Nat → double → Prop where
  | start : walk G G.start 0 (of_int 0)
  | step {p q : position} {d t : Nat} {c w : double} {v : Int} :
      walk G p d c → adjacent p q → get2 G.value q = some v → v ≠ V_WALL →
      weight v = some w → tenths v = some t → walk G q (d + t) (dadd c w)

/-- A 7 x 5 grid with WALL border and TUNNEL (6), GRASS (5), FREE (0), WATER
(3) and SAND (2) cells inside; start (5,3), end (1,1), as `initGridPoints`
places them. -/
def grid_tunnel : grid :=
  { X := 7
    Y := 5
    value := [[1, 1, 1, 1, 1], [1, 6, 5, 6, 1], [1, 6, 0, 3, 1], [1, 0, 1, 6, 1], [1, 0, 6, 0, 1],
              [1, 2, 5, 6, 1], [1, 1, 1, 1, 1]]
    mark := List.replicate 7 (List.replicate 5 M_NULL)
    start := ⟨5, 3⟩
    end_ := ⟨1, 1⟩ }

/-- An allocator that grants every request. -/
def mem_ok : Nat → Bool := fun _ => true

/-- A transport on which nothing is ever pending. -/
def quiet : environment :=
  fun _ => { destination_reached := false, path_done := false, path_query := none, node := none,
             path_reply := entry_of_score 0 }

/-- A 6 x 6 grid of FREE (0) and WALL (1) cells with start (4,4) and end
(1,1), as `initGridPoints` places them. -/
def grid_detour : grid :=
  { X := 6
    Y := 6
    value := [[1, 1, 1, 1, 1, 1], [1, 0, 0, 0, 0, 1], [1, 1, 1, 0, 1, 1], [1, 1, 0, 1, 0, 1],
              [1, 0, 1, 0, 0, 1], [1, 1, 1, 1, 1, 1]]
    mark := List.replicate 6 (List.replicate 6 M_NULL)
    start := ⟨4, 4⟩
    end_ := ⟨1, 1⟩ }

/-- The 5 x 5 grid with WALL border and FREE interior, start (3,3), end (1,1). -/
def grid_five : grid :=
  { X := 5
    Y := 5
    value := [[1, 1, 1, 1, 1], [1, 0, 0, 0, 1], [1, 0, 0, 0, 1], [1, 0, 0, 0, 1], [1, 1, 1, 1, 1]]
    mark := List.replicate 5 (List.replicate 5 M_NULL)
    start := ⟨3, 3⟩
    end_ := ⟨1, 1⟩ }

/-- The 7 x 7 grid with WALL border and FREE interior, start (5,5), end (1,1). -/
def grid_seven : grid :=
  { X := 7
    Y := 7
    value := [[1, 1, 1, 1, 1, 1, 1], [1, 0, 0, 0, 0, 0, 1], [1, 0, 0, 0, 0, 0, 1],
              [1, 0, 0, 0, 0, 0, 1], [1, 0, 0, 0, 0, 0, 1], [1, 0, 0, 0, 0, 0, 1],
              [1, 1, 1, 1, 1, 1, 1]]
    mark := List.replicate 7 (List.replicate 7 M_NULL)
    start := ⟨5, 5⟩
    end_ := ⟨1, 1⟩ }

/-- The 7 x 7 grid with WALL at (3,1), (3,2), (3,4), (3,5): a wall line with
the gap (3,3). -/
def grid_seven_wall : grid :=
  { grid_seven with
    value := [[1, 1, 1, 1, 1, 1, 1], [1, 0, 0, 0, 0, 0, 1], [1, 0, 0, 0, 0, 0, 1],
              [1, 1, 1, 0, 1, 1, 1], [1, 0, 0, 0, 0, 0, 1], [1, 0, 0, 0, 0, 0, 1],
              [1, 1, 1, 1, 1, 1, 1]] }


/-- The 5 x 5 grid with WALL border whose interior is FREE except for the
WATER cell (2,2); start (3,3), end (3,1). -/
def grid_water : grid :=
  { X := 5
    Y := 5
    value := [[1, 1, 1, 1, 1], [1, 0, 0, 0, 1], [1, 0, 3, 0, 1], [1, 0, 0, 0, 1], [1, 1, 1, 1, 1]]
    mark := List.replicate 5 (List.replicate 5 M_NULL)
    start := ⟨3, 3⟩
    end_ := ⟨3, 1⟩ }

/-- A transport on which the only thing ever pending is one `node` batch, seen
by the probe made at clock `t`. -/
def deliver (t : Nat) (batch : List mpi_node) : environment :=
  fun c => if c = t then { quiet c with node := some batch } else quiet c

/-- What no statement of `A_star_mpi` changes in its copy of the grid: the
size, the values, the start and the end. -/
def same_grid (G G1 : grid) : Prop :=
  G1.X = G.X ∧ G1.Y = G.Y ∧ G1.value = G.value ∧ G1.start = G.start ∧ G1.end_ = G.end_

/-- A record that the transport delivers to the worker in some `node` batch. -/
def received (env : environment) (e : mpi_node) : Prop :=
  ∃ t batch, (env t).node = some batch ∧ e ∈ batch

/-- `e` is the record `CreateMpiNode` builds, on worker `rank` at handle
`cur`, for a non-WALL 8-neighbour of the cell of the entry `u`. -/
def child_of (G0 : grid) (h : heuristic) (rank : Int) (cur : Nat) (u e : mpi_node) : Prop :=
  ∃ G p v, same_grid G0 G ∧ adjacent u.pos p ∧ get2 G0.value p = some v ∧ v ≠ V_WALL ∧
    CreateMpiNode G p u rank cur h = some e

/-- The states in which worker `rank` of `world_size` starts an iteration of
the main loop of `A_star_mpi` on the grid `G`. -/
inductive mpi_reachable (mem : Nat → Bool) (env : environment) (h : heuristic)
    (rank world_size : Int) (G : grid) : worker → Prop where
  | init {w : worker} : mpi_init mem rank world_size G h = .next w →
      mpi_reachable mem env h rank world_size G w
  | step {fuel : Nat} {w w1 : worker} : mpi_reachable mem env h rank world_size G w →
      mpi_iteration mem env h rank world_size fuel w = .next w1 →
      mpi_reachable mem env h rank world_size G w1

/-- What receiving does to a worker: the grid keeps its size, values and end
points, marks change only to `M_FRONT`, the heap stays well formed and gains
only records taken from `src`, and the window buffer, `cur_win_i` and the log
of sends stay as they are. -/
def inbox_step (src : mpi_node → Prop) (w w1 : worker) : Prop :=
  same_grid w.G w1.G ∧ heap_wf w1.Q ∧ w1.Q.f = w.Q.f ∧
    (∀ e, some e ∈ entries w1.Q → some e ∈ entries w.Q ∨ src e) ∧
    (∀ p, get2 w1.G.mark p = get2 w.G.mark p ∨ get2 w1.G.mark p = some M_FRONT) ∧
    w1.window_buffer = w.window_buffer ∧ w1.cur_win_i = w.cur_win_i ∧ w1.sent = w.sent

/-- An iteration of the main loop of `A_star_mpi` that popped an entry and
found its cell closed: nothing but the inbox processing and the pop has
happened. -/
def stale_step (env : environment) (w w1 : worker) : Prop :=
  (∀ e, some e ∈ entries w1.Q → some e ∈ entries w.Q ∨ received env e) ∧
    (∀ p, get2 w1.G.mark p = get2 w.G.mark p ∨ get2 w1.G.mark p = some M_FRONT) ∧
    w1.window_buffer = w.window_buffer ∧ w1.cur_win_i = w.cur_win_i ∧ w1.sent = w.sent

/-- An iteration of the main loop of `A_star_mpi` that popped `u`, closed its
cell and expanded it: `u` is written to the window buffer at `cur_win_i`, which
advances by one; the heap gains received records and children of `u` on cells
the worker owns; the sends are `node` batches of children of `u`, each to the
owner of its cells, never to the worker itself. -/
def close_step (env : environment) (h : heuristic) (rank world_size : Int) (u : mpi_node)
    (w w1 : worker) : Prop :=
  (∀ e, some e ∈ entries w1.Q → some e ∈ entries w.Q ∨ received env e ∨
      (child_of w.G h rank w.cur_win_i u e ∧ hda e.pos world_size = rank)) ∧
    (∀ p, get2 w1.G.mark p = get2 w.G.mark p ∨ get2 w1.G.mark p = some M_FRONT ∨ p = u.pos) ∧
    w.cur_win_i < w.window_buffer.length ∧
    w1.window_buffer = w.window_buffer.set w.cur_win_i (some u) ∧
    w1.cur_win_i = w.cur_win_i + 1 ∧
    ∃ msgs, w1.sent = w.sent ++ msgs ∧
      ∀ m ∈ msgs, ∃ (d : Nat) (batch : List mpi_node), m = message.node (d : Int) batch ∧
        (d : Int) ≠ rank ∧ batch ≠ [] ∧
        ∀ n ∈ batch, child_of w.G h rank w.cur_win_i u n ∧ hda n.pos world_size = (d : Int)

/-- `mpi_closed mem env h rank world_size G k w`: worker `rank` starts an
iteration of the main loop of `A_star_mpi` in the state `w`, having closed `k`
entries so far.  An iteration closes the entry it pops unless the cell of that
entry is marked `M_USED` already. -/
inductive mpi_closed (mem : Nat → Bool) (env : environment) (h : heuristic)
    (rank world_size : Int) (G : grid) : Nat → worker → Prop where
  | init {w : worker} : mpi_init mem rank world_size G h = .next w →
      mpi_closed mem env h rank world_size G 0 w
  | stale {fuel k : Nat} {w wd w1 : worker} {u : mpi_node} {Q1 : heap mpi_node} :
      mpi_closed mem env h rank world_size G k w →
      drain mem env (hda w.G.end_ world_size) fuel w = .next wd →
      heap_pop wd.Q = some (some u, Q1) → get2 wd.G.mark u.pos = some M_USED →
      mpi_iteration mem env h rank world_size fuel w = .next w1 →
      mpi_closed mem env h rank world_size G k w1
  | close {fuel k : Nat} {w wd w1 : worker} {u : mpi_node} {Q1 : heap mpi_node} :
      mpi_closed mem env h rank world_size G k w →
      drain mem env (hda w.G.end_ world_size) fuel w = .next wd →
      heap_pop wd.Q = some (some u, Q1) → get2 wd.G.mark u.pos ≠ some M_USED →
      mpi_iteration mem env h rank world_size fuel w = .next w1 →
      mpi_closed mem env h rank world_size G (k + 1) w1

/-- The worker state in which a worker on `grid_five` with an empty heap
expands the start (3,3), just closed: (3,3) is `M_USED`, every other cell
`M_NULL`. -/
def worker_five : worker :=
  { G := { grid_five with
      mark := [[7, 7, 7, 7, 7], [7, 7, 7, 7, 7], [7, 7, 7, 7, 7], [7, 7, 7, 8, 7], [7, 7, 7, 7, 7]] }
    Q := heap_create INIT_HEAP_CAPACITY fcmp_nodescore true
    window_buffer := List.replicate 25 none
    cur_win_i := 0
    clock := 0
    sent := [] }

/-- The batch worker 1 of 2 sends to worker 0 on `grid_five` (alpha = 1) when
it closes (3,2): the records of (3,1), (2,2) and (3,3), each at cost 2. -/
def grid_five_batch : List mpi_node :=
  [⟨⟨3, 1⟩, ⟨2, 0⟩, dadd (dadd ⟨2, 0⟩ (halpha (of_int 1) ⟨3, 1⟩ ⟨1, 1⟩ grid_five)) (of_int 0), 1, 0⟩,
   ⟨⟨2, 2⟩, ⟨2, 0⟩, dadd (dadd ⟨2, 0⟩ (halpha (of_int 1) ⟨2, 2⟩ ⟨1, 1⟩ grid_five)) (of_int 0), 1, 0⟩,
   ⟨⟨3, 3⟩, ⟨2, 0⟩, dadd (dadd ⟨2, 0⟩ (halpha (of_int 1) ⟨3, 3⟩ ⟨1, 1⟩ grid_five)) (of_int 0), 1, 0⟩]

/-- The heaps obtained from `heap_create(k, f)` (its `malloc` succeeding) by
calls of `heap_add` that return `false` and calls of `heap_pop`. -/
inductive heap_reachable {α : Type} (k : Nat) (f : α → α → Int) : heap α → Prop where
  | create : heap_reachable k f (heap_create k f true)
  | add {h h1 : heap α} {e : α} {ok : Bool} : heap_reachable k f h →
      heap_add h e ok = some (false, h1) → heap_reachable k f h1
  | pop {h h1 : heap α} {x : Option α} : heap_reachable k f h →
      heap_pop h = some (x, h1) → heap_reachable k f h1

/-- `seq_after mem h G k s G1 Q1`: `A_star_sequential` on the grid `G`, with
the start entry `s`, evaluates the condition of its main loop in the state
`(G1, Q1)` after `k` iterations, each of which popped one entry. -/
inductive seq_after (mem : Nat → Bool) (h : heuristic) (G : grid) :
    Nat → node → grid → heap node → Prop where
  | init {s : node} {G1 : grid} {Q1 : heap node} : seq_init mem G h = .next (s, G1, Q1) →
      seq_after mem h G 0 s G1 Q1
  | step {k : Nat} {s : node} {G1 G2 : grid} {Q1 Q2 : heap node} :
      seq_after mem h G k s G1 Q1 → seq_iteration mem h s G1 Q1 = .next (G2, Q2) →
      seq_after mem h G (k + 1) s G2 Q2

/-- `seq_pushed mem h G k s G1 Q1 log`: as `seq_after`, with `log` the cells
of the entries added to the heap so far: the start, then for each iteration
the cells of the entries that the heap holds after it and did not hold after
its pop. -/
inductive seq_pushed (mem : Nat → Bool) (h : heuristic) (G : grid) :
    Nat → node → grid → heap node → List position → Prop where
  | init {s : node} {G1 : grid} {Q1 : heap node} : seq_init mem G h = .next (s, G1, Q1) →
      seq_pushed mem h G 0 s G1 Q1 [s.pos]
  | step {k : Nat} {s u : node} {G1 G2 : grid} {Q1 Qp Q2 : heap node} {log : List position}
      {fresh : List node} :
      seq_pushed mem h G k s G1 Q1 log → seq_iteration mem h s G1 Q1 = .next (G2, Q2) →
      heap_pop Q1 = some (some u, Qp) → (entries Q2).Perm (entries Qp ++ fresh.map some) →
      seq_pushed mem h G (k + 1) s G2 Q2 (log ++ fresh.map node.pos)

/-- The cells of the entries of a heap, in slot order. -/
def cells (Q : heap node) : List (Option position) := (entries Q).map (Option.map node.pos)

/-- The cells of the entries on the parent chain of `n`, from `n` down to,
but excluding, the entry without parent. -/
def chain_cells : node → List position
  | .root _ _ _ => []
  | .child p _ _ q => p :: chain_cells q

/-- The sum, from the start outwards, of `weight[value]` over the cells of
`chain_cells n`. -/
def chain_cost (G : grid) : node → Option double
  | .root _ _ _ => some (of_int 0)
  | .child p _ _ q =>
    match chain_cost G q, (get2 G.value p).bind weight with
    | some c, some w => some (dadd c w)
    | _, _ => none
/-! ## Order of doubles -/

theorem shl_val (m e e0 : Int) (h : e0 ≤ e) :
    ((shl m e e0 : Int) : ℚ) * (2 : ℚ) ^ e0 = (m : ℚ) * (2 : ℚ) ^ e := by
  unfold shl
  push_cast
  rw [mul_assoc, ← zpow_natCast, ← zpow_add₀ (by norm_num : (2 : ℚ) ≠ 0),
    Int.toNat_of_nonneg (by omega)]
  congr 2
  omega

theorem dlt_iff (a b : double) : dlt a b = true ↔ a.val < b.val := by
  unfold dlt double.val
  simp only [decide_eq_true_eq]
  rw [← shl_val a.m a.e (min a.e b.e) (min_le_left _ _),
    ← shl_val b.m b.e (min a.e b.e) (min_le_right _ _)]
  have hpos : (0 : ℚ) < (2 : ℚ) ^ (min a.e b.e) := zpow_pos (by norm_num) _
  rw [mul_lt_mul_right hpos]
  exact Int.cast_lt.symm

theorem fcmp_nodescore_pos {α : Type} [scored α] (x y : α) :
    0 < fcmp_nodescore x y ↔ score_val y < score_val x := by
  unfold fcmp_nodescore score_val
  simp only
  rw [← dlt_iff]
  by_cases h1 : dlt (scored.score x) (scored.score y) = true
  · have h2 : ¬ dlt (scored.score y) (scored.score x) = true := by
      rw [dlt_iff] at h1 ⊢
      exact not_lt.2 (le_of_lt h1)
    simp [h1, h2]
  · by_cases h2 : dlt (scored.score y) (scored.score x) = true
    · simp [h1, h2]
    · simp [h1, h2]


/-! ## Signs -/

theorem rnd_nonneg (m e : Int) (h : 0 ≤ m) : 0 ≤ (rnd m e).m := by
  unfold rnd
  simp only
  split
  · exact h
  · rw [if_neg (by omega)]
    simp only [one_mul]
    exact Int.ofNat_nonneg _

theorem rnd_zero (e : Int) : rnd 0 e = ⟨0, e⟩ := by
  simp [rnd, bitlen, bitlen_aux]

theorem shl_nonneg (m e e0 : Int) (h : 0 ≤ m) : 0 ≤ shl m e e0 := by
  unfold shl
  exact mul_nonneg h (pow_nonneg (by norm_num) _)

theorem dadd_nonneg (a b : double) (ha : 0 ≤ a.m) (hb : 0 ≤ b.m) : 0 ≤ (dadd a b).m := by
  unfold dadd
  exact rnd_nonneg _ _ (add_nonneg (shl_nonneg _ _ _ ha) (shl_nonneg _ _ _ hb))

/-- A double with a zero mantissa is not above one with a non-negative mantissa. -/
theorem dlt_zero (c z : double) (hc : 0 ≤ c.m) (hz : z.m = 0) : dlt c z = false := by
  unfold dlt
  simp only [decide_eq_false_iff_not, not_lt]
  rw [hz]
  have : shl 0 z.e (min c.e z.e) = 0 := by simp [shl]
  rw [this]
  exact shl_nonneg _ _ _ hc
/-! ## binary64 arithmetic: rounding keeps a value between nearby short numbers -/

section storage
variable {α : Type}

theorem rd_lt {a : List (Option α)} {i : Nat} {x : α} (h : rd a i = some x) : i < a.length := by
  by_contra hc
  have : a[i]? = none := List.getElem?_eq_none (Nat.le_of_not_lt hc)
  simp [rd, this] at h

theorem rd_set (a : List (Option α)) (i j : Nat) (x : α) (hi : i < a.length) :
    rd (a.set i (some x)) j = if j = i then some x else rd a j := by
  unfold rd
  rw [List.getElem?_set]
  by_cases h : i = j
  · subst h; simp [hi]
  · have h2 : ¬ j = i := fun h3 => h h3.symm
    simp [h, h2]

theorem rd_swap (a : List (Option α)) (i j : Nat) (x y : α)
    (hx : rd a i = some x) (hy : rd a j = some y) (k : Nat) :
    rd ((a.set i (some y)).set j (some x)) k = rd a (Equiv.swap i j k) := by
  have hi := rd_lt hx
  have hj := rd_lt hy
  rw [rd_set _ _ _ _ (by simpa using hj), rd_set _ _ _ _ hi, Equiv.swap_apply_def]
  by_cases h1 : k = j
  · subst h1
    by_cases h2 : k = i
    · subst h2; simp [hx]
    · simp [h2, hx]
  · by_cases h2 : k = i
    · subst h2; simp [h1, hy]
    · simp [h1, h2]

theorem rd_swap_cases (a : List (Option α)) (i j : Nat) (x y : α)
    (hx : rd a i = some x) (hy : rd a j = some y) (hij : i ≠ j) (k : Nat) (z : α)
    (hk : rd ((a.set i (some y)).set j (some x)) k = some z) :
    (k = i ∧ y = z) ∨ (k = j ∧ x = z) ∨ (k ≠ i ∧ k ≠ j ∧ rd a k = some z) := by
  rw [rd_swap a i j x y hx hy k, Equiv.swap_apply_def] at hk
  by_cases c1 : k = i
  · left
    refine ⟨c1, ?_⟩
    simp [c1] at hk
    rw [hy] at hk
    exact Option.some.inj hk
  · by_cases c2 : k = j
    · right; left
      refine ⟨c2, ?_⟩
      have : ¬ j = i := fun e => hij e.symm
      simp [c2, this] at hk
      rw [hx] at hk
      exact Option.some.inj hk
    · right; right
      simp [c1, c2] at hk
      exact ⟨c1, c2, hk⟩

theorem length_swap (a : List (Option α)) (i j : Nat) (x y : Option α) :
    ((a.set i y).set j x).length = a.length := by simp

theorem swap_range_perm (n i j : Nat) (hi1 : 1 ≤ i) (hin : i ≤ n) (hj1 : 1 ≤ j) (hjn : j ≤ n) :
    ((List.range' 1 n).map (Equiv.swap i j)).Perm (List.range' 1 n) := by
  rw [List.perm_ext_iff_of_nodup ((List.nodup_range' 1 n).map (Equiv.swap i j).injective)
    (List.nodup_range' 1 n)]
  intro k
  simp only [List.mem_map, List.mem_range'_1]
  constructor
  · rintro ⟨m, ⟨hm1, hm2⟩, rfl⟩
    rw [Equiv.swap_apply_def]
    split_ifs <;> omega
  · intro hk
    refine ⟨Equiv.swap i j k, ?_, by simp⟩
    rw [Equiv.swap_apply_def]
    split_ifs <;> omega

theorem ents_perm_of_swap (a b : List (Option α)) (n i j : Nat)
    (hi1 : 1 ≤ i) (hin : i ≤ n) (hj1 : 1 ≤ j) (hjn : j ≤ n)
    (h : ∀ k, rd b k = rd a (Equiv.swap i j k)) : (ents b n).Perm (ents a n) := by
  have e : ents b n = ((List.range' 1 n).map (Equiv.swap i j)).map (rd a) := by
    simp only [ents, List.map_map]
    apply List.map_congr_left
    intro k _
    simp [h k]
  rw [e]
  exact (swap_range_perm n i j hi1 hin hj1 hjn).map _

theorem ents_congr (a b : List (Option α)) (n : Nat) (h : ∀ k, 1 ≤ k → k ≤ n → rd b k = rd a k) :
    ents b n = ents a n := by
  simp only [ents]
  apply List.map_congr_left
  intro k hk
  simp only [List.mem_range'_1] at hk
  exact h k hk.1 (by omega)

theorem ents_succ (a : List (Option α)) (n : Nat) : ents a (n + 1) = ents a n ++ [rd a (n + 1)] := by
  simp [ents, List.range'_1_concat, Nat.add_comm]

theorem filled_swap (a b : List (Option α)) (n i j : Nat)
    (hi1 : 1 ≤ i) (hin : i ≤ n) (hj1 : 1 ≤ j) (hjn : j ≤ n)
    (h : ∀ k, rd b k = rd a (Equiv.swap i j k)) (hf : filled a n) : filled b n := by
  intro k hk1 hkn
  rw [h k]
  apply hf
  · rw [Equiv.swap_apply_def]; split_ifs <;> omega
  · rw [Equiv.swap_apply_def]; split_ifs <;> omega

end storage

/-! ## The two sift loops -/

section sift
variable {α K : Type} [LinearOrder K]

/-- The sift-up loop returns, permutes `a[1..n]`, leaves the other slots
alone, and restores heap order when `son` was its only violation. -/
theorem sift_up_spec (key : α → K) (f : α → α → Int) (n : Nat) :
    ∀ (fuel : Nat) (a : List (Option α)) (son : Nat), son ≤ fuel → son ≤ n → filled a n →
      ∃ b, sift_up f fuel a son = some b ∧ b.length = a.length ∧ filled b n ∧
        (ents b n).Perm (ents a n) ∧ (∀ k, n < k → rd b k = rd a k) ∧
        ((∀ x y, 0 < f x y ↔ key y < key x) →
         (∀ i, 2 ≤ i → i ≤ n → i ≠ son → le_at key a (i / 2) i) →
         (∀ i, 2 ≤ i → i ≤ n → i / 2 = son → 2 ≤ son → le_at key a (son / 2) i) →
         ordered key b n) := by
  intro fuel
  induction fuel with
  | zero =>
    intro a son h0 _ hfill
    refine ⟨a, rfl, rfl, hfill, List.Perm.refl _, fun _ _ => rfl, ?_⟩
    intro _ h1 _ i hi2 hin
    exact h1 i hi2 hin (by omega)
  | succ fuel ih =>
    intro a son hsf hsn hfill
    by_cases hfa : 0 < son / 2
    · obtain ⟨x, hx⟩ := hfill (son / 2) hfa (by omega)
      obtain ⟨y, hy⟩ := hfill son (by omega) hsn
      by_cases hxy : 0 < f x y
      · have hstep : sift_up f (fuel + 1) a son =
            sift_up f fuel ((a.set (son / 2) (some y)).set son (some x)) (son / 2) := by
          simp [sift_up, hfa, hx, hy, hxy]
        have hsw := rd_swap a (son / 2) son x y hx hy
        have hfill2 := filled_swap a _ n (son / 2) son hfa (by omega) (by omega) hsn hsw hfill
        obtain ⟨b, hb, hlen, hfb, hperm, hframe, hord⟩ :=
          ih ((a.set (son / 2) (some y)).set son (some x)) (son / 2) (by omega) (by omega) hfill2
        refine ⟨b, by rw [hstep, hb], by rw [hlen]; simp, hfb,
          hperm.trans (ents_perm_of_swap a _ n (son / 2) son hfa (by omega) (by omega) hsn hsw),
          ?_, ?_⟩
        · intro k hk
          rw [hframe k hk, hsw k, Equiv.swap_apply_def]
          have h1 : k ≠ son / 2 := by omega
          have h2 : k ≠ son := by omega
          simp [h1, h2]
        · intro hf h1 h2
          have hkey : key y < key x := (hf x y).1 hxy
          have hat : ∀ k x', rd ((a.set (son / 2) (some y)).set son (some x)) k = some x' →
              (k = son / 2 ∧ y = x') ∨ (k = son ∧ x = x') ∨
              (k ≠ son / 2 ∧ k ≠ son ∧ rd a k = some x') := by
            intro k x' hk
            rw [hsw k, Equiv.swap_apply_def] at hk
            by_cases c1 : k = son / 2
            · left
              refine ⟨c1, ?_⟩
              simp [c1] at hk
              rw [hy] at hk
              exact Option.some.inj hk
            · by_cases c2 : k = son
              · right; left
                refine ⟨c2, ?_⟩
                have : ¬ son = son / 2 := by omega
                simp [c2, this] at hk
                rw [hx] at hk
                exact Option.some.inj hk
              · right; right
                simp [c1, c2] at hk
                exact ⟨c1, c2, hk⟩
          apply hord hf
          · intro i hi2 hin hne u v hu hv
            rcases hat _ _ hu with ⟨e1, rfl⟩ | ⟨e1, rfl⟩ | ⟨e1, e2, hu'⟩
            · rcases hat _ _ hv with ⟨e3, rfl⟩ | ⟨e3, rfl⟩ | ⟨e3, e4, hv'⟩
              · exact le_refl _
              · exact le_of_lt hkey
              · exact le_trans (le_of_lt hkey) (h1 i hi2 hin e4 x v (e1 ▸ hx) hv')
            · rcases hat _ _ hv with ⟨e3, rfl⟩ | ⟨e3, rfl⟩ | ⟨e3, e4, hv'⟩
              · omega
              · exact le_refl _
              · exact h2 i hi2 hin e1 (by omega) x v hx hv'
            · rcases hat _ _ hv with ⟨e3, rfl⟩ | ⟨e3, rfl⟩ | ⟨e3, e4, hv'⟩
              · exact absurd e3 hne
              · omega
              · exact h1 i hi2 hin e4 u v hu' hv'
          · intro i hi2 hin hpar hge u v hu hv
            rcases hat _ _ hu with ⟨e1, rfl⟩ | ⟨e1, rfl⟩ | ⟨e1, e2, hu'⟩
            · omega
            · omega
            · have hgx : key u ≤ key x := h1 (son / 2) hge (by omega) (by omega) u x hu' hx
              rcases hat _ _ hv with ⟨e3, rfl⟩ | ⟨e3, rfl⟩ | ⟨e3, e4, hv'⟩
              · omega
              · exact hgx
              · exact le_trans hgx (h1 i hi2 hin e4 x v (hpar ▸ hx) hv')
      · refine ⟨a, by simp [sift_up, hfa, hx, hy, hxy], rfl, hfill, List.Perm.refl _,
          fun _ _ => rfl, ?_⟩
        intro hf h1 _ i hi2 hin
        by_cases c : i = son
        · subst c
          intro u v hu hv
          rw [hx] at hu; rw [hy] at hv
          cases hu; cases hv
          exact not_lt.1 (fun hlt => hxy ((hf _ _).2 hlt))
        · exact h1 i hi2 hin c
    · refine ⟨a, by simp [sift_up, hfa], rfl, hfill, List.Perm.refl _, fun _ _ => rfl, ?_⟩
      intro _ h1 _ i hi2 hin
      exact h1 i hi2 hin (by omega)

end sift

section sift_down
variable {α K : Type} [LinearOrder K]

/-- The sift-down loop returns, permutes `a[1..n]`, leaves the other slots
alone, and restores heap order when the sons of `father` were its only
violations. -/
theorem sift_down_spec (key : α → K) (f : α → α → Int)
    (hf : ∀ x y, 0 < f x y ↔ key y < key x) (n : Nat) :
    ∀ (fuel : Nat) (a : List (Option α)) (father : Nat), 1 ≤ father → father ≤ n + 1 →
      n + 2 ≤ fuel + father → filled a n → (∃ x, rd a father = some x) →
      ∃ b, sift_down f n fuel a father = some b ∧ b.length = a.length ∧ filled b n ∧
        (ents b n).Perm (ents a n) ∧ (∀ k, n < k → rd b k = rd a k) ∧
        ((∀ i, 2 ≤ i → i ≤ n → i / 2 ≠ father → le_at key a (i / 2) i) →
         (∀ i, 2 ≤ i → i ≤ n → i / 2 = father → 2 ≤ father → le_at key a (father / 2) i) →
         ordered key b n) := by
  intro fuel
  induction fuel with
  | zero => intro a father h1 h2 h3; omega
  | succ fuel ih =>
    intro a father hf1 hfn hfuel hfill ⟨x, hx⟩
    have hex : ∀ k, k = father ∨ (1 ≤ k ∧ k ≤ n) → ∃ z, rd a k = some z := by
      rintro k (rfl | ⟨h1, h2⟩)
      · exact ⟨x, hx⟩
      · exact hfill k h1 h2
    obtain ⟨l, hl⟩ := hex (if n < father * 2 then father else father * 2)
      (by split_ifs <;> omega)
    obtain ⟨r, hr⟩ := hex (if n < father * 2 + 1 then father else father * 2 + 1)
      (by split_ifs <;> omega)
    obtain ⟨y, hy⟩ := hex (if 0 < f l r then (if n < father * 2 + 1 then father else father * 2 + 1)
      else (if n < father * 2 then father else father * 2)) (by split_ifs <;> omega)
    by_cases hxy : 0 < f x y
    · have hkey : key y < key x := (hf x y).1 hxy
      -- the chosen son is a real son
      have hson : (if 0 < f l r then (if n < father * 2 + 1 then father else father * 2 + 1)
          else (if n < father * 2 then father else father * 2)) ≠ father := by
        intro e
        rw [e, hx] at hy
        cases hy
        exact lt_irrefl _ hkey
      generalize hs : (if 0 < f l r then (if n < father * 2 + 1 then father else father * 2 + 1)
          else (if n < father * 2 then father else father * 2)) = son at hy hson
      have hson2 : son / 2 = father ∧ son ≤ n ∧ father < son := by
        rw [← hs] at hson ⊢
        split_ifs at hson ⊢ <;> omega
      obtain ⟨hs2, hsn, hfs⟩ := hson2
      have hstep : sift_down f n (fuel + 1) a father =
          sift_down f n fuel ((a.set father (some y)).set son (some x)) son := by
        simp only [sift_down, hl, hr, hs, hx, hy, hxy, if_true]
      have hsw := rd_swap a father son x y hx hy
      have hfill2 := filled_swap a _ n father son hf1 (by omega) (by omega) hsn hsw hfill
      obtain ⟨b, hb, hlen, hfb, hperm, hframe, hord⟩ :=
        ih ((a.set father (some y)).set son (some x)) son (by omega) (by omega) (by omega) hfill2
          (hfill2 son (by omega) hsn)
      have hat := rd_swap_cases a father son x y hx hy (by omega)
      refine ⟨b, by rw [hstep, hb], by rw [hlen]; simp, hfb,
        hperm.trans (ents_perm_of_swap a _ n father son hf1 (by omega) (by omega) hsn hsw),
        ?_, ?_⟩
      · intro k hk
        rw [hframe k hk, hsw k, Equiv.swap_apply_def]
        have h1 : k ≠ father := by omega
        have h2 : k ≠ son := by omega
        simp [h1, h2]
      · intro h1 h2
        -- the other son of `father` has a key at least `key y`
        have hsib : ∀ i, 2 ≤ i → i ≤ n → i / 2 = father → i ≠ son → ∀ v, rd a i = some v →
            key y ≤ key v := by
          intro i hi2 hin hif hne v hv
          by_cases c : 0 < f l r
          · have hlr : key r < key l := (hf l r).1 c
            simp only [c, if_true] at hs
            have e1 : son = father * 2 + 1 := by
              rw [← hs]; split_ifs <;> first | rfl | omega
            have e2 : i = father * 2 := by omega
            have hn2 : ¬ n < father * 2 := by omega
            have hn3 : ¬ n < father * 2 + 1 := by omega
            simp only [hn2, if_false] at hl
            simp only [hn3, if_false] at hr
            rw [e2, hl] at hv
            rw [e1, hr] at hy
            cases hv; cases hy
            exact le_of_lt hlr
          · have hlr : key l ≤ key r := not_lt.1 (fun hlt => c ((hf l r).2 hlt))
            simp only [c, if_false] at hs
            have e1 : son = father * 2 := by
              rw [← hs]; split_ifs <;> first | rfl | omega
            have e2 : i = father * 2 + 1 := by omega
            have hn2 : ¬ n < father * 2 := by omega
            have hn3 : ¬ n < father * 2 + 1 := by omega
            simp only [hn2, if_false] at hl
            simp only [hn3, if_false] at hr
            rw [e2, hr] at hv
            rw [e1, hl] at hy
            cases hv; cases hy
            exact hlr
        apply hord
        · intro i hi2 hin hne u v hu hv
          rcases hat _ _ hu with ⟨e1, rfl⟩ | ⟨e1, rfl⟩ | ⟨e1, e2, hu'⟩
          · rcases hat _ _ hv with ⟨e3, rfl⟩ | ⟨e3, rfl⟩ | ⟨e3, e4, hv'⟩
            · omega
            · exact le_of_lt hkey
            · exact hsib i hi2 hin e1 e4 v hv'
          · exact absurd e1 hne
          · rcases hat _ _ hv with ⟨e3, rfl⟩ | ⟨e3, rfl⟩ | ⟨e3, e4, hv'⟩
            · have := h2 son (by omega) hsn hs2 (by omega) u y (by rw [← e3]; exact hu') hy
              exact this
            · omega
            · exact h1 i hi2 hin e1 u v hu' hv'
        · intro i hi2 hin hpar hge u v hu hv
          rcases hat _ _ hu with ⟨e1, rfl⟩ | ⟨e1, rfl⟩ | ⟨e1, e2, hu'⟩
          · rcases hat _ _ hv with ⟨e3, rfl⟩ | ⟨e3, rfl⟩ | ⟨e3, e4, hv'⟩
            · omega
            · omega
            · exact h1 i hi2 hin (by omega) y v (hpar ▸ hy) hv'
          · omega
          · omega
    · have hkey : key x ≤ key y := not_lt.1 (fun hlt => hxy ((hf x y).2 hlt))
      refine ⟨a, by simp only [sift_down, hl, hr, hx, hy, hxy, if_false], rfl, hfill,
        List.Perm.refl _, fun _ _ => rfl, ?_⟩
      intro h1 _ i hi2 hin
      by_cases c : i / 2 = father
      · intro u v hu hv
        rw [c, hx] at hu
        cases hu
        have hn2 : ¬ n < father * 2 := by omega
        simp only [hn2, if_false] at hl hy
        by_cases c2 : 0 < f l r
        · have hlr : key r < key l := (hf l r).1 c2
          simp only [c2, if_true] at hy
          by_cases c3 : n < father * 2 + 1
          · simp only [c3, if_true] at hy hr
            have e2 : i = father * 2 := by omega
            rw [e2, hl] at hv
            cases hv
            rw [hx] at hr
            cases hr
            exact le_of_lt hlr
          · simp only [c3, if_false] at hy hr
            rw [hr] at hy
            cases hy
            rcases (by omega : i = father * 2 ∨ i = father * 2 + 1) with e2 | e2
            · rw [e2, hl] at hv; cases hv
              exact le_trans hkey (le_of_lt hlr)
            · rw [e2, hr] at hv; cases hv
              exact hkey
        · have hlr : key l ≤ key r := not_lt.1 (fun hlt => c2 ((hf l r).2 hlt))
          simp only [c2, if_false] at hy
          rw [hl] at hy
          cases hy
          rcases (by omega : i = father * 2 ∨ i = father * 2 + 1) with e2 | e2
          · rw [e2, hl] at hv; cases hv
            exact hkey
          · have c3 : ¬ n < father * 2 + 1 := by omega
            simp only [c3, if_false] at hr
            rw [e2, hr] at hv; cases hv
            exact le_trans hkey hlr
      · exact h1 i hi2 hin c

end sift_down

/-! ## heap_add and heap_pop on a well-formed heap -/

section heapops
variable {α K : Type} [LinearOrder K]

theorem realloc_length (a : List (Option α)) (k : Nat) (h : a.length ≤ k) :
    (realloc (some a) k).length = k := by
  simp [realloc, List.length_take, Nat.min_eq_right h]
  omega

theorem realloc_rd (a : List (Option α)) (k : Nat) (h : a.length ≤ k) (i : Nat) :
    rd (realloc (some a) k) i = rd a i := by
  have e : (realloc (some a) k) = a ++ List.replicate (k - a.length) none := by
    simp [realloc, List.take_of_length_le h]
  rw [e]
  unfold rd
  by_cases hi : i < a.length
  · rw [List.getElem?_append_left hi]
  · rw [List.getElem?_append_right (by omega), List.getElem?_eq_none (Nat.le_of_not_lt hi),
      List.getElem?_replicate]
    split_ifs <;> rfl

theorem filled_congr (a b : List (Option α)) (n : Nat) (h : ∀ k, 1 ≤ k → k ≤ n → rd b k = rd a k)
    (hf : filled a n) : filled b n := by
  intro k h1 h2
  rw [h k h1 h2]
  exact hf k h1 h2

theorem ordered_congr (key : α → K) (a b : List (Option α)) (n : Nat)
    (h : ∀ k, 1 ≤ k → k ≤ n → rd b k = rd a k) (ho : ordered key a n) : ordered key b n := by
  intro i hi2 hin u v hu hv
  rw [h (i / 2) (by omega) (by omega)] at hu
  rw [h i (by omega) hin] at hv
  exact ho i hi2 hin u v hu hv

/-- Storing `e` in slot `n + 1` and sifting it up. -/
theorem store_sift (key : α → K) (f : α → α → Int)
    (a : List (Option α)) (n : Nat) (hlen : n + 1 < a.length) (hfill : filled a n) (e : α) :
    ∃ a1 b, wr a (n + 1) e = some a1 ∧ sift_up f (n + 1) a1 (n + 1) = some b ∧
      b.length = a.length ∧ filled b (n + 1) ∧ (ents b (n + 1)).Perm (ents a n ++ [some e]) ∧
      ((∀ x y, 0 < f x y ↔ key y < key x) → ordered key a n → ordered key b (n + 1)) := by
  have hrd : ∀ k, rd (a.set (n + 1) (some e)) k = if k = n + 1 then some e else rd a k :=
    fun k => rd_set a (n + 1) k e hlen
  have hfill1 : filled (a.set (n + 1) (some e)) (n + 1) := by
    intro k h1 h2
    rw [hrd k]
    by_cases c : k = n + 1
    · exact ⟨e, by simp [c]⟩
    · simp only [c, if_false]; exact hfill k h1 (by omega)
  obtain ⟨b, hb, hlenb, hfb, hperm, _, hord⟩ :=
    sift_up_spec key f (n + 1) (n + 1) (a.set (n + 1) (some e)) (n + 1) (le_refl _) (le_refl _)
      hfill1
  refine ⟨a.set (n + 1) (some e), b, by simp [wr, hlen], hb, by rw [hlenb]; simp, hfb, ?_, ?_⟩
  · refine hperm.trans ?_
    rw [ents_succ, hrd (n + 1)]
    simp only [if_true]
    rw [ents_congr a (a.set (n + 1) (some e)) n]
    intro k _ h2
    rw [hrd k]
    have : k ≠ n + 1 := by omega
    simp [this]
  · intro hf ho
    apply hord hf
    · intro i hi2 hin hne u v hu hv
      rw [hrd] at hu hv
      have c1 : ¬ i / 2 = n + 1 := by omega
      simp only [c1, hne, if_false] at hu hv
      exact ho i hi2 (by omega) u v hu hv
    · intro i hi2 hin hpar; omega

/-- What `heap_add` does on a well-formed heap: it reports failure and changes
nothing exactly when the heap is full and `realloc` fails; otherwise the entry is
stored, `n` grows by one, and heap order is kept. -/
theorem heap_add_spec (key : α → K) (h : heap α)
    (hwf : heap_wf h) (e : α) (ok : Bool) :
    (h.n = h.nmax ∧ (ok = false ∨ INT_MAX < h.nmax * 2) ∧ heap_add h e ok = some (true, h)) ∨
    (¬ (h.n = h.nmax ∧ (ok = false ∨ INT_MAX < h.nmax * 2)) ∧
      ∃ h1, heap_add h e ok = some (false, h1) ∧ h1.f = h.f ∧ h1.n = h.n + 1 ∧ heap_wf h1 ∧
        (h1.nmax = h.nmax ∨ (h.n = h.nmax ∧ h1.nmax = h.nmax * 2)) ∧
        (entries h1).Perm (entries h ++ [some e]) ∧
        ((∀ x y, 0 < h.f x y ↔ key y < key x) →
          ordered key (h.array.getD []) h.n → ordered key (h1.array.getD []) h1.n)) := by
  obtain ⟨a, ha, hlen, hn, hmax, hfill⟩ := hwf
  by_cases hfull : h.n = h.nmax
  · by_cases hok : ok = true ∧ h.nmax * 2 ≤ INT_MAX
    · right
      refine ⟨by rintro ⟨_, h1 | h1⟩ <;> simp_all; omega, ?_⟩
      have hl2 : h.n + 1 < (realloc (some a) (h.nmax * 2 + 1)).length := by
        rw [realloc_length a _ (by omega)]; omega
      have hrr := realloc_rd a (h.nmax * 2 + 1) (by omega)
      obtain ⟨a1, b, h1, h2, h3, h4, h5, h6⟩ := store_sift key h.f _ h.n hl2
        (filled_congr a _ h.n (fun k _ _ => hrr k) hfill) e
      refine ⟨{ h with array := some b, n := h.n + 1, nmax := h.nmax * 2 }, ?_, rfl, rfl,
        ⟨b, rfl, ?_, ?_, ?_, h4⟩, Or.inr ⟨hfull, rfl⟩, ?_, ?_⟩
      · simp only [heap_add, hfull, hok, ha, and_self, if_true]
        simp only [hfull] at h1 h2
        simp [h1, h2]
      · rw [h3, realloc_length a _ (by omega)]
      · simp only; omega
      · simp only; omega
      · simp only [entries, ha, Option.getD_some]
        rw [← ents_congr a _ h.n (fun k _ _ => hrr k)]
        exact h5
      · simp only [ha, Option.getD_some]
        intro hf ho
        exact h6 hf (ordered_congr key a _ h.n (fun k _ _ => hrr k) ho)
    · left
      refine ⟨hfull, ?_, ?_⟩
      · by_cases c : ok = true
        · right; simp only [c, true_and, not_le] at hok; exact hok
        · left; simpa using c
      · simp only [heap_add, hfull, hok, if_true, if_false]
  · right
    refine ⟨fun c => hfull c.1, ?_⟩
    obtain ⟨a1, b, h1, h2, h3, h4, h5, h6⟩ := store_sift key h.f a h.n (by omega) hfill e
    refine ⟨{ h with array := some b, n := h.n + 1 }, ?_, rfl, rfl,
      ⟨b, rfl, ?_, ?_, hmax, h4⟩, Or.inl rfl, ?_, ?_⟩
    · simp only [heap_add, hfull, if_false, ha]
      simp [h1, h2]
    · rw [h3, hlen]
    · simp only; omega
    · simp only [entries, ha, Option.getD_some]
      exact h5
    · simp only [ha, Option.getD_some]
      exact h6

end heapops

section heappop
variable {α K : Type} [LinearOrder K]

/-- In a heap-ordered array the root has the least key. -/
theorem ordered_root_le (key : α → K) (a : List (Option α)) (n : Nat) (hfill : filled a n)
    (ho : ordered key a n) : ∀ i, 1 ≤ i → i ≤ n → le_at key a 1 i := by
  intro i
  induction i using Nat.strong_induction_on with
  | _ i ih =>
    intro h1 hn u v hu hv
    by_cases c : i = 1
    · subst c
      rw [hu] at hv
      cases hv
      exact le_refl _
    · obtain ⟨w, hw⟩ := hfill (i / 2) (by omega) (by omega)
      exact le_trans (ih (i / 2) (by omega) (by omega) (by omega) u w hu hw)
        (ho i (by omega) hn w v hw hv)

/-- What `heap_pop` does on a non-empty well-formed heap: it returns the entry
of slot 1, `n` drops by one, the remaining entries are the others, and heap
order is kept. -/
theorem heap_pop_spec (key : α → K) (h : heap α) (hf : ∀ x y, 0 < h.f x y ↔ key y < key x)
    (hwf : heap_wf h) (hn : 1 ≤ h.n) :
    ∃ x h1, heap_pop h = some (some x, h1) ∧ rd (h.array.getD []) 1 = some x ∧
      h1.f = h.f ∧ h1.n + 1 = h.n ∧ h1.nmax = h.nmax ∧ heap_wf h1 ∧
      (some x :: entries h1).Perm (entries h) ∧
      (ordered key (h.array.getD []) h.n → ordered key (h1.array.getD []) h1.n) := by
  obtain ⟨a, ha, hlen, hnm, hmax, hfill⟩ := hwf
  obtain ⟨sw, hsw⟩ := hfill h.n hn (le_refl _)
  obtain ⟨top, htop⟩ := hfill 1 (le_refl _) hn
  have hs := rd_swap a h.n 1 sw top hsw htop
  have hdel : rd ((a.set h.n (some top)).set 1 (some sw)) h.n = some top := by
    rw [hs, Equiv.swap_apply_left, htop]
  have hfill1 : filled ((a.set h.n (some top)).set 1 (some sw)) h.n :=
    filled_swap a _ h.n h.n 1 hn (le_refl _) (le_refl _) hn hs hfill
  have hfill2 : filled ((a.set h.n (some top)).set 1 (some sw)) (h.n - 1) :=
    fun k h1 h2 => hfill1 k h1 (by omega)
  obtain ⟨b, hb, hlenb, hfb, hperm, _, hord⟩ :=
    sift_down_spec key h.f hf (h.n - 1) (h.n - 1 + 1) ((a.set h.n (some top)).set 1 (some sw)) 1
      (le_refl _) (by omega) (by omega) hfill2 (hfill1 1 (le_refl _) hn)
  have hn0 : ¬ h.n = 0 := by omega
  refine ⟨top, { h with array := some b, n := h.n - 1 }, ?_, by simp [ha, htop], rfl,
    by simp only; omega, rfl, ⟨b, rfl, ?_, ?_, hmax, hfb⟩, ?_, ?_⟩
  · simp only [heap_pop, ha, hn0, if_false, hsw, htop, hdel, hb]
  · rw [hlenb]; simpa using hlen
  · simp only; omega
  · simp only [entries, ha, Option.getD_some]
    have e1 : ents ((a.set h.n (some top)).set 1 (some sw)) h.n =
        ents ((a.set h.n (some top)).set 1 (some sw)) (h.n - 1) ++ [some top] := by
      have : h.n = (h.n - 1) + 1 := by omega
      rw [this, ents_succ, ← this, hdel]
    have p1 := ents_perm_of_swap a _ h.n h.n 1 hn (le_refl _) (le_refl _) hn hs
    rw [e1] at p1
    refine List.Perm.trans ?_ p1
    refine List.Perm.trans (List.Perm.cons _ hperm) ?_
    exact (List.perm_append_singleton _ _).symm
  · simp only [ha, Option.getD_some]
    intro ho
    apply hord
    · intro i hi2 hin hne u v hu hv
      rw [hs, Equiv.swap_apply_def] at hu hv
      have c1 : ¬ i / 2 = h.n := by omega
      have c2 : ¬ i / 2 = 1 := hne
      have c3 : ¬ i = h.n := by omega
      have c4 : ¬ i = 1 := by omega
      simp only [c1, c2, c3, c4, if_false] at hu hv
      exact ho i hi2 (by omega) u v hu hv
    · intro i _ _ _ h2; omega

end heappop

/-! ## The heap contract -/

theorem heap_create_wf {α : Type} (k : Nat) (hk : 1 ≤ k) (f : α → α → Int) :
    heap_wf (heap_create k f true) :=
  ⟨List.replicate (k + 1) none, rfl, by simp [heap_create], Nat.zero_le _, hk, fun i h1 h2 => by
    simp only [heap_create] at h2; omega⟩

section heapclaims
variable {α : Type} [scored α]

theorem heap_add_all_spec : ∀ (xs : List α) (h : heap α), heap_wf h → h.f = fcmp_nodescore →
    heap_ordered h →
    ∃ r, heap_add_all h xs = some r ∧ (2 * (h.n + xs.length) ≤ INT_MAX → r.1 = false) ∧
      (r.1 = false → heap_wf r.2 ∧ r.2.f = fcmp_nodescore ∧ heap_ordered r.2 ∧
        (entries r.2).Perm (entries h ++ xs.map some)) := by
  intro xs
  induction xs with
  | nil =>
    intro h hwf hf ho
    exact ⟨(false, h), rfl, fun _ => rfl, fun _ => ⟨hwf, hf, ho, by simp⟩⟩
  | cons x xs ih =>
    intro h hwf hf ho
    rcases heap_add_spec score_val h hwf x true with ⟨h1, h2, h3⟩ | ⟨_, h1, h2, h3, h4, h5, _, h7, h8⟩
    · refine ⟨(true, h), by simp [heap_add_all, h3], ?_, by simp⟩
      intro hb
      simp only [List.length_cons] at hb
      obtain ⟨_, _, _, hnm, _, _⟩ := hwf
      rcases h2 with h2 | h2
      · simp at h2
      · omega
    · have hf1 : h1.f = fcmp_nodescore := by rw [h3, hf]
      have ho1 : heap_ordered h1 :=
        h8 (by rw [hf]; exact fun x y => fcmp_nodescore_pos x y) ho
      obtain ⟨r, hr1, hr2, hr3⟩ := ih h1 h5 hf1 ho1
      refine ⟨r, by simp [heap_add_all, h2, hr1], ?_, ?_⟩
      · intro hb
        apply hr2
        simp only [List.length_cons] at hb
        omega
      · intro hr
        obtain ⟨a1, a2, a3, a4⟩ := hr3 hr
        refine ⟨a1, a2, a3, a4.trans ?_⟩
        simp only [List.map_cons]
        rw [show entries h ++ some x :: List.map some xs = (entries h ++ [some x]) ++ List.map some xs
          by simp]
        exact List.Perm.append_right _ h7

theorem heap_pop_all_spec : ∀ (n : Nat) (h : heap α), h.n = n → heap_wf h →
    h.f = fcmp_nodescore → heap_ordered h →
    ∃ ys : List α, (∀ fuel, n < fuel → heap_pop_all fuel h = some (ys.map some)) ∧
      (ys.map some).Perm (entries h) ∧ ys.Pairwise (fun a b => score_val a ≤ score_val b) := by
  intro n
  induction n with
  | zero =>
    intro h hn _ _ _
    refine ⟨[], ?_, by simp [entries, ents, hn], List.Pairwise.nil⟩
    intro fuel hfuel
    obtain ⟨f, rfl⟩ : ∃ f, fuel = f + 1 := ⟨fuel - 1, by omega⟩
    simp [heap_pop_all, heap_empty, hn]
  | succ n ih =>
    intro h hn hwf hf ho
    have hfp : ∀ x y, 0 < h.f x y ↔ score_val y < score_val x := by
      rw [hf]; exact fun x y => fcmp_nodescore_pos x y
    obtain ⟨x, h1, p1, p2, p3, p4, _, p6, p7, p8⟩ := heap_pop_spec score_val h hfp hwf (by omega)
    obtain ⟨ys, q1, q2, q3⟩ := ih h1 (by omega) p6 (by rw [p3, hf]) (p8 ho)
    obtain ⟨a, ha, _, _, _, hfill⟩ := hwf
    refine ⟨x :: ys, ?_, ?_, ?_⟩
    · intro fuel hfuel
      obtain ⟨f, rfl⟩ : ∃ f, fuel = f + 1 := ⟨fuel - 1, by omega⟩
      have hne : heap_empty h = false := by simp [heap_empty, hn, ha]
      simp [heap_pop_all, hne, p1, q1 f (by omega)]
    · simp only [List.map_cons]
      exact (List.Perm.cons _ q2).trans p7
    · refine List.Pairwise.cons ?_ q3
      intro y hy
      have hy1 : some y ∈ entries h := by
        apply p7.mem_iff.1
        exact List.mem_cons_of_mem _ (q2.mem_iff.1 (List.mem_map_of_mem _ hy))
      simp only [entries, ha, Option.getD_some, ents, List.mem_map, List.mem_range'_1] at hy1
      obtain ⟨i, ⟨hi1, hi2⟩, hi3⟩ := hy1
      simp only [ha, Option.getD_some] at p2
      exact ordered_root_le score_val a h.n hfill (by simpa [heap_ordered, ha] using ho) i hi1
        (by omega) x y p2 hi3

end heapclaims

/-! ## Lemmas on two-dimensional arrays -/

theorem get2_some {m : List (List Int)} {p : position} {v : Int} (h : get2 m p = some v) :
    0 ≤ p.x ∧ 0 ≤ p.y ∧ ∃ row, m[p.x.toNat]? = some row ∧ row[p.y.toNat]? = some v := by
  unfold get2 at h
  split_ifs at h with hc
  cases hr : m[p.x.toNat]? with
  | none => simp [hr] at h
  | some row =>
    simp only [hr] at h
    exact ⟨hc.1, hc.2, row, rfl, h⟩

theorem get2_of_row {m : List (List Int)} {p : position} {row : List Int} (hx : 0 ≤ p.x)
    (hy : 0 ≤ p.y) (hr : m[p.x.toNat]? = some row) : get2 m p = row[p.y.toNat]? := by
  simp [get2, hx, hy, hr]

theorem get2_in_range {m : List (List Int)} {X Y : Nat} (hs : shape m X Y) {p : position} {v : Int}
    (h : get2 m p = some v) : 0 ≤ p.x ∧ p.x < X ∧ 0 ≤ p.y ∧ p.y < Y := by
  obtain ⟨hx, hy, row, hr, hv⟩ := get2_some h
  have h1 : p.x.toNat < m.length := by
    by_contra hc
    rw [List.getElem?_eq_none (Nat.le_of_not_lt hc)] at hr
    cases hr
  have hmem : row ∈ m := List.mem_iff_getElem?.2 ⟨_, hr⟩
  have h2 : p.y.toNat < row.length := by
    by_contra hc
    rw [List.getElem?_eq_none (Nat.le_of_not_lt hc)] at hv
    cases hv
  rw [hs.1] at h1
  rw [hs.2 row hmem] at h2
  omega

theorem get2_of_in_range {m : List (List Int)} {X Y : Nat} (hs : shape m X Y) {p : position}
    (h : 0 ≤ p.x ∧ p.x < X ∧ 0 ≤ p.y ∧ p.y < Y) : ∃ v, get2 m p = some v := by
  obtain ⟨hx, hx2, hy, hy2⟩ := h
  have h1 : p.x.toNat < m.length := by rw [hs.1]; omega
  have hr : m[p.x.toNat]? = some m[p.x.toNat] := List.getElem?_eq_getElem h1
  have hmem : m[p.x.toNat] ∈ m := List.getElem_mem _
  have h2 : p.y.toNat < (m[p.x.toNat]).length := by rw [hs.2 _ hmem]; omega
  exact ⟨_, by rw [get2_of_row hx hy hr, List.getElem?_eq_getElem h2]⟩

theorem set2_some {m : List (List Int)} {p : position} {v : Int} {m1 : List (List Int)}
    (h : set2 m p v = some m1) :
    0 ≤ p.x ∧ 0 ≤ p.y ∧ ∃ row, m[p.x.toNat]? = some row ∧ p.y.toNat < row.length ∧
      m1 = m.set p.x.toNat (row.set p.y.toNat v) := by
  unfold set2 at h
  split_ifs at h with hc
  cases hr : m[p.x.toNat]? with
  | none => simp [hr] at h
  | some row =>
    simp only [hr] at h
    split_ifs at h with hy
    exact ⟨hc.1, hc.2, row, rfl, hy, (Option.some.inj h).symm⟩

theorem set2_of_get2 {m : List (List Int)} {p : position} {u : Int} (v : Int)
    (h : get2 m p = some u) : ∃ m1, set2 m p v = some m1 := by
  obtain ⟨hx, hy, row, hr, hv⟩ := get2_some h
  have h2 : p.y.toNat < row.length := by
    by_contra hc
    rw [List.getElem?_eq_none (Nat.le_of_not_lt hc)] at hv
    cases hv
  exact ⟨m.set p.x.toNat (row.set p.y.toNat v), by simp [set2, hx, hy, hr, h2]⟩

theorem get2_set2 {m : List (List Int)} {p : position} {v : Int} {m1 : List (List Int)}
    (h : set2 m p v = some m1) (q : position) :
    get2 m1 q = if q = p then some v else get2 m q := by
  obtain ⟨hx, hy, row, hr, hlen, rfl⟩ := set2_some h
  have h1 : p.x.toNat < m.length := by
    by_contra hc
    rw [List.getElem?_eq_none (Nat.le_of_not_lt hc)] at hr
    cases hr
  by_cases hq : q = p
  · subst hq
    simp only [if_true]
    rw [get2_of_row hx hy (List.getElem?_set_self h1), List.getElem?_set_self hlen]
  · simp only [hq, if_false]
    by_cases hqx : 0 ≤ q.x ∧ 0 ≤ q.y
    · by_cases hxx : q.x = p.x
      · have hyy : q.y ≠ p.y := by
          intro e
          apply hq
          cases q; cases p; simp_all
        have e1 : (m.set p.x.toNat (row.set p.y.toNat v))[q.x.toNat]? =
            some (row.set p.y.toNat v) := by rw [hxx]; exact List.getElem?_set_self h1
        have e2 : m[q.x.toNat]? = some row := by rw [hxx]; exact hr
        rw [get2_of_row hqx.1 hqx.2 e1, get2_of_row hqx.1 hqx.2 e2,
          List.getElem?_set_ne (by omega)]
      · have hne : p.x.toNat ≠ q.x.toNat := by omega
        simp only [get2, hqx, and_self, if_true, List.getElem?_set_ne hne]
    · simp [get2, hqx]

theorem shape_set2 {m : List (List Int)} {X Y : Nat} (hs : shape m X Y) {p : position} {v : Int}
    {m1 : List (List Int)} (h : set2 m p v = some m1) : shape m1 X Y := by
  obtain ⟨_, _, row, hr, _, rfl⟩ := set2_some h
  refine ⟨by rw [List.length_set]; exact hs.1, ?_⟩
  intro r hr2
  rcases List.mem_or_eq_of_mem_set hr2 with h1 | h1
  · exact hs.2 r h1
  · rw [h1, List.length_set]
    exact hs.2 row (List.mem_iff_getElem?.2 ⟨_, hr⟩)

theorem sum_set_nat : ∀ (l : List Nat) (i : Nat) (a b : Nat), l[i]? = some b →
    (l.set i a).sum + b = l.sum + a := by
  intro l
  induction l with
  | nil => intro i a b h; simp at h
  | cons x xs ih =>
    intro i a b h
    cases i with
    | zero =>
      simp only [List.getElem?_cons_zero, Option.some.injEq] at h
      subst h
      simp only [List.set_cons_zero, List.sum_cons]
      omega
    | succ i =>
      simp only [List.getElem?_cons_succ] at h
      have := ih i a b h
      simp only [List.set_cons_succ, List.sum_cons]
      omega

theorem nulls_set2 {m : List (List Int)} {p : position} {v : Int} {m1 : List (List Int)}
    (h : set2 m p v = some m1) (hv : v ≠ M_NULL) :
    nulls m1 + (if get2 m p = some M_NULL then 1 else 0) = nulls m := by
  obtain ⟨hx, hy, row, hr, hlen, rfl⟩ := set2_some h
  have hg : get2 m p = some row[p.y.toNat] := by
    rw [get2_of_row hx hy hr, List.getElem?_eq_getElem hlen]
  have hcnt := List.count_set v M_NULL row p.y.toNat hlen
  have hle : (if row[p.y.toNat] == M_NULL then 1 else 0) ≤ row.count M_NULL := by
    have := List.boole_getElem_le_countP (fun x => x == M_NULL) row p.y.toNat hlen
    simpa [List.count_eq_countP] using this
  have hvb : (v == M_NULL) = false := by simpa using hv
  simp only [hvb, Bool.false_eq_true, if_false, Nat.add_zero] at hcnt
  have hsum := sum_set_nat (m.map (fun row => row.count M_NULL)) p.x.toNat
    ((row.set p.y.toNat v).count M_NULL) (row.count M_NULL) (by simp [hr])
  unfold nulls
  rw [List.map_set, hg]
  by_cases hc : row[p.y.toNat] = M_NULL
  · simp only [hc, if_true] at hle hcnt ⊢
    simp only [beq_self_eq_true, if_true] at hle hcnt
    omega
  · have hcb : (row[p.y.toNat] == M_NULL) = false := by simpa using hc
    simp only [hcb, Bool.false_eq_true, if_false, Nat.sub_zero] at hcnt
    simp only [Option.some.injEq, hc, if_false]
    omega

/-- A property of all cells of an array follows from checking it index by
index. -/
theorem get2_forall (m : List (List Int)) (P : position → Int → Prop)
    (h : ∀ i, i < m.length → ∀ j, j < (m.getD i []).length →
      P ⟨(i : Int), (j : Int)⟩ ((m.getD i []).getD j 0)) :
    ∀ p v, get2 m p = some v → P p v := by
  intro p v hg
  obtain ⟨hx, hy, row, hr, hv⟩ := get2_some hg
  have h1 : p.x.toNat < m.length := by
    by_contra hc
    rw [List.getElem?_eq_none (Nat.le_of_not_lt hc)] at hr
    cases hr
  have e1 : m.getD p.x.toNat [] = row := by simp [List.getD, hr]
  have h2 : p.y.toNat < row.length := by
    by_contra hc
    rw [List.getElem?_eq_none (Nat.le_of_not_lt hc)] at hv
    cases hv
  have e2 : row.getD p.y.toNat 0 = v := by simp [List.getD, hv]
  have := h p.x.toNat h1 p.y.toNat (by rw [e1]; exact h2)
  rw [e1, e2, Int.toNat_of_nonneg hx, Int.toNat_of_nonneg hy] at this
  exact this

/-! ## The sequential search: one expansion -/

theorem set_mark_eq {G : grid} {p : position} {v : Int} {m : List (List Int)}
    (h : set2 G.mark p v = some m) : set_mark G p v = some { G with mark := m } := by
  simp [set_mark, h]

theorem interior_not_wall {G0 : grid} (hb : wall_border G0) {p : position} {v : Int}
    (hin : in_grid G0 p) (hv : get2 G0.value p = some v) (hw : v ≠ V_WALL) : interior G0 p := by
  unfold interior
  unfold in_grid at hin
  by_contra hc
  have : p.x = 0 ∨ p.y = 0 ∨ p.x = (G0.X : Int) - 1 ∨ p.y = (G0.Y : Int) - 1 := by omega
  have := hb p hin this
  rw [hv] at this
  exact hw (Option.some.inj this)

theorem weight_some {v : Int} (h : 0 ≤ v ∧ v ≤ 6) : ∃ w, weight v = some w := by
  obtain ⟨h0, h6⟩ := h
  have : v = 0 ∨ v = 1 ∨ v = 2 ∨ v = 3 ∨ v = 4 ∨ v = 5 ∨ v = 6 := by omega
  rcases this with rfl | rfl | rfl | rfl | rfl | rfl | rfl <;> exact ⟨_, rfl⟩

/-- One run of the neighbour loops keeps the loop invariant, turns only
`M_NULL` marks into `M_FRONT` (adding an entry for each), leaves no open
neighbour `M_NULL`, and fails only when the heap cannot grow. -/
theorem expand_spec (G0 : grid) (hwf : grid_wf G0) (hb : wall_border G0) (mem : Nat → Bool)
    (h : heuristic) (s u : node) (hu : good G0 s u) :
    ∀ (l : List (Int × Int)), (∀ o ∈ l, -1 ≤ o.1 ∧ o.1 ≤ 1 ∧ -1 ≤ o.2 ∧ o.2 ≤ 1) →
    ∀ (G : grid) (Q : heap node), seq_inv G0 s G Q → get2 G.mark u.pos = some M_USED →
      (∃ m, expand mem h u l G Q = .ret (of_int (-1), m) ∧
        ((∀ k, mem k = true) → 2 * (Q.n + nulls G.mark) ≤ INT_MAX → False)) ∨
      (∃ G1 Q1, expand mem h u l G Q = .next (G1, Q1) ∧ seq_inv G0 s G1 Q1 ∧
        Q1.n + nulls G1.mark = Q.n + nulls G.mark ∧ nulls G1.mark ≤ nulls G.mark ∧
        (∀ q mk, get2 G.mark q = some mk → mk ≠ M_NULL → get2 G1.mark q = some mk) ∧
        (∀ q, get2 G.mark q = some M_NULL → get2 G1.mark q = some M_NULL ∨
          (get2 G1.mark q = some M_FRONT ∧ ∃ n, some n ∈ entries Q1 ∧ n.pos = q)) ∧
        (∀ n, some n ∈ entries Q → some n ∈ entries Q1) ∧
        (∀ o ∈ l, open_cell G0 ⟨u.pos.x + o.1, u.pos.y + o.2⟩ →
          get2 G1.mark ⟨u.pos.x + o.1, u.pos.y + o.2⟩ ≠ some M_NULL)) := by
  intro l
  induction l with
  | nil =>
    intro _ G Q hinv _
    right
    exact ⟨G, Q, rfl, hinv, rfl, le_refl _, fun _ _ hq _ => hq, fun _ hq => Or.inl hq,
      fun _ hn => hn, fun o ho => by cases ho⟩
  | cons o rest ih =>
    intro hl G Q hinv hused
    obtain ⟨x, y⟩ := o
    have hxy := hl (x, y) (List.mem_cons_self _ _)
    simp only at hxy
    have hrest : ∀ o ∈ rest, -1 ≤ o.1 ∧ o.1 ≤ 1 ∧ -1 ≤ o.2 ∧ o.2 ≤ 1 :=
      fun o ho => hl o (List.mem_cons_of_mem _ ho)
    obtain ⟨hui, hup, huc⟩ := hu
    unfold interior at hui
    have hpin : in_grid G0 ⟨u.pos.x + x, u.pos.y + y⟩ := by
      unfold in_grid; simp only; omega
    obtain ⟨mk, hmk⟩ := get2_of_in_range hinv.mark_shape hpin
    -- the three ways through the body
    by_cases hnull : mk = M_NULL
    · subst hnull
      obtain ⟨v, hv⟩ := get2_of_in_range hwf.1 hpin
      have hvG : get2 G.value ⟨u.pos.x + x, u.pos.y + y⟩ = some v := by rw [hinv.value_eq]; exact hv
      by_cases hwall : v = V_WALL
      · -- a wall: skipped
        have hstep : expand mem h u ((x, y) :: rest) G Q = expand mem h u rest G Q := by
          simp [expand, hmk, hvG, hwall]
        rcases ih hrest G Q hinv hused with ⟨m, h1, h2⟩ | ⟨G1, Q1, h1, h2, h3, h4, h5, h6, h7, h8⟩
        · left; exact ⟨m, by rw [hstep, h1], h2⟩
        · right
          refine ⟨G1, Q1, by rw [hstep, h1], h2, h3, h4, h5, h6, h7, ?_⟩
          intro o ho hopen
          rcases List.mem_cons.1 ho with rfl | ho
          · obtain ⟨v', hv', hw'⟩ := hopen
            simp only at hv'
            rw [hv] at hv'
            exact absurd (hwall ▸ (Option.some.inj hv').symm) hw'
          · exact h8 o ho hopen
      · -- an unmarked open cell: a node is created and added
        obtain ⟨w, hw⟩ := weight_some (hwf.2.2 _ _ hv)
        have hpi : interior G0 ⟨u.pos.x + x, u.pos.y + y⟩ := interior_not_wall hb hpin hv hwall
        have hne : u.pos ≠ ⟨u.pos.x + x, u.pos.y + y⟩ := by
          intro e
          rw [← e, hused] at hmk
          cases hmk
        have hcreate : createNode G ⟨u.pos.x + x, u.pos.y + y⟩ u h =
            some (node.child ⟨u.pos.x + x, u.pos.y + y⟩ (dadd u.cost w)
              (dadd (dadd (dadd u.cost w) (h ⟨u.pos.x + x, u.pos.y + y⟩ G.end_ G))
                (if (u.pos.x + x ≠ u.pos.x ∧ u.pos.y + y ≠ u.pos.y) then of_ratio 1 100
                  else of_int 0)) u) := by
          simp only [createNode, hvG, hw]
        generalize hn : node.child ⟨u.pos.x + x, u.pos.y + y⟩ (dadd u.cost w)
              (dadd (dadd (dadd u.cost w) (h ⟨u.pos.x + x, u.pos.y + y⟩ G.end_ G))
                (if (u.pos.x + x ≠ u.pos.x ∧ u.pos.y + y ≠ u.pos.y) then of_ratio 1 100
                  else of_int 0)) u = n at hcreate
        have hnpos : n.pos = ⟨u.pos.x + x, u.pos.y + y⟩ := by rw [← hn]; rfl
        have hncost : n.cost = dadd u.cost w := by rw [← hn]; rfl
        have hadj : adjacent u.pos ⟨u.pos.x + x, u.pos.y + y⟩ :=
          ⟨hne, by simp only; omega, by simp only; omega, by simp only; omega, by simp only; omega⟩
        have hgood : good G0 s n := by
          refine ⟨by rw [hnpos]; exact hpi, ?_, ?_⟩
          · rw [hnpos, hncost]
            exact path_to.step hup hadj hv hwall hw
          · rw [← hn]
            exact ⟨hpi, hadj, ⟨v, w, hv, hwall, hw, rfl⟩, huc⟩
        rcases heap_add_spec (fun _ : node => (0 : Nat)) Q hinv.heap n (mem (Q.nmax * 2 + 1)) with
          ⟨a1, a2, a3⟩ | ⟨_, Q1, a2, a3, a4, a5, _, a7, _⟩
        · left
          refine ⟨G.mark, by simp [expand, hmk, hvG, hwall, hcreate, a3], ?_⟩
          intro hmem hbound
          rcases a2 with a2 | a2
          · rw [hmem] at a2; cases a2
          · omega
        · obtain ⟨m1, hm1⟩ := set2_of_get2 M_FRONT hmk
          have hsm : set_mark G n.pos M_FRONT = some { G with mark := m1 } := by
            rw [hnpos]; exact set_mark_eq hm1
          have hstep : expand mem h u ((x, y) :: rest) G Q =
              expand mem h u rest { G with mark := m1 } Q1 := by
            simp [expand, hmk, hvG, hwall, hcreate, a2, hsm]
          have hg1 := get2_set2 hm1
          have hinv1 : seq_inv G0 s { G with mark := m1 } Q1 :=
            { value_eq := hinv.value_eq
              start_eq := hinv.start_eq
              end_eq := hinv.end_eq
              mark_shape := shape_set2 hinv.mark_shape hm1
              heap := a5
              cmp := by rw [a3]; exact hinv.cmp
              entries_ok := by
                intro n' hn'
                rcases List.mem_append.1 (a7.mem_iff.1 hn') with h1 | h1
                · exact hinv.entries_ok n' h1
                · simp only [List.mem_singleton, Option.some.injEq] at h1
                  rw [h1]; exact hgood }
          have hused1 : get2 ({ G with mark := m1 } : grid).mark u.pos = some M_USED := by
            simp only [hg1, hne, if_false]; exact hused
          have hnl := nulls_set2 hm1 (by decide : M_FRONT ≠ M_NULL)
          simp only [hmk, if_true] at hnl
          rcases ih hrest _ Q1 hinv1 hused1 with
            ⟨m, h1, h2⟩ | ⟨G2, Q2, h1, h2, h3, h4, h5, h6, h7, h8⟩
          · left
            refine ⟨m, by rw [hstep, h1], ?_⟩
            intro hmem hbound
            apply h2 hmem
            simp only
            omega
          · right
            simp only at h3 h4 h5 h6
            have hfront : get2 G2.mark ⟨u.pos.x + x, u.pos.y + y⟩ = some M_FRONT :=
              h5 _ M_FRONT (by simp [hg1]) (by decide)
            have hnQ1 : some n ∈ entries Q1 :=
              a7.mem_iff.2 (List.mem_append.2 (Or.inr (List.mem_singleton.2 rfl)))
            refine ⟨G2, Q2, by rw [hstep, h1], h2, by omega, by omega, ?_, ?_, ?_, ?_⟩
            · intro q mk' hq hmk'
              apply h5 q mk' _ hmk'
              rw [hg1]
              have : q ≠ ⟨u.pos.x + x, u.pos.y + y⟩ := by
                intro e
                rw [e, hmk] at hq
                exact hmk' (Option.some.inj hq).symm
              simp only [this, if_false]
              exact hq
            · intro q hq
              by_cases e : q = ⟨u.pos.x + x, u.pos.y + y⟩
              · right
                rw [e]
                exact ⟨hfront, n, h7 n hnQ1, hnpos⟩
              · exact h6 q (by rw [hg1]; simp only [e, if_false]; exact hq)
            · intro n' hn'
              exact h7 n' (a7.mem_iff.2 (List.mem_append.2 (Or.inl hn')))
            · intro o ho hopen
              rcases List.mem_cons.1 ho with rfl | ho
              · simp only
                rw [hfront]
                decide
              · exact h8 o ho hopen
    · -- a marked cell: skipped
      have hstep : expand mem h u ((x, y) :: rest) G Q = expand mem h u rest G Q := by
        simp [expand, hmk, hnull]
      rcases ih hrest G Q hinv hused with ⟨m, h1, h2⟩ | ⟨G1, Q1, h1, h2, h3, h4, h5, h6, h7, h8⟩
      · left; exact ⟨m, by rw [hstep, h1], h2⟩
      · right
        refine ⟨G1, Q1, by rw [hstep, h1], h2, h3, h4, h5, h6, h7, ?_⟩
        intro o ho hopen
        rcases List.mem_cons.1 ho with rfl | ho
        · simp only
          rw [h5 _ mk hmk hnull]
          simpa using hnull
        · exact h8 o ho hopen

/-! ## The sequential search: the main loop when the end cannot be reached -/

theorem neighbours_range : ∀ o ∈ neighbours, -1 ≤ o.1 ∧ o.1 ≤ 1 ∧ -1 ≤ o.2 ∧ o.2 ≤ 1 := by
  decide

theorem heap_nonempty_of_not_empty {α : Type} {Q : heap α} (h : heap_empty Q = false) : 1 ≤ Q.n := by
  unfold heap_empty at h
  by_contra hc
  have : Q.n = 0 := by omega
  simp [this] at h

/-- What one `heap_pop` gives inside the main loop. -/
theorem loop_pop (G0 : grid) (s : node) (G : grid) (Q : heap node) (hinv : seq_inv G0 s G Q)
    (hne : heap_empty Q = false) :
    ∃ u Q1, heap_pop Q = some (some u, Q1) ∧ good G0 s u ∧ Q1.n + 1 = Q.n ∧ seq_inv G0 s G Q1 ∧
      (some u :: entries Q1).Perm (entries Q) := by
  have hfp : ∀ x y, 0 < Q.f x y ↔ score_val y < score_val x := by
    rw [hinv.cmp]; exact fun x y => fcmp_nodescore_pos x y
  obtain ⟨u, Q1, p1, _, p3, p4, _, p6, p7, _⟩ :=
    heap_pop_spec score_val Q hfp hinv.heap (heap_nonempty_of_not_empty hne)
  refine ⟨u, Q1, p1, hinv.entries_ok u (p7.mem_iff.1 (List.mem_cons_self _ _)), p4, ?_, p7⟩
  exact
    { value_eq := hinv.value_eq
      start_eq := hinv.start_eq
      end_eq := hinv.end_eq
      mark_shape := hinv.mark_shape
      heap := p6
      cmp := by rw [p3]; exact hinv.cmp
      entries_ok := fun n hn => hinv.entries_ok n (p7.mem_iff.1 (List.mem_cons_of_mem _ hn)) }

theorem interior_in_grid {G0 : grid} {p : position} (h : interior G0 p) : in_grid G0 p := by
  unfold interior at h
  unfold in_grid
  omega

theorem loop_unreachable (G0 : grid) (hwf : grid_wf G0) (hb : wall_border G0) (mem : Nat → Bool)
    (h : heuristic) (s : node) (hno : ¬ reach G0 G0.end_) :
    ∀ (fuel : Nat) (G : grid) (Q : heap node), seq_inv G0 s G Q →
      Q.n + 2 * nulls G.mark < fuel →
      ∃ m, A_star_loop mem h s fuel G Q = .ret (of_int (-1), m) := by
  intro fuel
  induction fuel with
  | zero => intro G Q _ hlt; omega
  | succ fuel ih =>
    intro G Q hinv hlt
    by_cases hempty : heap_empty Q = true
    · exact ⟨G.mark, by simp [A_star_loop, seq_iteration, hempty]⟩
    · have hne : heap_empty Q = false := by simpa using hempty
      obtain ⟨u, Q1, hpop, hgood, hn1, hinv1, _⟩ := loop_pop G0 s G Q hinv hne
      obtain ⟨mk, hmk⟩ := get2_of_in_range hinv.mark_shape (interior_in_grid hgood.1)
      by_cases hused : mk = M_USED
      · have hstep : A_star_loop mem h s (fuel + 1) G Q = A_star_loop mem h s fuel G Q1 := by
          simp [A_star_loop, seq_iteration, hne, hpop, hmk, hused]
        rw [hstep]
        exact ih G Q1 hinv1 (by omega)
      · have hnot : ¬ (u.pos.x = G.end_.x ∧ u.pos.y = G.end_.y) := by
          rintro ⟨e1, e2⟩
          apply hno
          have : u.pos = G0.end_ := by
            rw [← hinv.end_eq]
            cases hp : u.pos; cases he : G.end_
            simp_all
          rw [← this]
          exact ⟨u.cost, hgood.2.1⟩
        obtain ⟨m1, hm1⟩ := set2_of_get2 M_USED hmk
        have hsm := set_mark_eq hm1
        have hg1 := get2_set2 hm1
        have hinv2 : seq_inv G0 s { G with mark := m1 } Q1 :=
          { value_eq := hinv1.value_eq
            start_eq := hinv1.start_eq
            end_eq := hinv1.end_eq
            mark_shape := shape_set2 hinv.mark_shape hm1
            heap := hinv1.heap
            cmp := hinv1.cmp
            entries_ok := hinv1.entries_ok }
        have hnl := nulls_set2 hm1 (by decide : M_USED ≠ M_NULL)
        have hnl2 : nulls m1 ≤ nulls G.mark := by omega
        rcases expand_spec G0 hwf hb mem h s u hgood neighbours neighbours_range _ Q1 hinv2
            (by simp [hg1]) with ⟨m, h1, _⟩ | ⟨G2, Q2, h1, h2, h3, h4, _⟩
        · exact ⟨m, by simp [A_star_loop, seq_iteration, hne, hpop, hmk, hused, hnot, hsm, h1]⟩
        · have hstep : A_star_loop mem h s (fuel + 1) G Q = A_star_loop mem h s fuel G2 Q2 := by
            simp [A_star_loop, seq_iteration, hne, hpop, hmk, hused, hnot, hsm, h1]
          rw [hstep]
          simp only at h3 h4
          exact ih G2 Q2 h2 (by omega)

/-- The state of `A_star_sequential` when it enters its main loop. -/
theorem seq_prologue (mem : Nat → Bool) (G : grid) (h : heuristic)
    (hmem : mem (INIT_HEAP_CAPACITY + 1) = true) (hwf : grid_wf G) (hs : interior G G.start)
    (he : open_cell G G.end_) :
    ∃ G1 Q1, (∀ fuel, A_star_sequential mem G h fuel =
        A_star_loop mem h (node.root G.start (of_int 0) (dadd (of_int 0) (h G.start G.end_ G)))
          fuel G1 Q1) ∧
      seq_inv G (node.root G.start (of_int 0) (dadd (of_int 0) (h G.start G.end_ G))) G1 Q1 ∧
      Q1.n = 1 ∧
      nulls G1.mark + (if get2 G.mark G.start = some M_NULL then 1 else 0) = nulls G.mark ∧
      (entries Q1).Perm [some (node.root G.start (of_int 0) (dadd (of_int 0) (h G.start G.end_ G)))] ∧
      (∀ q, get2 G1.mark q = if q = G.start then some M_FRONT else get2 G.mark q) := by
  obtain ⟨v, hv, hw⟩ := he
  have hwf0 := heap_create_wf INIT_HEAP_CAPACITY (by decide) (fcmp_nodescore : node → node → Int)
  generalize hsd : node.root G.start (of_int 0) (dadd (of_int 0) (h G.start G.end_ G)) = s
  rcases heap_add_spec (fun _ : node => (0 : Nat)) _ hwf0 s
      (mem ((heap_create INIT_HEAP_CAPACITY (fcmp_nodescore : node → node → Int) true).nmax * 2 + 1))
    with ⟨a1, _, _⟩ | ⟨_, Q1, a2, a3, a4, a5, _, a7, _⟩
  · simp [heap_create, INIT_HEAP_CAPACITY] at a1
  · obtain ⟨mk, hmk⟩ := get2_of_in_range hwf.2.1 (interior_in_grid hs)
    obtain ⟨m1, hm1⟩ := set2_of_get2 M_FRONT hmk
    have hspos : s.pos = G.start := by rw [← hsd]; rfl
    have hsm : set_mark G s.pos M_FRONT = some { G with mark := m1 } := by
      rw [hspos]; exact set_mark_eq hm1
    have he0 : entries (heap_create INIT_HEAP_CAPACITY (fcmp_nodescore : node → node → Int) true) = [] := by
      simp [entries, ents, heap_create]
    rw [he0, List.nil_append] at a7
    refine ⟨{ G with mark := m1 }, Q1, ?_, ?_, ?_, ?_, a7, ?_⟩
    · intro fuel
      simp only [A_star_sequential, seq_init, hv, hw, if_false, hmem, hsd, a2, hsm]
    · exact
        { value_eq := rfl
          start_eq := rfl
          end_eq := rfl
          mark_shape := shape_set2 hwf.2.1 hm1
          heap := a5
          cmp := by rw [a3]; rfl
          entries_ok := by
            intro n hn
            have := a7.mem_iff.1 hn
            simp only [List.mem_singleton, Option.some.injEq] at this
            rw [this, ← hsd]
            exact ⟨hs, path_to.start, rfl⟩ }
    · rw [a4]; rfl
    · exact nulls_set2 hm1 (by decide : M_FRONT ≠ M_NULL)
    · intro q
      exact get2_set2 hm1 q

/-! ## The sequential search: the main loop when the end can be reached -/

theorem nulls_le_aux (Y : Nat) : ∀ (m : List (List Int)), (∀ row ∈ m, row.length = Y) →
    nulls m ≤ m.length * Y := by
  intro m
  induction m with
  | nil => intro _; simp [nulls]
  | cons r rs ih =>
    intro h
    have h1 := ih (fun row hr => h row (List.mem_cons_of_mem _ hr))
    have h2 : r.count M_NULL ≤ Y := by
      rw [← h r (List.mem_cons_self _ _)]
      exact List.count_le_length _ _
    simp only [nulls, List.map_cons, List.sum_cons, List.length_cons] at h1 ⊢
    rw [Nat.add_mul]
    omega

theorem nulls_le {m : List (List Int)} {X Y : Nat} (hs : shape m X Y) : nulls m ≤ X * Y := by
  rw [← hs.1]
  exact nulls_le_aux Y m hs.2

/-- Drawing the path from an entry whose parent chain leads to `s` is defined. -/
theorem mark_path_some (G0 : grid) (s : node) : ∀ (n : node) (m : List (List Int)),
    chain_ok G0 s n → shape m G0.X G0.Y → ∃ m1, mark_path s n m = some m1 := by
  intro n
  induction n with
  | root p c sc =>
    intro m hc _
    exact ⟨m, by simp only [mark_path, show node.root p c sc = s from hc, if_true]⟩
  | child p c sc q ih =>
    intro m hc hs
    by_cases e : node.child p c sc q = s
    · exact ⟨m, by simp only [mark_path, e, if_true]⟩
    · obtain ⟨hi, _, _, hq⟩ := hc
      obtain ⟨mk, hmk⟩ := get2_of_in_range hs (interior_in_grid hi)
      obtain ⟨m1, hm1⟩ := set2_of_get2 M_PATH hmk
      obtain ⟨m2, hm2⟩ := ih m1 hq (shape_set2 hs hm1)
      exact ⟨m2, by simp only [mark_path, e, if_false, hm1, hm2]⟩

theorem path_to_open {G : grid} (hso : open_cell G G.start) {q : position} {c : double}
    (h : path_to G q c) : open_cell G q := by
  cases h with
  | start => exact hso
  | step _ _ hv hw _ => exact ⟨_, hv, hw⟩

theorem offset_mem_neighbours {dx dy : Int} (h1 : -1 ≤ dx) (h2 : dx ≤ 1) (h3 : -1 ≤ dy)
    (h4 : dy ≤ 1) : (dx, dy) ∈ neighbours := by
  have hx : dx = -1 ∨ dx = 0 ∨ dx = 1 := by omega
  have hy : dy = -1 ∨ dy = 0 ∨ dy = 1 := by omega
  rcases hx with rfl | rfl | rfl <;> rcases hy with rfl | rfl | rfl <;> decide

/-- Closing the popped cell and expanding it keeps `front_inv`. -/
theorem front_inv_step (G0 : grid) (G G2 : grid) (Q Q1 Q2 : heap node) (u : node)
    (m1 : List (List Int)) (hfi : front_inv G0 G Q) (hshape : shape G.mark G0.X G0.Y)
    (hshape2 : shape G2.mark G0.X G0.Y)
    (hperm : (some u :: entries Q1).Perm (entries Q)) (hnot : u.pos ≠ G0.end_)
    (hm1 : set2 G.mark u.pos M_USED = some m1)
    (h5 : ∀ q mk, get2 m1 q = some mk → mk ≠ M_NULL → get2 G2.mark q = some mk)
    (h6 : ∀ q, get2 m1 q = some M_NULL → get2 G2.mark q = some M_NULL ∨
      (get2 G2.mark q = some M_FRONT ∧ ∃ n, some n ∈ entries Q2 ∧ n.pos = q))
    (h7 : ∀ n, some n ∈ entries Q1 → some n ∈ entries Q2)
    (h8 : ∀ o ∈ neighbours, open_cell G0 ⟨u.pos.x + o.1, u.pos.y + o.2⟩ →
      get2 G2.mark ⟨u.pos.x + o.1, u.pos.y + o.2⟩ ≠ some M_NULL) :
    front_inv G0 G2 Q2 := by
  have hg1 := get2_set2 hm1
  -- where a mark of `G2` comes from
  have hcl : ∀ q mk2, get2 G2.mark q = some mk2 →
      (q = u.pos ∧ mk2 = M_USED) ∨ (q ≠ u.pos ∧ get2 G.mark q = some mk2 ∧ mk2 ≠ M_NULL) ∨
      (q ≠ u.pos ∧ get2 G.mark q = some M_NULL ∧
        (mk2 = M_NULL ∨ (mk2 = M_FRONT ∧ ∃ n, some n ∈ entries Q2 ∧ n.pos = q))) := by
    intro q mk2 hq
    obtain ⟨mk0, hmk0⟩ := get2_of_in_range hshape (get2_in_range hshape2 hq)
    by_cases e : q = u.pos
    · left
      refine ⟨e, ?_⟩
      have := h5 q M_USED (by rw [hg1]; simp [e]) (by decide)
      rw [hq] at this
      exact Option.some.inj this
    · right
      have hq1 : get2 m1 q = some mk0 := by rw [hg1]; simp only [e, if_false]; exact hmk0
      by_cases hn : mk0 = M_NULL
      · right
        subst hn
        refine ⟨e, hmk0, ?_⟩
        rcases h6 q hq1 with h | ⟨h, hn⟩
        · left; rw [hq] at h; exact Option.some.inj h
        · right; rw [hq] at h; exact ⟨Option.some.inj h, hn⟩
      · left
        have := h5 q mk0 hq1 hn
        rw [hq] at this
        cases this
        exact ⟨e, hmk0, hn⟩
  refine ⟨?_, ?_, ?_, ?_⟩
  · intro q mk2 hq
    rcases hcl q mk2 hq with ⟨_, h⟩ | ⟨_, h, _⟩ | ⟨_, _, h | ⟨h, _⟩⟩
    · exact Or.inr (Or.inr h)
    · exact hfi.marks q mk2 h
    · exact Or.inl h
    · exact Or.inr (Or.inl h)
  · intro q hq
    rcases hcl q M_FRONT hq with ⟨_, h⟩ | ⟨e, h, _⟩ | ⟨_, _, h | ⟨_, h⟩⟩
    · exact absurd h (by decide)
    · obtain ⟨n, hn, hnp⟩ := hfi.front q h
      refine ⟨n, h7 n ?_, hnp⟩
      rcases List.mem_cons.1 (hperm.mem_iff.2 hn) with h1 | h1
      · exfalso
        apply e
        rw [← hnp, Option.some.inj h1]
      · exact h1
    · exact absurd h (by decide)
    · exact h
  · intro q hq
    rcases hcl q M_USED hq with ⟨e, _⟩ | ⟨_, h, _⟩ | ⟨_, _, h | ⟨h, _⟩⟩
    · refine ⟨by rw [e]; exact hnot, ?_⟩
      intro q1 hadj hopen
      obtain ⟨_, a1, a2, a3, a4⟩ := hadj
      rw [e] at a1 a2 a3 a4
      have hmem := offset_mem_neighbours a1 a2 a3 a4
      have hq1 : (⟨u.pos.x + (q1.x - u.pos.x), u.pos.y + (q1.y - u.pos.y)⟩ : position) = q1 := by
        cases q1; simp
      have := h8 _ hmem
      simp only at this
      rw [hq1] at this
      exact this hopen
    · obtain ⟨hne, hnb⟩ := hfi.used q h
      refine ⟨hne, ?_⟩
      intro q1 hadj hopen hc
      rcases hcl q1 M_NULL hc with ⟨_, h⟩ | ⟨_, _, h⟩ | ⟨_, h, _⟩
      · exact absurd h (by decide)
      · exact h rfl
      · exact hnb q1 hadj hopen h
    · exact absurd h (by decide)
    · exact absurd h (by decide)
  · intro hc
    rcases hcl _ M_NULL hc with ⟨_, h⟩ | ⟨_, _, h⟩ | ⟨_, h, _⟩
    · exact absurd h (by decide)
    · exact h rfl
    · exact hfi.start h

/-- With an empty heap every cell a path leads to is closed. -/
theorem all_used (G0 G : grid) (Q : heap node) (hfi : front_inv G0 G Q)
    (hshape : shape G.mark G0.X G0.Y) (hval : shape G0.value G0.X G0.Y)
    (hs : interior G0 G0.start) (hempty : entries Q = []) :
    ∀ q c, path_to G0 q c → get2 G.mark q = some M_USED := by
  have hkey : ∀ q, in_grid G0 q → get2 G.mark q ≠ some M_NULL → get2 G.mark q = some M_USED := by
    intro q hin hnn
    obtain ⟨mk, hmk⟩ := get2_of_in_range hshape hin
    rcases hfi.marks q mk hmk with h | h | h
    · rw [h] at hmk; exact absurd hmk hnn
    · rw [h] at hmk
      obtain ⟨n, hn, _⟩ := hfi.front q hmk
      rw [hempty] at hn
      cases hn
    · rw [h] at hmk; exact hmk
  intro q c hp
  induction hp with
  | start => exact hkey _ (interior_in_grid hs) hfi.start
  | @step p q c w v _ hadj hv hw _ ih =>
    exact hkey q (get2_in_range hval hv) ((hfi.used p ih).2 q hadj ⟨v, hv, hw⟩)

theorem entries_nil_of_empty {Q : heap node} (hwf : heap_wf Q) (h : heap_empty Q = true) :
    entries Q = [] := by
  obtain ⟨a, ha, _⟩ := hwf
  have hn : Q.n = 0 := by
    by_contra hc
    simp [heap_empty, hc, ha] at h
  simp [entries, ents, hn]

theorem loop_reachable (G0 : grid) (hwf : grid_wf G0) (hb : wall_border G0) (mem : Nat → Bool)
    (h : heuristic) (s : node) (hmem : ∀ k, mem k = true) (hs : interior G0 G0.start)
    (hreach : reach G0 G0.end_) :
    ∀ (fuel : Nat) (G : grid) (Q : heap node), seq_inv G0 s G Q → front_inv G0 G Q →
      Q.n + 2 * nulls G.mark < fuel → 2 * (Q.n + nulls G.mark) ≤ INT_MAX →
      ∃ c m, A_star_loop mem h s fuel G Q = .ret (c, m) ∧ path_to G0 G0.end_ c := by
  intro fuel
  induction fuel with
  | zero => intro G Q _ _ hlt; omega
  | succ fuel ih =>
    intro G Q hinv hfi hlt hbound
    by_cases hempty : heap_empty Q = true
    · exfalso
      obtain ⟨c, hc⟩ := hreach
      have := all_used G0 G Q hfi hinv.mark_shape hwf.1 hs
        (entries_nil_of_empty hinv.heap hempty) _ c hc
      exact (hfi.used _ this).1 rfl
    · have hne : heap_empty Q = false := by simpa using hempty
      obtain ⟨u, Q1, hpop, hgood, hn1, hinv1, hperm⟩ := loop_pop G0 s G Q hinv hne
      obtain ⟨mk, hmk⟩ := get2_of_in_range hinv.mark_shape (interior_in_grid hgood.1)
      by_cases hused : mk = M_USED
      · have hstep : A_star_loop mem h s (fuel + 1) G Q = A_star_loop mem h s fuel G Q1 := by
          simp [A_star_loop, seq_iteration, hne, hpop, hmk, hused]
        rw [hstep]
        refine ih G Q1 hinv1 ?_ (by omega) (by omega)
        refine ⟨hfi.marks, ?_, hfi.used, hfi.start⟩
        intro q hq
        obtain ⟨n, hn, hnp⟩ := hfi.front q hq
        refine ⟨n, ?_, hnp⟩
        rcases List.mem_cons.1 (hperm.mem_iff.2 hn) with h1 | h1
        · exfalso
          rw [← hnp, Option.some.inj h1, hmk, hused] at hq
          cases hq
        · exact h1
      · by_cases hend : u.pos.x = G.end_.x ∧ u.pos.y = G.end_.y
        · have hpos : u.pos = G0.end_ := by
            rw [← hinv.end_eq]
            cases hp : u.pos; cases he : G.end_
            simp_all
          obtain ⟨m, hm⟩ := mark_path_some G0 s u G.mark hgood.2.2 hinv.mark_shape
          refine ⟨u.cost, m, by simp [A_star_loop, seq_iteration, hne, hpop, hmk, hused, hend, hm], ?_⟩
          rw [← hpos]
          exact hgood.2.1
        · have hnot : u.pos ≠ G0.end_ := by
            intro e
            apply hend
            rw [hinv.end_eq, e]
            exact ⟨rfl, rfl⟩
          obtain ⟨m1, hm1⟩ := set2_of_get2 M_USED hmk
          have hsm := set_mark_eq hm1
          have hg1 := get2_set2 hm1
          have hinv2 : seq_inv G0 s { G with mark := m1 } Q1 :=
            { value_eq := hinv1.value_eq
              start_eq := hinv1.start_eq
              end_eq := hinv1.end_eq
              mark_shape := shape_set2 hinv.mark_shape hm1
              heap := hinv1.heap
              cmp := hinv1.cmp
              entries_ok := hinv1.entries_ok }
          have hnl := nulls_set2 hm1 (by decide : M_USED ≠ M_NULL)
          have hnl2 : nulls m1 ≤ nulls G.mark := by omega
          rcases expand_spec G0 hwf hb mem h s u hgood neighbours neighbours_range _ Q1 hinv2
              (by simp [hg1]) with ⟨m, _, h2⟩ | ⟨G2, Q2, h1, h2, h3, h4, h5, h6, h7, h8⟩
          · exfalso
            apply h2 hmem
            simp only
            omega
          · have hstep : A_star_loop mem h s (fuel + 1) G Q = A_star_loop mem h s fuel G2 Q2 := by
              simp [A_star_loop, seq_iteration, hne, hpop, hmk, hused, hend, hsm, h1]
            rw [hstep]
            simp only at h3 h4 h5 h6
            exact ih G2 Q2 h2
              (front_inv_step G0 G G2 Q Q1 Q2 u m1 hfi hinv.mark_shape h2.mark_shape hperm hnot
                hm1 h5 h6 h7 h8)
              (by omega) (by omega)

/-! ## Facts on the example grids -/

theorem grid_walled_wf : grid_wf grid_walled := by
  refine ⟨by unfold shape; decide, by unfold shape; decide, ?_⟩
  apply get2_forall
  decide

theorem grid_walled_border : wall_border grid_walled := by
  intro p hin hbd
  obtain ⟨v, hv⟩ := get2_of_in_range grid_walled_wf.1 hin
  have key := get2_forall grid_walled.value
    (fun p v => (p.x = 0 ∨ p.y = 0 ∨ p.x = ((grid_walled.X : Nat) : Int) - 1 ∨
      p.y = ((grid_walled.Y : Nat) : Int) - 1) → v = V_WALL) (by decide) p v hv hbd
  rw [hv, key]

theorem grid_walled_path (q : position) (c : double) (h : path_to grid_walled q c) :
    q = ⟨3, 3⟩ := by
  induction h with
  | start => rfl
  | @step p q c w v _ hadj hv hw _ ih =>
    subst ih
    obtain ⟨hne, h1, h2, h3, h4⟩ := hadj
    exfalso
    apply hw
    refine get2_forall grid_walled.value
      (fun p v => (2 ≤ p.x ∧ p.x ≤ 4 ∧ 2 ≤ p.y ∧ p.y ≤ 4 ∧ p ≠ ⟨3, 3⟩) → v = V_WALL)
      (by decide) q v hv ⟨?_, ?_, ?_, ?_, fun e => hne e.symm⟩ <;>
    simp only at h1 h2 h3 h4 <;> omega

theorem grid_walled_unreachable : ¬ reach grid_walled grid_walled.end_ := by
  rintro ⟨c, hc⟩
  have := grid_walled_path _ _ hc
  revert this
  decide

theorem grid_detour_wf : grid_wf grid_detour := by
  refine ⟨by unfold shape; decide, by unfold shape; decide, ?_⟩
  apply get2_forall
  decide

theorem grid_detour_border : wall_border grid_detour := by
  intro p hin hbd
  obtain ⟨v, hv⟩ := get2_of_in_range grid_detour_wf.1 hin
  have key := get2_forall grid_detour.value
    (fun p v => (p.x = 0 ∨ p.y = 0 ∨ p.x = ((grid_detour.X : Nat) : Int) - 1 ∨
      p.y = ((grid_detour.Y : Nat) : Int) - 1) → v = V_WALL) (by decide) p v hv hbd
  rw [hv, key]

theorem grid_detour_fresh : fresh_marks grid_detour := by
  unfold fresh_marks
  apply get2_forall
  decide

/-- The chain (4,4), (3,4), (2,3), (1,2), (1,1) of FREE cells costs 4. -/
theorem grid_detour_path : path_to grid_detour grid_detour.end_ ⟨4, 0⟩ := by
  have p0 : path_to grid_detour ⟨4, 4⟩ (of_int 0) := path_to.start
  have p1 := path_to.step (q := ⟨3, 4⟩) (v := 0) (w := of_int 1) p0 (by decide) (by decide)
    (by decide) (by decide)
  have p2 := path_to.step (q := ⟨2, 3⟩) (v := 0) (w := of_int 1) p1 (by decide) (by decide)
    (by decide) (by decide)
  have p3 := path_to.step (q := ⟨1, 2⟩) (v := 0) (w := of_int 1) p2 (by decide) (by decide)
    (by decide) (by decide)
  have p4 := path_to.step (q := ⟨1, 1⟩) (v := 0) (w := of_int 1) p3 (by decide) (by decide)
    (by decide) (by decide)
  have e : dadd (dadd (dadd (dadd (of_int 0) (of_int 1)) (of_int 1)) (of_int 1)) (of_int 1) =
      ⟨4, 0⟩ := by decide
  rw [e] at p4
  exact p4

theorem grid_five_wf : grid_wf grid_five := by
  refine ⟨by unfold shape; decide, by unfold shape; decide, ?_⟩
  apply get2_forall
  decide

theorem grid_five_border : wall_border grid_five := by
  intro p hin hbd
  obtain ⟨v, hv⟩ := get2_of_in_range (by unfold shape; decide : shape grid_five.value 5 5) hin
  have key := get2_forall grid_five.value
    (fun p v => (p.x = 0 ∨ p.y = 0 ∨ p.x = ((grid_five.X : Nat) : Int) - 1 ∨
      p.y = ((grid_five.Y : Nat) : Int) - 1) → v = V_WALL) (by decide) p v hv hbd
  rw [hv, key]

/-- On `grid_five`, every neighbour of (3,2) that is FREE is reached from the
start (3,3) at cost 2. -/
theorem grid_five_two_steps (q : position) (hadj : adjacent ⟨3, 2⟩ q)
    (hq : get2 grid_five.value q = some V_FREE) : path_to grid_five q ⟨2, 0⟩ := by
  have p0 : path_to grid_five ⟨3, 3⟩ (of_int 0) := path_to.start
  have p1 := path_to.step (q := ⟨3, 2⟩) (v := 0) (w := of_int 1) p0 (by decide) (by decide)
    (by decide) (by decide)
  have p2 := path_to.step (q := q) (v := 0) (w := of_int 1) p1 hadj hq (by decide) (by decide)
  have e : dadd (dadd (of_int 0) (of_int 1)) (of_int 1) = ⟨2, 0⟩ := by decide
  rw [e] at p2
  exact p2

/-- The records of `grid_five_batch` carry the cost of a path to their cell. -/
theorem grid_five_batch_paths (e : mpi_node)
    (he : received (deliver 3 grid_five_batch) e) : path_to grid_five e.pos e.cost := by
  obtain ⟨t, batch, hb, hm⟩ := he
  unfold deliver at hb
  split at hb
  · simp only [Option.some.injEq] at hb
    subst hb
    simp only [grid_five_batch, List.mem_cons, List.mem_singleton, List.not_mem_nil,
      or_false] at hm
    rcases hm with rfl | rfl | rfl
    · exact grid_five_two_steps _ (by decide) (by decide)
    · exact grid_five_two_steps _ (by decide) (by decide)
    · exact grid_five_two_steps _ (by decide) (by decide)
  · cases hb

/-- The records of `grid_five_batch` are on cells of worker 0 of 2. -/
theorem grid_five_batch_owned (e : mpi_node)
    (he : received (deliver 3 grid_five_batch) e) : hda e.pos 2 = 0 := by
  obtain ⟨t, batch, hb, hm⟩ := he
  unfold deliver at hb
  split at hb
  · simp only [Option.some.injEq] at hb
    subst hb
    simp only [grid_five_batch, List.mem_cons, List.mem_singleton, List.not_mem_nil,
      or_false] at hm
    rcases hm with rfl | rfl | rfl <;> decide
  · cases hb
/-! ## The distributed search: a worker with an empty heap on a quiet transport -/

theorem idle_recv (mem : Nat → Bool) (fuel : Nat) (w : worker) :
    recv_nodes mem quiet (fuel + 1) w = .next (tick w) := by
  simp [recv_nodes, quiet]

theorem idle_drain (mem : Nat → Bool) (e : Int) : ∀ (fuel : Nat) (w : worker),
    heap_empty w.Q = true → drain mem quiet e fuel w = .out_of_fuel := by
  intro fuel
  induction fuel with
  | zero => intro w _; rfl
  | succ fuel ih =>
    intro w hw
    cases fuel with
    | zero => simp [drain, quiet, recv_nodes]
    | succ f =>
      have h2 : heap_empty (tick (tick w)).Q = true := hw
      simp only [drain, quiet, idle_recv, Bool.false_eq_true, if_false, h2, if_true]
      exact ih _ h2

/-- With an empty heap and nothing pending, the main loop of `A_star_mpi`
never gets past its drain loop. -/
theorem idle_loop (mem : Nat → Bool) (h : heuristic) (rank W : Int) (fuel : Nat) (w : worker)
    (hw : heap_empty w.Q = true) : mpi_loop mem quiet h rank W fuel w = .out_of_fuel := by
  cases fuel with
  | zero => rfl
  | succ f => simp [mpi_loop, mpi_iteration, idle_drain mem _ f w hw]

/-- Worker 0 of 2 on `grid_walled`: after the first iteration of the main loop
(the start is closed, no neighbour is open) the heap is empty and nothing has
been sent. -/
theorem mpi_walled_first_iteration (f : Nat) :
    ∃ w, A_star_mpi mem_ok quiet 0 2 grid_walled (halpha (of_int 1)) (f + 3) =
        mpi_loop mem_ok quiet (halpha (of_int 1)) 0 2 (f + 2) w ∧ heap_empty w.Q = true ∧
      w.sent = [] :=
  ⟨_, rfl, rfl, rfl⟩

/-- Worker 1 of 2 on `grid_walled` does not own the start: it enters the main
loop with an empty heap, nothing sent. -/
theorem mpi_walled_other_worker (fuel : Nat) :
    ∃ w, A_star_mpi mem_ok quiet 1 2 grid_walled (halpha (of_int 1)) fuel =
        mpi_loop mem_ok quiet (halpha (of_int 1)) 1 2 fuel w ∧ heap_empty w.Q = true ∧
      w.sent = [] :=
  ⟨_, rfl, rfl, rfl⟩


/-! ## The distributed search: what one iteration does to a worker -/

theorem same_grid_refl (G : grid) : same_grid G G := ⟨rfl, rfl, rfl, rfl, rfl⟩

theorem same_grid_trans {G G1 G2 : grid} (h1 : same_grid G G1) (h2 : same_grid G1 G2) :
    same_grid G G2 := by
  obtain ⟨a1, a2, a3, a4, a5⟩ := h1
  obtain ⟨b1, b2, b3, b4, b5⟩ := h2
  exact ⟨b1.trans a1, b2.trans a2, b3.trans a3, b4.trans a4, b5.trans a5⟩

/-- What a write to `mark` does to the grid. -/
theorem set_mark_spec {G G1 : grid} {p : position} {v : Int} (h : set_mark G p v = some G1) :
    same_grid G G1 ∧ ∀ q, get2 G1.mark q = if q = p then some v else get2 G.mark q := by
  unfold set_mark at h
  cases hm : set2 G.mark p v with
  | none => simp [hm] at h
  | some m =>
    simp only [hm, Option.some.injEq] at h
    subst h
    exact ⟨⟨rfl, rfl, rfl, rfl, rfl⟩, fun q => get2_set2 hm q⟩

theorem mpiNodeToPtr_eq (n : mpi_node) : mpiNodeToPtr n = n := rfl

/-- What `heap_add` gives when it reports success on a well-formed heap. -/
theorem heap_add_ok {α : Type} {Q Q1 : heap α} {e : α} {ok : Bool} (hwf : heap_wf Q)
    (h : heap_add Q e ok = some (false, Q1)) :
    heap_wf Q1 ∧ Q1.f = Q.f ∧ Q1.n = Q.n + 1 ∧
      ∀ x, x ∈ entries Q1 ↔ (x ∈ entries Q ∨ x = some e) := by
  rcases heap_add_spec (fun _ : α => (0 : Nat)) Q hwf e ok with ⟨_, _, h1⟩ | ⟨_, Q2, h1, h2, h3, h4, _, h6, _⟩
  · rw [h1] at h; cases h
  · rw [h1] at h
    cases h
    refine ⟨h4, h2, h3, fun x => ?_⟩
    rw [h6.mem_iff]
    simp

theorem inbox_step_refl (src : mpi_node → Prop) (w : worker) (hwf : heap_wf w.Q) :
    inbox_step src w w :=
  ⟨same_grid_refl _, hwf, rfl, fun _ he => Or.inl he, fun _ => Or.inl rfl, rfl, rfl, rfl⟩

theorem inbox_step_trans {src : mpi_node → Prop} {w w1 w2 : worker} (h1 : inbox_step src w w1)
    (h2 : inbox_step src w1 w2) : inbox_step src w w2 := by
  obtain ⟨a1, _, a3, a4, a5, a6, a7, a8⟩ := h1
  obtain ⟨b1, b2, b3, b4, b5, b6, b7, b8⟩ := h2
  refine ⟨same_grid_trans a1 b1, b2, b3.trans a3, ?_, ?_, b6.trans a6, b7.trans a7, b8.trans a8⟩
  · intro e he
    rcases b4 e he with h | h
    · exact a4 e h
    · exact Or.inr h
  · intro p
    rcases b5 p with h | h
    · rw [h]; exact a5 p
    · exact Or.inr h

/-- The loop over a received batch adds the records of the batch to the heap
and marks their cells `M_FRONT`. -/
theorem add_batch_spec (mem : Nat → Bool) :
    ∀ (batch : List mpi_node) (w w1 : worker), heap_wf w.Q →
      add_batch mem batch w = .next w1 → inbox_step (fun e => e ∈ batch) w w1 := by
  intro batch
  induction batch with
  | nil =>
    intro w w1 hwf h
    simp only [add_batch, mpi_flow.next.injEq] at h
    subst h
    exact inbox_step_refl _ _ hwf
  | cons n rest ih =>
    intro w w1 hwf h
    unfold add_batch at h
    cases ha : heap_add w.Q (mpiNodeToPtr n) (mem (w.Q.nmax * 2 + 1)) with
    | none => simp [ha] at h
    | some r =>
      obtain ⟨b, Q1⟩ := r
      cases b with
      | true => simp [ha] at h
      | false =>
        simp only [ha] at h
        cases hs : set_mark w.G n.pos M_FRONT with
        | none => simp [hs] at h
        | some G1 =>
          simp only [hs] at h
          obtain ⟨q1, q2, _, q4⟩ := heap_add_ok hwf ha
          obtain ⟨s1, s2⟩ := set_mark_spec hs
          obtain ⟨c1, c2, c3, c4, c5, c6, c7, c8⟩ := ih { w with Q := Q1, G := G1 } w1 q1 h
          refine ⟨same_grid_trans s1 c1, c2, c3.trans q2, ?_, ?_, c6, c7, c8⟩
          · intro e he
            rcases c4 e he with h1 | h1
            · rcases (q4 (some e)).1 h1 with h2 | h2
              · exact Or.inl h2
              · right
                rw [mpiNodeToPtr_eq] at h2
                rw [Option.some.inj h2]
                exact List.mem_cons_self _ _
            · exact Or.inr (List.mem_cons_of_mem _ h1)
          · intro p
            rcases c5 p with h1 | h1
            · rw [h1]
              simp only at s2 ⊢
              rw [s2 p]
              by_cases hp : p = n.pos
              · simp [hp]
              · simp [hp]
            · exact Or.inr h1

/-- The loop `while (flag_node)` adds received records only. -/
theorem recv_nodes_spec (mem : Nat → Bool) (env : environment) :
    ∀ (fuel : Nat) (w w1 : worker), heap_wf w.Q →
      recv_nodes mem env fuel w = .next w1 → inbox_step (received env) w w1 := by
  intro fuel
  induction fuel with
  | zero => intro w w1 _ h; simp [recv_nodes] at h
  | succ f ih =>
    intro w w1 hwf h
    unfold recv_nodes at h
    cases hb : (env w.clock).node with
    | none =>
      simp only [hb, mpi_flow.next.injEq] at h
      subst h
      exact inbox_step_refl _ _ hwf
    | some batch =>
      simp only [hb] at h
      cases ha : add_batch mem batch (tick (tick w)) with
      | next w2 =>
        simp only [ha] at h
        have h1 := add_batch_spec mem batch (tick (tick w)) w2 hwf ha
        have h2 := ih w2 w1 h1.2.1 h
        have h3 : inbox_step (received env) w w2 := by
          obtain ⟨c1, c2, c3, c4, c5, c6, c7, c8⟩ := h1
          exact ⟨c1, c2, c3, fun e he => (c4 e he).imp id (fun hm => ⟨w.clock, batch, hb, hm⟩),
            c5, c6, c7, c8⟩
        exact inbox_step_trans h3 h2
      | ret r => simp [ha] at h
      | abort => simp [ha] at h
      | ub => simp [ha] at h
      | out_of_fuel => simp [ha] at h

theorem add_batch_not_ret (mem : Nat → Bool) :
    ∀ (batch : List mpi_node) (w : worker) (r : double × worker),
      add_batch mem batch w ≠ .ret r := by
  intro batch
  induction batch with
  | nil => intro w r h; simp [add_batch] at h
  | cons n rest ih =>
    intro w r h
    unfold add_batch at h
    cases ha : heap_add w.Q (mpiNodeToPtr n) (mem (w.Q.nmax * 2 + 1)) with
    | none => simp [ha] at h
    | some x =>
      obtain ⟨b, Q1⟩ := x
      cases b with
      | true => simp [ha] at h
      | false =>
        simp only [ha] at h
        cases hs : set_mark w.G n.pos M_FRONT with
        | none => simp [hs] at h
        | some G1 =>
          simp only [hs] at h
          exact ih _ _ h

theorem recv_nodes_not_ret (mem : Nat → Bool) (env : environment) :
    ∀ (fuel : Nat) (w : worker) (r : double × worker), recv_nodes mem env fuel w ≠ .ret r := by
  intro fuel
  induction fuel with
  | zero => intro w r h; simp [recv_nodes] at h
  | succ f ih =>
    intro w r h
    unfold recv_nodes at h
    cases hb : (env w.clock).node with
    | none => simp [hb] at h
    | some batch =>
      simp only [hb] at h
      cases ha : add_batch mem batch (tick (tick w)) with
      | next w2 => simp only [ha] at h; exact ih _ _ h
      | ret r1 => exact add_batch_not_ret mem batch _ r1 ha
      | abort => simp [ha] at h
      | ub => simp [ha] at h
      | out_of_fuel => simp [ha] at h

theorem helper_not_next (env : environment) (e : Int) :
    ∀ (fuel : Nat) (w w1 : worker), helper env e fuel w ≠ .next w1 := by
  intro fuel
  induction fuel with
  | zero => intro w w1 h; simp [helper] at h
  | succ f ih =>
    intro w w1 h
    unfold helper at h
    split at h
    · cases h
    · simp only at h
      split at h
      · exact ih _ _ h
      · split at h
        · split at h
          · cases h
          · exact ih _ _ h
        · cases h

/-- The drain loop hands over a non-empty heap that gained received records
only. -/
theorem drain_spec (mem : Nat → Bool) (env : environment) (e : Int) :
    ∀ (fuel : Nat) (w w1 : worker), heap_wf w.Q →
      drain mem env e fuel w = .next w1 →
      inbox_step (received env) w w1 ∧ heap_empty w1.Q = false := by
  intro fuel
  induction fuel with
  | zero => intro w w1 _ h; simp [drain] at h
  | succ f ih =>
    intro w w1 hwf h
    unfold drain at h
    by_cases hd : (env w.clock).destination_reached = true
    · simp only [hd, if_true] at h
      exact absurd h (helper_not_next env e f _ w1)
    · simp only [hd] at h
      cases hr : recv_nodes mem env f (tick w) with
      | next w2 =>
        simp only [hr] at h
        have h1 : inbox_step (received env) w w2 := recv_nodes_spec mem env f (tick w) w2 hwf hr
        by_cases he : heap_empty w2.Q = true
        · simp only [he, if_true] at h
          obtain ⟨h2, h3⟩ := ih w2 w1 h1.2.1 h
          exact ⟨inbox_step_trans h1 h2, h3⟩
        · simp only [he] at h
          simp only [Bool.false_eq_true, if_false, mpi_flow.next.injEq] at h
          subst h
          exact ⟨h1, by simpa using he⟩
      | ret r => simp [hr] at h
      | abort => simp [hr] at h
      | ub => simp [hr] at h
      | out_of_fuel => simp [hr] at h

/-- The drain loop returns only after a `destination_reached` message. -/
theorem drain_not_ret (mem : Nat → Bool) (env : environment) (e : Int)
    (hd : ∀ t, (env t).destination_reached = false) :
    ∀ (fuel : Nat) (w : worker) (r : double × worker), drain mem env e fuel w ≠ .ret r := by
  intro fuel
  induction fuel with
  | zero => intro w r h; simp [drain] at h
  | succ f ih =>
    intro w r h
    unfold drain at h
    simp only [hd, Bool.false_eq_true, if_false] at h
    cases hr : recv_nodes mem env f (tick w) with
    | next w2 =>
      simp only [hr] at h
      by_cases he : heap_empty w2.Q = true
      · simp only [he, if_true] at h
        exact ih _ _ h
      · simp [he] at h
    | ret r1 => exact recv_nodes_not_ret mem env f _ r1 hr
    | abort => simp [hr] at h
    | ub => simp [hr] at h
    | out_of_fuel => simp [hr] at h

theorem inbox_step_mono {src src1 : mpi_node → Prop} {w w1 : worker} (h : inbox_step src w w1)
    (hs : ∀ e, src e → src1 e) : inbox_step src1 w w1 := by
  obtain ⟨c1, c2, c3, c4, c5, c6, c7, c8⟩ := h
  exact ⟨c1, c2, c3, fun e he => (c4 e he).imp id (hs e), c5, c6, c7, c8⟩

theorem child_of_same_grid {G0 G1 : grid} {h : heuristic} {rank : Int} {cur : Nat}
    {u e : mpi_node} (hg : same_grid G0 G1) (hc : child_of G1 h rank cur u e) :
    child_of G0 h rank cur u e := by
  obtain ⟨G, p, v, c1, c2, c3, c4, c5⟩ := hc
  exact ⟨G, p, v, same_grid_trans hg c1, c2, by rw [← hg.2.2.1]; exact c3, c4, c5⟩

theorem CreateMpiNode_spec {G : grid} {p : position} {u n : mpi_node} {rank win_i : Int}
    {h : heuristic} (hc : CreateMpiNode G p u rank win_i h = some n) :
    n.pos = p ∧ n.parent_rank = rank ∧ n.parent_win_i = win_i ∧
      ∃ v w, get2 G.value p = some v ∧ weight v = some w ∧ n.cost = dadd u.cost w := by
  unfold CreateMpiNode at hc
  cases hv : get2 G.value p with
  | none => simp [hv] at hc
  | some v =>
    simp only [hv] at hc
    cases hw : weight v with
    | none => simp [hw] at hc
    | some w =>
      simp only [hw, Option.some.injEq] at hc
      subst hc
      exact ⟨rfl, rfl, rfl, v, w, rfl, hw, rfl⟩

theorem store_node_spec {st st1 : List (List mpi_node)} {dst : Int} {n : mpi_node}
    (h : store_node st dst n = some st1) :
    0 ≤ dst ∧ ∃ b, st[dst.toNat]? = some b ∧ b.length < MAX_NEIGHBORS ∧
      st1 = st.set dst.toNat (b ++ [n]) := by
  unfold store_node at h
  split at h
  · rename_i h0
    split at h
    · cases h
    · rename_i b hb
      split at h
      · rename_i hl
        exact ⟨h0, b, hb, hl, (Option.some.inj h).symm⟩
      · cases h
  · cases h

/-- The neighbour loops of `A_star_mpi`: every record created is a child of
`u` for a non-WALL neighbour; it goes to the local heap when the worker owns
its cell and to the row of its owner in `node_storage` otherwise; marks change
only to `M_FRONT`. -/
theorem expand_mpi_spec (mem : Nat → Bool) (h : heuristic) (rank W : Int) (u : mpi_node) :
    ∀ (l : List (Int × Int)) (w w1 : worker) (st st1 : List (List mpi_node)),
      heap_wf w.Q → get2 w.G.mark u.pos = some M_USED →
      (∀ o ∈ l, -1 ≤ o.1 ∧ o.1 ≤ 1 ∧ -1 ≤ o.2 ∧ o.2 ≤ 1) →
      expand_mpi mem h rank W u l w st = .next (w1, st1) →
      inbox_step (fun e => child_of w.G h rank w.cur_win_i u e ∧ hda e.pos W = rank) w w1 ∧
        get2 w1.G.mark u.pos = some M_USED ∧ w1.clock = w.clock ∧ st1.length = st.length ∧
        ∀ (d : Nat) (b : List mpi_node), st1[d]? = some b → ∃ b0 fresh, st[d]? = some b0 ∧
          b = b0 ++ fresh ∧
          ∀ n ∈ fresh, child_of w.G h rank w.cur_win_i u n ∧ hda n.pos W = (d : Int) ∧
            (d : Int) ≠ rank := by
  intro l
  induction l with
  | nil =>
    intro w w1 st st1 hwf hused _ hx
    simp only [expand_mpi, mpi_flow.next.injEq, Prod.mk.injEq] at hx
    obtain ⟨rfl, rfl⟩ := hx
    exact ⟨inbox_step_refl _ _ hwf, hused, rfl, rfl, fun d b hb => ⟨b, [], hb, by simp, by simp⟩⟩
  | cons o rest ih =>
    intro w w1 st st1 hwf hused hl hx
    obtain ⟨x, y⟩ := o
    have hxy := hl (x, y) (List.mem_cons_self _ _)
    simp only at hxy
    have hrest : ∀ o ∈ rest, -1 ≤ o.1 ∧ o.1 ≤ 1 ∧ -1 ≤ o.2 ∧ o.2 ≤ 1 :=
      fun o ho => hl o (List.mem_cons_of_mem _ ho)
    unfold expand_mpi at hx
    simp only at hx
    cases hmk : get2 w.G.mark ⟨u.pos.x + x, u.pos.y + y⟩ with
    | none => simp [hmk] at hx
    | some mk =>
      simp only [hmk] at hx
      by_cases hnull : mk = M_NULL
      · simp only [hnull, if_true] at hx
        subst hnull
        cases hv : get2 w.G.value ⟨u.pos.x + x, u.pos.y + y⟩ with
        | none => simp [hv] at hx
        | some v =>
          simp only [hv] at hx
          by_cases hwall : v = V_WALL
          · simp only [hwall, ne_eq, not_true_eq_false, if_false] at hx
            exact ih w w1 st st1 hwf hused hrest hx
          · simp only [ne_eq, hwall, not_false_eq_true, if_true] at hx
            cases hc : CreateMpiNode w.G ⟨u.pos.x + x, u.pos.y + y⟩ u rank w.cur_win_i h with
            | none => simp [hc] at hx
            | some n =>
              simp only [hc] at hx
              obtain ⟨hnpos, _, _, _⟩ := CreateMpiNode_spec hc
              have hne : u.pos ≠ ⟨u.pos.x + x, u.pos.y + y⟩ := by
                intro e
                rw [← e, hused] at hmk
                cases hmk
              have hadj : adjacent u.pos ⟨u.pos.x + x, u.pos.y + y⟩ :=
                ⟨hne, by simp only; omega, by simp only; omega, by simp only; omega,
                  by simp only; omega⟩
              have hchild : child_of w.G h rank w.cur_win_i u n :=
                ⟨w.G, _, v, same_grid_refl _, hadj, hv, hwall, hc⟩
              by_cases hdst : hda ⟨u.pos.x + x, u.pos.y + y⟩ W = rank
              · -- the worker owns the cell: local insertion
                simp only [hdst, ne_eq, not_true_eq_false, if_false] at hx
                cases ha : heap_add w.Q (mpiNodeToPtr n) (mem (w.Q.nmax * 2 + 1)) with
                | none => simp [ha] at hx
                | some r =>
                  obtain ⟨b, Q1⟩ := r
                  cases b with
                  | true => simp [ha] at hx
                  | false =>
                    simp only [ha] at hx
                    cases hs : set_mark w.G n.pos M_FRONT with
                    | none => simp [hs] at hx
                    | some G1 =>
                      simp only [hs] at hx
                      obtain ⟨q1, q2, _, q4⟩ := heap_add_ok hwf ha
                      obtain ⟨s1, s2⟩ := set_mark_spec hs
                      have hused1 : get2 G1.mark u.pos = some M_USED := by
                        rw [s2, hnpos, if_neg hne]; exact hused
                      obtain ⟨c, c9, c10, c11, c12⟩ :=
                        ih { w with Q := Q1, G := G1 } w1 st st1 q1 hused1 hrest hx
                      obtain ⟨c1, c2, c3, c4, c5, c6, c7, c8⟩ := c
                      refine ⟨⟨same_grid_trans s1 c1, c2, c3.trans q2, ?_, ?_, c6, c7, c8⟩, c9, c10,
                        c11, ?_⟩
                      · intro e he
                        rcases c4 e he with h1 | ⟨h1, h2⟩
                        · rcases (q4 (some e)).1 h1 with h2 | h2
                          · exact Or.inl h2
                          · right
                            rw [mpiNodeToPtr_eq] at h2
                            rw [Option.some.inj h2]
                            exact ⟨hchild, by rw [hnpos]; exact hdst⟩
                        · exact Or.inr ⟨child_of_same_grid s1 h1, h2⟩
                      · intro p
                        rcases c5 p with h1 | h1
                        · rw [h1]
                          simp only at s2 ⊢
                          rw [s2 p]
                          by_cases hp : p = n.pos
                          · simp [hp]
                          · simp [hp]
                        · exact Or.inr h1
                      · intro d b hb
                        obtain ⟨b0, fresh, d1, d2, d3⟩ := c12 d b hb
                        exact ⟨b0, fresh, d1, d2, fun m hm =>
                          ⟨child_of_same_grid s1 (d3 m hm).1, (d3 m hm).2⟩⟩
              · -- another worker owns the cell: the record goes to its batch
                simp only [ne_eq, hdst, not_false_eq_true, if_true] at hx
                cases hst : store_node st (hda ⟨u.pos.x + x, u.pos.y + y⟩ W) n with
                | none => simp [hst] at hx
                | some st2 =>
                  simp only [hst] at hx
                  cases hs : set_mark w.G n.pos M_FRONT with
                  | none => simp [hs] at hx
                  | some G1 =>
                    simp only [hs] at hx
                    obtain ⟨s1, s2⟩ := set_mark_spec hs
                    obtain ⟨t0, bd, t1, _, t3⟩ := store_node_spec hst
                    have hused1 : get2 G1.mark u.pos = some M_USED := by
                      rw [s2, hnpos, if_neg hne]; exact hused
                    obtain ⟨c, c9, c10, c11, c12⟩ :=
                      ih { w with G := G1 } w1 st2 st1 hwf hused1 hrest hx
                    obtain ⟨c1, c2, c3, c4, c5, c6, c7, c8⟩ := c
                    refine ⟨⟨same_grid_trans s1 c1, c2, c3, ?_, ?_, c6, c7, c8⟩, c9, c10,
                      by rw [c11, t3, List.length_set], ?_⟩
                    · intro e he
                      rcases c4 e he with h1 | ⟨h1, h2⟩
                      · exact Or.inl h1
                      · exact Or.inr ⟨child_of_same_grid s1 h1, h2⟩
                    · intro p
                      rcases c5 p with h1 | h1
                      · rw [h1]
                        simp only at s2 ⊢
                        rw [s2 p]
                        by_cases hp : p = n.pos
                        · simp [hp]
                        · simp [hp]
                      · exact Or.inr h1
                    · intro d b hb
                      obtain ⟨b0, fresh, d1, d2, d3⟩ := c12 d b hb
                      have d3a : ∀ m ∈ fresh, child_of w.G h rank w.cur_win_i u m ∧
                          hda m.pos W = (d : Int) ∧ (d : Int) ≠ rank :=
                        fun m hm => ⟨child_of_same_grid s1 (d3 m hm).1, (d3 m hm).2⟩
                      rw [t3] at d1
                      by_cases hd : (hda ⟨u.pos.x + x, u.pos.y + y⟩ W).toNat = d
                      · subst hd
                        have hlt : (hda ⟨u.pos.x + x, u.pos.y + y⟩ W).toNat < st.length := by
                          by_contra hcon
                          rw [List.getElem?_eq_none (Nat.le_of_not_lt hcon)] at t1
                          cases t1
                        rw [List.getElem?_set_self hlt] at d1
                        cases d1
                        refine ⟨bd, n :: fresh, t1, by rw [d2]; simp, ?_⟩
                        intro m hm
                        rcases List.mem_cons.1 hm with rfl | hm
                        · refine ⟨hchild, ?_, ?_⟩
                          · rw [hnpos, Int.toNat_of_nonneg t0]
                          · rw [Int.toNat_of_nonneg t0]; exact hdst
                        · exact d3a m hm
                      · rw [List.getElem?_set_ne hd] at d1
                        exact ⟨b0, fresh, d1, d2, d3a⟩
      · simp only [hnull, if_false] at hx
        exact ih w w1 st st1 hwf hused hrest hx

/-- The flush loop sends each non-empty row of `node_storage` to the rank
that indexes it. -/
theorem flush_spec {st : List (List mpi_node)} {msgs : List message}
    (h : flush st = some msgs) :
    ∀ m ∈ msgs, ∃ (d : Nat) (b : List mpi_node), m = message.node (d : Int) b ∧
      st[d]? = some b ∧ b ≠ [] := by
  unfold flush at h
  simp only at h
  split at h
  · cases h
    intro m hm
    simp only [List.mem_map, List.mem_filter] at hm
    obtain ⟨⟨d, b⟩, ⟨h1, h2⟩, rfl⟩ := hm
    refine ⟨d, b, rfl, List.mk_mem_enum_iff_getElem?.1 h1, ?_⟩
    intro hb
    simp [hb] at h2
  · cases h

/-- The walk over the parents changes marks to `M_PATH` only, sends queries
only, and leaves the heap and the window buffer alone. -/
theorem reconstruct_spec (env : environment) (rank : Int) :
    ∀ (fuel : Nat) (path : mpi_node) (w w1 : worker),
      reconstruct env rank fuel path w = .next w1 →
      same_grid w.G w1.G ∧ w1.Q = w.Q ∧ w1.window_buffer = w.window_buffer ∧
        w1.cur_win_i = w.cur_win_i ∧
        (∀ p, get2 w1.G.mark p = get2 w.G.mark p ∨ get2 w1.G.mark p = some M_PATH) ∧
        ∀ dst batch, message.node dst batch ∈ w1.sent → message.node dst batch ∈ w.sent := by
  intro fuel
  induction fuel with
  | zero => intro path w w1 h; simp [reconstruct] at h
  | succ f ih =>
    intro path w w1 h
    unfold reconstruct at h
    split at h
    · split at h
      · cases h
      · rename_i G1 hs
        obtain ⟨s1, s2⟩ := set_mark_spec hs
        have hmark : ∀ (w2 : worker), w2.G = G1 →
            (∀ p, get2 w1.G.mark p = get2 w2.G.mark p ∨ get2 w1.G.mark p = some M_PATH) →
            ∀ p, get2 w1.G.mark p = get2 w.G.mark p ∨ get2 w1.G.mark p = some M_PATH := by
          intro w2 hw2 hm p
          rcases hm p with h1 | h1
          · rw [h1, hw2, s2 p]
            by_cases hp : p = path.pos
            · simp [hp]
            · simp [hp]
          · exact Or.inr h1
        split at h
        · obtain ⟨c1, c2, c3, c4, c5, c6⟩ := ih _ _ _ h
          refine ⟨same_grid_trans s1 c1, c2, c3, c4, hmark _ rfl c5, ?_⟩
          intro dst batch hm
          have := c6 dst batch hm
          simpa using this
        · split at h
          · split at h
            · cases h
            · obtain ⟨c1, c2, c3, c4, c5, c6⟩ := ih _ _ _ h
              exact ⟨same_grid_trans s1 c1, c2, c3, c4, hmark _ rfl c5, c6⟩
          · cases h
    · cases h
      exact ⟨same_grid_refl _, rfl, rfl, rfl, fun _ => Or.inl rfl, fun _ _ hm => hm⟩

theorem reconstruct_not_ret (env : environment) (rank : Int) :
    ∀ (fuel : Nat) (path : mpi_node) (w : worker) (r : double × worker),
      reconstruct env rank fuel path w ≠ .ret r := by
  intro fuel
  induction fuel with
  | zero => intro path w r h; simp [reconstruct] at h
  | succ f ih =>
    intro path w r h
    unfold reconstruct at h
    split at h
    · split at h
      · cases h
      · split at h
        · exact ih _ _ _ h
        · split at h
          · split at h
            · cases h
            · exact ih _ _ _ h
          · cases h
    · cases h

theorem broadcast_not_node (W rank : Int) (msg : Int → message)
    (hmsg : ∀ d dst batch, msg d ≠ message.node dst batch) (dst : Int) (batch : List mpi_node) :
    message.node dst batch ∉ broadcast W rank msg := by
  intro hm
  unfold broadcast at hm
  simp only [List.mem_map] at hm
  obtain ⟨d, _, hd⟩ := hm
  exact hmsg _ _ _ hd

/-- What the pop of the main loop gives after the drain loop. -/
theorem mpi_pop {src : mpi_node → Prop} {w w1 : worker} (hf : w.Q.f = fcmp_nodescore)
    (hstep : inbox_step src w w1) (hne : heap_empty w1.Q = false) :
    ∃ u Q1, heap_pop w1.Q = some (some u, Q1) ∧ (some u ∈ entries w.Q ∨ src u) ∧ heap_wf Q1 ∧
      Q1.f = fcmp_nodescore ∧ ∀ e, some e ∈ entries Q1 → some e ∈ entries w.Q ∨ src e := by
  obtain ⟨_, c2, c3, c4, _⟩ := hstep
  have hfp : ∀ x y, 0 < w1.Q.f x y ↔ score_val y < score_val x := by
    rw [c3, hf]; exact fun x y => fcmp_nodescore_pos x y
  obtain ⟨u, Q1, p1, _, p3, _, _, p6, p7, _⟩ :=
    heap_pop_spec score_val w1.Q hfp c2 (heap_nonempty_of_not_empty hne)
  exact ⟨u, Q1, p1, c4 u (p7.mem_iff.1 (List.mem_cons_self _ _)), p6, by rw [p3, c3, hf],
    fun e he => c4 e (p7.mem_iff.1 (List.mem_cons_of_mem _ he))⟩

/-- One iteration of the main loop of `A_star_mpi` that hands over to the
next: an entry `u` of the heap or of a received batch was popped, and either
its cell was closed already, or it was closed now and expanded. -/
theorem mpi_iteration_spec (mem : Nat → Bool) (env : environment) (h : heuristic)
    (rank W : Int) (fuel : Nat) (w w1 : worker) (hwf : heap_wf w.Q)
    (hf : w.Q.f = fcmp_nodescore) (hx : mpi_iteration mem env h rank W fuel w = .next w1) :
    same_grid w.G w1.G ∧ heap_wf w1.Q ∧ w1.Q.f = fcmp_nodescore ∧
      ∃ u wd Q1, (some u ∈ entries w.Q ∨ received env u) ∧
        drain mem env (hda w.G.end_ W) fuel w = .next wd ∧
        heap_pop wd.Q = some (some u, Q1) ∧ get2 w1.G.mark u.pos = some M_USED ∧
        ((get2 wd.G.mark u.pos = some M_USED ∧ stale_step env w w1) ∨
          (get2 wd.G.mark u.pos ≠ some M_USED ∧ close_step env h rank W u w w1)) := by
  unfold mpi_iteration at hx
  simp only at hx
  cases hd : drain mem env (hda w.G.end_ W) fuel w with
  | ret r => simp [hd] at hx
  | abort => simp [hd] at hx
  | ub => simp [hd] at hx
  | out_of_fuel => simp [hd] at hx
  | next wd =>
    simp only [hd] at hx
    obtain ⟨hstep, hne⟩ := drain_spec mem env _ fuel w wd hwf hd
    obtain ⟨u, Q1, hpop, hu, hwf1, hf1, hent⟩ := mpi_pop hf hstep hne
    obtain ⟨c1, _, _, _, c5, c6, c7, c8⟩ := hstep
    simp only [hpop] at hx
    cases hmk : get2 wd.G.mark u.pos with
    | none => simp [hmk] at hx
    | some mk =>
      simp only [hmk] at hx
      by_cases hused : mk = M_USED
      · simp only [hused, if_true, mpi_flow.next.injEq] at hx
        subst hx
        subst hused
        exact ⟨c1, hwf1, hf1, u, wd, Q1, hu, rfl, hpop, hmk, Or.inl ⟨hmk, hent, c5, c6, c7, c8⟩⟩
      · simp only [hused, if_false] at hx
        split at hx
        · -- the goal branch never hands over to a next iteration
          split at hx <;> cases hx
        · cases hs : set_mark wd.G u.pos M_USED with
          | none => simp [hs] at hx
          | some G1 =>
            simp only [hs] at hx
            obtain ⟨s1, s2⟩ := set_mark_spec hs
            by_cases hlen : wd.cur_win_i < wd.window_buffer.length
            · simp only [hlen, if_true] at hx
              cases he : expand_mpi mem h rank W u neighbours
                  { wd with Q := Q1, G := G1,
                            window_buffer := wd.window_buffer.set wd.cur_win_i (some u) }
                  (List.replicate W.toNat []) with
              | ret r => simp [he] at hx
              | abort => simp [he] at hx
              | ub => simp [he] at hx
              | out_of_fuel => simp [he] at hx
              | next r =>
                obtain ⟨we, st⟩ := r
                simp only [he] at hx
                cases hfl : flush st with
                | none => simp [hfl] at hx
                | some msgs =>
                  simp only [hfl, mpi_flow.next.injEq] at hx
                  subst hx
                  have hused1 : get2 G1.mark u.pos = some M_USED := by rw [s2]; simp
                  obtain ⟨e1, e2, _, _, e5⟩ :=
                    expand_mpi_spec mem h rank W u neighbours _ we _ st hwf1 hused1
                      neighbours_range he
                  obtain ⟨d1, d2, d3, d4, d5, d6, d7, d8⟩ := e1
                  have hg : same_grid w.G G1 := same_grid_trans c1 s1
                  have hnu : get2 wd.G.mark u.pos ≠ some M_USED := by
                    rw [hmk]
                    exact fun e => hused (Option.some.inj e)
                  refine ⟨same_grid_trans hg d1, d2, by rw [d3]; exact hf1, u, wd, Q1, hu,
                    rfl, hpop, e2, Or.inr
                    ⟨hnu, ?_, ?_, by rw [← c7, ← c6]; exact hlen, ?_, ?_, msgs, ?_, ?_⟩⟩
                  · intro e hmem
                    rcases d4 e hmem with h1 | ⟨h1, h2⟩
                    · rcases hent e h1 with h3 | h3
                      · exact Or.inl h3
                      · exact Or.inr (Or.inl h3)
                    · refine Or.inr (Or.inr ⟨?_, h2⟩)
                      have := child_of_same_grid hg h1
                      simpa [c7] using this
                  · intro p
                    rcases d5 p with h1 | h1
                    · by_cases hp : p = u.pos
                      · exact Or.inr (Or.inr hp)
                      · simp only at h1
                        rw [h1, s2 p, if_neg hp]
                        rcases c5 p with h2 | h2
                        · exact Or.inl h2
                        · exact Or.inr (Or.inl h2)
                    · exact Or.inr (Or.inl h1)
                  · simp only [d6, c6, c7]
                  · simp only [d7, c7]
                  · simp only [d8, c8]
                  · intro m hm
                    obtain ⟨d, b, rfl, hb, hbne⟩ := flush_spec hfl m hm
                    obtain ⟨b0, fresh, g1, g2, g3⟩ := e5 d b hb
                    have hb0 : b0 = [] := by
                      rw [List.getElem?_replicate] at g1
                      split at g1
                      · exact (Option.some.inj g1).symm
                      · cases g1
                    subst hb0
                    simp only [List.nil_append] at g2
                    subst g2
                    refine ⟨d, b, rfl, ?_, hbne, ?_⟩
                    · obtain ⟨n, hn⟩ := List.exists_mem_of_ne_nil b hbne
                      exact (g3 n hn).2.2
                    · intro n hn
                      obtain ⟨k1, k2, _⟩ := g3 n hn
                      refine ⟨?_, k2⟩
                      have := child_of_same_grid hg k1
                      simpa [c7] using this
            · simp [hlen] at hx

theorem expand_mpi_not_ret (mem : Nat → Bool) (h : heuristic) (rank W : Int) (u : mpi_node) :
    ∀ (l : List (Int × Int)) (w : worker) (st : List (List mpi_node)) (r : double × worker),
      expand_mpi mem h rank W u l w st ≠ .ret r := by
  intro l
  induction l with
  | nil => intro w st r hx; simp [expand_mpi] at hx
  | cons o rest ih =>
    intro w st r hx
    obtain ⟨x, y⟩ := o
    unfold expand_mpi at hx
    simp only at hx
    split at hx
    · cases hx
    · split at hx
      · split at hx
        · cases hx
        · split at hx
          · split at hx
            · cases hx
            · split at hx
              · split at hx
                · cases hx
                · split at hx
                  · cases hx
                  · exact ih _ _ _ hx
              · split at hx
                · cases hx
                · cases hx
                · split at hx
                  · cases hx
                  · exact ih _ _ _ hx
          · exact ih _ _ _ hx
      · exact ih _ _ _ hx

/-- One iteration of the main loop of `A_star_mpi` that returns, on a worker
that is never told `destination_reached`: the worker owns the end, the entry
popped is on the end cell, and its cost is returned; no `node` message is sent
in this iteration. -/
theorem mpi_iteration_ret (mem : Nat → Bool) (env : environment) (h : heuristic)
    (rank W : Int) (fuel : Nat) (w w1 : worker) (c : double) (hwf : heap_wf w.Q)
    (hf : w.Q.f = fcmp_nodescore) (hdr : ∀ t, (env t).destination_reached = false)
    (hx : mpi_iteration mem env h rank W fuel w = .ret (c, w1)) :
    ∃ u, (some u ∈ entries w.Q ∨ received env u) ∧ u.pos = w.G.end_ ∧ c = u.cost ∧
      rank = hda w.G.end_ W ∧ same_grid w.G w1.G ∧
      ∀ dst batch, message.node dst batch ∈ w1.sent → message.node dst batch ∈ w.sent := by
  unfold mpi_iteration at hx
  simp only at hx
  cases hd : drain mem env (hda w.G.end_ W) fuel w with
  | ret r => exact absurd hd (drain_not_ret mem env _ hdr fuel w r)
  | abort => simp [hd] at hx
  | ub => simp [hd] at hx
  | out_of_fuel => simp [hd] at hx
  | next wd =>
    simp only [hd] at hx
    obtain ⟨hstep, hne⟩ := drain_spec mem env _ fuel w wd hwf hd
    obtain ⟨u, Q1, hpop, hu, hwf1, hf1, hent⟩ := mpi_pop hf hstep hne
    obtain ⟨c1, _, _, _, c5, c6, c7, c8⟩ := hstep
    simp only [hpop] at hx
    cases hmk : get2 wd.G.mark u.pos with
    | none => simp [hmk] at hx
    | some mk =>
      simp only [hmk] at hx
      by_cases hused : mk = M_USED
      · simp [hused] at hx
      · simp only [hused, if_false] at hx
        split at hx
        · rename_i hgoal
          obtain ⟨g1, g2, g3⟩ := hgoal
          cases hr : reconstruct env rank fuel u
              { wd with Q := Q1,
                        sent := wd.sent ++ broadcast W rank message.destination_reached } with
          | ret r => exact absurd hr (reconstruct_not_ret env rank fuel u _ r)
          | abort => simp [hr] at hx
          | ub => simp [hr] at hx
          | out_of_fuel => simp [hr] at hx
          | next w4 =>
            simp only [hr, mpi_flow.ret.injEq, Prod.mk.injEq] at hx
            obtain ⟨rfl, rfl⟩ := hx
            obtain ⟨r1, _, _, _, _, r6⟩ := reconstruct_spec env rank fuel u _ w4 hr
            have hpos : u.pos = w.G.end_ := by
              rw [← c1.2.2.2.2]
              cases hp : u.pos
              cases he : wd.G.end_
              simp only [hp, he] at g2 g3
              rw [g2, g3]
            refine ⟨u, hu, hpos, rfl, g1, same_grid_trans c1 r1, ?_⟩
            intro dst batch hm
            simp only [List.mem_append] at hm
            rcases hm with hm | hm
            · have := r6 dst batch hm
              simp only [List.mem_append] at this
              rcases this with h1 | h1
              · rw [← c8]; exact h1
              · exact absurd h1 (broadcast_not_node W rank _ (fun _ _ _ hc => by cases hc) dst batch)
            · exact absurd hm (broadcast_not_node W rank _ (fun _ _ _ hc => by cases hc) dst batch)
        · cases hs : set_mark wd.G u.pos M_USED with
          | none => simp [hs] at hx
          | some G1 =>
            simp only [hs] at hx
            split at hx
            · split at hx
              · split at hx <;> cases hx
              · rename_i r hr
                exact absurd hr (expand_mpi_not_ret mem h rank W u _ _ _ r)
              · cases hx
              · cases hx
              · cases hx
            · cases hx

/-- The prologue of `A_star_mpi` when it reaches the main loop: the owner of
the start holds the start entry, marked `M_FRONT`; every other worker holds
nothing and its grid is untouched. -/
theorem mpi_init_spec (mem : Nat → Bool) (rank W : Int) (G : grid) (h : heuristic) (w : worker)
    (hmem : mem (INIT_HEAP_CAPACITY + 1) = true) (hx : mpi_init mem rank W G h = .next w) :
    same_grid G w.G ∧ heap_wf w.Q ∧ w.Q.f = fcmp_nodescore ∧
      w.window_buffer = List.replicate (G.X * G.Y) none ∧ w.cur_win_i = 0 ∧ w.sent = [] ∧
      ((rank = hda G.start W ∧ w.Q.n = 1 ∧
          (∀ e, some e ∈ entries w.Q → e.pos = G.start ∧ e.cost = of_int 0 ∧
            e.parent_rank = -1 ∧ e.parent_win_i = -1) ∧
          ∀ p, get2 w.G.mark p = if p = G.start then some M_FRONT else get2 G.mark p) ∨
        (rank ≠ hda G.start W ∧ w.Q.n = 0 ∧ (∀ e, some e ∉ entries w.Q) ∧ w.G = G)) := by
  unfold mpi_init at hx
  simp only [hmem] at hx
  have hwf0 : heap_wf (heap_create INIT_HEAP_CAPACITY (fcmp_nodescore : mpi_node → mpi_node → Int)
      true) := heap_create_wf _ (by decide) _
  have hent0 : ∀ x, x ∉ entries (heap_create INIT_HEAP_CAPACITY
      (fcmp_nodescore : mpi_node → mpi_node → Int) true) := by
    intro x hxm
    simp [entries, ents, heap_create] at hxm
  split at hx
  · cases hx
  · split at hx
    · cases hx
    · split at hx
      · rename_i hrank
        split at hx
        · cases hx
        · cases hx
        · rename_i Q1 ha
          split at hx
          · cases hx
          · rename_i G1 hs
            cases hx
            obtain ⟨q1, q2, q3, q4⟩ := heap_add_ok hwf0 ha
            obtain ⟨s1, s2⟩ := set_mark_spec hs
            refine ⟨s1, q1, q2, rfl, rfl, rfl, Or.inl ⟨hrank, q3, ?_, s2⟩⟩
            intro e he
            rcases (q4 (some e)).1 he with h1 | h1
            · exact absurd h1 (hent0 _)
            · cases h1
              exact ⟨rfl, rfl, rfl, rfl⟩
      · rename_i hrank
        cases hx
        exact ⟨same_grid_refl _, hwf0, rfl, rfl, rfl, rfl, Or.inr ⟨hrank, rfl, fun e => hent0 _, rfl⟩⟩

/-- The cost of a child of `u` is the cost of a path, if the cost of `u` is. -/
theorem child_of_path {G0 G : grid} {h : heuristic} {rank : Int} {cur : Nat} {u e : mpi_node}
    (hg : same_grid G0 G) (hc : child_of G h rank cur u e) (hu : path_to G0 u.pos u.cost) :
    path_to G0 e.pos e.cost := by
  obtain ⟨G1, p, v, c1, c2, c3, c4, c5⟩ := hc
  obtain ⟨hpos, _, _, v1, wt, k1, k2, k3⟩ := CreateMpiNode_spec c5
  rw [c1.2.2.1] at k1
  rw [k1] at c3
  cases c3
  rw [hpos, k3]
  refine path_to.step hu c2 ?_ c4 k2
  rw [← hg.2.2.1]
  exact k1

/-- The main loop of `A_star_mpi` on a worker that is never told
`destination_reached` and receives only records whose cost is that of a path to
their cell: if it returns, the worker owns the end and the value is the cost of
a path from the start to the end; the records it has sent are of that kind
too. -/
theorem mpi_loop_path_cost (mem : Nat → Bool) (env : environment) (h : heuristic) (rank W : Int)
    (G0 : grid) (hdr : ∀ t, (env t).destination_reached = false)
    (henv : ∀ e, received env e → path_to G0 e.pos e.cost) :
    ∀ (fuel : Nat) (w w1 : worker) (c : double), same_grid G0 w.G → heap_wf w.Q →
      w.Q.f = fcmp_nodescore → (∀ e, some e ∈ entries w.Q → path_to G0 e.pos e.cost) →
      (∀ dst batch, message.node dst batch ∈ w.sent → ∀ n ∈ batch, path_to G0 n.pos n.cost) →
      mpi_loop mem env h rank W fuel w = .ret (c, w1) →
      rank = hda G0.end_ W ∧ path_to G0 G0.end_ c ∧
        ∀ dst batch, message.node dst batch ∈ w1.sent → ∀ n ∈ batch, path_to G0 n.pos n.cost := by
  intro fuel
  induction fuel with
  | zero => intro w w1 c _ _ _ _ _ hx; simp [mpi_loop] at hx
  | succ f ih =>
    intro w w1 c hg hwf hf hent hsent hx
    unfold mpi_loop at hx
    have hpop : ∀ u, some u ∈ entries w.Q ∨ received env u → path_to G0 u.pos u.cost :=
      fun u hu => hu.elim (hent u) (henv u)
    cases hi : mpi_iteration mem env h rank W f w with
    | next w2 =>
      simp only [hi] at hx
      obtain ⟨i1, i2, i3, u, _, _, i4, _, _, _, i6⟩ :=
        mpi_iteration_spec mem env h rank W f w w2 hwf hf hi
      refine ih w2 w1 c (same_grid_trans hg i1) i2 i3 ?_ ?_ hx
      · intro e he
        rcases i6 with ⟨_, s1, _⟩ | ⟨_, s1, _⟩
        · exact hpop e (s1 e he)
        · rcases s1 e he with k | k | ⟨k, _⟩
          · exact hent e k
          · exact henv e k
          · exact child_of_path hg k (hpop u i4)
      · intro dst batch hm n hn
        rcases i6 with ⟨_, _, _, _, _, s5⟩ | ⟨_, _, _, _, _, _, msgs, s6, s7⟩
        · rw [s5] at hm
          exact hsent dst batch hm n hn
        · rw [s6, List.mem_append] at hm
          rcases hm with hm | hm
          · exact hsent dst batch hm n hn
          · obtain ⟨d, b, hmb, _, _, k⟩ := s7 _ hm
            cases hmb
            exact child_of_path hg (k n hn).1 (hpop u i4)
    | ret r =>
      simp only [hi, mpi_run.ret.injEq] at hx
      subst hx
      obtain ⟨u, r1, r2, r3, r4, _, r6⟩ := mpi_iteration_ret mem env h rank W f w w1 c hwf hf hdr hi
      refine ⟨by rw [r4, hg.2.2.2.2], ?_, fun dst batch hm => hsent dst batch (r6 dst batch hm)⟩
      have := hpop u r1
      rw [r2, hg.2.2.2.2] at this
      rw [r3]
      exact this
    | abort => simp [hi] at hx
    | ub => simp [hi] at hx
    | out_of_fuel => simp [hi] at hx

/-- Like `mpi_loop_path_cost`, for the whole of `A_star_mpi` on a grid whose
end is not WALL. -/
theorem mpi_path_cost (mem : Nat → Bool) (env : environment) (h : heuristic) (rank W : Int)
    (G : grid) (fuel : Nat) (c : double) (w : worker)
    (hmem : mem (INIT_HEAP_CAPACITY + 1) = true) (hend : get2 G.value G.end_ ≠ some V_WALL)
    (hdr : ∀ t, (env t).destination_reached = false)
    (henv : ∀ e, received env e → path_to G e.pos e.cost)
    (hx : A_star_mpi mem env rank W G h fuel = .ret (c, w)) :
    rank = hda G.end_ W ∧ path_to G G.end_ c ∧
      ∀ dst batch, message.node dst batch ∈ w.sent → ∀ n ∈ batch, path_to G n.pos n.cost := by
  unfold A_star_mpi at hx
  cases hi : mpi_init mem rank W G h with
  | next w0 =>
    simp only [hi] at hx
    obtain ⟨i1, i2, i3, _, _, i6, i7⟩ := mpi_init_spec mem rank W G h w0 hmem hi
    refine mpi_loop_path_cost mem env h rank W G hdr henv fuel w0 w c i1 i2 i3 ?_ ?_ hx
    · intro e he
      rcases i7 with ⟨_, _, k, _⟩ | ⟨_, _, k, _⟩
      · obtain ⟨k1, k2, _⟩ := k e he
        rw [k1, k2]
        exact path_to.start
      · exact absurd he (k e)
    · intro dst batch hm
      rw [i6] at hm
      cases hm
  | ret r =>
    exfalso
    unfold mpi_init at hi
    split at hi
    · cases hi
    · rename_i v hv
      split at hi
      · rename_i hw
        rw [hw] at hv
        exact hend hv
      · simp only at hi
        split at hi
        · split at hi
          · cases hi
          · cases hi
          · split at hi <;> cases hi
        · cases hi
  | abort => simp [hi] at hx
  | ub => simp [hi] at hx
  | out_of_fuel => simp [hi] at hx

/-- The neighbour loops of `A_star_mpi` lose nothing: entries of the heap and
records of `node_storage` stay, and every unmarked non-WALL cell among the
neighbours visited gets a record, in the local heap when the worker owns the
cell and in the row of its owner otherwise. -/
theorem expand_mpi_complete (mem : Nat → Bool) (h : heuristic) (rank W : Int) (u : mpi_node) :
    ∀ (l : List (Int × Int)) (w w1 : worker) (st st1 : List (List mpi_node)),
      heap_wf w.Q → get2 w.G.mark u.pos = some M_USED →
      expand_mpi mem h rank W u l w st = .next (w1, st1) →
      (∀ e, some e ∈ entries w.Q → some e ∈ entries w1.Q) ∧
        (∀ (d : Nat) (b0 : List mpi_node), st[d]? = some b0 →
          ∃ b, st1[d]? = some b ∧ ∀ n ∈ b0, n ∈ b) ∧
        ∀ o ∈ l, get2 w.G.mark ⟨u.pos.x + o.1, u.pos.y + o.2⟩ = some M_NULL →
          (∃ v, get2 w.G.value ⟨u.pos.x + o.1, u.pos.y + o.2⟩ = some v ∧ v ≠ V_WALL) →
          ∃ e, e.pos = ⟨u.pos.x + o.1, u.pos.y + o.2⟩ ∧ e.parent_rank = rank ∧
            e.parent_win_i = (w.cur_win_i : Int) ∧
            if hda e.pos W = rank then some e ∈ entries w1.Q
            else ∃ b, st1[(hda e.pos W).toNat]? = some b ∧ e ∈ b := by
  intro l
  induction l with
  | nil =>
    intro w w1 st st1 hwf hused hx
    simp only [expand_mpi, mpi_flow.next.injEq, Prod.mk.injEq] at hx
    obtain ⟨rfl, rfl⟩ := hx
    exact ⟨fun _ he => he, fun d b0 hb => ⟨b0, hb, fun _ hn => hn⟩, fun o ho => by cases ho⟩
  | cons o rest ih =>
    intro w w1 st st1 hwf hused hx
    obtain ⟨x, y⟩ := o
    unfold expand_mpi at hx
    simp only at hx
    cases hmk : get2 w.G.mark ⟨u.pos.x + x, u.pos.y + y⟩ with
    | none => simp [hmk] at hx
    | some mk =>
      simp only [hmk] at hx
      by_cases hnull : mk = M_NULL
      · simp only [hnull, if_true] at hx
        subst hnull
        cases hv : get2 w.G.value ⟨u.pos.x + x, u.pos.y + y⟩ with
        | none => simp [hv] at hx
        | some v =>
          simp only [hv] at hx
          by_cases hwall : v = V_WALL
          · simp only [hwall, ne_eq, not_true_eq_false, if_false] at hx
            obtain ⟨c1, c2, c3⟩ := ih w w1 st st1 hwf hused hx
            refine ⟨c1, c2, ?_⟩
            intro o ho hm hopen
            rcases List.mem_cons.1 ho with rfl | ho
            · obtain ⟨v1, hv1, hw1⟩ := hopen
              simp only at hv1
              rw [hv] at hv1
              exact absurd (hwall ▸ (Option.some.inj hv1).symm) hw1
            · exact c3 o ho hm hopen
          · simp only [ne_eq, hwall, not_false_eq_true, if_true] at hx
            cases hc : CreateMpiNode w.G ⟨u.pos.x + x, u.pos.y + y⟩ u rank w.cur_win_i h with
            | none => simp [hc] at hx
            | some n =>
              simp only [hc] at hx
              obtain ⟨hnpos, hnr, hnw, _⟩ := CreateMpiNode_spec hc
              have hne : u.pos ≠ ⟨u.pos.x + x, u.pos.y + y⟩ := by
                intro e
                rw [← e, hused] at hmk
                cases hmk
              by_cases hdst : hda ⟨u.pos.x + x, u.pos.y + y⟩ W = rank
              · simp only [hdst, ne_eq, not_true_eq_false, if_false] at hx
                cases ha : heap_add w.Q (mpiNodeToPtr n) (mem (w.Q.nmax * 2 + 1)) with
                | none => simp [ha] at hx
                | some r =>
                  obtain ⟨b, Q1⟩ := r
                  cases b with
                  | true => simp [ha] at hx
                  | false =>
                    simp only [ha] at hx
                    cases hs : set_mark w.G n.pos M_FRONT with
                    | none => simp [hs] at hx
                    | some G1 =>
                      simp only [hs] at hx
                      obtain ⟨q1, _, _, q4⟩ := heap_add_ok hwf ha
                      obtain ⟨s1, s2⟩ := set_mark_spec hs
                      have hused1 : get2 G1.mark u.pos = some M_USED := by
                        rw [s2, hnpos, if_neg hne]; exact hused
                      obtain ⟨c1, c2, c3⟩ :=
                        ih { w with Q := Q1, G := G1 } w1 st st1 q1 hused1 hx
                      have hn1 : some n ∈ entries w1.Q :=
                        c1 n ((q4 (some n)).2 (Or.inr (by rw [mpiNodeToPtr_eq])))
                      have hhead : ∃ e, e.pos = (⟨u.pos.x + x, u.pos.y + y⟩ : position) ∧
                          e.parent_rank = rank ∧ e.parent_win_i = (w.cur_win_i : Int) ∧
                          if hda e.pos W = rank then some e ∈ entries w1.Q
                          else ∃ b, st1[(hda e.pos W).toNat]? = some b ∧ e ∈ b :=
                        ⟨n, hnpos, hnr, hnw, by rw [hnpos, if_pos hdst]; exact hn1⟩
                      refine ⟨fun e he => c1 e ((q4 (some e)).2 (Or.inl he)), c2, ?_⟩
                      intro o ho hm hopen
                      rcases List.mem_cons.1 ho with rfl | ho
                      · exact hhead
                      · by_cases hp : (⟨u.pos.x + o.1, u.pos.y + o.2⟩ : position) =
                            ⟨u.pos.x + x, u.pos.y + y⟩
                        · rw [hp]; exact hhead
                        · refine c3 o ho ?_ ?_
                          · simp only
                            rw [s2, hnpos, if_neg hp]
                            exact hm
                          · simp only
                            rw [s1.2.2.1]
                            exact hopen
              · simp only [ne_eq, hdst, not_false_eq_true, if_true] at hx
                cases hst : store_node st (hda ⟨u.pos.x + x, u.pos.y + y⟩ W) n with
                | none => simp [hst] at hx
                | some st2 =>
                  simp only [hst] at hx
                  cases hs : set_mark w.G n.pos M_FRONT with
                  | none => simp [hs] at hx
                  | some G1 =>
                    simp only [hs] at hx
                    obtain ⟨s1, s2⟩ := set_mark_spec hs
                    obtain ⟨_, bd, t1, _, t3⟩ := store_node_spec hst
                    have hused1 : get2 G1.mark u.pos = some M_USED := by
                      rw [s2, hnpos, if_neg hne]; exact hused
                    obtain ⟨c1, c2, c3⟩ := ih { w with G := G1 } w1 st2 st1 hwf hused1 hx
                    have hlt : (hda ⟨u.pos.x + x, u.pos.y + y⟩ W).toNat < st.length := by
                      by_contra hcon
                      rw [List.getElem?_eq_none (Nat.le_of_not_lt hcon)] at t1
                      cases t1
                    have hrow : st2[(hda ⟨u.pos.x + x, u.pos.y + y⟩ W).toNat]? = some (bd ++ [n]) := by
                      rw [t3, List.getElem?_set_self hlt]
                    have hhead : ∃ e, e.pos = (⟨u.pos.x + x, u.pos.y + y⟩ : position) ∧
                        e.parent_rank = rank ∧ e.parent_win_i = (w.cur_win_i : Int) ∧
                        if hda e.pos W = rank then some e ∈ entries w1.Q
                        else ∃ b, st1[(hda e.pos W).toNat]? = some b ∧ e ∈ b := by
                      obtain ⟨b, hb1, hb2⟩ := c2 _ _ hrow
                      refine ⟨n, hnpos, hnr, hnw, ?_⟩
                      rw [hnpos, if_neg hdst]
                      exact ⟨b, hb1, hb2 n (by simp)⟩
                    refine ⟨c1, ?_, ?_⟩
                    · intro d b0 hb0
                      by_cases hd : (hda ⟨u.pos.x + x, u.pos.y + y⟩ W).toNat = d
                      · subst hd
                        rw [t1] at hb0
                        cases hb0
                        obtain ⟨b, hb1, hb2⟩ := c2 _ _ hrow
                        exact ⟨b, hb1, fun m hm => hb2 m (List.mem_append_left _ hm)⟩
                      · exact c2 d b0 (by rw [t3, List.getElem?_set_ne hd]; exact hb0)
                    · intro o ho hm hopen
                      rcases List.mem_cons.1 ho with rfl | ho
                      · exact hhead
                      · by_cases hp : (⟨u.pos.x + o.1, u.pos.y + o.2⟩ : position) =
                            ⟨u.pos.x + x, u.pos.y + y⟩
                        · rw [hp]; exact hhead
                        · refine c3 o ho ?_ ?_
                          · simp only
                            rw [s2, hnpos, if_neg hp]
                            exact hm
                          · simp only
                            rw [s1.2.2.1]
                            exact hopen
      · simp only [hnull, if_false] at hx
        obtain ⟨c1, c2, c3⟩ := ih w w1 st st1 hwf hused hx
        refine ⟨c1, c2, ?_⟩
        intro o ho hm hopen
        rcases List.mem_cons.1 ho with rfl | ho
        · simp only at hm
          rw [hmk] at hm
          exact absurd (Option.some.inj hm) hnull
        · exact c3 o ho hm hopen

/-- In every state in which an iteration starts, the grid has the size,
values and end points of the grid given, and the heap is well formed. -/
theorem mpi_reachable_wf (mem : Nat → Bool) (env : environment) (h : heuristic) (rank W : Int)
    (G : grid) (hmem : mem (INIT_HEAP_CAPACITY + 1) = true) (w : worker)
    (hw : mpi_reachable mem env h rank W G w) :
    same_grid G w.G ∧ heap_wf w.Q ∧ w.Q.f = fcmp_nodescore := by
  induction hw with
  | init hi =>
    obtain ⟨i1, i2, i3, _⟩ := mpi_init_spec mem rank W G h _ hmem hi
    exact ⟨i1, i2, i3⟩
  | @step fuel w0 w1 _ hi ih =>
    obtain ⟨g, hwf, hf⟩ := ih
    obtain ⟨i1, i2, i3, _⟩ := mpi_iteration_spec mem env h rank W _ _ _ hwf hf hi
    exact ⟨same_grid_trans g i1, i2, i3⟩

/-- If the records a worker receives are on cells it owns, then the entries
of its heap, the cells it has closed and the entries of its window buffer are
on cells it owns, and every record it has sent went to the owner of its cell,
another worker. -/
theorem mpi_reachable_routed (mem : Nat → Bool) (env : environment) (h : heuristic)
    (rank W : Int) (G : grid) (hmem : mem (INIT_HEAP_CAPACITY + 1) = true)
    (hmarks : ∀ p, get2 G.mark p ≠ some M_USED)
    (henv : ∀ e, received env e → hda e.pos W = rank) (w : worker)
    (hw : mpi_reachable mem env h rank W G w) :
    (∀ e, some e ∈ entries w.Q → hda e.pos W = rank) ∧
      (∀ p, get2 w.G.mark p = some M_USED → hda p W = rank) ∧
      (∀ (i : Nat) (e : mpi_node), w.window_buffer[i]? = some (some e) → hda e.pos W = rank) ∧
      ∀ dst batch, message.node dst batch ∈ w.sent →
        dst ≠ rank ∧ ∀ n ∈ batch, hda n.pos W = dst := by
  induction hw with
  | init hi =>
    obtain ⟨_, _, _, i4, _, i6, i7⟩ := mpi_init_spec mem rank W G h _ hmem hi
    refine ⟨?_, ?_, ?_, ?_⟩
    · intro e he
      rcases i7 with ⟨k0, _, k, _⟩ | ⟨_, _, k, _⟩
      · rw [(k e he).1, k0]
      · exact absurd he (k e)
    · intro p hp
      rcases i7 with ⟨_, _, _, k⟩ | ⟨_, _, _, k⟩
      · rw [k] at hp
        split at hp
        · cases hp
        · exact absurd hp (hmarks p)
      · rw [k] at hp
        exact absurd hp (hmarks p)
    · intro i e he
      rw [i4, List.getElem?_replicate] at he
      split at he <;> cases he
    · intro dst batch hm
      rw [i6] at hm
      cases hm
  | @step fuel w0 w1 hr hi ih =>
    obtain ⟨_, hwf, hf⟩ := mpi_reachable_wf mem env h rank W G hmem _ hr
    obtain ⟨a1, a2, a3, a4⟩ := ih
    obtain ⟨_, _, _, u, _, _, i4, _, _, _, i6⟩ :=
      mpi_iteration_spec mem env h rank W _ _ _ hwf hf hi
    have hu : hda u.pos W = rank := i4.elim (a1 u) (henv u)
    rcases i6 with ⟨_, s1, s2, s3, _, s5⟩ | ⟨_, s1, s2, s3, s4, _, msgs, s6, s7⟩
    · refine ⟨fun e he => (s1 e he).elim (a1 e) (henv e), ?_, by rw [s3]; exact a3,
        by rw [s5]; exact a4⟩
      intro p hp
      rcases s2 p with k | k
      · exact a2 p (by rw [← k]; exact hp)
      · rw [k] at hp
        cases hp
    · refine ⟨?_, ?_, ?_, ?_⟩
      · intro e he
        rcases s1 e he with k | k | ⟨_, k⟩
        · exact a1 e k
        · exact henv e k
        · exact k
      · intro p hp
        rcases s2 p with k | k | k
        · exact a2 p (by rw [← k]; exact hp)
        · rw [k] at hp
          cases hp
        · rw [k]; exact hu
      · intro i e he
        rw [s4] at he
        by_cases hic : w0.cur_win_i = i
        · subst hic
          rw [List.getElem?_set_self s3] at he
          cases he
          exact hu
        · rw [List.getElem?_set_ne hic] at he
          exact a3 i e he
      · intro dst batch hm
        rw [s6, List.mem_append] at hm
        rcases hm with hm | hm
        · exact a4 dst batch hm
        · obtain ⟨d, b, hmb, k1, _, k3⟩ := s7 _ hm
          cases hmb
          exact ⟨k1, fun n hn => (k3 n hn).2⟩

/-- In every state in which an iteration starts, the slots of the window
buffer below `cur_win_i` are written and the others are not. -/
theorem mpi_reachable_window (mem : Nat → Bool) (env : environment) (h : heuristic)
    (rank W : Int) (G : grid) (hmem : mem (INIT_HEAP_CAPACITY + 1) = true) (w : worker)
    (hw : mpi_reachable mem env h rank W G w) :
    w.window_buffer.length = G.X * G.Y ∧ w.cur_win_i ≤ w.window_buffer.length ∧
      ∀ i, (i < w.cur_win_i → ∃ e, w.window_buffer[i]? = some (some e)) ∧
        (w.cur_win_i ≤ i → i < w.window_buffer.length → w.window_buffer[i]? = some none) := by
  induction hw with
  | init hi =>
    obtain ⟨_, _, _, i4, i5, _⟩ := mpi_init_spec mem rank W G h _ hmem hi
    rw [i4, i5]
    refine ⟨List.length_replicate _ _, Nat.zero_le _, fun i => ⟨fun hc => by omega, ?_⟩⟩
    intro _ hlt
    rw [List.getElem?_replicate, if_pos (by simpa using hlt)]
  | @step fuel w0 w1 hr hi ih =>
    obtain ⟨_, hwf, hf⟩ := mpi_reachable_wf mem env h rank W G hmem _ hr
    obtain ⟨a1, a2, a3⟩ := ih
    obtain ⟨_, _, _, u, _, _, _, _, _, _, i6⟩ :=
      mpi_iteration_spec mem env h rank W _ _ _ hwf hf hi
    rcases i6 with ⟨_, _, _, s3, s4, _⟩ | ⟨_, _, _, s3, s4, s5, _⟩
    · rw [s3, s4]
      exact ⟨a1, a2, a3⟩
    · rw [s4, s5, List.length_set]
      refine ⟨a1, s3, fun i => ⟨?_, ?_⟩⟩
      · intro hlt
        by_cases hic : w0.cur_win_i = i
        · subst hic
          exact ⟨u, List.getElem?_set_self s3⟩
        · rw [List.getElem?_set_ne hic]
          exact (a3 i).1 (by omega)
      · intro hle hlt
        rw [List.getElem?_set_ne (by omega)]
        exact (a3 i).2 (by omega) hlt

/-- If the records a worker receives carry the cost of a path to their cell,
so do the entries of its heap and the records it has sent. -/
theorem mpi_reachable_path_cost (mem : Nat → Bool) (env : environment) (h : heuristic)
    (rank W : Int) (G : grid) (hmem : mem (INIT_HEAP_CAPACITY + 1) = true)
    (henv : ∀ e, received env e → path_to G e.pos e.cost) (w : worker)
    (hw : mpi_reachable mem env h rank W G w) :
    (∀ e, some e ∈ entries w.Q → path_to G e.pos e.cost) ∧
      ∀ dst batch, message.node dst batch ∈ w.sent → ∀ n ∈ batch, path_to G n.pos n.cost := by
  induction hw with
  | init hi =>
    obtain ⟨_, _, _, _, _, i6, i7⟩ := mpi_init_spec mem rank W G h _ hmem hi
    refine ⟨?_, ?_⟩
    · intro e he
      rcases i7 with ⟨_, _, k, _⟩ | ⟨_, _, k, _⟩
      · obtain ⟨k1, k2, _⟩ := k e he
        rw [k1, k2]
        exact path_to.start
      · exact absurd he (k e)
    · intro dst batch hm
      rw [i6] at hm
      cases hm
  | @step fuel w0 w1 hr hi ih =>
    obtain ⟨hg, hwf, hf⟩ := mpi_reachable_wf mem env h rank W G hmem _ hr
    obtain ⟨a1, a2⟩ := ih
    obtain ⟨_, _, _, u, _, _, i4, _, _, _, i6⟩ :=
      mpi_iteration_spec mem env h rank W _ _ _ hwf hf hi
    have hu : path_to G u.pos u.cost := i4.elim (a1 u) (henv u)
    rcases i6 with ⟨_, s1, _, _, _, s5⟩ | ⟨_, s1, _, _, _, _, msgs, s6, s7⟩
    · exact ⟨fun e he => (s1 e he).elim (a1 e) (henv e), by rw [s5]; exact a2⟩
    · refine ⟨?_, ?_⟩
      · intro e he
        rcases s1 e he with k | k | ⟨k, _⟩
        · exact a1 e k
        · exact henv e k
        · exact child_of_path hg k hu
      · intro dst batch hm n hn
        rw [s6, List.mem_append] at hm
        rcases hm with hm | hm
        · exact a2 dst batch hm n hn
        · obtain ⟨d, b, hmb, _, _, k⟩ := s7 _ hm
          cases hmb
          exact child_of_path hg (k n hn).1 hu

theorem mpi_closed_reachable (mem : Nat → Bool) (env : environment) (h : heuristic)
    (rank W : Int) (G : grid) (k : Nat) (w : worker) (hw : mpi_closed mem env h rank W G k w) :
    mpi_reachable mem env h rank W G w := by
  induction hw with
  | init hi => exact mpi_reachable.init hi
  | stale _ _ _ _ hi ih => exact mpi_reachable.step ih hi
  | close _ _ _ _ hi ih => exact mpi_reachable.step ih hi

/-- What an iteration does to the window buffer, told by the mark of the
popped cell. -/
theorem mpi_iteration_window (mem : Nat → Bool) (env : environment) (h : heuristic)
    (rank W : Int) (fuel : Nat) (w w1 wd : worker) (u : mpi_node) (Q1 : heap mpi_node)
    (hwf : heap_wf w.Q) (hf : w.Q.f = fcmp_nodescore)
    (hx : mpi_iteration mem env h rank W fuel w = .next w1)
    (hd : drain mem env (hda w.G.end_ W) fuel w = .next wd)
    (hp : heap_pop wd.Q = some (some u, Q1)) :
    (get2 wd.G.mark u.pos = some M_USED ∧ stale_step env w w1) ∨
      (get2 wd.G.mark u.pos ≠ some M_USED ∧ close_step env h rank W u w w1) := by
  obtain ⟨_, _, _, u1, wd1, Q2, _, i5, i6, _, i8⟩ :=
    mpi_iteration_spec mem env h rank W fuel w w1 hwf hf hx
  rw [hd] at i5
  cases i5
  rw [hp] at i6
  cases i6
  exact i8

/-- The number of entries closed so far is `cur_win_i`. -/
theorem mpi_closed_count (mem : Nat → Bool) (env : environment) (h : heuristic)
    (rank W : Int) (G : grid) (hmem : mem (INIT_HEAP_CAPACITY + 1) = true) (k : Nat) (w : worker)
    (hw : mpi_closed mem env h rank W G k w) : w.cur_win_i = k := by
  induction hw with
  | init hi =>
    obtain ⟨_, _, _, _, i5, _⟩ := mpi_init_spec mem rank W G h _ hmem hi
    exact i5
  | stale hr hd hp hm hi ih =>
    obtain ⟨_, hwf, hf⟩ := mpi_reachable_wf mem env h rank W G hmem _
      (mpi_closed_reachable mem env h rank W G _ _ hr)
    rcases mpi_iteration_window mem env h rank W _ _ _ _ _ _ hwf hf hi hd hp with
      ⟨_, _, _, _, s4, _⟩ | ⟨s0, _⟩
    · rw [s4]; exact ih
    · exact absurd hm s0
  | close hr hd hp hm hi ih =>
    obtain ⟨_, hwf, hf⟩ := mpi_reachable_wf mem env h rank W G hmem _
      (mpi_closed_reachable mem env h rank W G _ _ hr)
    rcases mpi_iteration_window mem env h rank W _ _ _ _ _ _ hwf hf hi hd hp with
      ⟨s0, _⟩ | ⟨_, _, _, _, _, s5, _⟩
    · exact absurd s0 hm
    · rw [s5, ih]

/-! ## The heuristic and the cost of a path -/

/-- The entries of `weight[]` other than that of WALL are positive. -/
theorem weight_nonneg {v : Int} {w : double} (hw : weight v = some w) (hv : v ≠ V_WALL) :
    0 ≤ w.m := by
  unfold weight at hw
  split_ifs at hw with h0 h1 h2 h3 h4 h5 h6
  · cases hw; decide
  · exact absurd h1 hv
  · cases hw; decide
  · cases hw; decide
  · cases hw; decide
  · cases hw; decide
  · cases hw; decide

/-- The cost of a path is not negative. -/
theorem path_to_nonneg {G : grid} {q : position} {c : double} (hp : path_to G q c) : 0 ≤ c.m := by
  induction hp with
  | start => decide
  | step _ _ _ hv hw ih => exact dadd_nonneg _ _ ih (weight_nonneg hw hv)

/-- With `alpha = 0` the heuristic is zero. -/
theorem halpha_zero (s t : position) (G : grid) : (halpha (of_int 0) s t G).m = 0 := by
  unfold halpha dmul
  have : (of_int 0).m = 0 := by decide
  rw [this, zero_mul, rnd_zero]

/-! ## Bounds of the heap -/

theorem heap_add_nmax {α : Type} {h h1 : heap α} {e : α} {ok : Bool}
    (hx : heap_add h e ok = some (false, h1)) :
    h1.nmax = if h.n = h.nmax then h.nmax * 2 else h.nmax := by
  unfold heap_add at hx
  simp only at hx
  by_cases hfull : h.n = h.nmax
  · simp only [hfull, if_true] at hx ⊢
    by_cases hok : ok = true ∧ h.nmax * 2 ≤ INT_MAX
    · simp only [hok, and_self, if_true] at hx
      repeat' split at hx
      all_goals (cases hx <;> rfl)
    · simp only [hok, if_false] at hx
      cases hx
  · simp only [hfull, if_false] at hx ⊢
    repeat' split at hx
    all_goals (cases hx <;> rfl)

theorem heap_pop_total {α : Type} [scored α] (h : heap α) (hf : h.f = fcmp_nodescore)
    (hwf : heap_wf h) :
    ∃ x h1, heap_pop h = some (x, h1) ∧ h1.f = h.f ∧ h1.nmax = h.nmax ∧ h1.n ≤ h.n ∧ heap_wf h1 := by
  by_cases hn : 1 ≤ h.n
  · have hfp : ∀ x y, 0 < h.f x y ↔ score_val y < score_val x := by
      rw [hf]; exact fun x y => fcmp_nodescore_pos x y
    obtain ⟨x, h1, p1, _, p3, p4, p5, p6, _⟩ := heap_pop_spec score_val h hfp hwf hn
    exact ⟨some x, h1, p1, p3, p5, by omega, p6⟩
  · obtain ⟨a, ha, _⟩ := hwf
    have h0 : h.n = 0 := by omega
    exact ⟨none, h, by simp [heap_pop, ha, h0], rfl, rfl, le_refl _, ⟨a, ha, by assumption⟩⟩

theorem rd_swap_some {α : Type} (a : List (Option α)) (i1 i2 i : Nat) (x y z : α)
    (h1 : rd a i1 = some x) (h2 : rd a i2 = some y) (hz : rd a i = some z) :
    ∃ y1, rd ((a.set i1 (some y)).set i2 (some x)) i = some y1 := by
  have l1 := rd_lt h1
  have l2 := rd_lt h2
  rw [rd_set _ _ _ _ (by rw [List.length_set]; exact l2)]
  by_cases c : i = i2
  · rw [if_pos c]
    exact ⟨_, rfl⟩
  · rw [if_neg c, rd_set _ _ _ _ l1]
    by_cases c1 : i = i1
    · rw [if_pos c1]
      exact ⟨_, rfl⟩
    · rw [if_neg c1]
      exact ⟨z, hz⟩

/-- The sift-down loop, whatever the comparator, keeps the length of the
array and leaves no written slot unwritten. -/
theorem sift_down_some {α : Type} (f : α → α → Int) (n : Nat) :
    ∀ (fuel : Nat) (a : List (Option α)) (father : Nat) (a2 : List (Option α)),
      sift_down f n fuel a father = some a2 →
      a2.length = a.length ∧ ∀ i x, rd a i = some x → ∃ y, rd a2 i = some y := by
  intro fuel
  induction fuel with
  | zero =>
    intro a father a2 hx
    simp [sift_down] at hx
  | succ fuel ih =>
    intro a father a2 hx
    unfold sift_down at hx
    simp only at hx
    split at hx
    · rename_i l r hl hr
      split at hx
      · rename_i x y hfa hso
        split at hx
        · obtain ⟨k1, k2⟩ := ih _ _ _ hx
          refine ⟨by rw [k1, length_swap], ?_⟩
          intro i z hz
          obtain ⟨y1, hy1⟩ := rd_swap_some a _ _ i x y z hfa hso hz
          exact k2 i y1 hy1
        · cases hx
          exact ⟨rfl, fun i x hi => ⟨x, hi⟩⟩
      · cases hx
    · cases hx

/-- A call of `heap_pop` that returns, whatever the comparator, leaves a well
formed heap with the same `nmax` and no more entries. -/
theorem heap_pop_wf {α : Type} {h h1 : heap α} {x : Option α} (hwf : heap_wf h)
    (hx : heap_pop h = some (x, h1)) :
    heap_wf h1 ∧ h1.f = h.f ∧ h1.nmax = h.nmax ∧ h1.n ≤ h.n := by
  obtain ⟨a, ha, hlen, hn, hmax, hfill⟩ := hwf
  unfold heap_pop at hx
  simp only [ha] at hx
  by_cases h0 : h.n = 0
  · simp only [h0, if_true, Option.some.injEq, Prod.mk.injEq] at hx
    obtain ⟨_, rfl⟩ := hx
    exact ⟨⟨a, ha, hlen, hn, hmax, hfill⟩, rfl, rfl, le_refl _⟩
  · simp only [h0, if_false] at hx
    split at hx
    · rename_i sw top hsw htop
      split at hx
      · cases hx
      · rename_i deleted hdel
        split at hx
        · cases hx
        · rename_i a2 hsd
          simp only [Option.some.injEq, Prod.mk.injEq] at hx
          obtain ⟨_, rfl⟩ := hx
          obtain ⟨k1, k2⟩ := sift_down_some _ _ _ _ _ _ hsd
          refine ⟨⟨a2, rfl, ?_, ?_, hmax, ?_⟩, rfl, rfl, Nat.sub_le _ _⟩
          · rw [k1, length_swap]
            exact hlen
          · show h.n - 1 ≤ h.nmax
            omega
          · intro i hi1 hi2
            have hi3 : i ≤ h.n := by
              have : i ≤ h.n - 1 := hi2
              omega
            obtain ⟨z, hz⟩ := hfill i hi1 hi3
            obtain ⟨y1, hy1⟩ := rd_swap_some a _ _ i sw top z hsw htop hz
            exact k2 i y1 hy1
    · cases hx

theorem heap_reachable_wf {α : Type} (k : Nat) (hk : 1 ≤ k) (f : α → α → Int) (h : heap α)
    (hr : heap_reachable k f h) :
    heap_wf h ∧ h.f = f ∧ ∃ j, h.nmax = k * 2 ^ j := by
  induction hr with
  | create => exact ⟨heap_create_wf k hk _, rfl, 0, by simp [heap_create]⟩
  | @add h0 h1 e ok _ hx ih =>
    obtain ⟨hwf, hf, j, hj⟩ := ih
    obtain ⟨q1, q2, _, _⟩ := heap_add_ok hwf hx
    refine ⟨q1, by rw [q2, hf], ?_⟩
    rw [heap_add_nmax hx]
    split
    · exact ⟨j + 1, by rw [hj, pow_succ, mul_assoc]⟩
    · exact ⟨j, hj⟩
  | @pop h0 h1 x _ hx ih =>
    obtain ⟨hwf, hf, j, hj⟩ := ih
    obtain ⟨p1, p2, p3, _⟩ := heap_pop_wf hwf hx
    exact ⟨p1, by rw [p2, hf], j, by rw [p3, hj]⟩

/-! ## The sequential search: what one iteration does -/

theorem set_mark_set2 {G G1 : grid} {p : position} {v : Int} (h : set_mark G p v = some G1) :
    ∃ m, set2 G.mark p v = some m ∧ G1 = { G with mark := m } := by
  unfold set_mark at h
  cases hm : set2 G.mark p v with
  | none => simp [hm] at h
  | some m =>
    simp only [hm, Option.some.injEq] at h
    exact ⟨m, rfl, h.symm⟩

theorem createNode_spec {G : grid} {p : position} {u n : node} {h : heuristic}
    (hc : createNode G p u h = some n) :
    n.pos = p ∧ n.parent = some u ∧
      ∃ v w, get2 G.value p = some v ∧ weight v = some w ∧ n.cost = dadd u.cost w ∧
        n = node.child p (dadd u.cost w) n.score u := by
  unfold createNode at hc
  cases hv : get2 G.value p with
  | none => simp [hv] at hc
  | some v =>
    simp only [hv] at hc
    cases hw : weight v with
    | none => simp [hw] at hc
    | some w =>
      simp only [hw, Option.some.injEq] at hc
      subst hc
      exact ⟨rfl, rfl, v, w, rfl, hw, rfl, rfl⟩

theorem heap_add_perm {α : Type} {Q Q1 : heap α} {e : α} {ok : Bool} (hwf : heap_wf Q)
    (h : heap_add Q e ok = some (false, Q1)) : (entries Q1).Perm (entries Q ++ [some e]) := by
  rcases heap_add_spec (fun _ : α => (0 : Nat)) Q hwf e ok with
    ⟨_, _, h1⟩ | ⟨_, Q2, h1, _, _, _, _, h6, _⟩
  · rw [h1] at h; cases h
  · rw [h1] at h
    cases h
    exact h6

/-- The neighbour loops of `A_star_sequential`: the records created are
children of `u` on pairwise different non-WALL neighbours that were `M_NULL`;
they are added to the heap and their cells become `M_FRONT`; nothing else
changes. -/
theorem expand_seq_spec (mem : Nat → Bool) (h : heuristic) (u : node) :
    ∀ (l : List (Int × Int)) (G G1 : grid) (Q Q1 : heap node), heap_wf Q →
      get2 G.mark u.pos = some M_USED →
      (∀ o ∈ l, -1 ≤ o.1 ∧ o.1 ≤ 1 ∧ -1 ≤ o.2 ∧ o.2 ≤ 1) →
      expand mem h u l G Q = .next (G1, Q1) →
      same_grid G G1 ∧ heap_wf Q1 ∧ Q1.f = Q.f ∧
        ∃ fresh : List node, (entries Q1).Perm (entries Q ++ fresh.map some) ∧
          Q1.n = Q.n + fresh.length ∧ (fresh.map node.pos).Nodup ∧
          (∀ n ∈ fresh, get2 G.mark n.pos = some M_NULL ∧ adjacent u.pos n.pos ∧
            (∃ v w, get2 G.value n.pos = some v ∧ v ≠ V_WALL ∧ weight v = some w ∧
              n = node.child n.pos (dadd u.cost w) n.score u)) ∧
          (∀ p, get2 G1.mark p =
            if p ∈ fresh.map node.pos then some M_FRONT else get2 G.mark p) ∧
          nulls G1.mark + fresh.length = nulls G.mark := by
  intro l
  induction l with
  | nil =>
    intro G G1 Q Q1 hwf _ _ hx
    simp only [expand, flow.next.injEq, Prod.mk.injEq] at hx
    obtain ⟨rfl, rfl⟩ := hx
    refine ⟨same_grid_refl _, hwf, rfl, [], ?_, rfl, List.nodup_nil, ?_, ?_, rfl⟩
    · simp only [List.map_nil, List.append_nil]
      exact List.Perm.refl _
    · intro n hn
      cases hn
    · intro p
      simp
  | cons o rest ih =>
    intro G G1 Q Q1 hwf hused hl hx
    obtain ⟨x, y⟩ := o
    have hxy := hl (x, y) (List.mem_cons_self _ _)
    simp only at hxy
    have hrest : ∀ o ∈ rest, -1 ≤ o.1 ∧ o.1 ≤ 1 ∧ -1 ≤ o.2 ∧ o.2 ≤ 1 :=
      fun o ho => hl o (List.mem_cons_of_mem _ ho)
    unfold expand at hx
    simp only at hx
    cases hmk : get2 G.mark ⟨u.pos.x + x, u.pos.y + y⟩ with
    | none => simp [hmk] at hx
    | some mk =>
      simp only [hmk] at hx
      by_cases hnull : mk = M_NULL
      · simp only [hnull, if_true] at hx
        subst hnull
        cases hv : get2 G.value ⟨u.pos.x + x, u.pos.y + y⟩ with
        | none => simp [hv] at hx
        | some v =>
          simp only [hv] at hx
          by_cases hwall : v = V_WALL
          · simp only [hwall, ne_eq, not_true_eq_false, if_false] at hx
            exact ih G G1 Q Q1 hwf hused hrest hx
          · simp only [ne_eq, hwall, not_false_eq_true, if_true] at hx
            cases hc : createNode G ⟨u.pos.x + x, u.pos.y + y⟩ u h with
            | none => simp [hc] at hx
            | some n =>
              simp only [hc] at hx
              obtain ⟨hnpos, _, v1, w, k1, k2, _, k4⟩ := createNode_spec hc
              rw [hv] at k1
              cases k1
              have hne : u.pos ≠ ⟨u.pos.x + x, u.pos.y + y⟩ := by
                intro e
                rw [← e, hused] at hmk
                cases hmk
              have hadj : adjacent u.pos ⟨u.pos.x + x, u.pos.y + y⟩ :=
                ⟨hne, by simp only; omega, by simp only; omega, by simp only; omega,
                  by simp only; omega⟩
              cases ha : heap_add Q n (mem (Q.nmax * 2 + 1)) with
              | none => simp [ha] at hx
              | some r =>
                obtain ⟨b, Q2⟩ := r
                cases b with
                | true => simp [ha] at hx
                | false =>
                  simp only [ha] at hx
                  cases hs : set_mark G n.pos M_FRONT with
                  | none => simp [hs] at hx
                  | some G2 =>
                    simp only [hs] at hx
                    obtain ⟨q1, q2, q3, _⟩ := heap_add_ok hwf ha
                    have qp := heap_add_perm hwf ha
                    obtain ⟨s1, s2⟩ := set_mark_spec hs
                    obtain ⟨m2, hm2, hG2⟩ := set_mark_set2 hs
                    have hnl := nulls_set2 hm2 (by decide : M_FRONT ≠ M_NULL)
                    rw [hnpos, hmk, if_pos rfl] at hnl
                    have hused2 : get2 G2.mark u.pos = some M_USED := by
                      rw [s2, hnpos, if_neg hne]; exact hused
                    obtain ⟨c1, c2, c3, fresh, d1, d2, d3, d4, d5, d6⟩ :=
                      ih G2 G1 Q2 Q1 q1 hused2 hrest hx
                    have hfront : get2 G2.mark n.pos = some M_FRONT := by rw [s2, if_pos rfl]
                    have hnotin : n.pos ∉ fresh.map node.pos := by
                      intro hin
                      obtain ⟨m, hm, hmp⟩ := List.mem_map.1 hin
                      have := (d4 m hm).1
                      rw [hmp, hfront] at this
                      cases this
                    refine ⟨same_grid_trans s1 c1, c2, c3.trans q2, n :: fresh, ?_, ?_, ?_, ?_, ?_,
                      ?_⟩
                    · refine d1.trans ?_
                      refine (qp.append_right _).trans ?_
                      simp
                    · rw [d2, q3]
                      simp only [List.length_cons]
                      omega
                    · simp only [List.map_cons]
                      exact List.nodup_cons.2 ⟨hnotin, d3⟩
                    · intro m hm
                      rcases List.mem_cons.1 hm with rfl | hm
                      · refine ⟨by rw [hnpos]; exact hmk, by rw [hnpos]; exact hadj, v, w,
                          by rw [hnpos]; exact hv, hwall, k2, ?_⟩
                        conv_rhs => rw [hnpos]
                        exact k4
                      · obtain ⟨e1, e2, e3⟩ := d4 m hm
                        have hmne : m.pos ≠ n.pos := by
                          intro e
                          rw [e, hfront] at e1
                          cases e1
                        refine ⟨?_, e2, ?_⟩
                        · rw [s2, if_neg hmne] at e1
                          exact e1
                        · rw [s1.2.2.1] at e3
                          exact e3
                    · intro p
                      rw [d5 p]
                      simp only [List.map_cons, List.mem_cons]
                      by_cases hp1 : p ∈ fresh.map node.pos
                      · simp [hp1]
                      · by_cases hp2 : p = n.pos
                        · simp [hp2, s2]
                        · simp [hp1, hp2, s2]
                    · simp only [List.length_cons]
                      rw [hG2] at d6
                      simp only at d6
                      omega
      · simp only [hnull, if_false] at hx
        exact ih G G1 Q Q1 hwf hused hrest hx

/-- The prologue of `A_star_sequential` when it reaches the main loop: the
end is not WALL, the heap holds the start entry and nothing else, and the
start is marked `M_FRONT`. -/
theorem seq_init_next (mem : Nat → Bool) (G G1 : grid) (h : heuristic) (s : node)
    (Q1 : heap node) (hmem : mem (INIT_HEAP_CAPACITY + 1) = true)
    (hx : seq_init mem G h = .next (s, G1, Q1)) :
    s = node.root G.start (of_int 0) (dadd (of_int 0) (h G.start G.end_ G)) ∧
      (∃ v, get2 G.value G.end_ = some v ∧ v ≠ V_WALL) ∧ heap_wf Q1 ∧
      Q1.f = fcmp_nodescore ∧ Q1.n = 1 ∧ (entries Q1).Perm [some s] ∧
      ∃ m1, set2 G.mark G.start M_FRONT = some m1 ∧ G1 = { G with mark := m1 } := by
  unfold seq_init at hx
  simp only [hmem] at hx
  have hwf0 := heap_create_wf INIT_HEAP_CAPACITY (by decide) (fcmp_nodescore : node → node → Int)
  have he0 : entries (heap_create INIT_HEAP_CAPACITY (fcmp_nodescore : node → node → Int) true) =
      [] := by
    simp [entries, ents, heap_create]
  split at hx
  · cases hx
  · rename_i v hv
    split at hx
    · cases hx
    · rename_i hw
      split at hx
      · cases hx
      · cases hx
      · rename_i Q2 ha
        split at hx
        · cases hx
        · rename_i G2 hs
          cases hx
          obtain ⟨q1, q2, q3, _⟩ := heap_add_ok hwf0 ha
          have qp := heap_add_perm hwf0 ha
          rw [he0, List.nil_append] at qp
          obtain ⟨m1, hm1, hG⟩ := set_mark_set2 hs
          exact ⟨rfl, ⟨v, hv, hw⟩, q1, by rw [q2]; rfl, by rw [q3]; rfl, qp, m1, hm1, hG⟩

/-- One iteration of the main loop of `A_star_sequential` that hands over to
the next: an entry was popped, and either its cell was closed already, or it
was closed now and expanded. -/
theorem seq_iteration_next (mem : Nat → Bool) (h : heuristic) (s : node) (G G2 : grid)
    (Q Q2 : heap node) (hwf : heap_wf Q) (hf : Q.f = fcmp_nodescore)
    (hx : seq_iteration mem h s G Q = .next (G2, Q2)) :
    ∃ u Q1, heap_empty Q = false ∧ heap_pop Q = some (some u, Q1) ∧
      (some u :: entries Q1).Perm (entries Q) ∧ Q1.n + 1 = Q.n ∧ heap_wf Q1 ∧
      Q1.f = fcmp_nodescore ∧
      ((get2 G.mark u.pos = some M_USED ∧ G2 = G ∧ Q2 = Q1) ∨
        (∃ mk Gm, get2 G.mark u.pos = some mk ∧ mk ≠ M_USED ∧
          ¬ (u.pos.x = G.end_.x ∧ u.pos.y = G.end_.y) ∧
          set_mark G u.pos M_USED = some Gm ∧
          expand mem h u neighbours Gm Q1 = .next (G2, Q2))) := by
  unfold seq_iteration at hx
  by_cases hempty : heap_empty Q = true
  · simp [hempty] at hx
  · have hne : heap_empty Q = false := by simpa using hempty
    simp only [hne, Bool.false_eq_true, if_false] at hx
    have hfp : ∀ x y, 0 < Q.f x y ↔ score_val y < score_val x := by
      rw [hf]; exact fun x y => fcmp_nodescore_pos x y
    obtain ⟨u, Q1, p1, _, p3, p4, _, p6, p7, _⟩ :=
      heap_pop_spec score_val Q hfp hwf (heap_nonempty_of_not_empty hne)
    simp only [p1] at hx
    refine ⟨u, Q1, hne, p1, p7, p4, p6, by rw [p3, hf], ?_⟩
    cases hmk : get2 G.mark u.pos with
    | none => simp [hmk] at hx
    | some mk =>
      simp only [hmk] at hx
      by_cases hused : mk = M_USED
      · simp only [hused, if_true, flow.next.injEq, Prod.mk.injEq] at hx
        exact Or.inl ⟨by rw [hused], hx.1.symm, hx.2.symm⟩
      · simp only [hused, if_false] at hx
        by_cases hend : u.pos.x = G.end_.x ∧ u.pos.y = G.end_.y
        · simp only [hend, and_self, if_true] at hx
          split at hx <;> cases hx
        · simp only [hend, if_false] at hx
          cases hs : set_mark G u.pos M_USED with
          | none => simp [hs] at hx
          | some Gm =>
            simp only [hs] at hx
            exact Or.inr ⟨mk, Gm, rfl, hused, hend, rfl, hx⟩

theorem cells_perm {Q : heap node} {l : List (Option node)} (hp : (entries Q).Perm l) :
    (cells Q).Perm (l.map (Option.map node.pos)) := hp.map _

theorem mem_cells {Q : heap node} {n : node} (hn : some n ∈ entries Q) :
    some n.pos ∈ cells Q := List.mem_map.2 ⟨some n, hn, rfl⟩

/-- What holds whenever `A_star_sequential` evaluates the condition of its
main loop: the heap is well formed, its entries are on pairwise different
cells, each marked `M_FRONT`; an entry is the start entry or on a non-WALL
cell; marks other than those given are `M_FRONT` or `M_USED`; and the number of
pops so far, of entries and of `M_NULL` cells add up to no more than they did
when the loop was entered. -/
theorem seq_after_inv (mem : Nat → Bool) (h : heuristic) (G : grid)
    (hmem : mem (INIT_HEAP_CAPACITY + 1) = true) :
    ∀ (k : Nat) (s : node) (G1 : grid) (Q1 : heap node), seq_after mem h G k s G1 Q1 →
      same_grid G G1 ∧ heap_wf Q1 ∧ Q1.f = fcmp_nodescore ∧ (cells Q1).Nodup ∧
        (∀ n, some n ∈ entries Q1 → get2 G1.mark n.pos = some M_FRONT) ∧
        (∀ n, some n ∈ entries Q1 → n = s ∨ ∃ v, get2 G.value n.pos = some v ∧ v ≠ V_WALL) ∧
        (∀ p, get2 G1.mark p = get2 G.mark p ∨ get2 G1.mark p = some M_FRONT ∨
          get2 G1.mark p = some M_USED) ∧
        get2 G1.mark G.start ≠ some M_NULL ∧
        ∃ m0, set2 G.mark G.start M_FRONT = some m0 ∧ k + Q1.n + nulls G1.mark ≤ 1 + nulls m0 := by
  intro k s G1 Q1 hr
  induction hr with
  | @init s G1 Q1 hi =>
    obtain ⟨hs, _, i3, i4, i5, i6, m1, hm1, hG⟩ := seq_init_next mem G G1 h s Q1 hmem hi
    have hg := get2_set2 hm1
    have hspos : s.pos = G.start := by rw [hs]; rfl
    have hent : ∀ n, some n ∈ entries Q1 → n = s := by
      intro n hn
      have := i6.mem_iff.1 hn
      simpa using this
    rw [hG]
    refine ⟨⟨rfl, rfl, rfl, rfl, rfl⟩, i3, i4, ?_, ?_, ?_, ?_, ?_, m1, hm1, ?_⟩
    · rw [(cells_perm i6).nodup_iff]
      simp
    · intro n hn
      rw [hent n hn, hspos]
      simp only
      rw [hg, if_pos rfl]
    · intro n hn
      exact Or.inl (hent n hn)
    · intro p
      simp only
      rw [hg]
      by_cases hp : p = G.start
      · rw [if_pos hp]
        exact Or.inr (Or.inl rfl)
      · rw [if_neg hp]
        exact Or.inl rfl
    · simp only
      rw [hg, if_pos rfl]
      decide
    · simp only
      omega
  | @step k s G1 G2 Q1 Q2 _ hi ih =>
    obtain ⟨a1, a2, a3, a4, a5, a6, a7, a8, m0, hm0, a9⟩ := ih
    obtain ⟨u, Qp, _, _, p3, p4, p5, p6, hcase⟩ := seq_iteration_next mem h s G1 G2 Q1 Q2 a2 a3 hi
    have hnd : (some u.pos :: cells Qp).Nodup := by
      have := (cells_perm p3.symm).nodup_iff.1 a4
      simpa [cells] using this
    have hsub : ∀ n, some n ∈ entries Qp → some n ∈ entries Q1 :=
      fun n hn => p3.mem_iff.1 (List.mem_cons_of_mem _ hn)
    rcases hcase with ⟨_, rfl, rfl⟩ | ⟨mk, Gm, hmk, hnu, _, hs, he⟩
    · exact ⟨a1, p5, p6, (List.nodup_cons.1 hnd).2, fun n hn => a5 n (hsub n hn),
        fun n hn => a6 n (hsub n hn), a7, a8, m0, hm0, by omega⟩
    · obtain ⟨s1, s2⟩ := set_mark_spec hs
      obtain ⟨mm, hmm, hGm⟩ := set_mark_set2 hs
      have hnl := nulls_set2 hmm (by decide : M_USED ≠ M_NULL)
      have hnl2 : nulls Gm.mark ≤ nulls G1.mark := by
        rw [hGm]
        simp only
        omega
      have hused : get2 Gm.mark u.pos = some M_USED := by rw [s2, if_pos rfl]
      obtain ⟨e1, e2, e3, fresh, f1, f2, f3, f4, f5, f6⟩ :=
        expand_seq_spec mem h u neighbours Gm G2 Qp Q2 p5 hused neighbours_range he
      have hne : ∀ n, some n ∈ entries Qp → n.pos ≠ u.pos := by
        intro n hn e
        exact (List.nodup_cons.1 hnd).1 (e ▸ mem_cells hn)
      have hfr : ∀ n, some n ∈ entries Qp → get2 Gm.mark n.pos = some M_FRONT := by
        intro n hn
        rw [s2, if_neg (hne n hn)]
        exact a5 n (hsub n hn)
      have hmemQ2 : ∀ n, some n ∈ entries Q2 → some n ∈ entries Qp ∨ n ∈ fresh := by
        intro n hn
        rcases List.mem_append.1 (f1.mem_iff.1 hn) with k1 | k1
        · exact Or.inl k1
        · obtain ⟨m, hm, hmn⟩ := List.mem_map.1 k1
          cases hmn
          exact Or.inr hm
      refine ⟨same_grid_trans a1 (same_grid_trans s1 e1), e2, by rw [e3]; exact p6, ?_, ?_, ?_, ?_,
        ?_, m0, hm0, ?_⟩
      · have hp2 : (cells Q2).Perm (cells Qp ++ fresh.map (fun n => some n.pos)) := by
          have := cells_perm f1
          simpa [cells, List.map_append, List.map_map, Function.comp_def] using this
        rw [hp2.nodup_iff]
        refine List.Nodup.append (List.nodup_cons.1 hnd).2 ?_ ?_
        · have : fresh.map (fun n => some n.pos) = (fresh.map node.pos).map some := by
            simp [List.map_map, Function.comp_def]
          rw [this]
          exact f3.map (Option.some_injective _)
        · intro x hx1 hx2
          obtain ⟨n1, hn1, rfl⟩ := List.mem_map.1 hx2
          obtain ⟨n2, hon, hone⟩ := List.mem_map.1 hx1
          cases n2 with
          | none => cases hone
          | some n0 =>
            simp only [Option.map_some', Option.some.injEq] at hone
            have k1 := hfr n0 hon
            have k2 := (f4 n1 hn1).1
            rw [hone, k2] at k1
            cases k1
      · intro n hn
        rw [f5]
        rcases hmemQ2 n hn with k1 | k1
        · by_cases hin : n.pos ∈ fresh.map node.pos
          · rw [if_pos hin]
          · rw [if_neg hin]
            exact hfr n k1
        · rw [if_pos (List.mem_map.2 ⟨n, k1, rfl⟩)]
      · intro n hn
        rcases hmemQ2 n hn with k1 | k1
        · exact a6 n (hsub n k1)
        · obtain ⟨_, _, v, w, k2, k3, _⟩ := f4 n k1
          right
          refine ⟨v, ?_, k3⟩
          rw [← a1.2.2.1, ← s1.2.2.1]
          exact k2
      · intro p
        rw [f5]
        by_cases hin : p ∈ fresh.map node.pos
        · rw [if_pos hin]
          exact Or.inr (Or.inl rfl)
        · rw [if_neg hin, s2]
          by_cases hp : p = u.pos
          · rw [if_pos hp]
            exact Or.inr (Or.inr rfl)
          · rw [if_neg hp]
            exact a7 p
      · rw [f5]
        by_cases hin : G.start ∈ fresh.map node.pos
        · rw [if_pos hin]
          decide
        · rw [if_neg hin, s2]
          by_cases hp : G.start = u.pos
          · rw [if_pos hp]
            decide
          · rw [if_neg hp]
            exact a8
      · omega

/-- A `mark` array with a cell that is not `M_NULL` has fewer than `X * Y`
cells that are. -/
theorem nulls_lt {m : List (List Int)} {X Y : Nat} (hs : shape m X Y) {p : position} {v : Int}
    (hg : get2 m p = some v) (hv : v ≠ M_NULL) : nulls m < X * Y := by
  obtain ⟨hx, hy, row, hr, hrv⟩ := get2_some hg
  have hrow : row ∈ m := List.mem_iff_getElem?.2 ⟨_, hr⟩
  have hlen : row.length = Y := hs.2 row hrow
  have hvin : v ∈ row := List.mem_iff_getElem?.2 ⟨_, hrv⟩
  have hc : row.count M_NULL < Y := by
    rw [← hlen]
    have h1 := List.count_le_length M_NULL row
    have h2 : row.count M_NULL ≠ row.length := by
      intro h3
      exact hv (List.count_eq_length.1 h3 v hvin).symm
    omega
  have hset := sum_set_nat (m.map (fun row => row.count M_NULL)) p.x.toNat Y (row.count M_NULL)
    (by simp [hr])
  have hle : ((m.map (fun row => row.count M_NULL)).set p.x.toNat Y).sum ≤
      ((m.map (fun row => row.count M_NULL)).set p.x.toNat Y).length * Y := by
    have := List.sum_le_card_nsmul ((m.map (fun row => row.count M_NULL)).set p.x.toNat Y) Y ?_
    · simpa using this
    · intro x hxm
      rcases List.mem_or_eq_of_mem_set hxm with h1 | h1
      · obtain ⟨r, hr1, rfl⟩ := List.mem_map.1 h1
        rw [← hs.2 r hr1]
        exact List.count_le_length _ _
      · omega
  rw [List.length_set, List.length_map, hs.1] at hle
  unfold nulls
  omega

/-- The loop invariant of `A_star_sequential` holds whenever the condition of
the main loop is evaluated. -/
theorem seq_after_seq_inv (mem : Nat → Bool) (h : heuristic) (G : grid)
    (hmem : mem (INIT_HEAP_CAPACITY + 1) = true) (hwf : grid_wf G) (hb : wall_border G)
    (hs : interior G G.start) :
    ∀ (k : Nat) (s : node) (G1 : grid) (Q1 : heap node), seq_after mem h G k s G1 Q1 →
      seq_inv G s G1 Q1 := by
  intro k s G1 Q1 hr
  induction hr with
  | @init s G1 Q1 hi =>
    obtain ⟨hsd, _, i3, i4, _, i6, m1, hm1, hG⟩ := seq_init_next mem G G1 h s Q1 hmem hi
    rw [hG]
    exact
      { value_eq := rfl
        start_eq := rfl
        end_eq := rfl
        mark_shape := shape_set2 hwf.2.1 hm1
        heap := i3
        cmp := i4
        entries_ok := by
          intro n hn
          have := i6.mem_iff.1 hn
          simp only [List.mem_singleton, Option.some.injEq] at this
          rw [this, hsd]
          exact ⟨hs, path_to.start, rfl⟩ }
  | @step k s G1 G2 Q1 Q2 _ hi ih =>
    obtain ⟨u, Qp, hne, hpop, _, _, _, _, hcase⟩ :=
      seq_iteration_next mem h s G1 G2 Q1 Q2 ih.heap ih.cmp hi
    obtain ⟨u1, Qp1, hpop1, hgood, _, hinv1, _⟩ := loop_pop G s G1 Q1 ih hne
    rw [hpop] at hpop1
    cases hpop1
    rcases hcase with ⟨_, rfl, rfl⟩ | ⟨mk, Gm, hmk, _, _, hsm, he⟩
    · exact hinv1
    · obtain ⟨mm, hmm, hGm⟩ := set_mark_set2 hsm
      have hg1 := get2_set2 hmm
      have hinv2 : seq_inv G s { G1 with mark := mm } Qp :=
        { value_eq := hinv1.value_eq
          start_eq := hinv1.start_eq
          end_eq := hinv1.end_eq
          mark_shape := shape_set2 ih.mark_shape hmm
          heap := hinv1.heap
          cmp := hinv1.cmp
          entries_ok := hinv1.entries_ok }
      rw [hGm] at he
      rcases expand_spec G hwf hb mem h s u hgood neighbours neighbours_range _ Qp hinv2
          (by simp [hg1]) with ⟨m, h1, _⟩ | ⟨G3, Q3, h1, h2, _⟩
      · rw [h1] at he
        cases he
      · rw [h1] at he
        cases he
        exact h2

/-- No iteration of the main loop of `A_star_sequential` has undefined
behaviour. -/
theorem seq_iteration_defined (mem : Nat → Bool) (h : heuristic) (G0 : grid) (hwf : grid_wf G0)
    (hb : wall_border G0) (s : node) (G : grid) (Q : heap node) (hinv : seq_inv G0 s G Q) :
    seq_iteration mem h s G Q ≠ .ub := by
  by_cases hempty : heap_empty Q = true
  · simp [seq_iteration, hempty]
  · have hne : heap_empty Q = false := by simpa using hempty
    obtain ⟨u, Q1, hpop, hgood, _, hinv1, _⟩ := loop_pop G0 s G Q hinv hne
    obtain ⟨mk, hmk⟩ := get2_of_in_range hinv.mark_shape (interior_in_grid hgood.1)
    by_cases hused : mk = M_USED
    · simp [seq_iteration, hne, hpop, hmk, hused]
    · by_cases hend : u.pos.x = G.end_.x ∧ u.pos.y = G.end_.y
      · obtain ⟨m, hm⟩ := mark_path_some G0 s u G.mark hgood.2.2 hinv.mark_shape
        simp [seq_iteration, hne, hpop, hmk, hused, hend, hm]
      · obtain ⟨m1, hm1⟩ := set2_of_get2 M_USED hmk
        have hsm := set_mark_eq hm1
        have hg1 := get2_set2 hm1
        have hinv2 : seq_inv G0 s { G with mark := m1 } Q1 :=
          { value_eq := hinv1.value_eq
            start_eq := hinv1.start_eq
            end_eq := hinv1.end_eq
            mark_shape := shape_set2 hinv.mark_shape hm1
            heap := hinv1.heap
            cmp := hinv1.cmp
            entries_ok := hinv1.entries_ok }
        rcases expand_spec G0 hwf hb mem h s u hgood neighbours neighbours_range _ Q1 hinv2
            (by simp [hg1]) with ⟨m, h1, _⟩ | ⟨G2, Q2, h1, _⟩
        · simp [seq_iteration, hne, hpop, hmk, hused, hend, hsm, h1]
        · simp [seq_iteration, hne, hpop, hmk, hused, hend, hsm, h1]

/-- The main loop of `A_star_sequential` returns within as many iterations as
there are entries in the heap and `M_NULL` cells, plus one. -/
theorem loop_terminates (G0 : grid) (hwf : grid_wf G0) (hb : wall_border G0) (mem : Nat → Bool)
    (h : heuristic) (s : node) :
    ∀ (fuel : Nat) (G : grid) (Q : heap node), seq_inv G0 s G Q →
      Q.n + nulls G.mark < fuel → ∃ r, A_star_loop mem h s fuel G Q = .ret r := by
  intro fuel
  induction fuel with
  | zero => intro G Q _ hlt; omega
  | succ fuel ih =>
    intro G Q hinv hlt
    by_cases hempty : heap_empty Q = true
    · exact ⟨(of_int (-1), G.mark), by simp [A_star_loop, seq_iteration, hempty]⟩
    · have hne : heap_empty Q = false := by simpa using hempty
      obtain ⟨u, Q1, hpop, hgood, hn1, hinv1, _⟩ := loop_pop G0 s G Q hinv hne
      obtain ⟨mk, hmk⟩ := get2_of_in_range hinv.mark_shape (interior_in_grid hgood.1)
      by_cases hused : mk = M_USED
      · have hstep : A_star_loop mem h s (fuel + 1) G Q = A_star_loop mem h s fuel G Q1 := by
          simp [A_star_loop, seq_iteration, hne, hpop, hmk, hused]
        rw [hstep]
        exact ih G Q1 hinv1 (by omega)
      · by_cases hend : u.pos.x = G.end_.x ∧ u.pos.y = G.end_.y
        · obtain ⟨m, hm⟩ := mark_path_some G0 s u G.mark hgood.2.2 hinv.mark_shape
          exact ⟨(u.cost, m), by simp [A_star_loop, seq_iteration, hne, hpop, hmk, hused, hend, hm]⟩
        · obtain ⟨m1, hm1⟩ := set2_of_get2 M_USED hmk
          have hsm := set_mark_eq hm1
          have hg1 := get2_set2 hm1
          have hinv2 : seq_inv G0 s { G with mark := m1 } Q1 :=
            { value_eq := hinv1.value_eq
              start_eq := hinv1.start_eq
              end_eq := hinv1.end_eq
              mark_shape := shape_set2 hinv.mark_shape hm1
              heap := hinv1.heap
              cmp := hinv1.cmp
              entries_ok := hinv1.entries_ok }
          have hnl := nulls_set2 hm1 (by decide : M_USED ≠ M_NULL)
          have hnl2 : nulls m1 ≤ nulls G.mark := by omega
          rcases expand_spec G0 hwf hb mem h s u hgood neighbours neighbours_range _ Q1 hinv2
              (by simp [hg1]) with ⟨m, h1, _⟩ | ⟨G2, Q2, h1, h2, h3, _⟩
          · exact ⟨(of_int (-1), m), by simp [A_star_loop, seq_iteration, hne, hpop, hmk, hused, hend, hsm, h1]⟩
          · have hstep : A_star_loop mem h s (fuel + 1) G Q = A_star_loop mem h s fuel G2 Q2 := by
              simp [A_star_loop, seq_iteration, hne, hpop, hmk, hused, hend, hsm, h1]
            rw [hstep]
            simp only at h3
            exact ih G2 Q2 h2 (by omega)

theorem entries_length {α : Type} (Q : heap α) : (entries Q).length = Q.n := by
  simp [entries, ents]

theorem seq_pushed_after {mem : Nat → Bool} {h : heuristic} {G : grid} {k : Nat} {s : node}
    {G1 : grid} {Q1 : heap node} {log : List position}
    (hr : seq_pushed mem h G k s G1 Q1 log) : seq_after mem h G k s G1 Q1 := by
  induction hr with
  | init hi => exact seq_after.init hi
  | step _ hi _ _ ih => exact seq_after.step ih hi

/-- The cells pushed so far are pairwise different and none of them is
`M_NULL`; each of them is still in the heap or was popped. -/
theorem seq_pushed_inv (mem : Nat → Bool) (h : heuristic) (G : grid)
    (hmem : mem (INIT_HEAP_CAPACITY + 1) = true) :
    ∀ (k : Nat) (s : node) (G1 : grid) (Q1 : heap node) (log : List position),
      seq_pushed mem h G k s G1 Q1 log →
      log.Nodup ∧ (∀ p ∈ log, ∃ v, get2 G1.mark p = some v ∧ v ≠ M_NULL) ∧
        k + Q1.n = log.length := by
  intro k s G1 Q1 log hr
  induction hr with
  | @init s G1 Q1 hi =>
    obtain ⟨hs, _, _, _, i5, _, m1, hm1, hG⟩ := seq_init_next mem G G1 h s Q1 hmem hi
    have hg := get2_set2 hm1
    have hspos : s.pos = G.start := by rw [hs]; rfl
    refine ⟨by simp, ?_, by simp [i5]⟩
    intro p hp
    rw [List.mem_singleton] at hp
    rw [hp, hspos, hG]
    simp only
    rw [hg, if_pos rfl]
    exact ⟨_, rfl, by decide⟩
  | @step k s u G1 G2 Q1 Qp Q2 log fresh hr hi hpop hperm ih =>
    obtain ⟨_, a2, a3, _⟩ := seq_after_inv mem h G hmem k s G1 Q1 (seq_pushed_after hr)
    obtain ⟨i1, i2, i3⟩ := ih
    obtain ⟨u1, Qp1, _, hpop1, _, hn1, hwfp, _, hcase⟩ :=
      seq_iteration_next mem h s G1 G2 Q1 Q2 a2 a3 hi
    rw [hpop] at hpop1
    cases hpop1
    have hlen := hperm.length_eq
    rw [List.length_append, List.length_map, entries_length, entries_length] at hlen
    rcases hcase with ⟨_, rfl, rfl⟩ | ⟨mk, Gm, hmk, _, _, hsm, he⟩
    · have hnil : fresh = [] := List.length_eq_zero.1 (by omega)
      subst hnil
      simp only [List.map_nil, List.append_nil]
      exact ⟨i1, i2, by omega⟩
    · obtain ⟨mm, hmm, hGm⟩ := set_mark_set2 hsm
      have hg1 := get2_set2 hmm
      have husedm : get2 Gm.mark u.pos = some M_USED := by
        rw [hGm]
        simp only
        rw [hg1, if_pos rfl]
      obtain ⟨_, _, _, fresh1, e1, e2, e3, e4, e5, _⟩ :=
        expand_seq_spec mem h u neighbours Gm G2 Qp Q2 hwfp husedm neighbours_range he
      have hpp : (fresh.map some).Perm (fresh1.map some) :=
        (List.perm_append_left_iff _).1 (hperm.symm.trans e1)
      have hpos : (fresh.map node.pos).Perm (fresh1.map node.pos) := by
        have := (hpp.map (Option.map node.pos)).filterMap id
        have hfm : ∀ l : List node, List.filterMap (fun x => some x.pos) l = l.map node.pos := by
          intro l
          induction l with
          | nil => rfl
          | cons a l ih => simp [List.filterMap_cons, ih]
        simpa [List.filterMap_map, Function.comp_def, hfm] using this
      have hmark : ∀ p, get2 G2.mark p =
          if p ∈ fresh1.map node.pos then some M_FRONT
          else if p = u.pos then some M_USED else get2 G1.mark p := by
        intro p
        rw [e5 p, hGm]
        simp only
        rw [hg1]
      refine ⟨?_, ?_, ?_⟩
      · rw [List.nodup_append]
        refine ⟨i1, hpos.nodup_iff.2 e3, ?_⟩
        intro p hp1 hp2
        obtain ⟨v, hv, hvn⟩ := i2 p hp1
        obtain ⟨n, hn, rfl⟩ := List.mem_map.1 (hpos.mem_iff.1 hp2)
        have hnull := (e4 n hn).1
        rw [hGm] at hnull
        simp only at hnull
        rw [hg1] at hnull
        by_cases hpu : n.pos = u.pos
        · rw [if_pos hpu] at hnull
          exact absurd (Option.some.inj hnull) (by decide)
        · rw [if_neg hpu, hv] at hnull
          exact hvn (Option.some.inj hnull)
      · intro p hp
        rw [hmark p]
        rcases List.mem_append.1 hp with hp1 | hp1
        · by_cases c1 : p ∈ fresh1.map node.pos
          · rw [if_pos c1]
            exact ⟨_, rfl, by decide⟩
          · rw [if_neg c1]
            by_cases c2 : p = u.pos
            · rw [if_pos c2]
              exact ⟨_, rfl, by decide⟩
            · rw [if_neg c2]
              exact i2 p hp1
        · rw [if_pos (hpos.mem_iff.1 hp1)]
          exact ⟨_, rfl, by decide⟩
      · rw [List.length_append, List.length_map]
        omega

/-- Every state of the main loop has a log of the cells pushed. -/
theorem seq_after_pushed (mem : Nat → Bool) (h : heuristic) (G : grid)
    (hmem : mem (INIT_HEAP_CAPACITY + 1) = true) :
    ∀ (k : Nat) (s : node) (G1 : grid) (Q1 : heap node), seq_after mem h G k s G1 Q1 →
      ∃ log, seq_pushed mem h G k s G1 Q1 log := by
  intro k s G1 Q1 hr
  induction hr with
  | @init s G1 Q1 hi => exact ⟨_, seq_pushed.init hi⟩
  | @step k s G1 G2 Q1 Q2 hr hi ih =>
    obtain ⟨log, hlog⟩ := ih
    obtain ⟨_, a2, a3, _⟩ := seq_after_inv mem h G hmem k s G1 Q1 hr
    obtain ⟨u, Qp, _, hpop, _, _, hwfp, _, hcase⟩ :=
      seq_iteration_next mem h s G1 G2 Q1 Q2 a2 a3 hi
    rcases hcase with ⟨_, rfl, rfl⟩ | ⟨mk, Gm, hmk, _, _, hsm, he⟩
    · exact ⟨_, @seq_pushed.step _ _ _ _ _ _ _ _ _ _ _ _ [] hlog hi hpop (by simp)⟩
    · obtain ⟨mm, hmm, hGm⟩ := set_mark_set2 hsm
      have hg1 := get2_set2 hmm
      have husedm : get2 Gm.mark u.pos = some M_USED := by
        rw [hGm]
        simp only
        rw [hg1, if_pos rfl]
      obtain ⟨_, _, _, fresh, e1, _⟩ :=
        expand_seq_spec mem h u neighbours Gm G2 Qp Q2 hwfp husedm neighbours_range he
      exact ⟨_, seq_pushed.step hlog hi hpop e1⟩

/-- A popped entry was an entry of the heap. -/
theorem popped_mem {Q Q2 : heap node} {u : node} (hwf : heap_wf Q) (hf : Q.f = fcmp_nodescore)
    (hpop : heap_pop Q = some (some u, Q2)) : some u ∈ entries Q := by
  by_cases hn : 1 ≤ Q.n
  · have hfp : ∀ x y, 0 < Q.f x y ↔ score_val y < score_val x := by
      rw [hf]; exact fun x y => fcmp_nodescore_pos x y
    obtain ⟨u1, Qp, q1, _, _, _, _, _, q7, _⟩ := heap_pop_spec score_val Q hfp hwf hn
    rw [hpop] at q1
    cases q1
    exact q7.mem_iff.1 (List.mem_cons_self _ _)
  · have h0 : Q.n = 0 := by omega
    simp only [heap_pop, h0] at hpop
    split at hpop <;> simp at hpop

/-- The neighbour loops return only on a failed allocation, with -1. -/
theorem expand_ret (mem : Nat → Bool) (h : heuristic) (u : node) :
    ∀ (l : List (Int × Int)) (G : grid) (Q : heap node) (r : double × List (List Int)),
      expand mem h u l G Q = .ret r → r.1 = of_int (-1) := by
  intro l
  induction l with
  | nil =>
    intro G Q r hx
    simp [expand] at hx
  | cons o rest ih =>
    intro G Q r hx
    obtain ⟨x, y⟩ := o
    unfold expand at hx
    simp only at hx
    split at hx
    · cases hx
    · split at hx
      · split at hx
        · cases hx
        · split at hx
          · split at hx
            · cases hx
            · split at hx
              · cases hx
              · cases hx
                rfl
              · split at hx
                · cases hx
                · exact ih _ _ r hx
          · exact ih _ _ r hx
      · exact ih _ _ r hx

/-- An iteration of the main loop of `A_star_sequential` that returns:
either -1, or the cost of the popped entry, which is on the end cell and not
closed, with the marks as the walk along its parent chain leaves them. -/
theorem seq_iteration_ret (mem : Nat → Bool) (h : heuristic) (s : node) (G : grid)
    (Q : heap node) (c : double) (m : List (List Int))
    (hx : seq_iteration mem h s G Q = .ret (c, m)) :
    c = of_int (-1) ∨
      ∃ u Q1, heap_pop Q = some (some u, Q1) ∧ u.pos.x = G.end_.x ∧ u.pos.y = G.end_.y ∧
        c = u.cost ∧ mark_path s u G.mark = some m := by
  unfold seq_iteration at hx
  split at hx
  · cases hx
    exact Or.inl rfl
  · split at hx
    · cases hx
    · cases hx
    · rename_i u Q1 hpop
      split at hx
      · cases hx
      · split at hx
        · cases hx
        · split at hx
          · rename_i hend
            split at hx
            · cases hx
            · rename_i m1 hm
              cases hx
              exact Or.inr ⟨u, Q1, hpop, hend.1, hend.2, rfl, hm⟩
          · split at hx
            · cases hx
            · exact Or.inl (expand_ret mem h u neighbours _ _ (c, m) hx)

/-- When the main loop returns, it does so in an iteration that starts in a
state reached through iterations that each popped an entry. -/
theorem loop_ret (mem : Nat → Bool) (h : heuristic) (G : grid) (s : node)
    (r : double × List (List Int)) :
    ∀ (fuel k : Nat) (G1 : grid) (Q1 : heap node), seq_after mem h G k s G1 Q1 →
      A_star_loop mem h s fuel G1 Q1 = .ret r →
      ∃ k1 G2 Q2, seq_after mem h G k1 s G2 Q2 ∧ seq_iteration mem h s G2 Q2 = .ret r := by
  intro fuel
  induction fuel with
  | zero =>
    intro k G1 Q1 _ hx
    simp [A_star_loop] at hx
  | succ fuel ih =>
    intro k G1 Q1 hr hx
    unfold A_star_loop at hx
    cases hi : seq_iteration mem h s G1 Q1 with
    | next st =>
      obtain ⟨G2, Q2⟩ := st
      simp only [hi] at hx
      exact ih (k + 1) G2 Q2 (seq_after.step hr hi) hx
    | ret r1 =>
      simp only [hi] at hx
      cases hx
      exact ⟨k, G1, Q1, hr, hi⟩
    | ub => simp [hi] at hx

/-- The walk along the parent chain of `u` marks the cells of the chain, and
no other cell. -/
theorem mark_path_spec (s : node) (hs : ∀ p c sc q, s ≠ node.child p c sc q) :
    ∀ (u : node) (m m1 : List (List Int)), mark_path s u m = some m1 →
      ∀ x, get2 m1 x = if x ∈ chain_cells u then some M_PATH else get2 m x := by
  intro u
  induction u with
  | root p c sc =>
    intro m m1 hx x
    simp only [mark_path] at hx
    split at hx
    · cases hx
      simp [chain_cells]
    · cases hx
  | child p c sc q ih =>
    intro m m1 hx x
    simp only [mark_path] at hx
    rw [if_neg (fun e => hs p c sc q e.symm)] at hx
    cases hm : set2 m p M_PATH with
    | none => simp [hm] at hx
    | some m2 =>
      simp only [hm] at hx
      rw [ih m2 m1 hx x, get2_set2 hm x]
      simp only [chain_cells, List.mem_cons]
      by_cases h1 : x ∈ chain_cells q
      · simp [h1]
      · by_cases h2 : x = p
        · simp [h1, h2]
        · simp [h1, h2]

/-- The cost of an entry whose parent chain is as the search builds it is the
sum of the weights along the chain. -/
theorem chain_cost_eq (G : grid) (s : node) (p0 : position) (sc0 : double)
    (hs : s = node.root p0 (of_int 0) sc0) :
    ∀ u : node, chain_ok G s u → chain_cost G u = some u.cost := by
  intro u
  induction u with
  | root p c sc =>
    intro hc
    simp only [chain_ok] at hc
    rw [hs] at hc
    cases hc
    rfl
  | child p c sc q ih =>
    intro hc
    obtain ⟨_, _, ⟨v, w, hv, _, hw, hcw⟩, hq⟩ := hc
    subst hcw
    have hb : (get2 G.value p).bind weight = some w := by rw [hv]; exact hw
    simp only [chain_cost, ih hq, hb]
    rfl

/-- No entry of the heap of `A_star_sequential` has the start on its parent
chain, the entry without parent apart. -/
theorem seq_after_chain (mem : Nat → Bool) (h : heuristic) (G : grid)
    (hmem : mem (INIT_HEAP_CAPACITY + 1) = true) :
    ∀ (k : Nat) (s : node) (G1 : grid) (Q1 : heap node), seq_after mem h G k s G1 Q1 →
      s = node.root G.start (of_int 0) (dadd (of_int 0) (h G.start G.end_ G)) ∧
        ∀ n, some n ∈ entries Q1 → G.start ∉ chain_cells n := by
  intro k s G1 Q1 hr
  induction hr with
  | @init s G1 Q1 hi =>
    obtain ⟨hs, _, _, _, _, i6, _⟩ := seq_init_next mem G G1 h s Q1 hmem hi
    refine ⟨hs, ?_⟩
    intro n hn
    have := i6.mem_iff.1 hn
    simp only [List.mem_singleton, Option.some.injEq] at this
    rw [this, hs]
    simp [chain_cells]
  | @step k s G1 G2 Q1 Q2 hr hi ih =>
    obtain ⟨_, a2, a3, _, _, _, _, a8, _⟩ := seq_after_inv mem h G hmem k s G1 Q1 hr
    obtain ⟨u, Qp, _, hpop, hperm, _, hwfp, _, hcase⟩ :=
      seq_iteration_next mem h s G1 G2 Q1 Q2 a2 a3 hi
    refine ⟨ih.1, ?_⟩
    have hold : ∀ n, some n ∈ entries Qp → G.start ∉ chain_cells n :=
      fun n hn => ih.2 n (hperm.mem_iff.1 (List.mem_cons_of_mem _ hn))
    have hu : G.start ∉ chain_cells u := ih.2 u (hperm.mem_iff.1 (List.mem_cons_self _ _))
    rcases hcase with ⟨_, rfl, rfl⟩ | ⟨mk, Gm, hmk, _, _, hsm, he⟩
    · exact hold
    · obtain ⟨mm, hmm, hGm⟩ := set_mark_set2 hsm
      have hg1 := get2_set2 hmm
      have husedm : get2 Gm.mark u.pos = some M_USED := by
        rw [hGm]
        simp only
        rw [hg1, if_pos rfl]
      obtain ⟨_, _, _, fresh, e1, _, _, e4, _, _⟩ :=
        expand_seq_spec mem h u neighbours Gm G2 Qp Q2 hwfp husedm neighbours_range he
      intro n hn
      rcases List.mem_append.1 (e1.mem_iff.1 hn) with h1 | h1
      · exact hold n h1
      · obtain ⟨n1, hn1, hn2⟩ := List.mem_map.1 h1
        cases hn2
        obtain ⟨hnull, _, v, w, _, _, _, hform⟩ := e4 n hn1
        rw [hform]
        simp only [chain_cells, List.mem_cons, not_or]
        refine ⟨?_, hu⟩
        intro e
        rw [← e, hGm] at hnull
        simp only at hnull
        rw [hg1] at hnull
        by_cases hsu : G.start = u.pos
        · rw [if_pos hsu] at hnull
          exact absurd (Option.some.inj hnull) (by decide)
        · rw [if_neg hsu] at hnull
          exact a8 hnull

/-- A child record is on a cell that is not WALL. -/
theorem child_of_open {G0 G : grid} {h : heuristic} {rank : Int} {cur : Nat} {u e : mpi_node}
    (hg : same_grid G0 G) (hc : child_of G h rank cur u e) : open_cell G0 e.pos := by
  obtain ⟨G1, p, v, _, _, c3, c4, c5⟩ := hc
  obtain ⟨hpos, _⟩ := CreateMpiNode_spec c5
  rw [hpos]
  refine ⟨v, ?_, c4⟩
  rw [← hg.2.2.1]
  exact c3

/-- If the start is not WALL and the records a worker receives are on cells
that are not WALL, so are the entries of its heap and the records it has
sent. -/
theorem mpi_reachable_open (mem : Nat → Bool) (env : environment) (h : heuristic)
    (rank W : Int) (G : grid) (hmem : mem (INIT_HEAP_CAPACITY + 1) = true)
    (hso : open_cell G G.start) (henv : ∀ e, received env e → open_cell G e.pos) (w : worker)
    (hw : mpi_reachable mem env h rank W G w) :
    (∀ e, some e ∈ entries w.Q → open_cell G e.pos) ∧
      ∀ dst batch, message.node dst batch ∈ w.sent → ∀ n ∈ batch, open_cell G n.pos := by
  induction hw with
  | init hi =>
    obtain ⟨_, _, _, _, _, i6, i7⟩ := mpi_init_spec mem rank W G h _ hmem hi
    refine ⟨?_, ?_⟩
    · intro e he
      rcases i7 with ⟨_, _, k, _⟩ | ⟨_, _, k, _⟩
      · obtain ⟨k1, _⟩ := k e he
        rw [k1]
        exact hso
      · exact absurd he (k e)
    · intro dst batch hm
      rw [i6] at hm
      cases hm
  | @step fuel w0 w1 hr hi ih =>
    obtain ⟨hg, hwf, hf⟩ := mpi_reachable_wf mem env h rank W G hmem _ hr
    obtain ⟨a1, a2⟩ := ih
    obtain ⟨_, _, _, u, _, _, _, _, _, _, i6⟩ :=
      mpi_iteration_spec mem env h rank W _ _ _ hwf hf hi
    rcases i6 with ⟨_, s1, _, _, _, s5⟩ | ⟨_, s1, _, _, _, _, msgs, s6, s7⟩
    · exact ⟨fun e he => (s1 e he).elim (a1 e) (henv e), by rw [s5]; exact a2⟩
    · refine ⟨?_, ?_⟩
      · intro e he
        rcases s1 e he with k | k | ⟨k, _⟩
        · exact a1 e k
        · exact henv e k
        · exact child_of_open hg k
      · intro dst batch hm n hn
        rw [s6, List.mem_append] at hm
        rcases hm with hm | hm
        · exact a2 dst batch hm n hn
        · obtain ⟨d, b, hmb, _, _, k⟩ := s7 _ hm
          cases hmb
          exact child_of_open hg (k n hn).1
/-! ## The MPI search: the bounds of `node_storage` and `req` -/

/-- For a cell with `0 ≤ x + y ≤ INT_MAX` and at least one worker, the owner is
a rank. -/
theorem hda_range (p : position) (W : Int) (h0 : 0 ≤ p.x + p.y) (hmax : p.x + p.y ≤ INT_MAX)
    (hW : 1 ≤ W) : 0 ≤ hda p W ∧ hda p W < W := by
  have hw : int_wrap (p.x + p.y) = p.x + p.y := by
    unfold int_wrap
    simp only [INT_MAX, Nat.cast_ofNat] at hmax
    omega
  have e : hda p W = (p.x + p.y) % W := by
    unfold hda
    rw [hw, Int.tmod_eq_emod h0 (by omega)]
  rw [e]
  exact ⟨Int.emod_nonneg _ (by omega), Int.emod_lt_of_pos _ (by omega)⟩

theorem le_sum_of_getElem? : ∀ (l : List Nat) (i : Nat) (b : Nat), l[i]? = some b → b ≤ l.sum := by
  intro l
  induction l with
  | nil => intro i b h; simp at h
  | cons a l ih =>
    intro i b h
    cases i with
    | zero =>
      simp only [List.getElem?_cons_zero, Option.some.injEq] at h
      rw [List.sum_cons]
      omega
    | succ i =>
      simp only [List.getElem?_cons_succ] at h
      have := ih i b h
      rw [List.sum_cons]
      omega

/-- The non-empty rows of `node_storage` are no more than the records. -/
theorem nonempty_le_sum : ∀ (st : List (List mpi_node)) (k : Nat),
    ((st.enumFrom k).filter (fun b => decide (0 < b.2.length))).length ≤
      (st.map List.length).sum := by
  intro st
  induction st with
  | nil => intro k; simp
  | cons b st ih =>
    intro k
    simp only [List.enumFrom_cons, List.map_cons, List.sum_cons]
    by_cases hb : 0 < b.length
    · rw [List.filter_cons_of_pos (by simpa using hb), List.length_cons]
      have := ih (k + 1)
      omega
    · rw [List.filter_cons_of_neg (by simpa using hb)]
      have := ih (k + 1)
      omega

theorem filter_offsets_cons (a : Int × Int) (l : List (Int × Int)) :
    ((a :: l).filter (fun o => decide (o ≠ (0, 0)))).length =
      (if a ≠ (0, 0) then 1 else 0) + (l.filter (fun o => decide (o ≠ (0, 0)))).length := by
  by_cases h : a = (0, 0)
  · rw [List.filter_cons_of_neg (p := fun o => decide (o ≠ (0, 0)))
      (fun e => of_decide_eq_true e h), if_neg (fun e => e h)]
    omega
  · rw [List.filter_cons_of_pos (p := fun o => decide (o ≠ (0, 0))) (decide_eq_true h),
      if_pos h, List.length_cons]
    omega

/-- The neighbour loops of `A_star_mpi` on an interior cell `u` that is
closed: they end in `MPI_Abort` or come to their end, and then `node_storage`
holds no more records than it did plus the number of offsets other than (0,0)
still to visit. -/
theorem expand_mpi_total (mem : Nat → Bool) (h : heuristic) (rank W : Int) (u : mpi_node)
    (X Y : Nat) (hW : 1 ≤ W) (hsize : X + Y ≤ INT_MAX)
    (hu : 1 ≤ u.pos.x ∧ u.pos.x + 2 ≤ X ∧ 1 ≤ u.pos.y ∧ u.pos.y + 2 ≤ Y) :
    ∀ (l : List (Int × Int)) (w : worker) (st : List (List mpi_node)),
      (∀ o ∈ l, -1 ≤ o.1 ∧ o.1 ≤ 1 ∧ -1 ≤ o.2 ∧ o.2 ≤ 1) →
      heap_wf w.Q → shape w.G.value X Y → shape w.G.mark X Y →
      (∀ p v, get2 w.G.value p = some v → 0 ≤ v ∧ v ≤ 6) →
      get2 w.G.mark u.pos = some M_USED → st.length = W.toNat →
      (st.map List.length).sum + (l.filter (fun o => decide (o ≠ (0, 0)))).length ≤
        MAX_NEIGHBORS →
      expand_mpi mem h rank W u l w st = .abort ∨
        ∃ w1 st1, expand_mpi mem h rank W u l w st = .next (w1, st1) ∧
          st1.length = st.length ∧ (st1.map List.length).sum ≤ MAX_NEIGHBORS := by
  intro l
  induction l with
  | nil =>
    intro w st _ _ _ _ _ _ _ hsum
    right
    exact ⟨w, st, rfl, rfl, by simpa using hsum⟩
  | cons o rest ih =>
    intro w st hl hq hval hmark hrange hused hlen hsum
    obtain ⟨x, y⟩ := o
    have hxy := hl (x, y) (List.mem_cons_self _ _)
    simp only at hxy
    have hrest : ∀ o ∈ rest, -1 ≤ o.1 ∧ o.1 ≤ 1 ∧ -1 ≤ o.2 ∧ o.2 ≤ 1 :=
      fun o ho => hl o (List.mem_cons_of_mem _ ho)
    have hcount : (rest.filter (fun o => decide (o ≠ (0, 0)))).length ≤
        (((x, y) :: rest).filter (fun o => decide (o ≠ (0, 0)))).length := by
      rw [filter_offsets_cons]
      omega
    have hx0 : 0 ≤ u.pos.x + x ∧ u.pos.x + x < X ∧ 0 ≤ u.pos.y + y ∧ u.pos.y + y < Y := by omega
    obtain ⟨mk, hmk⟩ := get2_of_in_range (p := ⟨u.pos.x + x, u.pos.y + y⟩) hmark hx0
    by_cases hnull : mk = M_NULL
    · subst hnull
      obtain ⟨v, hv⟩ := get2_of_in_range (p := ⟨u.pos.x + x, u.pos.y + y⟩) hval hx0
      by_cases hwall : v = V_WALL
      · have hstep : expand_mpi mem h rank W u ((x, y) :: rest) w st =
            expand_mpi mem h rank W u rest w st := by
          simp [expand_mpi, hmk, hv, hwall]
        rw [hstep]
        exact ih w st hrest hq hval hmark hrange hused hlen (by omega)
      · obtain ⟨wt, hwt⟩ := weight_some (hrange _ _ hv)
        have hne : (x, y) ≠ ((0, 0) : Int × Int) := by
          intro e
          simp only [Prod.mk.injEq] at e
          rw [e.1, e.2, Int.add_zero, Int.add_zero, hused] at hmk
          cases hmk
        have hcount1 : (((x, y) :: rest).filter (fun o => decide (o ≠ (0, 0)))).length =
            (rest.filter (fun o => decide (o ≠ (0, 0)))).length + 1 := by
          rw [filter_offsets_cons, if_pos hne]
          omega
        have hnu : u.pos ≠ ⟨u.pos.x + x, u.pos.y + y⟩ := by
          intro e
          rw [← e, hused] at hmk
          cases hmk
        cases hc : CreateMpiNode w.G ⟨u.pos.x + x, u.pos.y + y⟩ u rank w.cur_win_i h with
        | none => simp [CreateMpiNode, hv, hwt] at hc
        | some n =>
          obtain ⟨hnpos, _⟩ := CreateMpiNode_spec hc
          obtain ⟨m1, hm1⟩ := set2_of_get2 M_FRONT hmk
          have hsm : set_mark w.G n.pos M_FRONT = some { w.G with mark := m1 } := by
            rw [hnpos]; exact set_mark_eq hm1
          have hg1 := get2_set2 hm1
          have hused1 : get2 m1 u.pos = some M_USED := by
            rw [hg1, if_neg hnu]; exact hused
          by_cases hdst : hda ⟨u.pos.x + x, u.pos.y + y⟩ W = rank
          · rcases heap_add_spec (fun _ : mpi_node => (0 : Nat)) w.Q hq (mpiNodeToPtr n)
                (mem (w.Q.nmax * 2 + 1)) with ⟨_, _, a3⟩ | ⟨_, Q1, a2, _, _, a5, _⟩
            · left
              simp [expand_mpi, hmk, hv, hwall, hc, hdst, a3]
            · have hstep : expand_mpi mem h rank W u ((x, y) :: rest) w st =
                  expand_mpi mem h rank W u rest { w with Q := Q1, G := { w.G with mark := m1 } }
                    st := by
                simp [expand_mpi, hmk, hv, hwall, hc, hdst, a2, hsm]
              rw [hstep]
              exact ih _ st hrest a5 hval (shape_set2 hmark hm1) hrange hused1 hlen (by omega)
          · obtain ⟨d0, d1⟩ := hda_range ⟨u.pos.x + x, u.pos.y + y⟩ W (by simp only; omega)
              (by simp only; omega) hW
            have hlt : (hda ⟨u.pos.x + x, u.pos.y + y⟩ W).toNat < st.length := by
              rw [hlen]; omega
            obtain ⟨b, hb⟩ : ∃ b, st[(hda ⟨u.pos.x + x, u.pos.y + y⟩ W).toNat]? = some b :=
              ⟨_, List.getElem?_eq_getElem hlt⟩
            have hbl : b.length ≤ (st.map List.length).sum :=
              le_sum_of_getElem? _ (hda ⟨u.pos.x + x, u.pos.y + y⟩ W).toNat _ (by simp [hb])
            have hstore : store_node st (hda ⟨u.pos.x + x, u.pos.y + y⟩ W) n =
                some (st.set (hda ⟨u.pos.x + x, u.pos.y + y⟩ W).toNat (b ++ [n])) := by
              have hb8 : b.length < MAX_NEIGHBORS := by omega
              simp [store_node, d0, hb, hb8]
            have hsum1 : ((st.set (hda ⟨u.pos.x + x, u.pos.y + y⟩ W).toNat (b ++ [n])).map
                List.length).sum = (st.map List.length).sum + 1 := by
              have := sum_set_nat (st.map List.length) (hda ⟨u.pos.x + x, u.pos.y + y⟩ W).toNat
                (b.length + 1) b.length (by simp [hb])
              rw [List.map_set, List.length_append, List.length_singleton]
              omega
            have hstep : expand_mpi mem h rank W u ((x, y) :: rest) w st =
                expand_mpi mem h rank W u rest { w with G := { w.G with mark := m1 } }
                  (st.set (hda ⟨u.pos.x + x, u.pos.y + y⟩ W).toNat (b ++ [n])) := by
              simp [expand_mpi, hmk, hv, hwall, hc, hdst, hstore, hsm]
            rw [hstep]
            rcases ih { w with G := { w.G with mark := m1 } }
                (st.set (hda ⟨u.pos.x + x, u.pos.y + y⟩ W).toNat (b ++ [n])) hrest hq hval
                (shape_set2 hmark hm1) hrange hused1 (by rw [List.length_set]; exact hlen)
                (by omega) with k | ⟨w1, st1, k1, k2, k3⟩
            · exact Or.inl k
            · exact Or.inr ⟨w1, st1, k1, by simp [k2], k3⟩
    · have hstep : expand_mpi mem h rank W u ((x, y) :: rest) w st =
          expand_mpi mem h rank W u rest w st := by
        simp [expand_mpi, hmk, hnull]
      rw [hstep]
      exact ih w st hrest hq hval hmark hrange hused hlen (by omega)
/-! ## tools.c: what `initGridPoints` writes -/

theorem cell_write {value value1 : List (List (Option Int))} {i j : Nat} {v : Int}
    (h : write_value value i j v = some value1) (a b : Nat) :
    cell value1 a b = if a = i ∧ b = j then some (some v) else cell value a b := by
  unfold write_value at h
  cases hr : value[i]? with
  | none => simp [hr] at h
  | some row =>
    simp only [hr] at h
    split at h
    · rename_i hj
      cases h
      have hi : i < value.length := by
        by_contra hc
        rw [List.getElem?_eq_none (by omega)] at hr
        cases hr
      unfold cell
      by_cases ha : a = i
      · subst ha
        rw [List.getElem?_set_self hi]
        simp only [Option.some_bind, hr, true_and]
        by_cases hb : b = j
        · subst hb
          rw [List.getElem?_set_self hj, if_pos rfl]
        · rw [List.getElem?_set_ne (fun e => hb e.symm), if_neg hb]
      · rw [List.getElem?_set_ne (fun e => ha e.symm), if_neg (fun e => ha e.1)]
    · cases h

theorem write_value_some {value : List (List (Option Int))} {X Y : Nat}
    (hl : value.length = X) (hrow : ∀ row ∈ value, row.length = Y) {i j : Nat} (hi : i < X)
    (hj : j < Y) (v : Int) :
    ∃ value1, write_value value i j v = some value1 ∧ value1.length = X ∧
      ∀ row ∈ value1, row.length = Y := by
  have hi1 : i < value.length := by omega
  have hr : value[i]? = some value[i] := List.getElem?_eq_getElem hi1
  have hrl : value[i].length = Y := hrow _ (List.getElem_mem _)
  refine ⟨value.set i (value[i].set j (some v)), ?_, by rw [List.length_set]; exact hl, ?_⟩
  · unfold write_value
    simp only [hr]
    rw [if_pos (by omega)]
  · intro row hm
    rcases List.mem_or_eq_of_mem_set hm with h1 | h1
    · exact hrow row h1
    · rw [h1, List.length_set]
      exact hrl

/-- The loops of `initGridPoints` over cells inside the allocation write no
cell outside it; a cell visited holds WALL if it is on the border and `type`
or FREE if not, and a cell not visited is left as it was. -/
theorem fill_cells_spec (G : fresh_grid) (type : Int) (density : double) (rand : Nat → double)
    (X Y : Nat) :
    ∀ (todo : List (Nat × Nat)) (value : List (List (Option Int))) (k : Nat),
      (∀ c ∈ todo, c.1 < X ∧ c.2 < Y) → value.length = X → (∀ row ∈ value, row.length = Y) →
      ∃ value1, fill_cells G type density rand todo value k = some value1 ∧
        ∀ i j : Nat,
          ((i, j) ∉ todo → cell value1 i j = cell value i j) ∧
          ((i, j) ∈ todo → onBorder G i j = true → cell value1 i j = some (some V_WALL)) ∧
          ((i, j) ∈ todo → onBorder G i j = false →
            cell value1 i j = some (some type) ∨ cell value1 i j = some (some V_FREE)) := by
  intro todo
  induction todo with
  | nil =>
    intro value k _ _ _
    exact ⟨value, rfl, fun i j => ⟨fun _ => rfl, fun h => absurd h (List.not_mem_nil _),
      fun h => absurd h (List.not_mem_nil _)⟩⟩
  | cons c rest ih =>
    intro value k hin hl hrow
    obtain ⟨ci, cj⟩ := c
    have hc := hin (ci, cj) (List.mem_cons_self _ _)
    simp only at hc
    have hrest : ∀ c ∈ rest, c.1 < X ∧ c.2 < Y := fun c h => hin c (List.mem_cons_of_mem _ h)
    by_cases hb : onBorder G ci cj = true
    · obtain ⟨v1, hw, hl1, hrow1⟩ := write_value_some hl hrow hc.1 hc.2 V_WALL
      obtain ⟨v2, hf, hspec⟩ := ih v1 k hrest hl1 hrow1
      refine ⟨v2, by simp only [fill_cells, hb, if_true, hw]; exact hf, ?_⟩
      intro i j
      obtain ⟨s1, s2, s3⟩ := hspec i j
      have hcw := cell_write hw i j
      by_cases hm : (i, j) ∈ rest
      · exact ⟨fun h => absurd (List.mem_cons_of_mem _ hm) h, fun _ => s2 hm, fun _ => s3 hm⟩
      · rw [s1 hm, hcw]
        by_cases he : i = ci ∧ j = cj
        · obtain ⟨rfl, rfl⟩ := he
          simp only [and_self, if_true]
          refine ⟨fun h => absurd (List.mem_cons_self _ _) h, fun _ _ => trivial, ?_⟩
          intro _ hnb
          rw [hb] at hnb
          cases hnb
        · rw [if_neg he]
          have hne : (i, j) ∉ (ci, cj) :: rest := by
            intro h
            rcases List.mem_cons.1 h with h | h
            · simp only [Prod.mk.injEq] at h
              exact he h
            · exact hm h
          exact ⟨fun _ => rfl, fun h => absurd h hne, fun h => absurd h hne⟩
    · have hb0 : onBorder G ci cj = false := by simpa using hb
      obtain ⟨v1, hw, hl1, hrow1⟩ := write_value_some hl hrow hc.1 hc.2
        (if dlt density (rand k) then V_FREE else type)
      obtain ⟨v2, hf, hspec⟩ := ih v1 (k + 1) hrest hl1 hrow1
      refine ⟨v2, ?_, ?_⟩
      · simp only [fill_cells, hb0, Bool.false_eq_true, if_false, hw]
        exact hf
      intro i j
      obtain ⟨s1, s2, s3⟩ := hspec i j
      have hcw := cell_write hw i j
      by_cases hm : (i, j) ∈ rest
      · exact ⟨fun h => absurd (List.mem_cons_of_mem _ hm) h, fun _ => s2 hm, fun _ => s3 hm⟩
      · rw [s1 hm, hcw]
        by_cases he : i = ci ∧ j = cj
        · obtain ⟨rfl, rfl⟩ := he
          simp only [and_self, if_true]
          refine ⟨fun h => absurd (List.mem_cons_self _ _) h, ?_, ?_⟩
          · intro _ hnb
            rw [hb0] at hnb
            cases hnb
          · intro _ _
            by_cases hd : dlt density (rand k) = true
            · right; simp [hd]
            · left; simp [hd]
        · rw [if_neg he]
          have hne : (i, j) ∉ (ci, cj) :: rest := by
            intro h
            rcases List.mem_cons.1 h with h | h
            · simp only [Prod.mk.injEq] at h
              exact he h
            · exact hm h
          exact ⟨fun _ => rfl, fun h => absurd h hne, fun h => absurd h hne⟩
/-! ## The search with `alpha = 0`: rounding errors -/

/-- The weight of a cell that is not WALL is within `2^-52` of its entry in the
table of tenths. -/
theorem tenths_spec {v : Int} {w : double} (hw : weight v = some w) (hv : v ≠ V_WALL) :
    ∃ t, tenths v = some t ∧ 1 ≤ t ∧ t ≤ 90 ∧ 0 ≤ w.m ∧
      (t : ℚ) / 10 - 1 / 2 ^ 52 ≤ w.val ∧ w.val ≤ (t : ℚ) / 10 + 1 / 2 ^ 52 := by
  have e1 : of_int 1 = ⟨1, 0⟩ := by decide
  have e3 : of_int 3 = ⟨3, 0⟩ := by decide
  have e9 : of_int 9 = ⟨9, 0⟩ := by decide
  have e23 : of_ratio 23 10 = ⟨5179139571476070, -51⟩ := by decide
  have e15 : of_ratio 15 10 = ⟨6755399441055744, -52⟩ := by decide
  have e01 : of_ratio 1 10 = ⟨7205759403792794, -56⟩ := by decide
  unfold weight at hw
  unfold tenths
  split_ifs at hw with h0 h1 h2 h3 h4 h5 h6
  · cases hw
    rw [if_pos h0, e1]
    refine ⟨10, rfl, by decide, by decide, by decide, ?_, ?_⟩ <;> norm_num [double.val]
  · exact absurd h1 hv
  · cases hw
    rw [if_neg h0, if_pos h2, e3]
    refine ⟨30, rfl, by decide, by decide, by decide, ?_, ?_⟩ <;> norm_num [double.val]
  · cases hw
    rw [if_neg h0, if_neg h2, if_pos h3, e9]
    refine ⟨90, rfl, by decide, by decide, by decide, ?_, ?_⟩ <;> norm_num [double.val]
  · cases hw
    rw [if_neg h0, if_neg h2, if_neg h3, if_pos h4, e23]
    refine ⟨23, rfl, by decide, by decide, by decide, ?_, ?_⟩ <;> norm_num [double.val]
  · cases hw
    rw [if_neg h0, if_neg h2, if_neg h3, if_neg h4, if_pos h5, e15]
    refine ⟨15, rfl, by decide, by decide, by decide, ?_, ?_⟩ <;> norm_num [double.val]
  · cases hw
    rw [if_neg h0, if_neg h2, if_neg h3, if_neg h4, if_neg h5, if_pos h6, e01]
    refine ⟨1, rfl, by decide, by decide, by decide, ?_, ?_⟩ <;> norm_num [double.val]

/-- A chain is a path with the same binary64 sum. -/
theorem walk_path {G : grid} {q : position} {d : Nat} {c : double} (hw : walk G q d c) :
    path_to G q c := by
  induction hw with
  | start => exact path_to.start
  | step _ hadj hv hwall hw _ ih => exact path_to.step ih hadj hv hwall hw

/-- A path is a chain: its weights have a sum in tenths. -/
theorem path_walk {G : grid} {q : position} {c : double} (hp : path_to G q c) :
    ∃ d, walk G q d c := by
  induction hp with
  | start => exact ⟨0, walk.start⟩
  | step _ hadj hv hwall hw ih =>
    obtain ⟨d, hd⟩ := ih
    obtain ⟨t, ht, _⟩ := tenths_spec hw hwall
    exact ⟨d + t, walk.step hd hadj hv hwall hw ht⟩

/-- The flush loop sends every non-empty row of `node_storage`. -/
theorem flush_complete {st : List (List mpi_node)} {msgs : List message}
    (h : flush st = some msgs) (d : Nat) (b : List mpi_node) (hb : st[d]? = some b)
    (hne : b ≠ []) : message.node (d : Int) b ∈ msgs := by
  unfold flush at h
  simp only at h
  split at h
  · cases h
    simp only [List.mem_map, List.mem_filter]
    refine ⟨(d, b), ⟨List.mk_mem_enum_iff_getElem?.2 hb, ?_⟩, rfl⟩
    simp only [decide_eq_true_eq]
    exact List.length_pos.2 hne
  · cases h

/-- An iteration of the main loop of `A_star_mpi` that closes the entry `u` it
popped appends to the log of sends the messages `msgs` of its flush loop, and
every neighbour of `u` that was unmarked and not a wall gets a record: in the
heap when the worker owns the cell, and otherwise in a batch of `msgs` addressed
to the owner of the cell. -/
theorem mpi_iteration_sent (mem : Nat → Bool) (env : environment) (h : heuristic)
    (rank W : Int) (fuel : Nat) (w w1 wd : worker) (u : mpi_node) (Q1 : heap mpi_node)
    (hwf : heap_wf w.Q) (hf : w.Q.f = fcmp_nodescore)
    (hx : mpi_iteration mem env h rank W fuel w = .next w1)
    (hd : drain mem env (hda w.G.end_ W) fuel w = .next wd)
    (hp : heap_pop wd.Q = some (some u, Q1)) (hnu : get2 wd.G.mark u.pos ≠ some M_USED) :
    ∃ msgs, w1.sent = w.sent ++ msgs ∧
      ∀ o ∈ neighbours, o ≠ (0, 0) →
        get2 wd.G.mark ⟨u.pos.x + o.1, u.pos.y + o.2⟩ = some M_NULL →
        (∃ v, get2 wd.G.value ⟨u.pos.x + o.1, u.pos.y + o.2⟩ = some v ∧ v ≠ V_WALL) →
        ∃ e, e.pos = ⟨u.pos.x + o.1, u.pos.y + o.2⟩ ∧ e.parent_rank = rank ∧
          e.parent_win_i = (w.cur_win_i : Int) ∧
          if hda e.pos W = rank then some e ∈ entries w1.Q
          else ∃ b, message.node (hda e.pos W) b ∈ msgs ∧ e ∈ b := by
  unfold mpi_iteration at hx
  simp only [hd, hp] at hx
  obtain ⟨hstep, hne⟩ := drain_spec mem env _ fuel w wd hwf hd
  obtain ⟨u1, Q2, hpop, _, hwf1, _, _⟩ := mpi_pop hf hstep hne
  rw [hp] at hpop
  obtain ⟨c1, _, _, _, _, c6, c7, c8⟩ := hstep
  cases hpop
  cases hmk : get2 wd.G.mark u.pos with
  | none => simp [hmk] at hx
  | some mk =>
    simp only [hmk] at hx
    have hused : mk ≠ M_USED := fun e => hnu (by rw [hmk, e])
    simp only [hused, if_false] at hx
    split at hx
    · split at hx <;> cases hx
    · cases hs : set_mark wd.G u.pos M_USED with
      | none => simp [hs] at hx
      | some G1 =>
        simp only [hs] at hx
        obtain ⟨s1, s2⟩ := set_mark_spec hs
        by_cases hlen : wd.cur_win_i < wd.window_buffer.length
        · simp only [hlen, if_true] at hx
          cases he : expand_mpi mem h rank W u neighbours
              { wd with Q := Q1, G := G1,
                        window_buffer := wd.window_buffer.set wd.cur_win_i (some u) }
              (List.replicate W.toNat []) with
          | ret r => simp [he] at hx
          | abort => simp [he] at hx
          | ub => simp [he] at hx
          | out_of_fuel => simp [he] at hx
          | next r =>
            obtain ⟨we, st⟩ := r
            simp only [he] at hx
            cases hfl : flush st with
            | none => simp [hfl] at hx
            | some msgs =>
              simp only [hfl, mpi_flow.next.injEq] at hx
              subst hx
              have hused1 : get2 G1.mark u.pos = some M_USED := by rw [s2]; simp
              obtain ⟨e1, _, _, _, e5⟩ :=
                expand_mpi_spec mem h rank W u neighbours _ we _ st hwf1 hused1
                  neighbours_range he
              obtain ⟨_, _, _, _, _, _, _, d8⟩ := e1
              obtain ⟨_, _, k3⟩ :=
                expand_mpi_complete mem h rank W u neighbours _ we _ st hwf1 hused1 he
              refine ⟨msgs, by simp only [d8, c8], ?_⟩
              intro o ho ho0 hm hv
              have hpne : (⟨u.pos.x + o.1, u.pos.y + o.2⟩ : position) ≠ u.pos := by
                intro e
                have ex := congrArg position.x e
                have ey := congrArg position.y e
                simp only at ex ey
                apply ho0
                apply Prod.ext <;> simp only <;> omega
              have hm1 : get2 G1.mark ⟨u.pos.x + o.1, u.pos.y + o.2⟩ = some M_NULL := by
                rw [s2, if_neg hpne]
                exact hm
              have hv1 : ∃ v, get2 G1.value ⟨u.pos.x + o.1, u.pos.y + o.2⟩ = some v ∧
                  v ≠ V_WALL := by
                obtain ⟨v, hv, hw⟩ := hv
                exact ⟨v, by rw [s1.2.2.1]; exact hv, hw⟩
              obtain ⟨e, g1, g2, g3, g4⟩ := k3 o ho hm1 hv1
              refine ⟨e, g1, g2, by simpa [c7] using g3, ?_⟩
              by_cases hown : hda e.pos W = rank
              · rw [if_pos hown] at g4 ⊢
                exact g4
              · rw [if_neg hown] at g4 ⊢
                obtain ⟨b, hb, heb⟩ := g4
                obtain ⟨b0, fresh, f1, f2, f3⟩ := e5 _ b hb
                have hb0 : b0 = [] := by
                  rw [List.getElem?_replicate] at f1
                  split at f1
                  · exact (Option.some.inj f1).symm
                  · cases f1
                subst hb0
                simp only [List.nil_append] at f2
                subst f2
                have hd1 := (f3 e heb).2.1
                have hsend := flush_complete hfl _ b hb (List.ne_nil_of_mem heb)
                rw [← hd1] at hsend
                exact ⟨b, hsend, heb⟩
        · simp [hlen] at hx

/-! ## The MPI search on a single worker -/

/-- With one worker a broadcast sends nothing. -/
theorem broadcast_one (msg : Int → message) : broadcast 1 0 msg = [] := rfl

theorem heap_two_wf : heap_wf heap_two := by
  refine ⟨_, rfl, rfl, by decide, by decide, ?_⟩
  intro i h1 h2
  have h3 : i = 1 ∨ i = 2 := by simp only [heap_two] at h2; omega
  rcases h3 with rfl | rfl
  · exact ⟨_, rfl⟩
  · exact ⟨_, rfl⟩

theorem heap_two_ordered : heap_ordered heap_two := by
  intro i h1 h2 x y hx hy
  have h3 : i = 2 := by simp only [heap_two] at h2; omega
  subst h3
  have ex : x = entry_of_score 1 := (Option.some.inj hx).symm
  have ey : y = entry_of_score 2 := (Option.some.inj hy).symm
  subst ex ey
  refine not_lt.1 (fun hlt => ?_)
  have := (dlt_iff _ _).2 hlt
  revert this
  decide

/-- C1: on a heap with `n ≥ 1` whose array is in heap order under the score
comparator, `heap_pop` returns an entry whose score is at most the score of every
stored entry, `n` drops by exactly 1, and the entries left in `array[1..n]` are,
as a multiset, the previous ones minus the returned entry. -/
theorem heap_pop_returns_min {α : Type} [scored α] (h : heap α) (hf : h.f = fcmp_nodescore)
    (hwf : heap_wf h) (hn : 1 ≤ h.n) (hord : heap_ordered h) :
    ∃ x h1, heap_pop h = some (some x, h1) ∧
      (∀ y, some y ∈ entries h → score_val x ≤ score_val y) ∧
      h1.n + 1 = h.n ∧ (some x :: entries h1).Perm (entries h) := by
  have hfp : ∀ x y, 0 < h.f x y ↔ score_val y < score_val x := by
    rw [hf]; exact fun x y => fcmp_nodescore_pos x y
  obtain ⟨x, h1, p1, p2, _, p4, _, _, p7, _⟩ := heap_pop_spec score_val h hfp hwf hn
  obtain ⟨a, ha, _, _, _, hfill⟩ := hwf
  refine ⟨x, h1, p1, ?_, p4, p7⟩
  intro y hy
  simp only [entries, ha, Option.getD_some, ents, List.mem_map, List.mem_range'_1] at hy
  obtain ⟨i, ⟨hi1, hi2⟩, hi3⟩ := hy
  simp only [ha, Option.getD_some] at p2
  exact ordered_root_le score_val a h.n hfill (by simpa [heap_ordered, ha] using hord) i hi1
    (by omega) x y p2 hi3

/-- C1 at the heap holding the scores 1 and 2. -/
theorem heap_pop_returns_min_witness :
    ∃ x h1, heap_pop heap_two = some (some x, h1) ∧
      (∀ y, some y ∈ entries heap_two → score_val x ≤ score_val y) ∧
      h1.n + 1 = heap_two.n ∧ (some x :: entries h1).Perm (entries heap_two) :=
  heap_pop_returns_min heap_two rfl heap_two_wf (by decide) heap_two_ordered

/-- C2: for every list of entries added with `heap_add` to
`heap_create(k, fcmp_nodescore)`, `k ≥ 1`, every allocation succeeding: no call
has undefined behaviour, no call reports failure while twice the number of
entries fits an `int`, and when no call reports failure, calling `heap_pop`
until `heap_empty` returns exactly the added entries (as a multiset) in
non-decreasing order of score. -/
theorem heap_add_then_pop_sorted {α : Type} [scored α] (k : Nat) (hk : 1 ≤ k) (xs : List α) :
    ∃ r, heap_add_all (heap_create k fcmp_nodescore true) xs = some r ∧
      (2 * xs.length ≤ INT_MAX → r.1 = false) ∧
      (r.1 = false →
        ∃ ys : List α, (∀ fuel, r.2.n < fuel → heap_pop_all fuel r.2 = some (ys.map some)) ∧
          ys.Perm xs ∧ ys.Pairwise (fun a b => score_val a ≤ score_val b)) := by
  have hwf := heap_create_wf k hk (fcmp_nodescore : α → α → Int)
  have ho : heap_ordered (heap_create k (fcmp_nodescore : α → α → Int) true) := by
    intro i h1 h2
    simp only [heap_create] at h2
    omega
  obtain ⟨r, hr1, hr2, hr3⟩ := heap_add_all_spec xs _ hwf rfl ho
  refine ⟨r, hr1, ?_, ?_⟩
  · intro hb
    apply hr2
    simpa [heap_create] using hb
  · intro hr
    obtain ⟨a1, a2, a3, a4⟩ := hr3 hr
    obtain ⟨ys, q1, q2, q3⟩ := heap_pop_all_spec r.2.n r.2 rfl a1 a2 a3
    refine ⟨ys, q1, ?_, q3⟩
    have e0 : entries (heap_create k (fcmp_nodescore : α → α → Int) true) = [] := by
      simp [entries, ents, heap_create]
    rw [e0, List.nil_append] at a4
    have p := (q2.trans a4).filterMap id
    simpa [List.filterMap_map] using p

/-- C2 at capacity 1 and the scores 3, 1, 2. -/
theorem heap_add_then_pop_sorted_witness :
    ∃ r, heap_add_all (heap_create 1 fcmp_nodescore true)
        [entry_of_score 3, entry_of_score 1, entry_of_score 2] = some r ∧
      (2 * [entry_of_score 3, entry_of_score 1, entry_of_score 2].length ≤ INT_MAX →
        r.1 = false) ∧
      (r.1 = false →
        ∃ ys : List mpi_node,
          (∀ fuel, r.2.n < fuel → heap_pop_all fuel r.2 = some (ys.map some)) ∧
          ys.Perm [entry_of_score 3, entry_of_score 1, entry_of_score 2] ∧
          ys.Pairwise (fun a b => score_val a ≤ score_val b)) :=
  heap_add_then_pop_sorted 1 (by decide) _

/-- C3: on a well-formed heap `heap_add(h, e)` returns `true` if and only if
the heap is full (`n = nmax`) and the reallocation fails, and then the heap is
unchanged; in every other case it returns `false`, `n` grows by exactly 1 and the
stored entries are the previous ones plus `e` (as a multiset). -/
theorem heap_add_contract {α : Type} (h : heap α) (hwf : heap_wf h) (e : α) (realloc_ok : Bool) :
    ∃ r h1, heap_add h e realloc_ok = some (r, h1) ∧
      (r = true ↔ (h.n = h.nmax ∧ (realloc_ok = false ∨ INT_MAX < h.nmax * 2))) ∧
      (r = true → h1 = h) ∧
      (r = false → h1.n = h.n + 1 ∧ (entries h1).Perm (some e :: entries h)) := by
  rcases heap_add_spec (fun _ : α => (0 : Nat)) h hwf e realloc_ok with
    ⟨h1, h2, h3⟩ | ⟨hne, h1, h2, _, h4, _, _, h7, _⟩
  · exact ⟨true, h, h3, by simp [h1, h2], fun _ => rfl, by simp⟩
  · refine ⟨false, h1, h2, ?_, by simp, fun _ => ⟨h4, h7.trans (List.perm_append_singleton _ _)⟩⟩
    constructor
    · intro hc; cases hc
    · intro hc; exact absurd hc hne

/-- C3 at the heap holding the scores 1 and 2, adding score 0. -/
theorem heap_add_contract_witness :
    ∃ r h1, heap_add heap_two (entry_of_score 0) true = some (r, h1) ∧
      (r = true ↔ (heap_two.n = heap_two.nmax ∧ (true = false ∨ INT_MAX < heap_two.nmax * 2))) ∧
      (r = true → h1 = heap_two) ∧
      (r = false → h1.n = heap_two.n + 1 ∧
        (entries h1).Perm (some (entry_of_score 0) :: entries heap_two)) :=
  heap_add_contract heap_two heap_two_wf (entry_of_score 0) true

/-- C4: on every heap with `n = 0`, `heap_pop` returns NULL and leaves the
heap (`n`, `nmax`, the array) unchanged. -/
theorem heap_pop_empty {α : Type} (h : heap α) (hn : h.n = 0) : heap_pop h = some (none, h) := by
  unfold heap_pop
  cases h.array with
  | none => rfl
  | some a => simp [hn]

/-- C4 at a freshly created heap of capacity 4. -/
theorem heap_pop_empty_witness :
    (heap_create 4 (fcmp_nodescore : mpi_node → mpi_node → Int) true).n = 0 ∧
      heap_pop (heap_create 4 (fcmp_nodescore : mpi_node → mpi_node → Int) true) =
        some (none, heap_create 4 fcmp_nodescore true) :=
  ⟨rfl, heap_pop_empty _ rfl⟩

/-- C5 (the code at the failing input): after one `heap_add` and one `heap_pop`
on a heap of capacity 4 the heap is empty (`n = 0`, `heap_empty` is true), yet
`heap_top` returns the entry that was popped, not NULL. -/
theorem heap_top_empty_not_null :
    ∃ h1 h2, heap_add (heap_create 4 fcmp_nodescore true) (entry_of_score 1) true = some (false, h1) ∧
      heap_pop h1 = some (some (entry_of_score 1), h2) ∧ h2.n = 0 ∧ heap_empty h2 = true ∧
      heap_top h2 = some (some (entry_of_score 1)) :=
  ⟨_, _, rfl, rfl, rfl, rfl, rfl⟩

/-! ## Claims on the partitioner -/

/-- C6: for a position with `0 ≤ p.x + p.y` (a sum that fits an `int`) and a
worker count `W ≥ 1`, `hda(p, W)` equals `(p.x + p.y) mod W` and lies in
`[0, W)`. -/
theorem hda_eq_mod (p : position) (W : Int) (h0 : 0 ≤ p.x + p.y) (hmax : p.x + p.y ≤ INT_MAX)
    (hW : 1 ≤ W) : hda p W = (p.x + p.y) % W ∧ 0 ≤ hda p W ∧ hda p W < W := by
  have hw : int_wrap (p.x + p.y) = p.x + p.y := by
    unfold int_wrap
    simp only [INT_MAX, Nat.cast_ofNat] at hmax
    omega
  have e : hda p W = (p.x + p.y) % W := by
    unfold hda
    rw [hw, Int.tmod_eq_emod h0 (by omega)]
  rw [e]
  exact ⟨rfl, Int.emod_nonneg _ (by omega), Int.emod_lt_of_pos _ (by omega)⟩

/-- C6 at the cell (3,4) with 4 workers. -/
theorem hda_eq_mod_witness :
    hda ⟨3, 4⟩ 4 = ((3 : Int) + 4) % 4 ∧ 0 ≤ hda ⟨3, 4⟩ 4 ∧ hda ⟨3, 4⟩ 4 < 4 :=
  hda_eq_mod ⟨3, 4⟩ 4 (by decide) (by decide) (by decide)

/-! ## Claims on the search -/

/-- C9: on a grid with a WALL border ring and an interior start in which no
8-connected chain of non-WALL cells leads from the start to the (non-WALL) end,
`A_star_sequential` terminates, within `2 * (number of unmarked cells) + 2`
iterations of its main loop, and returns -1. -/
theorem A_star_sequential_unreachable (mem : Nat → Bool) (G : grid) (h : heuristic)
    (hmem : mem (INIT_HEAP_CAPACITY + 1) = true) (hwf : grid_wf G) (hb : wall_border G)
    (hs : interior G G.start) (he : open_cell G G.end_) (hno : ¬ reach G G.end_) :
    ∀ fuel, 2 * nulls G.mark + 2 ≤ fuel →
      ∃ m, A_star_sequential mem G h fuel = .ret (of_int (-1), m) := by
  intro fuel hfuel
  obtain ⟨G1, Q1, h1, h2, h3, h4, _, _⟩ := seq_prologue mem G h hmem hwf hs he
  rw [h1 fuel]
  have h5 : nulls G1.mark ≤ nulls G.mark := by omega
  exact loop_unreachable G hwf hb mem h _ hno fuel G1 Q1 h2 (by omega)

/-- C9 at the 5 x 5 grid whose end is enclosed by walls, for 52 iterations. -/
theorem A_star_sequential_unreachable_witness :
    ∃ m, A_star_sequential mem_ok grid_walled (halpha (of_int 1)) 52 = .ret (of_int (-1), m) :=
  A_star_sequential_unreachable mem_ok grid_walled (halpha (of_int 1)) rfl grid_walled_wf
    grid_walled_border (by decide) ⟨0, by decide, by decide⟩ grid_walled_unreachable 52 (by decide)

/-- C7 fails at a 6 x 6 grid of FREE and WALL cells (WALL border, interior
non-WALL start (4,4), end (1,1)): with the Euclidean heuristic (alpha = 1)
`A_star_sequential` returns 5, while the path (4,4), (3,4), (2,3), (1,2), (1,1)
costs 4. -/
theorem A_star_sequential_not_shortest :
    wall_border grid_detour ∧ interior grid_detour grid_detour.start ∧
      open_cell grid_detour grid_detour.start ∧
      A_star_sequential mem_ok grid_detour (halpha (of_int 1)) 72 =
        .ret (⟨5, 0⟩, [[7, 7, 7, 7, 7, 7], [7, 10, 10, 9, 9, 7], [7, 7, 7, 10, 7, 7],
          [7, 7, 10, 7, 8, 7], [7, 9, 7, 10, 8, 7], [7, 7, 7, 7, 7, 7]]) ∧
      path_to grid_detour grid_detour.end_ ⟨4, 0⟩ ∧ dlt ⟨4, 0⟩ ⟨5, 0⟩ = true :=
  ⟨grid_detour_border, by decide, ⟨0, by decide, by decide⟩, by decide, grid_detour_path, by decide⟩

/-- C7 as amended: on a grid with a WALL border ring, unmarked cells, an
interior non-WALL start and an end reachable from the start through 8-connected
non-WALL cells, `A_star_sequential` (any heuristic, so also the Euclidean one
with alpha = 1; allocations succeeding) returns, within `2 * X * Y` iterations,
the cost of an 8-connected non-WALL path from start to end: the sum of
`weight[value]` of the cells entered along that path. -/
theorem A_star_sequential_returns_path_cost (mem : Nat → Bool) (G : grid) (h : heuristic)
    (hmem : ∀ k, mem k = true) (hsize : 2 * (G.X * G.Y) ≤ INT_MAX) (hwf : grid_wf G)
    (hfresh : fresh_marks G) (hb : wall_border G) (hs : interior G G.start)
    (hso : open_cell G G.start) (hreach : reach G G.end_)
    (fuel : Nat) (hfuel : 2 * (G.X * G.Y) ≤ fuel) :
    ∃ c m, A_star_sequential mem G h fuel = .ret (c, m) ∧ path_to G G.end_ c := by
  have he : open_cell G G.end_ := by
    obtain ⟨c, hc⟩ := hreach
    exact path_to_open hso hc
  obtain ⟨G1, Q1, h1, h2, h3, h4, h5, h6⟩ := seq_prologue mem G h (hmem _) hwf hs he
  rw [h1 fuel]
  obtain ⟨mk, hmk⟩ := get2_of_in_range hwf.2.1 (interior_in_grid hs)
  have hnull : get2 G.mark G.start = some M_NULL := by rw [hmk, hfresh _ _ hmk]
  simp only [hnull, if_true] at h4
  have hle := nulls_le hwf.2.1
  have hfi : front_inv G G1 Q1 := by
    refine ⟨?_, ?_, ?_, ?_⟩
    · intro q mk1 hq
      rw [h6] at hq
      by_cases e : q = G.start
      · simp only [e, if_true] at hq
        exact Or.inr (Or.inl (Option.some.inj hq).symm)
      · simp only [e, if_false] at hq
        exact Or.inl (hfresh _ _ hq)
    · intro q hq
      rw [h6] at hq
      by_cases e : q = G.start
      · exact ⟨_, h5.mem_iff.2 (List.mem_singleton.2 rfl), e.symm⟩
      · simp only [e, if_false] at hq
        exact absurd (hfresh _ _ hq) (by decide)
    · intro q hq
      rw [h6] at hq
      by_cases e : q = G.start
      · simp only [e, if_true] at hq
        exact absurd (Option.some.inj hq) (by decide)
      · simp only [e, if_false] at hq
        exact absurd (hfresh _ _ hq) (by decide)
    · rw [h6]
      simp only [if_true]
      decide
  exact loop_reachable G hwf hb mem h _ hmem hs hreach fuel G1 Q1 h2 hfi (by omega) (by omega)

/-- C7 as amended, at the 6 x 6 grid with the Euclidean heuristic. -/
theorem A_star_sequential_returns_path_cost_witness :
    ∃ c m, A_star_sequential mem_ok grid_detour (halpha (of_int 1)) 72 = .ret (c, m) ∧
      path_to grid_detour grid_detour.end_ c :=
  A_star_sequential_returns_path_cost mem_ok grid_detour (halpha (of_int 1)) (fun _ => rfl)
    (by decide) grid_detour_wf grid_detour_fresh grid_detour_border (by decide)
    ⟨0, by decide, by decide⟩ ⟨_, grid_detour_path⟩ 72 (by decide)

/-- C8: when the end cell is WALL, `A_star_sequential` and a worker running
`A_star_mpi` return -1 whatever the fuel (so without an iteration of the search
loop: nothing is seeded, probed or sent), and the `mark` array is the one they
were given. -/
theorem goal_on_wall (mem : Nat → Bool) (env : environment) (rank world_size : Int) (G : grid)
    (h : heuristic) (fuel : Nat) (hend : get2 G.value G.end_ = some V_WALL) :
    A_star_sequential mem G h fuel = .ret (of_int (-1), G.mark) ∧
      ∃ w, A_star_mpi mem env rank world_size G h fuel = .ret (of_int (-1), w) ∧
        w.G.mark = G.mark ∧ w.Q.n = 0 ∧ w.clock = 0 ∧ w.sent = [] := by
  constructor
  · simp [A_star_sequential, seq_init, hend]
  · refine ⟨{ G := G
              Q := heap_create INIT_HEAP_CAPACITY fcmp_nodescore (mem (INIT_HEAP_CAPACITY + 1))
              window_buffer := List.replicate (G.X * G.Y) none
              cur_win_i := 0
              clock := 0
              sent := [] }, ?_, rfl, rfl, rfl, rfl⟩
    simp only [A_star_mpi, mpi_init, hend, if_true]

/-- C8 at the 5 x 5 example grid with the end moved onto the wall (2,2),
worker 0 of 2, no fuel. -/
theorem goal_on_wall_witness :
    A_star_sequential mem_ok { grid_walled with end_ := ⟨2, 2⟩ } (halpha (of_int 1)) 0 =
        .ret (of_int (-1), grid_walled.mark) ∧
      ∃ w, A_star_mpi mem_ok quiet 0 2 { grid_walled with end_ := ⟨2, 2⟩ } (halpha (of_int 1)) 0 =
          .ret (of_int (-1), w) ∧
        w.G.mark = grid_walled.mark ∧ w.Q.n = 0 ∧ w.clock = 0 ∧ w.sent = [] :=
  goal_on_wall mem_ok quiet 0 2 { grid_walled with end_ := ⟨2, 2⟩ } (halpha (of_int 1)) 0
    (by decide)

/-- C10 (the code at the failing input): on the 5 x 5 grid whose end (1,1) is
a non-WALL cell enclosed by walls, with 2 workers and nothing pending on the
transport (no worker ever sends: the only open cell met is the start), neither
worker returns, whatever the fuel: worker 0 closes the start, finds no
neighbour, and then both poll their inbox with an empty heap for ever.  The
`return -1` after the loop is never reached. -/
theorem A_star_mpi_unreachable_never_returns (fuel : Nat) :
    A_star_mpi mem_ok quiet 0 2 grid_walled (halpha (of_int 1)) fuel = .out_of_fuel ∧
      A_star_mpi mem_ok quiet 1 2 grid_walled (halpha (of_int 1)) fuel = .out_of_fuel := by
  constructor
  · match fuel with
    | 0 => rfl
    | 1 => rfl
    | 2 => rfl
    | f + 3 =>
      obtain ⟨w, e, hw, _⟩ := mpi_walled_first_iteration f
      rw [e]
      exact idle_loop mem_ok _ 0 2 (f + 2) w hw
  · obtain ⟨w, e, hw, _⟩ := mpi_walled_other_worker fuel
    rw [e]
    exact idle_loop mem_ok _ 1 2 fuel w hw

/-! ## Claims on the two concrete scenarios of the sequential search -/

/-- C11 fails: on the 5 x 5 grid (WALL border, FREE interior, start (3,3),
end (1,1), alpha = 1) `A_star_sequential` returns 2, which is less than 2.02,
whether 2.02 is the constant or the sum 2 + 0.01 + 0.01. -/
theorem A_star_five_not_2_02 :
    ∃ c m, A_star_sequential mem_ok grid_five (halpha (of_int 1)) 25 = .ret (c, m) ∧
      dlt c (of_ratio 202 100) = true ∧
      dlt c (dadd (dadd (of_int 2) (of_ratio 1 100)) (of_ratio 1 100)) = true :=
  ⟨⟨2, 0⟩, _, rfl, by decide, by decide⟩

/-- C11 as amended: on the 5 x 5 grid with alpha = 1, `A_star_sequential`
returns, from its third iteration on, the cost 2 = 2 x weight[FREE] (the end is
reached through (2,2), which is drawn with the end as the path); the diagonal
bias 0.01 enters the score of an entry only, not its cost. -/
theorem A_star_five_returns_2 (fuel : Nat) :
    A_star_sequential mem_ok grid_five (halpha (of_int 1)) (fuel + 3) =
      .ret (dadd (dadd (of_int 0) (of_int 1)) (of_int 1),
        [[7, 7, 7, 7, 7], [7, 10, 9, 9, 7], [7, 9, 10, 9, 7], [7, 9, 9, 8, 7], [7, 7, 7, 7, 7]]) ∧
      dadd (dadd (of_int 0) (of_int 1)) (of_int 1) = ⟨2, 0⟩ ∧
      weight V_FREE = some (of_int 1) :=
  ⟨rfl, by decide, by decide⟩

/-- C12 fails: on the 7 x 7 grid with the wall line (gap at (3,3)) and on the
7 x 7 grid without it, `A_star_sequential` (alpha = 1) returns the same cost 4:
the gap lies on the diagonal from (5,5) to (1,1). -/
theorem A_star_seven_wall_not_greater :
    ∃ c1 m1 c2 m2,
      A_star_sequential mem_ok grid_seven_wall (halpha (of_int 1)) 49 = .ret (c1, m1) ∧
      A_star_sequential mem_ok grid_seven (halpha (of_int 1)) 49 = .ret (c2, m2) ∧
      dlt c2 c1 = false :=
  ⟨⟨4, 0⟩, _, ⟨4, 0⟩, _, rfl, rfl, by decide⟩

/-- C12 as amended: on the 7 x 7 grid with the wall line (3,1), (3,2), (3,4),
(3,5) and on the same grid without it, `A_star_sequential` (alpha = 1) returns,
from its fifth iteration on, the same cost 4, and the path drawn passes through
the gap (3,3) in both. -/
theorem A_star_seven_wall_equal (fuel : Nat) :
    A_star_sequential mem_ok grid_seven_wall (halpha (of_int 1)) (fuel + 5) =
      .ret (⟨4, 0⟩, [[7, 7, 7, 7, 7, 7, 7], [7, 10, 9, 9, 7, 7, 7], [7, 9, 10, 9, 9, 7, 7],
        [7, 7, 7, 10, 7, 7, 7], [7, 7, 9, 9, 10, 9, 7], [7, 7, 7, 9, 9, 8, 7],
        [7, 7, 7, 7, 7, 7, 7]]) ∧
    A_star_sequential mem_ok grid_seven (halpha (of_int 1)) (fuel + 5) =
      .ret (⟨4, 0⟩, [[7, 7, 7, 7, 7, 7, 7], [7, 10, 9, 9, 7, 7, 7], [7, 9, 10, 9, 9, 7, 7],
        [7, 9, 9, 10, 9, 9, 7], [7, 7, 9, 9, 10, 9, 7], [7, 7, 7, 9, 9, 8, 7],
        [7, 7, 7, 7, 7, 7, 7]]) :=
  ⟨rfl, rfl⟩

/-! ## Claims on the heap, continued -/

/-- C17: heap order is preserved by every operation: on a well-formed heap in
heap order under the score comparator, `heap_add` (whether it stores the entry
or reports failure) and `heap_pop` (also on the empty heap) return with a heap
that is again well-formed and in heap order for its new `n`. -/
theorem heap_order_preserved {α : Type} [scored α] (h : heap α) (hf : h.f = fcmp_nodescore)
    (hwf : heap_wf h) (hord : heap_ordered h) :
    (∀ (e : α) (realloc_ok : Bool), ∃ r h1, heap_add h e realloc_ok = some (r, h1) ∧
        h1.f = fcmp_nodescore ∧ heap_wf h1 ∧ heap_ordered h1 ∧
        (r = false → h1.n = h.n + 1)) ∧
      (∃ x h1, heap_pop h = some (x, h1) ∧ h1.f = fcmp_nodescore ∧ heap_wf h1 ∧
        heap_ordered h1 ∧ (1 ≤ h.n → h1.n + 1 = h.n)) := by
  have hfp : ∀ x y, 0 < h.f x y ↔ score_val y < score_val x := by
    rw [hf]; exact fun x y => fcmp_nodescore_pos x y
  constructor
  · intro e ok
    rcases heap_add_spec score_val h hwf e ok with ⟨_, _, h3⟩ | ⟨_, h1, h2, h3, h4, h5, _, _, h8⟩
    · exact ⟨true, h, h3, hf, hwf, hord, by simp⟩
    · exact ⟨false, h1, h2, by rw [h3, hf], h5, h8 hfp hord, fun _ => h4⟩
  · by_cases hn : 1 ≤ h.n
    · obtain ⟨x, h1, p1, _, p3, p4, _, p6, _, p8⟩ := heap_pop_spec score_val h hfp hwf hn
      exact ⟨some x, h1, p1, by rw [p3, hf], p6, p8 hord, fun _ => p4⟩
    · have h0 : h.n = 0 := by omega
      exact ⟨none, h, heap_pop_empty h h0, hf, hwf, hord, fun c => absurd c hn⟩

/-- C17 at the heap holding the scores 1 and 2. -/
theorem heap_order_preserved_witness :
    (∀ (e : mpi_node) (realloc_ok : Bool), ∃ r h1, heap_add heap_two e realloc_ok = some (r, h1) ∧
        h1.f = fcmp_nodescore ∧ heap_wf h1 ∧ heap_ordered h1 ∧
        (r = false → h1.n = heap_two.n + 1)) ∧
      (∃ x h1, heap_pop heap_two = some (x, h1) ∧ h1.f = fcmp_nodescore ∧ heap_wf h1 ∧
        heap_ordered h1 ∧ (1 ≤ heap_two.n → h1.n + 1 = heap_two.n)) :=
  heap_order_preserved heap_two rfl heap_two_wf heap_two_ordered


/-! ## Claims on the distributed search -/

/-- C13 (counterexample): on the 5 x 5 grid with a WATER cell at (2,2), start
(3,3) and end (3,1), with 2 workers and alpha = 1, worker 0 owns the start and
the end.  When the records worker 1 sends have not arrived by the time worker 0
probes (the transport promises no delivery time), worker 0 closes the start and
(2,2), pops the end entry created from (2,2) and returns 10 (= 9 + 1), having
sent two batches to worker 1.  `A_star_sequential` returns 2 on the same grid. -/
theorem A_star_mpi_cost_differs :
    ∃ w b1 b2, hda grid_water.end_ 2 = 0 ∧
      A_star_mpi mem_ok quiet 0 2 grid_water (halpha (of_int 1)) 5 = .ret (⟨10, 0⟩, w) ∧
      w.sent = [message.node 1 b1, message.node 1 b2, message.destination_reached 1,
        message.path_done 1] ∧
      b1.map mpi_node.pos = [⟨3, 2⟩, ⟨2, 3⟩] ∧ b2.map mpi_node.pos = [⟨2, 1⟩, ⟨1, 2⟩] ∧
      A_star_sequential mem_ok grid_water (halpha (of_int 1)) 5 =
        .ret (⟨2, 0⟩, [[7, 7, 7, 7, 7], [7, 7, 7, 7, 7], [7, 9, 9, 9, 7], [7, 10, 10, 8, 7],
          [7, 7, 7, 7, 7]]) ∧
      dlt ⟨2, 0⟩ ⟨10, 0⟩ = true :=
  ⟨_, _, _, by decide, rfl, rfl, rfl, rfl, by decide, by decide⟩

/-- C13 as amended: let the `node` records a worker receives carry, as cost,
the cost of an 8-connected non-WALL path from the start to their cell.  Then
the records the worker sends are of that kind too (so the assumption holds of
every worker when all of them run `A_star_mpi`), and when `A_star_mpi` returns
on a worker that is never told `destination_reached` (the owner of the end is
the only sender of that message) and the end is not WALL, that worker is the
owner of the end and the value returned is the cost of an 8-connected non-WALL
path from start to end, which is what `A_star_sequential` returns too; the two
costs need not be equal. -/
theorem A_star_mpi_returns_path_cost (mem : Nat → Bool) (env : environment) (h : heuristic)
    (rank W : Int) (G : grid) (hmem : mem (INIT_HEAP_CAPACITY + 1) = true)
    (henv : ∀ e, received env e → path_to G e.pos e.cost) :
    (∀ w, mpi_reachable mem env h rank W G w →
        ∀ dst batch, message.node dst batch ∈ w.sent → ∀ n ∈ batch, path_to G n.pos n.cost) ∧
      ∀ fuel c w, get2 G.value G.end_ ≠ some V_WALL →
        (∀ t, (env t).destination_reached = false) →
        A_star_mpi mem env rank W G h fuel = .ret (c, w) →
        rank = hda G.end_ W ∧ path_to G G.end_ c :=
  ⟨fun w hw => (mpi_reachable_path_cost mem env h rank W G hmem henv w hw).2,
    fun fuel c w hend hdr hx =>
      ⟨(mpi_path_cost mem env h rank W G fuel c w hmem hend hdr henv hx).1,
        (mpi_path_cost mem env h rank W G fuel c w hmem hend hdr henv hx).2.1⟩⟩

/-- C13 as amended, at a run with two workers on the 5 x 5 grid with FREE
interior: worker 0 closes the start and sends a batch to worker 1; worker 1
receives it, closes (3,2) and sends `grid_five_batch` to worker 0; worker 0,
which receives that batch in its second iteration, returns 2, the cost of a
path from (3,3) to (1,1). -/
theorem A_star_mpi_returns_path_cost_witness :
    ∃ i0 w0 b01 i1 w1 w,
      mpi_init mem_ok 0 2 grid_five (halpha (of_int 1)) = .next i0 ∧
      mpi_iteration mem_ok quiet (halpha (of_int 1)) 0 2 3 i0 = .next w0 ∧
      w0.sent = [message.node 1 b01] ∧
      mpi_init mem_ok 1 2 grid_five (halpha (of_int 1)) = .next i1 ∧
      mpi_iteration mem_ok (deliver 1 b01) (halpha (of_int 1)) 1 2 3 i1 = .next w1 ∧
      w1.sent = [message.node 0 grid_five_batch] ∧
      A_star_mpi mem_ok (deliver 3 grid_five_batch) 0 2 grid_five (halpha (of_int 1)) 6 =
        .ret (⟨2, 0⟩, w) ∧
      (0 = hda grid_five.end_ 2 ∧ path_to grid_five grid_five.end_ ⟨2, 0⟩) :=
  ⟨_, _, _, _, _, _, rfl, rfl, rfl, rfl, rfl, rfl, rfl,
    (A_star_mpi_returns_path_cost mem_ok (deliver 3 grid_five_batch) (halpha (of_int 1)) 0 2
      grid_five rfl grid_five_batch_paths).2 6 ⟨2, 0⟩ _ (by decide)
      (fun t => by unfold deliver quiet; split <;> rfl) rfl⟩

/-! ## Claims on node creation and the heuristic -/

/-- C14 (the code): `createNode` and `CreateMpiNode`, given the same grid,
cell, heuristic and a parent with the same position and cost, fail together
and produce the same cost `parent.cost + weight[value[p]]`, but not the same
score: when both coordinates of `p` differ from the parent's, `createNode`
adds 0.01 to `cost + h(p, end)` and `CreateMpiNode` adds 0.1.  For the cell
(2,2) reached from (3,3) on the 5 x 5 grid the two scores differ. -/
theorem CreateMpiNode_bias_differs :
    (∀ (G : grid) (p : position) (parent : node) (h : heuristic) (rank win_i pr pw : Int),
      (createNode G p parent h).map node.cost =
          (CreateMpiNode G p ⟨parent.pos, parent.cost, parent.score, pr, pw⟩ rank win_i h).map
            mpi_node.cost ∧
        (createNode G p parent h).map node.cost =
          ((get2 G.value p).bind weight).map (fun w => dadd parent.cost w) ∧
        (createNode G p parent h).map node.score =
          ((get2 G.value p).bind weight).map (fun w =>
            dadd (dadd (dadd parent.cost w) (h p G.end_ G))
              (if p.x ≠ parent.pos.x ∧ p.y ≠ parent.pos.y then of_ratio 1 100 else of_int 0)) ∧
        (CreateMpiNode G p ⟨parent.pos, parent.cost, parent.score, pr, pw⟩ rank win_i h).map
            mpi_node.score =
          ((get2 G.value p).bind weight).map (fun w =>
            dadd (dadd (dadd parent.cost w) (h p G.end_ G))
              (if p.x ≠ parent.pos.x ∧ p.y ≠ parent.pos.y then of_ratio 1 10 else of_int 0))) ∧
      dlt (of_ratio 1 100) (of_ratio 1 10) = true ∧
      ∃ n m, createNode grid_five ⟨2, 2⟩ (node.root ⟨3, 3⟩ (of_int 0) (of_int 0))
            (halpha (of_int 1)) = some n ∧
        CreateMpiNode grid_five ⟨2, 2⟩ ⟨⟨3, 3⟩, of_int 0, of_int 0, -1, -1⟩ 0 0
            (halpha (of_int 1)) = some m ∧
        n.cost = m.cost ∧ dlt n.score m.score = true := by
  refine ⟨?_, by decide, _, _, rfl, rfl, by decide, by decide⟩
  intro G p parent h rank win_i pr pw
  unfold createNode CreateMpiNode
  cases hv : get2 G.value p with
  | none => simp
  | some v =>
    cases hw : weight v with
    | none => simp [hw]
    | some w => simp [hw, node.cost, node.score]

/-- C15 (counterexample): on the 5 x 5 grid with WALL border and FREE
interior, the one-step path from (2,2) to the end (1,1) costs 1.0 (a diagonal
move costs the weight of the cell entered), while `halpha` with alpha = 1
gives sqrt(2) > 1 for that cell: the heuristic overestimates. -/
theorem halpha_not_admissible :
    wall_border grid_five ∧
      path_to { grid_five with start := ⟨2, 2⟩ } grid_five.end_ (dadd (of_int 0) (of_int 1)) ∧
      dlt (dadd (of_int 0) (of_int 1)) (halpha (of_int 1) ⟨2, 2⟩ grid_five.end_ grid_five) = true ∧
      halpha (of_int 1) ⟨2, 2⟩ grid_five.end_ grid_five = ⟨6369051672525773, -52⟩ := by
  refine ⟨grid_five_border, ?_, by decide, by decide⟩
  exact path_to.step (G := { grid_five with start := ⟨2, 2⟩ }) (q := ⟨1, 1⟩) (v := 0)
    (w := of_int 1) path_to.start (by decide) (by decide) (by decide) (by decide)

/-- C15 as amended: with alpha = 0 the heuristic `halpha` is zero, hence not
above the cost of any 8-connected non-WALL path from `p` to the end (the sum of
`weight[value]` of the cells entered, which are positive): it is admissible.
With alpha = 1 it is the Euclidean distance, which is not. -/
theorem halpha_zero_admissible (G : grid) (p : position) (c : double)
    (hp : path_to { G with start := p } G.end_ c) :
    (halpha (of_int 0) p G.end_ G).val = 0 ∧ dlt c (halpha (of_int 0) p G.end_ G) = false := by
  refine ⟨?_, dlt_zero _ _ (path_to_nonneg hp) (halpha_zero _ _ _)⟩
  unfold double.val
  rw [halpha_zero]
  simp

/-- C15 as amended, at the one-step path from (2,2) to (1,1) on the 5 x 5
grid. -/
theorem halpha_zero_admissible_witness :
    (halpha (of_int 0) ⟨2, 2⟩ grid_five.end_ grid_five).val = 0 ∧
      dlt (dadd (of_int 0) (of_int 1)) (halpha (of_int 0) ⟨2, 2⟩ grid_five.end_ grid_five) =
        false :=
  halpha_zero_admissible grid_five ⟨2, 2⟩ (dadd (of_int 0) (of_int 1))
    (path_to.step (G := { grid_five with start := ⟨2, 2⟩ }) (q := ⟨1, 1⟩) (v := 0)
      (w := of_int 1) path_to.start (by decide) (by decide) (by decide) (by decide))

/-! ## Claims on the worker loop -/

/-- C16 (the code): the walk over the parents runs while
`path.pos.x != G.start.x && path.pos.y != G.start.y`, so it stops at the first
record that shares ONE coordinate with the start, marking neither that record
nor the rest of the chain.  On the 5 x 5 grid with FREE interior, start (3,3)
and end (3,1), worker 0 of 2 (nothing delivered to it) closes the start (handle
0) and (2,2) (handle 1), pops the end entry, whose parent is (2,2), and returns
2 with no cell marked `M_PATH`: the end (3,1) keeps `M_FRONT` and (2,2) keeps
`M_USED`.  `A_star_sequential`, which walks `while (path != s)`, marks (3,1)
and (3,2) on the same grid. -/
theorem reconstruct_stops_early :
    (∀ (env : environment) (rank : Int) (fuel : Nat) (w : worker) (y : Int) (c sc : double)
        (pr pw : Int),
        reconstruct env rank (fuel + 1) ⟨⟨w.G.start.x, y⟩, c, sc, pr, pw⟩ w = .next w) ∧
      (∀ (env : environment) (rank : Int) (fuel : Nat) (w : worker) (x : Int) (c sc : double)
        (pr pw : Int),
        reconstruct env rank (fuel + 1) ⟨⟨x, w.G.start.y⟩, c, sc, pr, pw⟩ w = .next w) ∧
      ∃ w, A_star_mpi mem_ok quiet 0 2 { grid_five with end_ := ⟨3, 1⟩ } (halpha (of_int 1)) 5 =
          .ret (⟨2, 0⟩, w) ∧
        w.G.mark = [[7, 7, 7, 7, 7], [7, 9, 9, 9, 7], [7, 9, 8, 9, 7], [7, 9, 9, 8, 7],
          [7, 7, 7, 7, 7]] ∧
        (w.window_buffer.take 3).map (Option.map mpi_node.pos) =
          [some ⟨3, 3⟩, some ⟨2, 2⟩, none] ∧
        A_star_sequential mem_ok { grid_five with end_ := ⟨3, 1⟩ } (halpha (of_int 1)) 5 =
          .ret (⟨2, 0⟩, [[7, 7, 7, 7, 7], [7, 7, 7, 7, 7], [7, 9, 9, 9, 7], [7, 10, 10, 8, 7],
            [7, 7, 7, 7, 7]]) := by
  refine ⟨?_, ?_, _, rfl, rfl, rfl, by decide⟩
  · intro env rank fuel w y c sc pr pw
    simp [reconstruct]
  · intro env rank fuel w x c sc pr pw
    simp [reconstruct]

/-- C18 (the code): receiving a `node` batch sets `G.mark[pos] = M_FRONT` for
every record, whatever the mark was, so a closed cell goes back to
`M_FRONT`.  On the 5 x 5 grid with FREE interior and 2 workers: worker 0 closes
the start (3,3) and sends the records of (3,2) and (2,3) to worker 1; worker 1,
whose own marks are all `M_NULL`, receives them, closes (3,2) and sends the
records of its neighbours (3,1), (2,2) and (3,3) to worker 0; worker 0 receives
that batch in its next drain loop, and its mark of (3,3) goes from `M_USED` to
`M_FRONT`. -/
theorem mark_regresses_on_receive :
    ∃ i0 w0 b01 i1 w1 b10 w2,
      mpi_init mem_ok 0 2 grid_five (halpha (of_int 1)) = .next i0 ∧
      mpi_iteration mem_ok quiet (halpha (of_int 1)) 0 2 3 i0 = .next w0 ∧
      w0.sent = [message.node 1 b01] ∧ b01.map mpi_node.pos = [⟨3, 2⟩, ⟨2, 3⟩] ∧
      w0.clock = 2 ∧ get2 w0.G.mark ⟨3, 3⟩ = some M_USED ∧
      mpi_init mem_ok 1 2 grid_five (halpha (of_int 1)) = .next i1 ∧
      mpi_iteration mem_ok (deliver 1 b01) (halpha (of_int 1)) 1 2 3 i1 = .next w1 ∧
      w1.sent = [message.node 0 b10] ∧ b10.map mpi_node.pos = [⟨3, 1⟩, ⟨2, 2⟩, ⟨3, 3⟩] ∧
      drain mem_ok (deliver 3 b10) (hda grid_five.end_ 2) 3 w0 = .next w2 ∧
      get2 w2.G.mark ⟨3, 3⟩ = some M_FRONT ∧
      w2.G.mark = [[7, 7, 7, 7, 7], [7, 7, 7, 7, 7], [7, 7, 9, 9, 7], [7, 9, 9, 9, 7],
        [7, 7, 7, 7, 7]] :=
  ⟨_, _, _, _, _, _, _, rfl, rfl, rfl, rfl, rfl, rfl, rfl, rfl, rfl, rfl, rfl, rfl, rfl⟩

/-- C19: on worker `rank` of `W`, every entry the worker creates is routed to
the owner of its cell.  (1) The prologue puts the start entry into the heap
exactly when `rank = hda(start, W)`.  (2) In the neighbour loops, the heap
gains only records of cells with `hda(p, W) = rank`, row `d` of `node_storage`
gains only records of cells with `hda(p, W) = d`, `d ≠ rank`, and every
unmarked non-WALL neighbour gets its record: in the heap when the worker owns
the cell, in the row of the owner otherwise.  (3) If the records received are
on cells the worker owns (every worker follows the rule), then, in every state
in which an iteration of the main loop starts, the heap entries, the cells
marked `M_USED` and the entries of the window buffer are on cells with
`hda(pos, W) = rank`, every `node` batch sent went to the owner of its records,
another worker, and the entry the iteration pops is on a cell the worker
owns.  (4) Under the same assumption, an iteration that closes the entry `u`
it popped sends the messages `msgs` of its flush loop, each a non-empty `node`
batch to another worker, and every neighbour `p` of `u` that was unmarked and
not a wall gets a record `e`: when `hda(p, W) = rank`, `e` is in the heap the
next iteration starts with and in no batch of `msgs`; otherwise `e` is not in
that heap, a batch of `msgs` addressed to `hda(p, W)` holds it, and no batch
of `msgs` to another rank does. -/
theorem mpi_entries_routed (mem : Nat → Bool) (env : environment) (h : heuristic)
    (rank W : Int) (G : grid) (hmem : mem (INIT_HEAP_CAPACITY + 1) = true)
    (hmarks : ∀ p, get2 G.mark p ≠ some M_USED)
    (henv : ∀ e, received env e → hda e.pos W = rank) :
    (∀ w, mpi_init mem rank W G h = .next w →
        (rank = hda G.start W ∧ w.Q.n = 1 ∧ ∀ e, some e ∈ entries w.Q → e.pos = G.start) ∨
        (rank ≠ hda G.start W ∧ w.Q.n = 0)) ∧
      (∀ (u : mpi_node) (w w1 : worker) (st st1 : List (List mpi_node)), heap_wf w.Q →
        get2 w.G.mark u.pos = some M_USED →
        expand_mpi mem h rank W u neighbours w st = .next (w1, st1) →
        (∀ e, some e ∈ entries w1.Q → some e ∈ entries w.Q ∨ hda e.pos W = rank) ∧
          (∀ (d : Nat) (b : List mpi_node), st1[d]? = some b → ∃ b0 fresh, st[d]? = some b0 ∧
            b = b0 ++ fresh ∧ ∀ n ∈ fresh, hda n.pos W = (d : Int) ∧ (d : Int) ≠ rank) ∧
          ∀ o ∈ neighbours, get2 w.G.mark ⟨u.pos.x + o.1, u.pos.y + o.2⟩ = some M_NULL →
            (∃ v, get2 w.G.value ⟨u.pos.x + o.1, u.pos.y + o.2⟩ = some v ∧ v ≠ V_WALL) →
            ∃ e, e.pos = ⟨u.pos.x + o.1, u.pos.y + o.2⟩ ∧
              if hda e.pos W = rank then some e ∈ entries w1.Q
              else ∃ b, st1[(hda e.pos W).toNat]? = some b ∧ e ∈ b) ∧
      (∀ w, mpi_reachable mem env h rank W G w →
        (∀ e, some e ∈ entries w.Q → hda e.pos W = rank) ∧
          (∀ p, get2 w.G.mark p = some M_USED → hda p W = rank) ∧
          (∀ (i : Nat) (e : mpi_node), w.window_buffer[i]? = some (some e) →
            hda e.pos W = rank) ∧
          (∀ dst batch, message.node dst batch ∈ w.sent →
            dst ≠ rank ∧ ∀ n ∈ batch, hda n.pos W = dst) ∧
          ∀ fuel wd u Q1, drain mem env (hda w.G.end_ W) fuel w = .next wd →
            heap_pop wd.Q = some (some u, Q1) → hda u.pos W = rank) ∧
      ∀ w, mpi_reachable mem env h rank W G w →
        ∀ fuel w1 wd u Q1, mpi_iteration mem env h rank W fuel w = .next w1 →
          drain mem env (hda w.G.end_ W) fuel w = .next wd →
          heap_pop wd.Q = some (some u, Q1) → get2 wd.G.mark u.pos ≠ some M_USED →
          ∃ msgs, w1.sent = w.sent ++ msgs ∧
            (∀ m ∈ msgs, ∃ dst batch, m = message.node dst batch ∧ dst ≠ rank ∧ batch ≠ []) ∧
            ∀ o ∈ neighbours, o ≠ (0, 0) →
              get2 wd.G.mark ⟨u.pos.x + o.1, u.pos.y + o.2⟩ = some M_NULL →
              (∃ v, get2 wd.G.value ⟨u.pos.x + o.1, u.pos.y + o.2⟩ = some v ∧ v ≠ V_WALL) →
              ∃ e, e.pos = ⟨u.pos.x + o.1, u.pos.y + o.2⟩ ∧
                if hda e.pos W = rank then
                  some e ∈ entries w1.Q ∧ ∀ dst batch, message.node dst batch ∈ msgs → e ∉ batch
                else
                  some e ∉ entries w1.Q ∧
                    (∃ batch, message.node (hda e.pos W) batch ∈ msgs ∧ e ∈ batch) ∧
                    ∀ dst batch, message.node dst batch ∈ msgs → e ∈ batch →
                      dst = hda e.pos W := by
  refine ⟨?_, ?_, ?_, ?_⟩
  · intro w hi
    obtain ⟨_, _, _, _, _, _, i7⟩ := mpi_init_spec mem rank W G h w hmem hi
    rcases i7 with ⟨k0, k1, k2, _⟩ | ⟨k0, k1, _⟩
    · exact Or.inl ⟨k0, k1, fun e he => (k2 e he).1⟩
    · exact Or.inr ⟨k0, k1⟩
  · intro u w w1 st st1 hwf hused hx
    obtain ⟨e1, _, _, _, e5⟩ :=
      expand_mpi_spec mem h rank W u neighbours w w1 st st1 hwf hused neighbours_range hx
    obtain ⟨_, _, c3⟩ := expand_mpi_complete mem h rank W u neighbours w w1 st st1 hwf hused hx
    refine ⟨fun e he => (e1.2.2.2.1 e he).imp id (fun k => k.2), ?_, ?_⟩
    · intro d b hb
      obtain ⟨b0, fresh, g1, g2, g3⟩ := e5 d b hb
      exact ⟨b0, fresh, g1, g2, fun n hn => (g3 n hn).2⟩
    · intro o ho hm hopen
      obtain ⟨e, k1, _, _, k4⟩ := c3 o ho hm hopen
      exact ⟨e, k1, k4⟩
  · intro w hw
    obtain ⟨a1, a2, a3, a4⟩ := mpi_reachable_routed mem env h rank W G hmem hmarks henv w hw
    refine ⟨a1, a2, a3, a4, ?_⟩
    intro fuel wd u Q1 hd hp
    obtain ⟨_, hwf, hf⟩ := mpi_reachable_wf mem env h rank W G hmem w hw
    obtain ⟨hstep, hne⟩ := drain_spec mem env _ fuel w wd hwf hd
    obtain ⟨u1, Q2, hpop, hu, _⟩ := mpi_pop hf hstep hne
    rw [hp] at hpop
    cases hpop
    exact hu.elim (a1 u) (henv u)
  · intro w hw fuel w1 wd u Q1 hx hd hp hnu
    obtain ⟨_, hwf, hf⟩ := mpi_reachable_wf mem env h rank W G hmem w hw
    obtain ⟨a1, _, _, a4⟩ := mpi_reachable_routed mem env h rank W G hmem hmarks henv w1
      (mpi_reachable.step hw hx)
    obtain ⟨msgs, hs, hc⟩ :=
      mpi_iteration_sent mem env h rank W fuel w w1 wd u Q1 hwf hf hx hd hp hnu
    have hsub : ∀ dst batch, message.node dst batch ∈ msgs →
        dst ≠ rank ∧ ∀ n ∈ batch, hda n.pos W = dst := fun dst batch hm =>
      a4 dst batch (by rw [hs]; exact List.mem_append_right _ hm)
    refine ⟨msgs, hs, ?_, ?_⟩
    · intro m hm
      obtain ⟨_, _, _, u1, wd1, Q2, _, i5, i6, _, i8⟩ :=
        mpi_iteration_spec mem env h rank W fuel w w1 hwf hf hx
      rw [hd] at i5
      cases i5
      rw [hp] at i6
      cases i6
      rcases i8 with ⟨s0, _⟩ | ⟨_, _, _, _, _, _, msgs1, s6, s7⟩
      · exact absurd s0 hnu
      · have hm1 : msgs1 = msgs := List.append_cancel_left (s6.symm.trans hs)
        subst hm1
        obtain ⟨d, batch, e1, e2, e3, _⟩ := s7 m hm
        exact ⟨(d : Int), batch, e1, e2, e3⟩
    · intro o ho ho0 hm hv
      obtain ⟨e, g1, _, _, g4⟩ := hc o ho ho0 hm hv
      refine ⟨e, g1, ?_⟩
      by_cases hown : hda e.pos W = rank
      · rw [if_pos hown] at g4 ⊢
        refine ⟨g4, ?_⟩
        intro dst batch hb he
        obtain ⟨k1, k2⟩ := hsub dst batch hb
        exact k1 ((k2 e he).symm.trans hown)
      · rw [if_neg hown] at g4 ⊢
        refine ⟨fun he => hown (a1 e he), g4, ?_⟩
        intro dst batch hb he
        exact ((hsub dst batch hb).2 e he).symm
/-- C19 at worker 0 of 2 on the 5 x 5 grid with FREE interior, to which the
batch `grid_five_batch` of worker 1 is delivered in its second iteration.  The
first iteration closes the start (3,3) and the theorem gives that the record of
its neighbour (3,2), a cell of worker 1, is in a batch sent to worker 1 and not
in the heap; after two iterations the worker has closed (2,2), holds five
entries and has sent two batches to worker 1, and the theorem gives that it
owns (2,2) and that the records of the second batch are on cells of
worker 1. -/
theorem mpi_entries_routed_witness :
    (∃ w0 w1 msgs, mpi_init mem_ok 0 2 grid_five (halpha (of_int 1)) = .next w0 ∧
      mpi_iteration mem_ok (deliver 3 grid_five_batch) (halpha (of_int 1)) 0 2 3 w0 =
        .next w1 ∧
      w1.sent = w0.sent ++ msgs ∧
      ∃ e, e.pos = ⟨3, 2⟩ ∧ some e ∉ entries w1.Q ∧
        ∃ batch, message.node 1 batch ∈ msgs ∧ e ∈ batch) ∧
    ∃ w b1 b2, mpi_reachable mem_ok (deliver 3 grid_five_batch) (halpha (of_int 1)) 0 2
        grid_five w ∧
      w.Q.n = 5 ∧ get2 w.G.mark ⟨2, 2⟩ = some M_USED ∧
      w.sent = [message.node 1 b1, message.node 1 b2] ∧
      hda ⟨2, 2⟩ 2 = 0 ∧ ((1 : Int) ≠ 0 ∧ ∀ n ∈ b2, hda n.pos 2 = 1) := by
  have hm : ∀ p, get2 grid_five.mark p ≠ some M_USED := fun p hp => by
    have hn : M_USED = M_NULL :=
      get2_forall grid_five.mark (fun _ v => v = M_NULL) (by decide) p _ hp
    revert hn
    decide
  have h0 : ∃ w0 w1 wd u Q1, mpi_init mem_ok 0 2 grid_five (halpha (of_int 1)) = .next w0 ∧
      mpi_iteration mem_ok (deliver 3 grid_five_batch) (halpha (of_int 1)) 0 2 3 w0 =
        .next w1 ∧
      drain mem_ok (deliver 3 grid_five_batch) (hda w0.G.end_ 2) 3 w0 = .next wd ∧
      heap_pop wd.Q = some (some u, Q1) ∧ u.pos = ⟨3, 3⟩ ∧
      get2 wd.G.mark ⟨3, 3⟩ = some M_FRONT ∧ get2 wd.G.mark ⟨3, 2⟩ = some M_NULL ∧
      get2 wd.G.value ⟨3, 2⟩ = some 0 :=
    ⟨_, _, _, _, _, rfl, rfl, rfl, rfl, by rfl, by rfl, by rfl, by rfl⟩
  have hr : ∃ w b1 b2, mpi_reachable mem_ok (deliver 3 grid_five_batch) (halpha (of_int 1)) 0 2
      grid_five w ∧ w.Q.n = 5 ∧ get2 w.G.mark ⟨2, 2⟩ = some M_USED ∧
      w.sent = [message.node 1 b1, message.node 1 b2] :=
    ⟨_, _, _, @mpi_reachable.step _ _ _ _ _ _ 3 _ _
      (@mpi_reachable.step _ _ _ _ _ _ 3 _ _ (mpi_reachable.init rfl) rfl) rfl, rfl, rfl, rfl⟩
  refine ⟨?_, ?_⟩
  · obtain ⟨w0, w1, wd, u, Q1, g1, g2, g3, g4, g5, g6, g7, g8⟩ := h0
    obtain ⟨msgs, k1, _, k3⟩ :=
      (mpi_entries_routed mem_ok (deliver 3 grid_five_batch) (halpha (of_int 1)) 0 2 grid_five
        rfl hm grid_five_batch_owned).2.2.2 w0 (mpi_reachable.init g1) 3 w1 wd u Q1 g2 g3 g4
        (by rw [g5, g6]; decide)
    obtain ⟨e, e1, e2⟩ := k3 (0, -1) (by decide) (by decide)
      (by rw [g5]; exact g7) ⟨0, by rw [g5]; exact g8, by decide⟩
    rw [g5] at e1
    have e3 : e.pos = ⟨3, 2⟩ := e1
    have hne : ¬ hda e.pos 2 = 0 := by rw [e3]; decide
    rw [if_neg hne] at e2
    have hh : hda e.pos 2 = 1 := by rw [e3]; decide
    rw [hh] at e2
    exact ⟨w0, w1, msgs, g1, g2, k1, e, e3, e2.1, e2.2.1⟩
  · obtain ⟨w, b1, b2, h1, h2, h3, h4⟩ := hr
    exact ⟨w, b1, b2, h1, h2, h3, h4,
      ((mpi_entries_routed mem_ok (deliver 3 grid_five_batch) (halpha (of_int 1)) 0 2 grid_five
        rfl hm grid_five_batch_owned).2.2.1 w h1).2.1 ⟨2, 2⟩ h3,
      ((mpi_entries_routed mem_ok (deliver 3 grid_five_batch) (halpha (of_int 1)) 0 2 grid_five
        rfl hm grid_five_batch_owned).2.2.1 w h1).2.2.2.1 1 b2 (by rw [h4]; simp)⟩

/-- C20: let worker `rank` start an iteration of the main loop in the state
`w`, having closed `k` entries so far.  Then `cur_win_i = k`, the slots
`0 .. k-1` of `window_buffer` are written and the slots from `k` on are not.
If the iteration hands over to a next one, then either the cell of the popped
entry `u` was closed already and `window_buffer` and `cur_win_i` are left as
they are, or `u`, the `(k+1)`-th entry closed, is written to slot `k`, a slot of
the buffer never written before, `cur_win_i` becomes `k + 1`, the slots below
`k` keep their contents, and every child created in the expansion (the new heap
entries and the records of the batches sent) carries `parent_rank = rank` and
`parent_win_i = k`. -/
theorem window_buffer_handles (mem : Nat → Bool) (env : environment) (h : heuristic)
    (rank W : Int) (G : grid) (hmem : mem (INIT_HEAP_CAPACITY + 1) = true) (k : Nat) (w : worker)
    (hw : mpi_closed mem env h rank W G k w) :
    w.cur_win_i = k ∧ w.window_buffer.length = G.X * G.Y ∧
      (∀ i, (i < k → ∃ e, w.window_buffer[i]? = some (some e)) ∧
        (k ≤ i → i < G.X * G.Y → w.window_buffer[i]? = some none)) ∧
      ∀ fuel w1, mpi_iteration mem env h rank W fuel w = .next w1 →
        ∃ u wd Q1, drain mem env (hda w.G.end_ W) fuel w = .next wd ∧
          heap_pop wd.Q = some (some u, Q1) ∧
          ((get2 wd.G.mark u.pos = some M_USED ∧ w1.window_buffer = w.window_buffer ∧
              w1.cur_win_i = k) ∨
            (get2 wd.G.mark u.pos ≠ some M_USED ∧ k < G.X * G.Y ∧
              w1.window_buffer = w.window_buffer.set k (some u) ∧ w1.cur_win_i = k + 1 ∧
              (∀ i, i < k → w1.window_buffer[i]? = w.window_buffer[i]?) ∧
              (∀ e, some e ∈ entries w1.Q → some e ∈ entries w.Q ∨ received env e ∨
                (e.parent_rank = rank ∧ e.parent_win_i = (k : Int))) ∧
              ∃ msgs, w1.sent = w.sent ++ msgs ∧
                ∀ m ∈ msgs, ∃ dst batch, m = message.node dst batch ∧
                  ∀ n ∈ batch, n.parent_rank = rank ∧ n.parent_win_i = (k : Int))) := by
  have hr := mpi_closed_reachable mem env h rank W G k w hw
  have hk := mpi_closed_count mem env h rank W G hmem k w hw
  obtain ⟨_, hwf, hf⟩ := mpi_reachable_wf mem env h rank W G hmem w hr
  obtain ⟨b1, _, b3⟩ := mpi_reachable_window mem env h rank W G hmem w hr
  rw [hk] at b3
  rw [b1] at b3
  refine ⟨hk, b1, b3, ?_⟩
  intro fuel w1 hx
  obtain ⟨_, _, _, u, wd, Q1, _, i5, i6, _, i8⟩ :=
    mpi_iteration_spec mem env h rank W fuel w w1 hwf hf hx
  refine ⟨u, wd, Q1, i5, i6, ?_⟩
  rcases i8 with ⟨s0, _, _, s3, s4, _⟩ | ⟨s0, s1, _, s3, s4, s5, msgs, s6, s7⟩
  · exact Or.inl ⟨s0, s3, by rw [s4, hk]⟩
  · rw [hk] at s1 s3 s4 s5 s7
    refine Or.inr ⟨s0, by rw [← b1]; exact s3, s4, s5, ?_, ?_, msgs, s6, ?_⟩
    · intro i hi
      rw [s4, List.getElem?_set_ne (by omega)]
    · intro e he
      rcases s1 e he with c | c | ⟨⟨_, _, _, _, _, _, _, c⟩, _⟩
      · exact Or.inl c
      · exact Or.inr (Or.inl c)
      · obtain ⟨_, c2, c3, _⟩ := CreateMpiNode_spec c
        exact Or.inr (Or.inr ⟨c2, c3⟩)
    · intro m hm
      obtain ⟨d, b, hmb, _, _, c⟩ := s7 m hm
      refine ⟨d, b, hmb, fun n hn => ?_⟩
      obtain ⟨⟨_, _, _, _, _, _, _, c1⟩, _⟩ := c n hn
      obtain ⟨_, c2, c3, _⟩ := CreateMpiNode_spec c1
      exact ⟨c2, c3⟩

/-- C20 at worker 0 of 2 on the 5 x 5 grid with FREE interior, nothing being
delivered, after its first iteration (one entry closed): `cur_win_i = 1`, slot
0 is written and slot 1 is not. -/
theorem window_buffer_handles_witness :
    ∃ w, mpi_closed mem_ok quiet (halpha (of_int 1)) 0 2 grid_five 1 w ∧
      w.cur_win_i = 1 ∧ (∃ e, w.window_buffer[0]? = some (some e)) ∧
      w.window_buffer[1]? = some none :=
  have hr : ∃ w, mpi_closed mem_ok quiet (halpha (of_int 1)) 0 2 grid_five 1 w :=
    ⟨_, @mpi_closed.close _ _ _ _ _ _ 3 0 _ _ _ _ _ (mpi_closed.init rfl) rfl rfl (by decide) rfl⟩
  match hr with
  | ⟨w, h1⟩ =>
    ⟨w, h1, (window_buffer_handles mem_ok quiet (halpha (of_int 1)) 0 2 grid_five rfl 1 w h1).1,
      ((window_buffer_handles mem_ok quiet (halpha (of_int 1)) 0 2 grid_five rfl 1 w
        h1).2.2.1 0).1 (by decide),
      ((window_buffer_handles mem_ok quiet (halpha (of_int 1)) 0 2 grid_five rfl 1 w
        h1).2.2.1 1).2 (by decide) (by decide)⟩

/-! ## Claims on the bounds of the heap -/

/-- C26: in every heap obtained from `heap_create(k, f)`, `k ≥ 1`, whatever
the comparator `f`, by calls of `heap_add` that return `false` and calls of
`heap_pop` that return: the array has `nmax + 1` slots, `n ≤ nmax`, and
`nmax = k * 2^j` for some `j`.  A further `heap_add` stays inside the array (it
returns without undefined behaviour); when it returns `false`, `n` has grown by
one, `n ≤ nmax` still holds, and `nmax` has doubled if the call found
`n = nmax` and is unchanged otherwise.  A further `heap_pop` that returns
leaves `nmax` as it is and `n` no larger, and with the comparator of the
program, `fcmp_nodescore`, it does return, staying inside the array. -/
theorem heap_bounds {α : Type} [scored α] (k : Nat) (hk : 1 ≤ k) (f : α → α → Int) (h : heap α)
    (hr : heap_reachable k f h) :
    (∃ a, h.array = some a ∧ a.length = h.nmax + 1) ∧ h.n ≤ h.nmax ∧
      (∃ j, h.nmax = k * 2 ^ j) ∧
      (∀ (e : α) (ok : Bool), ∃ r h1, heap_add h e ok = some (r, h1) ∧
        (r = false → h1.n = h.n + 1 ∧ h1.n ≤ h1.nmax ∧
          (∃ a1, h1.array = some a1 ∧ a1.length = h1.nmax + 1) ∧
          (h.n = h.nmax → h1.nmax = h.nmax * 2) ∧ (h.n ≠ h.nmax → h1.nmax = h.nmax))) ∧
      (∀ x h1, heap_pop h = some (x, h1) → h1.nmax = h.nmax ∧ h1.n ≤ h.n ∧
        ∃ a1, h1.array = some a1 ∧ a1.length = h1.nmax + 1) ∧
      (f = fcmp_nodescore → ∃ x h1, heap_pop h = some (x, h1)) := by
  obtain ⟨hwf, hf, hj⟩ := heap_reachable_wf k hk f h hr
  have hwf0 := hwf
  obtain ⟨a, ha, hlen, hn, _, _⟩ := hwf
  refine ⟨⟨a, ha, hlen⟩, hn, hj, ?_, ?_, ?_⟩
  · intro e ok
    rcases heap_add_spec (fun _ : α => (0 : Nat)) h hwf0 e ok with
      ⟨_, _, h1⟩ | ⟨_, h1, h2, _, h4, h5, _⟩
    · exact ⟨true, h, h1, fun hc => by cases hc⟩
    · refine ⟨false, h1, h2, fun _ => ?_⟩
      obtain ⟨a1, b1, b2, b3, _, _⟩ := h5
      have hm := heap_add_nmax h2
      refine ⟨h4, b3, ⟨a1, b1, b2⟩, fun hc => by rw [hm, if_pos hc],
        fun hc => by rw [hm, if_neg hc]⟩
  · intro x h1 hx
    obtain ⟨p1, _, p3, p4⟩ := heap_pop_wf hwf0 hx
    obtain ⟨a1, b1, b2, _⟩ := p1
    exact ⟨p3, p4, a1, b1, b2⟩
  · intro hfe
    obtain ⟨x, h1, p1, _⟩ := heap_pop_total h (by rw [hf, hfe]) hwf0
    exact ⟨x, h1, p1⟩

/-- C26 at the heap of capacity 4 after five additions and one pop: the
fifth addition found `n = nmax = 4` and doubled `nmax` to 8. -/
theorem heap_bounds_witness :
    ∃ h : heap mpi_node, heap_reachable 4 fcmp_nodescore h ∧ h.n = 4 ∧ h.nmax = 8 ∧
      (∃ a, h.array = some a ∧ a.length = h.nmax + 1) ∧ h.n ≤ h.nmax ∧
      (∃ j, h.nmax = 4 * 2 ^ j) := by
  have hr : ∃ h : heap mpi_node, heap_reachable 4 fcmp_nodescore h ∧ h.n = 4 ∧ h.nmax = 8 :=
    ⟨_, @heap_reachable.pop _ _ _ _ _ _
      (@heap_reachable.add _ _ _ _ _ (entry_of_score 1) true
        (@heap_reachable.add _ _ _ _ _ (entry_of_score 5) true
          (@heap_reachable.add _ _ _ _ _ (entry_of_score 2) true
            (@heap_reachable.add _ _ _ _ _ (entry_of_score 4) true
              (@heap_reachable.add _ _ _ _ _ (entry_of_score 3) true heap_reachable.create rfl)
              rfl) rfl) rfl) rfl) rfl, rfl, rfl⟩
  obtain ⟨h, h1, h2, h3⟩ := hr
  exact ⟨h, h1, h2, h3, (heap_bounds 4 (by decide) _ h h1).1,
    (heap_bounds 4 (by decide) _ h h1).2.1, (heap_bounds 4 (by decide) _ h h1).2.2.1⟩

/-! ## Claims on the sequential search -/

/-- C27: in every state in which `A_star_sequential` (first allocation
succeeding) evaluates the condition of its main loop, on a grid with a WALL
border ring and an interior start: there is a log of the cells of the entries
added to the heap so far, from the seed on; in every such log the cells are
pairwise different, each entry added was either popped or is still in the heap,
and at most `X * Y` entries were added, hence at most `X * Y` popped; the entry
popped next is on a cell marked `M_FRONT`, so never on one marked `M_USED`; and
from the state after `k` pops the main loop returns within `X * Y + 1 - k`
evaluations of its condition. -/
theorem A_star_sequential_pushes_once (mem : Nat → Bool) (G : grid) (h : heuristic)
    (hmem : mem (INIT_HEAP_CAPACITY + 1) = true) (hwf : grid_wf G) (hb : wall_border G)
    (hs : interior G G.start) (k : Nat) (s : node) (G1 : grid) (Q1 : heap node)
    (hr : seq_after mem h G k s G1 Q1) :
    (∃ log, seq_pushed mem h G k s G1 Q1 log) ∧
      (∀ log, seq_pushed mem h G k s G1 Q1 log →
        log.Nodup ∧ k + Q1.n = log.length ∧ log.length ≤ G.X * G.Y) ∧
      (∀ u Q2, heap_pop Q1 = some (some u, Q2) → get2 G1.mark u.pos = some M_FRONT) ∧
      ∃ r, A_star_loop mem h s (G.X * G.Y + 1 - k) G1 Q1 = .ret r := by
  obtain ⟨_, a2, a3, _, a5, _, _, _, m0, hm0, hle⟩ := seq_after_inv mem h G hmem k s G1 Q1 hr
  have hinv := seq_after_seq_inv mem h G hmem hwf hb hs k s G1 Q1 hr
  have hg0 := get2_set2 hm0
  have hlt : nulls m0 < G.X * G.Y :=
    nulls_lt (shape_set2 hwf.2.1 hm0) (by rw [hg0, if_pos rfl]) (by decide : M_FRONT ≠ M_NULL)
  refine ⟨seq_after_pushed mem h G hmem k s G1 Q1 hr, ?_, ?_, ?_⟩
  · intro log hlog
    obtain ⟨p1, _, p3⟩ := seq_pushed_inv mem h G hmem k s G1 Q1 log hlog
    exact ⟨p1, p3, by omega⟩
  · intro u Q2 hpop
    exact a5 u (popped_mem a2 a3 hpop)
  · exact loop_terminates G hwf hb mem h s _ G1 Q1 hinv (by omega)

/-- C27 at the 5 x 5 grid with FREE interior, for the state in which the main
loop is entered: the seed is the one entry added, and the loop returns within
26 evaluations of its condition. -/
theorem A_star_sequential_pushes_once_witness :
    ∃ s G1 Q1, seq_init mem_ok grid_five (halpha (of_int 1)) = .next (s, G1, Q1) ∧
      (∃ log, seq_pushed mem_ok (halpha (of_int 1)) grid_five 0 s G1 Q1 log) ∧
      (∀ log, seq_pushed mem_ok (halpha (of_int 1)) grid_five 0 s G1 Q1 log →
        log.Nodup ∧ 0 + Q1.n = log.length ∧ log.length ≤ grid_five.X * grid_five.Y) ∧
      (∀ u Q2, heap_pop Q1 = some (some u, Q2) → get2 G1.mark u.pos = some M_FRONT) ∧
      ∃ r, A_star_loop mem_ok (halpha (of_int 1)) s (grid_five.X * grid_five.Y + 1 - 0) G1 Q1 =
        .ret r := by
  have hi : ∃ s G1 Q1, seq_init mem_ok grid_five (halpha (of_int 1)) = .next (s, G1, Q1) :=
    ⟨_, _, _, rfl⟩
  obtain ⟨s, G1, Q1, hi⟩ := hi
  exact ⟨s, G1, Q1, hi, A_star_sequential_pushes_once mem_ok grid_five (halpha (of_int 1)) rfl
    grid_five_wf grid_five_border (by decide) 0 s G1 Q1 (seq_after.init hi)⟩

/-- C24: in `A_star_sequential` (first allocation succeeding) on a grid with a
WALL border ring and an interior start, every popped entry is on an interior
cell, each of the 9 cells `(u.x + dx, u.y + dy)` with `dx, dy` in -1..1 lies in
`[0, X) x [0, Y)`, where `mark` and `value` hold a cell, and the iteration
reads or writes no cell outside the arrays. -/
theorem A_star_sequential_reads_in_grid (mem : Nat → Bool) (G : grid) (h : heuristic)
    (hmem : mem (INIT_HEAP_CAPACITY + 1) = true) (hwf : grid_wf G) (hb : wall_border G)
    (hs : interior G G.start) (k : Nat) (s : node) (G1 : grid) (Q1 : heap node)
    (hr : seq_after mem h G k s G1 Q1) :
    seq_iteration mem h s G1 Q1 ≠ .ub ∧
      ∀ u Q2, heap_pop Q1 = some (some u, Q2) →
        interior G u.pos ∧
          ∀ dx dy : Int, -1 ≤ dx → dx ≤ 1 → -1 ≤ dy → dy ≤ 1 →
            in_grid G ⟨u.pos.x + dx, u.pos.y + dy⟩ ∧
              (∃ mk, get2 G1.mark ⟨u.pos.x + dx, u.pos.y + dy⟩ = some mk) ∧
              ∃ v, get2 G1.value ⟨u.pos.x + dx, u.pos.y + dy⟩ = some v := by
  have hinv := seq_after_seq_inv mem h G hmem hwf hb hs k s G1 Q1 hr
  refine ⟨seq_iteration_defined mem h G hwf hb s G1 Q1 hinv, ?_⟩
  intro u Q2 hpop
  have hint : interior G u.pos := (hinv.entries_ok u (popped_mem hinv.heap hinv.cmp hpop)).1
  refine ⟨hint, ?_⟩
  intro dx dy h1 h2 h3 h4
  have hin : in_grid G ⟨u.pos.x + dx, u.pos.y + dy⟩ := by
    obtain ⟨i1, i2, i3, i4⟩ := hint
    refine ⟨?_, ?_, ?_, ?_⟩ <;> simp only <;> omega
  refine ⟨hin, get2_of_in_range hinv.mark_shape hin, ?_⟩
  rw [hinv.value_eq]
  exact get2_of_in_range hwf.1 hin

/-- C24 at the 5 x 5 grid with FREE interior, for the state in which the main
loop is entered. -/
theorem A_star_sequential_reads_in_grid_witness :
    ∃ s G1 Q1, seq_init mem_ok grid_five (halpha (of_int 1)) = .next (s, G1, Q1) ∧
      seq_iteration mem_ok (halpha (of_int 1)) s G1 Q1 ≠ .ub ∧
      ∀ u Q2, heap_pop Q1 = some (some u, Q2) →
        interior grid_five u.pos ∧
          ∀ dx dy : Int, -1 ≤ dx → dx ≤ 1 → -1 ≤ dy → dy ≤ 1 →
            in_grid grid_five ⟨u.pos.x + dx, u.pos.y + dy⟩ ∧
              (∃ mk, get2 G1.mark ⟨u.pos.x + dx, u.pos.y + dy⟩ = some mk) ∧
              ∃ v, get2 G1.value ⟨u.pos.x + dx, u.pos.y + dy⟩ = some v := by
  have hi : ∃ s G1 Q1, seq_init mem_ok grid_five (halpha (of_int 1)) = .next (s, G1, Q1) :=
    ⟨_, _, _, rfl⟩
  obtain ⟨s, G1, Q1, hi⟩ := hi
  exact ⟨s, G1, Q1, hi, A_star_sequential_reads_in_grid mem_ok grid_five (halpha (of_int 1)) rfl
    grid_five_wf grid_five_border (by decide) 0 s G1 Q1 (seq_after.init hi)⟩

/-- C25: when `A_star_sequential` (first allocation succeeding) returns a
cost `c` that is not negative on a grid with a WALL border ring and an interior
start, the entry `u` popped last is on the end cell, and its parent links lead
to the start entry `s` through a chain in which each cell is one of the 8
neighbours of the cell of its parent and is interior and not WALL
(`chain_ok`); the start is not among the cells of the chain below `s`; `c` is
the sum, from the start outwards, of `weight[value]` over those cells; the
returned marks are `M_PATH` on those cells and as they were at the pop
elsewhere, so that, no cell being `M_PATH` at the call, exactly those cells are
`M_PATH`. -/
theorem A_star_sequential_path_marked (mem : Nat → Bool) (G : grid) (h : heuristic)
    (hmem : mem (INIT_HEAP_CAPACITY + 1) = true) (hwf : grid_wf G) (hb : wall_border G)
    (hs : interior G G.start) (fuel : Nat) (c : double) (m : List (List Int))
    (hret : A_star_sequential mem G h fuel = .ret (c, m)) (hc : dlt c (of_int 0) = false) :
    ∃ k s G1 Q1 u Q2, seq_after mem h G k s G1 Q1 ∧ heap_pop Q1 = some (some u, Q2) ∧
      u.pos = G.end_ ∧ s.pos = G.start ∧ chain_ok G s u ∧ G.start ∉ chain_cells u ∧
      chain_cost G u = some c ∧
      (∀ p, get2 m p = if p ∈ chain_cells u then some M_PATH else get2 G1.mark p) ∧
      ((∀ p, get2 G.mark p ≠ some M_PATH) →
        ∀ p, get2 m p = some M_PATH ↔ p ∈ chain_cells u) := by
  have hneg : ¬ c = of_int (-1) := by
    intro e
    rw [e] at hc
    revert hc
    decide
  unfold A_star_sequential at hret
  cases hi : seq_init mem G h with
  | ub => simp [hi] at hret
  | ret r =>
    simp only [hi] at hret
    unfold seq_init at hi
    simp only at hi
    exfalso
    apply hneg
    split at hi
    · cases hi
    · split at hi
      · cases hi
        cases hret
        rfl
      · split at hi
        · cases hi
        · cases hi
          cases hret
          rfl
        · split at hi <;> cases hi
  | next st =>
    obtain ⟨s, G0, Q0⟩ := st
    simp only [hi] at hret
    obtain ⟨k, G1, Q1, hr, hit⟩ := loop_ret mem h G s (c, m) fuel 0 G0 Q0 (seq_after.init hi) hret
    rcases seq_iteration_ret mem h s G1 Q1 c m hit with e | ⟨u, Q2, hpop, hx, hy, hcu, hmp⟩
    · exact absurd e hneg
    · obtain ⟨a1, _, _, _, _, _, a7, _⟩ := seq_after_inv mem h G hmem k s G1 Q1 hr
      have hinv := seq_after_seq_inv mem h G hmem hwf hb hs k s G1 Q1 hr
      obtain ⟨hsd, hch⟩ := seq_after_chain mem h G hmem k s G1 Q1 hr
      have hmem_u := popped_mem hinv.heap hinv.cmp hpop
      have hgood := hinv.entries_ok u hmem_u
      have hmarks := mark_path_spec s (by rw [hsd]; intro p c sc q e; cases e) u G1.mark m hmp
      have hpos : u.pos = G.end_ := by
        rw [← hinv.end_eq]
        cases hu : u.pos
        cases he : G1.end_
        rw [hu, he] at hx hy
        simp only at hx hy
        rw [hx, hy]
      refine ⟨k, s, G1, Q1, u, Q2, hr, hpop, hpos, by rw [hsd]; rfl, hgood.2.2, hch u hmem_u, ?_,
        hmarks, ?_⟩
      · rw [chain_cost_eq G s _ _ hsd u hgood.2.2, hcu]
      · intro hnp p
        rw [hmarks p]
        by_cases hp : p ∈ chain_cells u
        · simp [hp]
        · simp only [hp, if_false, iff_false]
          rcases a7 p with e | e | e
          · rw [e]; exact hnp p
          · rw [e]; decide
          · rw [e]; decide

/-- C25 at the 5 x 5 grid with FREE interior, where the search returns 2. -/
theorem A_star_sequential_path_marked_witness :
    A_star_sequential mem_ok grid_five (halpha (of_int 1)) 25 =
        .ret (⟨2, 0⟩, [[7, 7, 7, 7, 7], [7, 10, 9, 9, 7], [7, 9, 10, 9, 7], [7, 9, 9, 8, 7],
          [7, 7, 7, 7, 7]]) ∧
      dlt ⟨2, 0⟩ (of_int 0) = false ∧
      ∃ k s G1 Q1 u Q2, seq_after mem_ok (halpha (of_int 1)) grid_five k s G1 Q1 ∧
        heap_pop Q1 = some (some u, Q2) ∧
        u.pos = grid_five.end_ ∧ s.pos = grid_five.start ∧ chain_ok grid_five s u ∧
        grid_five.start ∉ chain_cells u ∧ chain_cost grid_five u = some ⟨2, 0⟩ ∧
        (∀ p, get2 [[7, 7, 7, 7, 7], [7, 10, 9, 9, 7], [7, 9, 10, 9, 7], [7, 9, 9, 8, 7],
            [7, 7, 7, 7, 7]] p =
          if p ∈ chain_cells u then some M_PATH else get2 G1.mark p) ∧
        ((∀ p, get2 grid_five.mark p ≠ some M_PATH) →
          ∀ p, get2 [[7, 7, 7, 7, 7], [7, 10, 9, 9, 7], [7, 9, 10, 9, 7], [7, 9, 9, 8, 7],
            [7, 7, 7, 7, 7]] p = some M_PATH ↔ p ∈ chain_cells u) :=
  ⟨rfl, by decide, A_star_sequential_path_marked mem_ok grid_five (halpha (of_int 1)) rfl
    grid_five_wf grid_five_border (by decide) 25 ⟨2, 0⟩ _ rfl (by decide)⟩

/-- C21 fails at the 5 x 5 grid whose start (3,3) is WALL and whose end (1,1)
is FREE: the prologue of `A_star_sequential`, and that of `A_star_mpi` on the
worker 0 of 2 that owns the start, leave in the heap the seed, an entry on the
WALL cell (3,3). -/
theorem seed_on_wall :
    open_cell grid_wall_start grid_wall_start.end_ ∧
      (∃ s G1 Q1, seq_init mem_ok grid_wall_start (halpha (of_int 1)) = .next (s, G1, Q1) ∧
        entries Q1 = [some s] ∧ get2 grid_wall_start.value s.pos = some V_WALL) ∧
      ∃ w e, mpi_init mem_ok 0 2 grid_wall_start (halpha (of_int 1)) = .next w ∧
        entries w.Q = [some e] ∧ get2 grid_wall_start.value e.pos = some V_WALL :=
  ⟨⟨0, by decide, by decide⟩, ⟨_, _, _, rfl, rfl, rfl⟩, ⟨_, _, rfl, rfl, rfl⟩⟩

/-- C21 as amended: on a grid whose start is not WALL (first allocation
succeeding), every entry in the heap of `A_star_sequential`, whenever the
condition of its main loop is evaluated, is on a cell that is not WALL; and for
a worker of `A_star_mpi` that receives only records on cells that are not WALL,
every entry of its heap, at the start of every iteration, and every record it
has sent is on a cell that is not WALL. -/
theorem entries_not_wall (mem : Nat → Bool) (G : grid) (h : heuristic)
    (hmem : mem (INIT_HEAP_CAPACITY + 1) = true) (hso : open_cell G G.start) :
    (∀ k s G1 Q1, seq_after mem h G k s G1 Q1 →
        ∀ n, some n ∈ entries Q1 → open_cell G n.pos) ∧
      ∀ (env : environment) (rank W : Int), (∀ e, received env e → open_cell G e.pos) →
        ∀ w, mpi_reachable mem env h rank W G w →
          (∀ e, some e ∈ entries w.Q → open_cell G e.pos) ∧
            ∀ dst batch, message.node dst batch ∈ w.sent → ∀ n ∈ batch, open_cell G n.pos := by
  refine ⟨?_, ?_⟩
  · intro k s G1 Q1 hr n hn
    obtain ⟨_, _, _, _, _, a6, _⟩ := seq_after_inv mem h G hmem k s G1 Q1 hr
    obtain ⟨hsd, _⟩ := seq_after_chain mem h G hmem k s G1 Q1 hr
    rcases a6 n hn with e | e
    · rw [e, hsd]
      exact hso
    · exact e
  · intro env rank W henv w hw
    exact mpi_reachable_open mem env h rank W G hmem hso henv w hw

/-- C21 as amended, at the 5 x 5 grid with FREE interior: the state in which
`A_star_sequential` enters its main loop, and worker 0 of 2 after it received
the batch that worker 1 sends on closing (3,2). -/
theorem entries_not_wall_witness :
    open_cell grid_five grid_five.start ∧
      (∃ s G1 Q1, seq_init mem_ok grid_five (halpha (of_int 1)) = .next (s, G1, Q1) ∧
        ∀ n, some n ∈ entries Q1 → open_cell grid_five n.pos) ∧
      ∀ w, mpi_reachable mem_ok (deliver 3 grid_five_batch) (halpha (of_int 1)) 0 2 grid_five w →
        (∀ e, some e ∈ entries w.Q → open_cell grid_five e.pos) ∧
          ∀ dst batch, message.node dst batch ∈ w.sent →
            ∀ n ∈ batch, open_cell grid_five n.pos := by
  have hso : open_cell grid_five grid_five.start := ⟨0, by decide, by decide⟩
  have hi : ∃ s G1 Q1, seq_init mem_ok grid_five (halpha (of_int 1)) = .next (s, G1, Q1) :=
    ⟨_, _, _, rfl⟩
  obtain ⟨s, G1, Q1, hi⟩ := hi
  have key := entries_not_wall mem_ok grid_five (halpha (of_int 1)) rfl hso
  refine ⟨hso, ⟨s, G1, Q1, hi, key.1 0 s G1 Q1 (seq_after.init hi)⟩, ?_⟩
  intro w hw
  refine key.2 (deliver 3 grid_five_batch) 0 2 ?_ w hw
  intro e he
  obtain ⟨c, hc⟩ : reach grid_five e.pos := ⟨_, grid_five_batch_paths e he⟩
  exact path_to_open hso hc

/-! ## Claims on the buffers of the MPI search -/

/-- C22: an expansion round of `A_star_mpi` with `W ≥ 1` workers (the grid
being well formed with `X + Y` fitting an `int`, the heap well formed), that
is the neighbour loops run from empty `node_storage` rows for a popped entry
`u` on an interior cell just marked `M_USED`, either ends in `MPI_Abort` (a
failed `realloc`) or completes without a write outside `node_storage` or `req`:
the rows hold at most 8 records in all, so each row holds at most 8, at most 8
rows are not empty, and the flush issues at most 8 sends. -/
theorem node_storage_bounded (mem : Nat → Bool) (h : heuristic) (rank W : Int) (u : mpi_node)
    (w : worker) (hW : 1 ≤ W) (hwf : grid_wf w.G) (hsize : w.G.X + w.G.Y ≤ INT_MAX)
    (hu : interior w.G u.pos) (hq : heap_wf w.Q) (hused : get2 w.G.mark u.pos = some M_USED) :
    expand_mpi mem h rank W u neighbours w (List.replicate W.toNat []) = .abort ∨
      ∃ w1 st1 msgs,
        expand_mpi mem h rank W u neighbours w (List.replicate W.toNat []) = .next (w1, st1) ∧
        flush st1 = some msgs ∧ st1.length = W.toNat ∧
        (st1.map List.length).sum ≤ MAX_NEIGHBORS ∧ (∀ b ∈ st1, b.length ≤ MAX_NEIGHBORS) ∧
        (st1.filter (fun b => decide (0 < b.length))).length ≤ MAX_NEIGHBORS ∧
        msgs.length ≤ MAX_NEIGHBORS := by
  have hsum0 : ((List.replicate W.toNat ([] : List mpi_node)).map List.length).sum = 0 := by
    generalize W.toNat = k
    induction k with
    | zero => rfl
    | succ k ih => simp [List.replicate_succ]
  rcases expand_mpi_total mem h rank W u w.G.X w.G.Y hW hsize hu neighbours w
      (List.replicate W.toNat []) neighbours_range hq hwf.1 hwf.2.1 hwf.2.2 hused
      (List.length_replicate _ _) (by rw [hsum0]; decide) with k | ⟨w1, st1, k1, k2, k3⟩
  · exact Or.inl k
  · right
    have hmsg := nonempty_le_sum st1 0
    have hfl : flush st1 = some ((st1.enum.filter (fun b => decide (0 < b.2.length))).map
        (fun b => message.node (b.1 : Int) b.2)) := by
      unfold flush
      simp only
      rw [if_pos]
      rw [List.length_map]
      exact le_trans hmsg k3
    have hrow : ∀ b ∈ st1, b.length ≤ (st1.map List.length).sum := by
      intro b hb
      obtain ⟨i, hi⟩ := List.mem_iff_getElem?.1 hb
      exact le_sum_of_getElem? _ i _ (by simp [hi])
    have hcnt : ∀ st : List (List mpi_node),
        (st.filter (fun b => decide (0 < b.length))).length ≤ (st.map List.length).sum := by
      intro st
      induction st with
      | nil => simp
      | cons b st ih =>
        simp only [List.map_cons, List.sum_cons]
        by_cases hb : 0 < b.length
        · rw [List.filter_cons_of_pos (p := fun b : List mpi_node => decide (0 < b.length)) (decide_eq_true hb),
            List.length_cons]
          omega
        · rw [List.filter_cons_of_neg (p := fun b : List mpi_node => decide (0 < b.length))
            (fun e => hb (of_decide_eq_true e))]
          omega
    refine ⟨w1, st1, _, k1, hfl, by rw [k2, List.length_replicate], k3,
      fun b hb => le_trans (hrow b hb) k3, le_trans (hcnt st1) k3, ?_⟩
    rw [List.length_map]
    exact le_trans hmsg k3

/-- C22 for worker 1 of 2 on the 5 x 5 grid with FREE interior, expanding the
start (3,3), whose FREE neighbours are (2,2), owned by worker 0, and (3,2) and
(2,3), owned by worker 1. -/
theorem node_storage_bounded_witness :
    expand_mpi mem_ok (halpha (of_int 1)) 1 2 ⟨⟨3, 3⟩, of_int 0, of_int 0, -1, -1⟩ neighbours
        worker_five (List.replicate (2 : Int).toNat []) = .abort ∨
      ∃ w1 st1 msgs,
        expand_mpi mem_ok (halpha (of_int 1)) 1 2 ⟨⟨3, 3⟩, of_int 0, of_int 0, -1, -1⟩ neighbours
          worker_five (List.replicate (2 : Int).toNat []) = .next (w1, st1) ∧
        flush st1 = some msgs ∧ st1.length = (2 : Int).toNat ∧
        (st1.map List.length).sum ≤ MAX_NEIGHBORS ∧ (∀ b ∈ st1, b.length ≤ MAX_NEIGHBORS) ∧
        (st1.filter (fun b => decide (0 < b.length))).length ≤ MAX_NEIGHBORS ∧
        msgs.length ≤ MAX_NEIGHBORS :=
  node_storage_bounded mem_ok (halpha (of_int 1)) 1 2 ⟨⟨3, 3⟩, of_int 0, of_int 0, -1, -1⟩
    worker_five (by decide)
    ⟨by unfold shape; decide, by unfold shape; decide, by apply get2_forall; decide⟩
    (by decide) (by decide) (heap_create_wf _ (by decide) _) rfl

/-! ## Claims on the construction of the grid -/

/-- C23 fails for a requested size below 3: `initGridPoints(x, y, type,
density)` (every `malloc` succeeding, whatever `RAND01` yields) returns a grid
with `X = max x 3`, `Y = max y 3`, every mark `M_NULL`, start `(X-2, Y-2)` and
end (1,1), in which exactly the cells `(i, j)` with `i < x` and `j < y` have
been written: WALL on the border ring, `type` (or `M_NULL` for a negative
`type`) or FREE elsewhere.  The other cells are as `malloc` left them, so for
`x < 3` the row `X - 1 = 2` of the border ring is not WALL but unwritten; for
`x = 2`, `y = 3` the grid returned is spelled out. -/
theorem initGridPoints_cells (x y type : Int) (density : double) (rand : Nat → double) :
    (∃ G, initGridPoints x y type density rand = some G ∧
      G.X = max x 3 ∧ G.Y = max y 3 ∧
      G.mark = List.replicate G.X.toNat (List.replicate G.Y.toNat M_NULL) ∧
      G.start = ⟨G.X - 2, G.Y - 2⟩ ∧ G.end_ = ⟨1, 1⟩ ∧
      (∀ i j : Nat, (i : Int) < G.X → (j : Int) < G.Y →
        ((i : Int) < x ∧ (j : Int) < y → onBorder G i j = true →
          cell G.value i j = some (some V_WALL)) ∧
        ((i : Int) < x ∧ (j : Int) < y → onBorder G i j = false →
          cell G.value i j = some (some (if type < 0 then M_NULL else type)) ∨
            cell G.value i j = some (some V_FREE)) ∧
        (¬ ((i : Int) < x ∧ (j : Int) < y) → cell G.value i j = some none)) ∧
      (x < 3 → onBorder G 2 0 = true ∧ cell G.value 2 0 = some none)) ∧
    ∃ v, initGridPoints 2 3 type density rand =
      some { X := 3, Y := 3,
             value := [[some V_WALL, some V_WALL, some V_WALL],
                       [some V_WALL, some v, some V_WALL], [none, none, none]],
             mark := [[M_NULL, M_NULL, M_NULL], [M_NULL, M_NULL, M_NULL],
                      [M_NULL, M_NULL, M_NULL]],
             start := ⟨1, 1⟩, end_ := ⟨1, 1⟩ } := by
  refine ⟨?_, ?_⟩
  · have hX : (allocGrid x y).X = max x 3 := by
      simp only [allocGrid]
      split <;> omega
    have hY : (allocGrid x y).Y = max y 3 := by
      simp only [allocGrid]
      split <;> omega
    have hval : (allocGrid x y).value =
        List.replicate (max x 3).toNat (List.replicate (max y 3).toNat none) := by
      rw [← hX, ← hY]
      rfl
    have hmark : (allocGrid x y).mark =
        List.replicate (max x 3).toNat (List.replicate (max y 3).toNat M_NULL) := by
      rw [← hX, ← hY]
      rfl
    have hmem : ∀ i j : Nat, (i, j) ∈ (List.range x.toNat).flatMap
        (fun i => (List.range y.toNat).map (fun j => (i, j))) ↔
        ((i : Int) < x ∧ (j : Int) < y) := by
      intro i j
      simp only [List.mem_flatMap, List.mem_range, List.mem_map, Prod.mk.injEq]
      constructor
      · rintro ⟨a, ha, b, hb, rfl, rfl⟩
        omega
      · intro h
        exact ⟨i, by omega, j, by omega, rfl, rfl⟩
    obtain ⟨v1, hf, hspec⟩ := fill_cells_spec (allocGrid x y) (if type < 0 then M_NULL else type)
      density rand (max x 3).toNat (max y 3).toNat
      ((List.range x.toNat).flatMap (fun i => (List.range y.toNat).map (fun j => (i, j))))
      (allocGrid x y).value 0
      (by
        intro c hc
        obtain ⟨ci, cj⟩ := c
        have := (hmem ci cj).1 hc
        simp only
        omega)
      (by rw [hval, List.length_replicate])
      (by
        intro row hr
        rw [hval] at hr
        rw [List.eq_of_mem_replicate hr, List.length_replicate])
    have hcell0 : ∀ i j : Nat, (i : Int) < max x 3 → (j : Int) < max y 3 →
        cell (allocGrid x y).value i j = some none := by
      intro i j hi hj
      rw [hval]
      unfold cell
      rw [List.getElem?_replicate, if_pos (by omega)]
      simp only [Option.some_bind]
      rw [List.getElem?_replicate, if_pos (by omega)]
    refine ⟨{ (allocGrid x y) with
                value := v1
                start := ⟨(allocGrid x y).X - 2, (allocGrid x y).Y - 2⟩
                end_ := ⟨1, 1⟩ }, ?_, hX, hY, ?_, rfl, rfl, ?_, ?_⟩
    · simp only [initGridPoints, hf]
    · simp only [hmark, hX, hY]
    · intro i j hi hj
      simp only [hX, hY] at hi hj
      obtain ⟨s1, s2, s3⟩ := hspec i j
      refine ⟨fun h hb => s2 ((hmem i j).2 h) hb, fun h hb => s3 ((hmem i j).2 h) hb, ?_⟩
      intro h
      simp only
      rw [s1 (fun hm => h ((hmem i j).1 hm))]
      exact hcell0 i j hi hj
    · intro hx
      refine ⟨by simp [onBorder], ?_⟩
      simp only
      obtain ⟨s1, _, _⟩ := hspec 2 0
      rw [s1 (fun hm => by have := (hmem 2 0).1 hm; omega)]
      exact hcell0 2 0 (by omega) (by omega)
  · refine ⟨if dlt density (rand 0) then V_FREE else (if type < 0 then M_NULL else type), ?_⟩
    rfl

/-! ## Claims on the search with one worker -/

theorem grid_tunnel_border : wall_border grid_tunnel := by
  intro p hin hbd
  obtain ⟨v, hv⟩ := get2_of_in_range (by unfold shape; decide : shape grid_tunnel.value 7 5) hin
  have key := get2_forall grid_tunnel.value
    (fun p v => (p.x = 0 ∨ p.y = 0 ∨ p.x = ((grid_tunnel.X : Nat) : Int) - 1 ∨
      p.y = ((grid_tunnel.Y : Nat) : Int) - 1) → v = V_WALL) (by decide) p v hv hbd
  rw [hv, key]

/-- The chain (5,3), (4,2), (3,3), (2,2), (1,1) costs 0.1 + 0.1 + 1 + 0.1,
which is 1.3 in binary64. -/
theorem grid_tunnel_path :
    path_to grid_tunnel grid_tunnel.end_ ⟨5854679515581645, -52⟩ := by
  have p0 : path_to grid_tunnel ⟨5, 3⟩ (of_int 0) := path_to.start
  have p1 := path_to.step (q := ⟨4, 2⟩) (v := 6) (w := of_ratio 1 10) p0 (by decide) (by decide)
    (by decide) (by decide)
  have p2 := path_to.step (q := ⟨3, 3⟩) (v := 6) (w := of_ratio 1 10) p1 (by decide) (by decide)
    (by decide) (by decide)
  have p3 := path_to.step (q := ⟨2, 2⟩) (v := 0) (w := of_int 1) p2 (by decide) (by decide)
    (by decide) (by decide)
  have p4 := path_to.step (q := ⟨1, 1⟩) (v := 6) (w := of_ratio 1 10) p3 (by decide) (by decide)
    (by decide) (by decide)
  have e : dadd (dadd (dadd (dadd (of_int 0) (of_ratio 1 10)) (of_ratio 1 10)) (of_int 1))
      (of_ratio 1 10) = ⟨5854679515581645, -52⟩ := by decide
  rw [e] at p4
  exact p4

set_option maxRecDepth 1000000 in
/-- The binary64 sum of a chain depends on the order of its additions.  On a
7 x 5 grid with WALL border, start (5,3) and end (1,1), with alpha = 0,
`A_star_sequential` returns 5854679515581646 * 2^-52 (1.3000000000000003), the
sum 0.1 + 1 + 0.1 + 0.1 along the chain (4,2), (3,1), (2,1), (1,1) it finds,
while the chain (4,2), (3,3), (2,2), (1,1), which enters the same weights in
the order 0.1 + 0.1 + 1 + 0.1, sums to 5854679515581645 * 2^-52 (1.3), one unit
in the last place less.  Both chains have the weight 13 tenths. -/
theorem A_star_sequential_sum_order :
    wall_border grid_tunnel ∧ interior grid_tunnel grid_tunnel.start ∧
      open_cell grid_tunnel grid_tunnel.start ∧
      A_star_sequential mem_ok grid_tunnel (halpha (of_int 0)) 35 =
        .ret (⟨5854679515581646, -52⟩, [[7, 7, 7, 7, 7], [7, 10, 9, 9, 7], [7, 10, 8, 9, 7],
          [7, 10, 7, 8, 7], [7, 8, 10, 8, 7], [7, 9, 9, 8, 7], [7, 7, 7, 7, 7]]) ∧
      path_to grid_tunnel grid_tunnel.end_ ⟨5854679515581645, -52⟩ ∧
      dlt ⟨5854679515581645, -52⟩ ⟨5854679515581646, -52⟩ = true :=
  ⟨grid_tunnel_border, by decide, ⟨6, by decide, by decide⟩, by decide, grid_tunnel_path,
    by decide⟩

end AStar
